import Mathlib

/-!
# newserv compression codecs: PRS and BC0

A shallow embedding of `src/Compression.cc` and theorems about it.

Conventions of the embedding:

* a byte buffer (`std::string`, `const void* data, size_t size`) is a `List UInt8`;
* a `StringReader` is the list of bytes not yet read; `get_u8` at the end of
  the input throws (phosg raises `out_of_range`), which is the error
  `endOfInput`;
* a `StringWriter` is the list of bytes written so far (`put_u8` appends);
* `uint16_t` values are natural numbers below `2 ^ 16`; `size_t` and `ssize_t`
  values are 64-bit patterns: a negative `ssize_t` value `-d` is the natural
  number `2 ^ 64 - d`, and a sum that is stored in a `size_t` is reduced
  modulo `2 ^ 64`;
* a C++ exception is an `Except` error; loops become structural recursion on a
  counter, and a loop that could in principle outlive its counter reports
  `outOfFuel`, which is then proved unreachable.
-/

namespace Newserv

deriving instance DecidableEq for Except

/-- Two to the 64: the modulus of `size_t` arithmetic. -/
def SIZE_MOD : Nat := 2 ^ 64

/-- Signed reading of a 64-bit pattern (an `ssize_t` value). -/
def toSSize (x : Nat) : Int := if x < 2 ^ 63 then (x : Int) else (x : Int) - 2 ^ 64

/-- Errors raised by the decompressors. -/
inductive DecompressError where
  /-- `StringReader::get_u8` was called with no bytes left. -/
  | endOfInput
  /-- `runtime_error("maximum output size exceeded")`. -/
  | maxOutputSize
  /-- `runtime_error("backreference offset beyond beginning of output")`. -/
  | backrefBeyondBeginning
  /-- The loop counter of the embedding ran out (proved unreachable). -/
  | outOfFuel
  deriving DecidableEq, Repr

/-- `StringReader::get_u8`: the next byte and the rest of the input. -/
def get_u8 (r : List UInt8) : Except DecompressError (UInt8 × List UInt8) :=
  match r with
  | [] => .error .endOfInput
  | b :: rest => .ok (b, rest)

/-- `ControlStreamReader`: the underlying reader `r` and the buffered `bits`. -/
structure ControlStreamReader where
  r : List UInt8
  bits : Nat
  deriving DecidableEq, Repr

/-- `ControlStreamReader::read`: refill from the input when bit 8 of `bits` is
clear, then return bit 0 and shift. -/
def ControlStreamReader.read (cr : ControlStreamReader) :
    Except DecompressError (Bool × ControlStreamReader) :=
  if cr.bits &&& 0x0100 = 0 then
    match get_u8 cr.r with
    | .error e => .error e
    | .ok (b, rest) =>
      let bits := 0xFF00 ||| b.toNat
      .ok (decide (bits &&& 1 ≠ 0), { r := rest, bits := bits >>> 1 })
  else
    .ok (decide (cr.bits &&& 1 ≠ 0), { r := cr.r, bits := cr.bits >>> 1 })

/-- The bit pattern of `~0x1FFF` as an `ssize_t`. -/
def NOT_1FFF : Nat := 2 ^ 64 - 0x2000

/-- The bit pattern of `~0xFF` as an `ssize_t`. -/
def NOT_FF : Nat := 2 ^ 64 - 0x100

/-- The backreference part of an opcode, entered after a control bit 0 was
read (lines 315-342 of `prs_decompress`, repeated verbatim in
`prs_decompress_size` and `prs_disassemble`). Returns `none` for the stop
opcode, else `(offset, count)` with `offset` a 64-bit pattern. -/
def prs_read_backreference (cr : ControlStreamReader) :
    Except DecompressError (Option (Nat × Nat) × ControlStreamReader) :=
  match cr.read with
  | .error e => .error e
  | .ok (true, cr1) =>
    -- Control 01 = long backreference
    match get_u8 cr1.r with
    | .error e => .error e
    | .ok (lo, r2) =>
      match get_u8 r2 with
      | .error e => .error e
      | .ok (hi, r3) =>
        let a := lo.toNat ||| (hi.toNat <<< 8)
        let offset := (a >>> 3) ||| NOT_1FFF
        if offset = NOT_1FFF then
          .ok (none, { r := r3, bits := cr1.bits })
        else if a &&& 7 ≠ 0 then
          .ok (some (offset, (a &&& 7) + 2), { r := r3, bits := cr1.bits })
        else
          match get_u8 r3 with
          | .error e => .error e
          | .ok (n, r4) => .ok (some (offset, n.toNat + 1), { r := r4, bits := cr1.bits })
  | .ok (false, cr1) =>
    -- Control 00 = short backreference
    match cr1.read with
    | .error e => .error e
    | .ok (b1, cr2) =>
      match cr2.read with
      | .error e => .error e
      | .ok (b0, cr3) =>
        let count := (((if b1 then 1 else 0) <<< 1) ||| (if b0 then 1 else 0)) + 2
        match get_u8 cr3.r with
        | .error e => .error e
        | .ok (v, r4) => .ok (some (v.toNat ||| NOT_FF, count), { r := r4, bits := cr3.bits })

/-- The copy loop of `prs_decompress` (lines 351-356): `n` bytes remain to be
copied and `z` is the loop variable. -/
def prs_copy (max_output_size read_offset : Nat) :
    Nat → Nat → List UInt8 → Except DecompressError (List UInt8)
  | 0, _, w => .ok w
  | n + 1, z, w =>
    if max_output_size ≠ 0 ∧ w.length = max_output_size then
      .error .maxOutputSize
    else
      prs_copy max_output_size read_offset n (z + 1) (w ++ [w.getD (read_offset + z) 0])

/-- Lines 344-356 of `prs_decompress`: range check, then the copy loop. -/
def prs_copy_backreference (max_output_size : Nat) (w : List UInt8) (offset count : Nat) :
    Except DecompressError (List UInt8) :=
  let read_offset := (w.length + offset) % SIZE_MOD
  if read_offset ≥ w.length then
    .error .backrefBeyondBeginning
  else
    prs_copy max_output_size read_offset count 0 w

/-- How one iteration of the loop of `prs_decompress` ends: it goes round
again, or leaves through the `break` of the stop opcode. Both carry the reader
and the output at that point. -/
inductive PRSStep where
  | next (cr : ControlStreamReader) (w : List UInt8)
  | stop (cr : ControlStreamReader) (w : List UInt8)
  deriving DecidableEq, Repr

/-- The reader at the end of an iteration. -/
def PRSStep.cr : PRSStep → ControlStreamReader
  | .next cr _ => cr
  | .stop cr _ => cr

/-- The body of the loop of `prs_decompress` (lines 307-357), entered with
`!r.eof()`. -/
def prs_decompress_step (max_output_size : Nat) (cr : ControlStreamReader) (w : List UInt8) :
    Except DecompressError PRSStep :=
  match cr.read with
  | .error e => .error e
  | .ok (true, cr1) =>
    -- Control 1 = literal byte
    if max_output_size ≠ 0 ∧ w.length = max_output_size then
      .error .maxOutputSize
    else
      match get_u8 cr1.r with
      | .error e => .error e
      | .ok (v, r2) => .ok (.next { r := r2, bits := cr1.bits } (w ++ [v]))
  | .ok (false, cr1) =>
    match prs_read_backreference cr1 with
    | .error e => .error e
    | .ok (none, cr2) => .ok (.stop cr2 w)
    | .ok (some (offset, count), cr2) =>
      match prs_copy_backreference max_output_size w offset count with
      | .error e => .error e
      | .ok w2 => .ok (.next cr2 w2)

/-- The `while (!r.eof())` loop of `prs_decompress`. Every iteration that does
not leave the loop reads at least one byte, so the length of the input is
enough fuel. -/
def prs_decompress_loop (max_output_size : Nat) :
    Nat → ControlStreamReader → List UInt8 → Except DecompressError (List UInt8)
  | 0, cr, w => if cr.r = [] then .ok w else .error .outOfFuel
  | fuel + 1, cr, w =>
    if cr.r = [] then .ok w
    else
      match prs_decompress_step max_output_size cr w with
      | .error e => .error e
      | .ok (.stop _ w1) => .ok w1
      | .ok (.next cr1 w1) => prs_decompress_loop max_output_size fuel cr1 w1

/-- `prs_decompress(data, size, max_output_size)`; `max_output_size = 0` means
no cap. -/
def prs_decompress (data : List UInt8) (max_output_size : Nat := 0) :
    Except DecompressError (List UInt8) :=
  prs_decompress_loop max_output_size data.length { r := data, bits := 0 } []

/-- The loop of `prs_decompress_size`: `ret` is the running output length. -/
def prs_decompress_size_loop (max_output_size : Nat) :
    Nat → ControlStreamReader → Nat → Except DecompressError Nat
  | 0, cr, ret => if cr.r = [] then .ok ret else .error .outOfFuel
  | fuel + 1, cr, ret =>
    if cr.r = [] then .ok ret
    else
      match cr.read with
      | .error e => .error e
      | .ok (true, cr1) =>
        match get_u8 cr1.r with
        | .error e => .error e
        | .ok (_, r2) =>
          if max_output_size ≠ 0 ∧ ret + 1 > max_output_size then
            .error .maxOutputSize
          else
            prs_decompress_size_loop max_output_size fuel { r := r2, bits := cr1.bits } (ret + 1)
      | .ok (false, cr1) =>
        match prs_read_backreference cr1 with
        | .error e => .error e
        | .ok (none, _) => .ok ret
        | .ok (some (offset, count), cr2) =>
          let read_offset := (ret + offset) % SIZE_MOD
          if read_offset ≥ ret then
            .error .backrefBeyondBeginning
          else if max_output_size ≠ 0 ∧ ret + count > max_output_size then
            .error .maxOutputSize
          else
            prs_decompress_size_loop max_output_size fuel cr2 (ret + count)

/-- `prs_decompress_size(data, size, max_output_size)`. -/
def prs_decompress_size (data : List UInt8) (max_output_size : Nat := 0) :
    Except DecompressError Nat :=
  prs_decompress_size_loop max_output_size data.length { r := data, bits := 0 } 0

/-! ### The PRS disassembler -/

/-- The loop of `ControlStreamReader::buffered_bits`: `z` is shifted down while
its bit 8 is set and `ret`, a `uint8_t`, counts the shifts. `z` is a
`uint16_t`, so 16 iterations are enough. -/
def buffered_bits_loop : Nat → Nat → Nat → Nat
  | 0, _, ret => ret
  | fuel + 1, z, ret =>
    if z &&& 0x0100 ≠ 0 then buffered_bits_loop fuel (z >>> 1) ((ret + 1) % 256) else ret

/-- `ControlStreamReader::buffered_bits`. -/
def ControlStreamReader.buffered_bits (cr : ControlStreamReader) : Nat :=
  buffered_bits_loop 16 cr.bits 0

/-- A line `prs_disassemble` prints, as the values it formats: the input
offset, the input bit offset and the output offset, then for a literal the
byte, for a copy whether it is a long copy, the negated offset, the start of
the source range and the count. -/
inductive PRSLine where
  | literal (r_offset input_bits output_bytes : Nat) (v : UInt8)
  | finish (r_offset input_bits output_bytes : Nat)
  | copy (r_offset input_bits output_bytes : Nat) (is_long_copy : Bool)
      (neg_offset read_offset count : Nat)
  deriving DecidableEq, Repr

/-- The loop of `prs_disassemble` over an input of `size` bytes. The lines
printed so far stay printed when an exception is raised, so the result is the
lines and the exception, if any. The line of a copy is printed before its
range is checked. -/
def prs_disassemble_loop (size : Nat) :
    Nat → ControlStreamReader → Nat → List PRSLine → List PRSLine × Option DecompressError
  | 0, cr, _, lines => (lines, if cr.r = [] then none else some .outOfFuel)
  | fuel + 1, cr, output_bytes, lines =>
    if cr.r = [] then (lines, none)
    else
      let r_offset := size - cr.r.length
      let buffered_bits := cr.buffered_bits
      let input_bits := 8 * r_offset + (if buffered_bits ≠ 0 then 8 - buffered_bits else 0)
      match cr.read with
      | .error e => (lines, some e)
      | .ok (true, cr1) =>
        match get_u8 cr1.r with
        | .error e => (lines, some e)
        | .ok (v, r2) =>
          prs_disassemble_loop size fuel { r := r2, bits := cr1.bits } (output_bytes + 1)
            (lines ++ [.literal r_offset input_bits output_bytes v])
      | .ok (false, cr1) =>
        match cr1.read with
        | .error e => (lines, some e)
        | .ok (is_long_copy, _) =>
          match prs_read_backreference cr1 with
          | .error e => (lines, some e)
          | .ok (none, _) => (lines ++ [.finish r_offset input_bits output_bytes], none)
          | .ok (some (offset, count), cr2) =>
            let read_offset := (output_bytes + offset) % SIZE_MOD
            let lines1 := lines ++
              [.copy r_offset input_bits output_bytes is_long_copy
                ((SIZE_MOD - offset) % SIZE_MOD) read_offset count]
            if read_offset ≥ output_bytes then (lines1, some .backrefBeyondBeginning)
            else prs_disassemble_loop size fuel cr2 (output_bytes + count) lines1

/-- `prs_disassemble(stream, data, size)`: the lines written to `stream` and
the exception raised, if any. -/
def prs_disassemble (data : List UInt8) : List PRSLine × Option DecompressError :=
  prs_disassemble_loop data.length data.length { r := data, bits := 0 } 0 []

/-- Auxiliary: `n` successive calls of `ControlStreamReader::read`. -/
def read_bits : Nat → ControlStreamReader → Except DecompressError (List Bool × ControlStreamReader)
  | 0, cr => .ok ([], cr)
  | n + 1, cr =>
    match cr.read with
    | .error e => .error e
    | .ok (b, cr1) =>
      match read_bits n cr1 with
      | .error e => .error e
      | .ok (bs, cr2) => .ok (b :: bs, cr2)

/-! ## BC0 decompression -/

/-- The local state of `bc0_decompress`. The memo, a `parray<uint8_t, 0x1000>`
that starts zeroed, is a map from index to byte; every access masks the index
with `0x0FFF`. -/
structure BC0State where
  r : List UInt8
  w : List UInt8
  memo : Nat → UInt8
  memo_offset : Nat
  control_stream_bits : Nat

/-- The copy loop of a BC0 backreference (lines 690-695): `n` bytes remain,
`z` is the loop variable. -/
def bc0_copy (backreference_offset : Nat) : Nat → Nat → BC0State → BC0State
  | 0, _, st => st
  | n + 1, z, st =>
    let v := st.memo ((backreference_offset + z) &&& 0x0FFF)
    bc0_copy backreference_offset n (z + 1)
      { st with
        w := st.w ++ [v]
        memo := Function.update st.memo st.memo_offset v
        memo_offset := (st.memo_offset + 1) &&& 0x0FFF }

/-- Lines 682-704 of `bc0_decompress`: one opcode, the control bits being
loaded. `none` is the `break` after the first byte of a backreference. -/
def bc0_opcode (st : BC0State) : Except DecompressError (Option BC0State) :=
  if st.control_stream_bits &&& 1 = 0 then
    match get_u8 st.r with
    | .error e => .error e
    | .ok (a1, r1) =>
      if r1 = [] then .ok none
      else
        match get_u8 r1 with
        | .error e => .error e
        | .ok (a2, r2) =>
          let count := (a2.toNat &&& 0x0F) + 3
          let backreference_offset := a1.toNat ||| ((a2.toNat <<< 4) &&& 0xF00)
          .ok (some (bc0_copy backreference_offset count 0 { st with r := r2 }))
  else
    match get_u8 st.r with
    | .error e => .error e
    | .ok (v, r1) =>
      .ok (some { st with
        r := r1
        w := st.w ++ [v]
        memo := Function.update st.memo st.memo_offset v
        memo_offset := (st.memo_offset + 1) &&& 0x0FFF })

/-- One iteration of the loop of `bc0_decompress` (lines 665-704), entered with
`!r.eof()`. `none` is a `break`. -/
def bc0_step (st : BC0State) : Except DecompressError (Option BC0State) :=
  let bits := st.control_stream_bits >>> 1
  if bits &&& 0x100 = 0 then
    match get_u8 st.r with
    | .error e => .error e
    | .ok (c, r1) =>
      if r1 = [] then .ok none
      else bc0_opcode { st with r := r1, control_stream_bits := 0xFF00 ||| c.toNat }
  else
    bc0_opcode { st with control_stream_bits := bits }

/-- The `while (!r.eof())` loop of `bc0_decompress`. The result is the state
when the loop is left and whether it was left through a `break`. -/
def bc0_decompress_loop : Nat → BC0State → Except DecompressError (BC0State × Bool)
  | 0, st => if st.r = [] then .ok (st, false) else .error .outOfFuel
  | fuel + 1, st =>
    if st.r = [] then .ok (st, false)
    else
      match bc0_step st with
      | .error e => .error e
      | .ok none => .ok (st, true)
      | .ok (some st1) => bc0_decompress_loop fuel st1

/-- The state `bc0_decompress` starts from. -/
def bc0_init (data : List UInt8) : BC0State :=
  { r := data, w := [], memo := fun _ => 0, memo_offset := 0x0FEE, control_stream_bits := 0x0000 }

/-- `bc0_decompress(data, size)`. -/
def bc0_decompress (data : List UInt8) : Except DecompressError (List UInt8) :=
  match bc0_decompress_loop data.length (bc0_init data) with
  | .error e => .error e
  | .ok (st, _) => .ok st.w

/-- The control bits `bc0_decompress` is left with when its loop ends because
the input is used up between two opcodes; `none` when the loop ends through a
`break`, that is inside an opcode. -/
def bc0_boundary_bits (data : List UInt8) : Option Nat :=
  match bc0_decompress_loop data.length (bc0_init data) with
  | .ok (st, false) => some st.control_stream_bits
  | _ => none

/-! ### The BC0 disassembler -/

/-- A line `bc0_disassemble` prints, as the values it formats: the output
offset, then the count of a backreference or the byte of a literal. -/
inductive BC0Line where
  | backreference (output_bytes count : Nat)
  | literal (output_bytes : Nat) (v : UInt8)
  deriving DecidableEq, Repr

/-- The number of output bytes a line stands for. -/
def BC0Line.count : BC0Line → Nat
  | .backreference _ count => count
  | .literal _ _ => 1

/-- The local state of `bc0_disassemble`, with the lines printed so far. -/
structure BC0DisState where
  r : List UInt8
  control_stream_bits : Nat
  output_bytes : Nat
  lines : List BC0Line
  deriving DecidableEq, Repr

/-- Lines 730-745 of `bc0_disassemble`: one opcode, the control bits being
loaded. `none` is the `break` after the first byte of a backreference. -/
def bc0_disassemble_opcode (ds : BC0DisState) : Except DecompressError (Option BC0DisState) :=
  if ds.control_stream_bits &&& 1 = 0 then
    match get_u8 ds.r with
    | .error e => .error e
    | .ok (_, r1) =>
      if r1 = [] then .ok none
      else
        match get_u8 r1 with
        | .error e => .error e
        | .ok (a2, r2) =>
          let count := (a2.toNat &&& 0x0F) + 3
          .ok (some { ds with
            r := r2
            lines := ds.lines ++ [.backreference ds.output_bytes count]
            output_bytes := ds.output_bytes + count })
  else
    match get_u8 ds.r with
    | .error e => .error e
    | .ok (v, r1) =>
      .ok (some { ds with
        r := r1
        lines := ds.lines ++ [.literal ds.output_bytes v]
        output_bytes := ds.output_bytes + 1 })

/-- One iteration of the loop of `bc0_disassemble` (lines 719-746), entered
with `!r.eof()`. `none` is a `break`. -/
def bc0_disassemble_step (ds : BC0DisState) : Except DecompressError (Option BC0DisState) :=
  let bits := ds.control_stream_bits >>> 1
  if bits &&& 0x100 = 0 then
    match get_u8 ds.r with
    | .error e => .error e
    | .ok (c, r1) =>
      if r1 = [] then .ok none
      else bc0_disassemble_opcode { ds with r := r1, control_stream_bits := 0xFF00 ||| c.toNat }
  else
    bc0_disassemble_opcode { ds with control_stream_bits := bits }

/-- The `while (!r.eof())` loop of `bc0_disassemble`. -/
def bc0_disassemble_loop : Nat → BC0DisState → Except DecompressError BC0DisState
  | 0, ds => if ds.r = [] then .ok ds else .error .outOfFuel
  | fuel + 1, ds =>
    if ds.r = [] then .ok ds
    else
      match bc0_disassemble_step ds with
      | .error e => .error e
      | .ok none => .ok ds
      | .ok (some ds1) => bc0_disassemble_loop fuel ds1

/-- `bc0_disassemble(stream, data, size)`: the lines written to `stream`. -/
def bc0_disassemble (data : List UInt8) : Except DecompressError (List BC0Line) :=
  match bc0_disassemble_loop data.length
      { r := data, control_stream_bits := 0x0000, output_bytes := 0, lines := [] } with
  | .error e => .error e
  | .ok ds => .ok ds.lines

/-- The output offset a line reports. -/
def BC0Line.output_bytes : BC0Line → Nat
  | .backreference output_bytes _ => output_bytes
  | .literal output_bytes _ => output_bytes

/-- The lines tile the output range from `o` to `n`: each line reports the
offset at which the line before it ends, the first one `o`, and the last one
ends at `n`. -/
def bc0_lines_tile : Nat → List BC0Line → Nat → Prop
  | o, [], n => o = n
  | o, line :: rest, n => line.output_bytes = o ∧ bc0_lines_tile (o + line.count) rest n

/-- The disassembler state follows the decompressor state: same input left,
same control bits, the output offset is the output length, the lines printed
tile the output, and a literal line shows the byte written at its offset. -/
def BC0DisState.follows (ds : BC0DisState) (st : BC0State) : Prop :=
  ds.r = st.r ∧ ds.control_stream_bits = st.control_stream_bits ∧
  ds.output_bytes = st.w.length ∧ bc0_lines_tile 0 ds.lines st.w.length ∧
  ∀ o v, BC0Line.literal o v ∈ ds.lines → o < st.w.length ∧ st.w.getD o 0 = v

/-! ## PRS compression -/

/-- Errors raised by the compressors. -/
inductive CompressError where
  /-- `logic_error("compressor is closed")`. -/
  | compressorClosed
  /-- `logic_error("invalid best match")`. -/
  | invalidBestMatch
  /-- `logic_error("data written without control bits")`. -/
  | dataWithoutControlBits
  /-- `logic_error("write_control called with no space to write")`. -/
  | noSpaceToWrite
  /-- The remainder `match_size % match_loop_bytes` with `match_loop_bytes = 0`. -/
  | zeroModulus
  /-- The loop counter of the embedding ran out (proved unreachable). -/
  | outOfFuel
  deriving DecidableEq, Repr

/-- Modelled from the spec: the type of `PRSCompressor::forward_log` is declared
in `Compression.hh`, which is not among the sources. The spec describes the
forward region as the bytes received but not yet committed, "bounded to a
working size"; the code writes it with `forward_log.at(input_bytes) = v` and
treats it as full once `reverse_log.end_offset() + forward_log.data.size()`
reaches `input_bytes`, so it is a ring of `data.size()` bytes addressed by
absolute offset. -/
structure ForwardLog where
  data : List UInt8
  deriving DecidableEq, Repr

/-- Modelled from the spec: a forward log of `size` bytes, zeroed like every
`parray` of bytes (compare the memo of `bc0_decompress`). -/
def ForwardLog.zeroed (size : Nat) : ForwardLog := { data := List.replicate size 0 }

/-- Modelled from the spec: `forward_log.at(offset)` read. -/
def ForwardLog.at (fl : ForwardLog) (offset : Nat) : UInt8 :=
  fl.data.getD (offset % fl.data.length) 0

/-- Modelled from the spec: `forward_log.at(offset) = v`. -/
def ForwardLog.put (fl : ForwardLog) (offset : Nat) (v : UInt8) : ForwardLog :=
  { data := fl.data.set (offset % fl.data.length) v }

/-- Modelled from the spec: the type of `PRSCompressor::reverse_log` is declared
in `Compression.hh`, which is not among the sources. The spec describes the
reverse region as the bytes already committed, "logically infinite", with
"indexed read by absolute offset, append, remove-from-end" and "a reverse index
mapping byte value to the set of offsets where that value occurs". -/
structure ReverseLog where
  data : List UInt8
  deriving DecidableEq, Repr

/-- Modelled from the spec: `reverse_log.end_offset()`. -/
def ReverseLog.end_offset (rl : ReverseLog) : Nat := rl.data.length

/-- Modelled from the spec: `reverse_log.at(offset)`. -/
def ReverseLog.at (rl : ReverseLog) (offset : Nat) : UInt8 := rl.data.getD offset 0

/-- Modelled from the spec: `reverse_log.push_back(v)`. -/
def ReverseLog.push_back (rl : ReverseLog) (v : UInt8) : ReverseLog := { data := rl.data ++ [v] }

/-- Modelled from the spec: `reverse_log.pop_back()`. -/
def ReverseLog.pop_back (rl : ReverseLog) : ReverseLog := { data := rl.data.dropLast }

/-- Modelled from the spec: `reverse_log.find(v)`, the offsets at which `v`
occurs, in ascending order (the loop that walks them keeps the last of equally
long matches and its comment calls that one "the latest"). -/
def ReverseLog.find (rl : ReverseLog) (v : UInt8) : List Nat :=
  (List.range rl.data.length).filter (fun i => rl.data.getD i 0 = v)

/-- The fields of `PRSCompressor`. The progress callback only observes the
state and is left out. -/
structure PRSCompressor where
  compression_level : Nat
  closed : Bool
  control_byte_offset : Nat
  pending_control_bits : Nat
  input_bytes : Nat
  forward_log : ForwardLog
  reverse_log : ReverseLog
  output : List UInt8
  deriving DecidableEq, Repr

/-- The constructor `PRSCompressor::PRSCompressor`; the forward log, whose
declaration is missing, is passed in. -/
def PRSCompressor.new (forward_log : ForwardLog) (compression_level : Nat) : PRSCompressor :=
  { compression_level := compression_level
    closed := false
    control_byte_offset := 0
    pending_control_bits := 0
    input_bytes := 0
    forward_log := forward_log
    reverse_log := { data := [] }
    output := [0] }

/-- `PRSCompressor::write_control`. -/
def PRSCompressor.write_control (c : PRSCompressor) (z : Bool) : PRSCompressor :=
  if c.pending_control_bits &&& 0x0100 ≠ 0 then
    { c with
      output := c.output.set c.control_byte_offset (UInt8.ofNat (c.pending_control_bits &&& 0xFF)) ++ [0]
      control_byte_offset := c.output.length
      pending_control_bits := if z then 0x8080 else 0x8000 }
  else
    { c with
      pending_control_bits := (c.pending_control_bits >>> 1) ||| (if z then 0x8080 else 0x8000) }

/-- `PRSCompressor::move_forward_data_to_reverse_log`. -/
def PRSCompressor.move_forward_data_to_reverse_log (c : PRSCompressor) : Nat → PRSCompressor
  | 0 => c
  | size + 1 =>
    PRSCompressor.move_forward_data_to_reverse_log
      { c with reverse_log := c.reverse_log.push_back (c.forward_log.at c.reverse_log.end_offset) }
      size

/-- `PRSCompressor::advance_literal`. -/
def PRSCompressor.advance_literal (c : PRSCompressor) : PRSCompressor :=
  let c1 := c.write_control true
  let c2 := { c1 with output := c1.output ++ [c1.forward_log.at c1.reverse_log.end_offset] }
  c2.move_forward_data_to_reverse_log 1

/-- `PRSCompressor::advance_short_copy`; `offset` is a 64-bit pattern. -/
def PRSCompressor.advance_short_copy (c : PRSCompressor) (offset size : Nat) : PRSCompressor :=
  let encoded_size := (size - 2) % 256
  let c1 := c.write_control false
  let c2 := c1.write_control false
  let c3 := c2.write_control (decide (encoded_size &&& 2 ≠ 0))
  let c4 := c3.write_control (decide (encoded_size &&& 1 ≠ 0))
  let c5 := { c4 with output := c4.output ++ [UInt8.ofNat (offset &&& 0xFF)] }
  c5.move_forward_data_to_reverse_log size

/-- `PRSCompressor::advance_long_copy`; `offset` is a 64-bit pattern. -/
def PRSCompressor.advance_long_copy (c : PRSCompressor) (offset size : Nat) : PRSCompressor :=
  let c1 := c.write_control false
  let c2 := c1.write_control true
  let a := ((offset <<< 3) ||| (size - 2)) % 2 ^ 16
  let c3 := { c2 with output := c2.output ++ [UInt8.ofNat (a &&& 0xFF)] ++ [UInt8.ofNat (a >>> 8)] }
  c3.move_forward_data_to_reverse_log size

/-- `PRSCompressor::advance_extended_copy`; `offset` is a 64-bit pattern. -/
def PRSCompressor.advance_extended_copy (c : PRSCompressor) (offset size : Nat) : PRSCompressor :=
  let c1 := c.write_control false
  let c2 := c1.write_control true
  let a := (offset <<< 3) % 2 ^ 16
  let c3 := { c2 with
    output := c2.output ++ [UInt8.ofNat (a &&& 0xFF)] ++ [UInt8.ofNat (a >>> 8)] ++ [UInt8.ofNat (size - 1)] }
  c3.move_forward_data_to_reverse_log size

/-- The best match found so far by the search of `advance`. -/
structure BestMatch where
  best_match_size : Nat
  best_match_offset : Nat
  best_match_literals : Nat
  deriving DecidableEq, Repr

/-- What the search of `advance` guarantees about its best match: the size is
at most `0x100`, and a match of at least one byte starts 1 to `0x1FFF` bytes
before the boundary `E + best_match_literals`. -/
def BestMatch.valid (E : Nat) (b : BestMatch) : Prop :=
  b.best_match_size ≤ 0x100 ∧
  (1 ≤ b.best_match_size →
    b.best_match_offset < E + b.best_match_literals ∧
    E + b.best_match_literals < b.best_match_offset + 0x2000)

/-- The `while` loop that measures a match (lines 72-76); `fuel` bounds the
iterations, of which there are at most `0x100`. -/
def prs_match_size (c : PRSCompressor) (compression_offset match_offset match_loop_bytes : Nat) :
    Nat → Nat → Nat
  | 0, match_size => match_size
  | fuel + 1, match_size =>
    if match_size < 0x100 ∧ compression_offset + match_size < c.input_bytes ∧
        c.reverse_log.at (match_offset + match_size % match_loop_bytes) =
          c.forward_log.at (compression_offset + match_size) then
      prs_match_size c compression_offset match_offset match_loop_bytes fuel (match_size + 1)
    else
      match_size

/-- The loop over the start offsets (lines 64-86). The remainder by
`match_loop_bytes` is evaluated as soon as the first two conditions of the
inner loop hold, and a zero divisor there is reported as `zeroModulus`. -/
def prs_search_offsets (c : PRSCompressor) (num_literals compression_offset : Nat) :
    List Nat → BestMatch → Except CompressError BestMatch
  | [], best => .ok best
  | match_offset :: rest, best =>
    if ¬ best.best_match_size < 0x100 then .ok best
    else if match_offset + 0x2000 ≤ compression_offset then
      prs_search_offsets c num_literals compression_offset rest best
    else
      let match_loop_bytes := (compression_offset + SIZE_MOD - match_offset) % SIZE_MOD
      if match_loop_bytes = 0 ∧ compression_offset < c.input_bytes then .error .zeroModulus
      else
        let match_size :=
          prs_match_size c compression_offset match_offset match_loop_bytes 0x100 0
        if match_size ≥ best.best_match_size + best.best_match_literals then
          prs_search_offsets c num_literals compression_offset rest
            { best_match_size := match_size
              best_match_offset := match_offset
              best_match_literals := num_literals }
        else
          prs_search_offsets c num_literals compression_offset rest best

/-- The loop over `num_literals` (lines 55-90): `n` values are still to be
tried. The reverse log is pushed `num_literals` times, searched, and popped
`num_literals` times. -/
def prs_search (c : PRSCompressor) : Nat → Nat → BestMatch →
    Except CompressError (PRSCompressor × BestMatch)
  | 0, _, best => .ok (c, best)
  | n + 1, num_literals, best =>
    let c1 := c.move_forward_data_to_reverse_log num_literals
    let compression_offset := c1.reverse_log.end_offset
    let first_v := c1.forward_log.at compression_offset
    match prs_search_offsets c1 num_literals compression_offset (c1.reverse_log.find first_v) best with
    | .error e => .error e
    | .ok best1 =>
      let c2 := { c1 with reverse_log := Nat.iterate ReverseLog.pop_back num_literals c1.reverse_log }
      prs_search c2 n (num_literals + 1) best1

/-- Writes `n` literals (lines 93-95). -/
def PRSCompressor.advance_literals (c : PRSCompressor) : Nat → PRSCompressor
  | 0 => c
  | n + 1 => PRSCompressor.advance_literals c.advance_literal n

/-- `PRSCompressor::advance`. The difference `best_match_offset -
reverse_log.end_offset()` of two `size_t` values wraps modulo `2 ^ 64`. -/
def PRSCompressor.advance (c : PRSCompressor) : Except CompressError PRSCompressor :=
  match prs_search c c.compression_level 0
      { best_match_size := 0, best_match_offset := 0, best_match_literals := 0 } with
  | .error e => .error e
  | .ok (c1, best) =>
    let c2 := c1.advance_literals best.best_match_literals
    let backreference_offset :=
      (((best.best_match_offset : Int) - (c2.reverse_log.end_offset : Int)) % (2 ^ 64 : Int)).toNat
    if best.best_match_size < 2 then
      .ok c2.advance_literal
    else if toSSize backreference_offset ≥ -0x100 ∧ best.best_match_size ≤ 5 then
      .ok (c2.advance_short_copy backreference_offset best.best_match_size)
    else if best.best_match_size < 3 then
      .ok c2.advance_literal
    else if toSSize backreference_offset ≥ -0x1FFF ∧ best.best_match_size ≤ 9 then
      .ok (c2.advance_long_copy backreference_offset best.best_match_size)
    else if toSSize backreference_offset ≥ -0x1FFF ∧ best.best_match_size ≤ 0x100 then
      .ok (c2.advance_extended_copy backreference_offset best.best_match_size)
    else
      .error .invalidBestMatch

/-- `PRSCompressor::add_byte`. -/
def PRSCompressor.add_byte (c : PRSCompressor) (v : UInt8) : Except CompressError PRSCompressor :=
  let store (c1 : PRSCompressor) : PRSCompressor :=
    { c1 with forward_log := c1.forward_log.put c1.input_bytes v, input_bytes := c1.input_bytes + 1 }
  if c.reverse_log.end_offset + c.forward_log.data.length ≤ c.input_bytes then
    match c.advance with
    | .error e => .error e
    | .ok c1 => .ok (store c1)
  else
    .ok (store c)

/-- The loop of `PRSCompressor::add` over the bytes of `data`. -/
def PRSCompressor.add_bytes (c : PRSCompressor) : List UInt8 → Except CompressError PRSCompressor
  | [] => .ok c
  | v :: rest =>
    match c.add_byte v with
    | .error e => .error e
    | .ok c1 => PRSCompressor.add_bytes c1 rest

/-- `PRSCompressor::add`. -/
def PRSCompressor.add (c : PRSCompressor) (data : List UInt8) : Except CompressError PRSCompressor :=
  if c.closed then .error .compressorClosed else c.add_bytes data

/-- The `while` loop of `flush_control` that shifts the pending bits down. -/
def prs_flush_shift : Nat → Nat → Nat
  | 0, bits => bits
  | fuel + 1, bits => if bits &&& 0x0100 = 0 then prs_flush_shift fuel (bits >>> 1) else bits

/-- `PRSCompressor::flush_control`. -/
def PRSCompressor.flush_control (c : PRSCompressor) : Except CompressError PRSCompressor :=
  if c.pending_control_bits &&& 0xFF00 ≠ 0 then
    let bits := prs_flush_shift 16 c.pending_control_bits
    .ok { c with
      pending_control_bits := bits
      output := c.output.set c.control_byte_offset (UInt8.ofNat (bits &&& 0xFF)) }
  else if c.control_byte_offset ≠ c.output.length - 1 then
    .error .dataWithoutControlBits
  else
    .ok { c with output := c.output.dropLast }

/-- The loop `while (reverse_log.end_offset() < input_bytes) advance();` of
`close`. -/
def PRSCompressor.drain : Nat → PRSCompressor → Except CompressError PRSCompressor
  | 0, c => if c.reverse_log.end_offset < c.input_bytes then .error .outOfFuel else .ok c
  | fuel + 1, c =>
    if c.reverse_log.end_offset < c.input_bytes then
      match c.advance with
      | .error e => .error e
      | .ok c1 => PRSCompressor.drain fuel c1
    else .ok c

/-- `PRSCompressor::close`: the compressor afterwards; the returned string is
its `output`. -/
def PRSCompressor.close (c : PRSCompressor) : Except CompressError PRSCompressor :=
  if ¬ c.closed then
    match PRSCompressor.drain (c.input_bytes - c.reverse_log.end_offset) c with
    | .error e => .error e
    | .ok c1 =>
      let c2 := c1.write_control false
      let c3 := c2.write_control true
      let c4 := { c3 with output := c3.output ++ [0] ++ [0] }
      match c4.flush_control with
      | .error e => .error e
      | .ok c5 => .ok { c5 with closed := true }
  else
    .ok c

/-- `prs_compress(data, size, compression_level, progress_fn)`, with the
forward log of the compressor it constructs passed in. -/
def prs_compress (forward_log : ForwardLog) (data : List UInt8) (compression_level : Nat) :
    Except CompressError (List UInt8) :=
  match (PRSCompressor.new forward_log compression_level).add data with
  | .error e => .error e
  | .ok c =>
    match c.close with
    | .error e => .error e
    | .ok c1 => .ok c1.output

/-- A sequence of `add` calls on one compressor, one call for each buffer of
`chunks`. -/
def PRSCompressor.add_all (c : PRSCompressor) :
    List (List UInt8) → Except CompressError PRSCompressor
  | [] => .ok c
  | data :: rest =>
    match c.add data with
    | .error e => .error e
    | .ok c1 => PRSCompressor.add_all c1 rest

/-! ### Auxiliary definitions for runs of zero bytes

These name what the compressor state looks like while it is fed zero bytes
only, and how much it has written. -/

/-- The compressor is open, works at level 1, holds only zero bytes in its
forward log of `S` bytes and in the `E` bytes of its reverse log, and has
received `I` bytes. -/
def PRSCompressor.zero_data (c : PRSCompressor) (S E I : Nat) : Prop :=
  c.compression_level = 1 ∧ c.closed = false ∧ c.forward_log.data = List.replicate S 0 ∧
  c.reverse_log.data = List.replicate E 0 ∧ c.input_bytes = I

/-- The compressor has written `P` bits, counting 8 for every byte of `output`
and 1 for each of the `j` control bits pending for the open control byte. The
pending bits are `j` marker bits from bit 15 down and the control bits below
them, within the low byte. -/
def PRSCompressor.potential (c : PRSCompressor) (P : Nat) : Prop :=
  ∃ j low, j ≤ 8 ∧ low < 256 ∧ c.pending_control_bits = 65536 - 2 ^ (16 - j) + low ∧
    8 * c.output.length + j = P

/-! ### Auxiliary definitions for the opcode choice, the candidate matches and the control bits -/

/-- The opcode choice as the specification words it, for a best match of
length `n` at the signed offset `o` from the boundary after the prefix
literals: `n < 2` gives a literal; otherwise `o ≥ -256` and `n ≤ 5` gives a
short copy; otherwise `n = 2` gives a literal; otherwise `n ≤ 9` gives a long
copy; otherwise an extended copy. `c2` is the compressor after the prefix
literals. -/
def prs_opcode_choice (c2 : PRSCompressor) (o : Int) (n : Nat) : PRSCompressor :=
  if n < 2 then c2.advance_literal
  else if o ≥ -256 ∧ n ≤ 5 then c2.advance_short_copy (o % (2 ^ 64 : Int)).toNat n
  else if n = 2 then c2.advance_literal
  else if n ≤ 9 then c2.advance_long_copy (o % (2 ^ 64 : Int)).toNat n
  else c2.advance_extended_copy (o % (2 ^ 64 : Int)).toNat n

/-- The match size the search of `advance` measures for the start offset
`match_offset` at the boundary `compression_offset` (lines 70-76). -/
def prs_candidate_size (c : PRSCompressor) (compression_offset match_offset : Nat) : Nat :=
  prs_match_size c compression_offset match_offset
    ((compression_offset + SIZE_MOD - match_offset) % SIZE_MOD) 0x100 0

/-- The compressor of level 2 that has received `02 09 05 01 02 01 02 09 07`
and committed the first five bytes as literals. -/
def prs_state_02_09_05 : PRSCompressor :=
  { compression_level := 2
    closed := false
    control_byte_offset := 0
    pending_control_bits := 0xF8F8
    input_bytes := 9
    forward_log := { data := [2, 9, 5, 1, 2, 1, 2, 9, 7, 0, 0, 0, 0, 0, 0, 0] }
    reverse_log := { data := [2, 9, 5, 1, 2] }
    output := [0, 2, 9, 5, 1, 2] }

/-- The compressor of level 2 that has received `05 03 09 05 03 08 01 05 03 07`
and committed the first six bytes: three literals, a short copy of two bytes
and a literal. -/
def prs_state_05_03_09 : PRSCompressor :=
  { compression_level := 2
    closed := false
    control_byte_offset := 0
    pending_control_bits := 0xFF87
    input_bytes := 10
    forward_log := { data := [5, 3, 9, 5, 3, 8, 1, 5, 3, 7, 0, 0, 0, 0, 0, 0] }
    reverse_log := { data := [5, 3, 9, 5, 3, 8] }
    output := [0, 5, 3, 9, 253, 8] }

/-- A compressor of level 1 that holds 600 zero bytes in a forward log of 1024
bytes and has committed 257 of them; its output so far is a literal and an
extended copy of 256 bytes. -/
def prs_state_zeros : PRSCompressor :=
  { compression_level := 1
    closed := false
    control_byte_offset := 0
    pending_control_bits := 0xE0A0
    input_bytes := 600
    forward_log := { data := List.replicate 1024 0 }
    reverse_log := { data := List.replicate 257 0 }
    output := [0, 0, 0xF8, 0xFF, 0xFF] }

/-- A sequence of `write_control` calls. -/
def PRSCompressor.write_controls (c : PRSCompressor) (bits : List Bool) : PRSCompressor :=
  bits.foldl PRSCompressor.write_control c

/-- The control byte that holds the bits of `g`, first bit in bit 0, as the
specification words it ("least-significant-bit first"). -/
def control_byte : List Bool → Nat
  | [] => 0
  | b :: g => (if b then 1 else 0) + 2 * control_byte g

/-- The compressor has written the complete control bytes of the groups `full`
and holds the bits of `cur`, 1 to 8 of them, as pending control bits for the
reserved control byte; nothing but control bytes is in the output. -/
def PRSCompressor.packs (c : PRSCompressor) (full : List (List Bool)) (cur : List Bool) : Prop :=
  1 ≤ cur.length ∧ cur.length ≤ 8 ∧
  c.output = full.map (fun g => UInt8.ofNat (control_byte g)) ++ [0] ∧
  c.control_byte_offset = full.length ∧
  c.pending_control_bits =
    65536 - 2 ^ (16 - cur.length) + control_byte cur * 2 ^ (8 - cur.length)

/-! ## BC0 compression -/

/-- `LZSSInterleavedWriter<MaxDataBytesPerControlBit>`: the flushed bytes `w`,
the group buffer `buf` (control byte first), the write position in it and the
mask of the next control bit (a `uint8_t`). -/
structure LZSSInterleavedWriter where
  w : List UInt8
  buf : List UInt8
  buf_offset : Nat
  next_control_bit : Nat
  deriving DecidableEq, Repr

/-- The constructor of `LZSSInterleavedWriter`: a zeroed buffer of
`MaxDataBytesPerControlBit * 8 + 1` bytes. -/
def LZSSInterleavedWriter.new (MaxDataBytesPerControlBit : Nat) : LZSSInterleavedWriter :=
  { w := []
    buf := List.replicate (MaxDataBytesPerControlBit * 8 + 1) 0
    buf_offset := 1
    next_control_bit := 1 }

/-- `LZSSInterleavedWriter::flush_if_ready`. -/
def LZSSInterleavedWriter.flush_if_ready (lw : LZSSInterleavedWriter) : LZSSInterleavedWriter :=
  if lw.next_control_bit = 0 then
    { w := lw.w ++ lw.buf.take lw.buf_offset
      buf := lw.buf.set 0 0
      buf_offset := 1
      next_control_bit := 1 }
  else lw

/-- `LZSSInterleavedWriter::close`. -/
def LZSSInterleavedWriter.close (lw : LZSSInterleavedWriter) : List UInt8 :=
  if lw.buf_offset > 1 ∨ lw.next_control_bit ≠ 1 then
    lw.w ++ lw.buf.take lw.buf_offset
  else lw.w

/-- `LZSSInterleavedWriter::write_control`. -/
def LZSSInterleavedWriter.write_control (lw : LZSSInterleavedWriter) (v : Bool) :
    Except CompressError LZSSInterleavedWriter :=
  if lw.next_control_bit = 0 then .error .noSpaceToWrite
  else
    let buf := if v then lw.buf.set 0 (UInt8.ofNat ((lw.buf.getD 0 0).toNat ||| lw.next_control_bit))
      else lw.buf
    .ok { lw with buf := buf, next_control_bit := (lw.next_control_bit <<< 1) % 256 }

/-- `LZSSInterleavedWriter::write_data`. -/
def LZSSInterleavedWriter.write_data (lw : LZSSInterleavedWriter) (v : UInt8) :
    LZSSInterleavedWriter :=
  { lw with buf := lw.buf.set lw.buf_offset v, buf_offset := lw.buf_offset + 1 }

/-- The `for` loop of `set_comparator`: `n` bytes are still to be compared. -/
def set_comparator_loop (in_data : List UInt8) : Nat → Nat → Nat → Bool
  | 0, a, b => decide (a < b)
  | n + 1, a, b =>
    let data_a := in_data.getD a 0
    let data_b := in_data.getD b 0
    if data_a < data_b then true
    else if data_a > data_b then false
    else set_comparator_loop in_data n (a + 1) (b + 1)

/-- The lambda `set_comparator` of `bc0_compress`. -/
def set_comparator (in_data : List UInt8) (a b : Nat) : Bool :=
  let max_length := min 0x12 ((in_data.length + SIZE_MOD - max a b) % SIZE_MOD)
  set_comparator_loop in_data max_length a b

/-- The loop of the lambda `get_match_length`; `fuel` bounds the iterations,
of which there are at most `0x12`. -/
def get_match_length_loop (in_data : List UInt8) (a b : Nat) : Nat → Nat → Nat
  | 0, ret => ret
  | fuel + 1, ret =>
    if ret < 0x12 ∧ a + ret < in_data.length ∧ b + ret < in_data.length ∧
        in_data.getD (a + ret) 0 = in_data.getD (b + ret) 0 then
      get_match_length_loop in_data a b fuel (ret + 1)
    else ret

/-- The lambda `get_match_length` of `bc0_compress`. -/
def get_match_length (in_data : List UInt8) (a b : Nat) : Nat :=
  get_match_length_loop in_data a b 0x12 0

/-- The ordered `std::multiset<size_t>` `window_index` is the list of its
elements in iteration order. `multiset::erase(key)` removes the elements
equivalent to `key`, those with neither `comp(e, key)` nor `comp(key, e)`. -/
def window_erase (in_data : List UInt8) (window_index : List Nat) (key : Nat) : List Nat :=
  window_index.filter (fun e => set_comparator in_data e key || set_comparator in_data key e)

/-- `multiset::emplace(key)`: insertion at the upper bound of `key`, that is
before the first element `e` with `comp(key, e)`. -/
def window_emplace (in_data : List UInt8) (window_index : List Nat) (key : Nat) : List Nat :=
  let parts := window_index.span (fun e => !set_comparator in_data key e)
  parts.1 ++ key :: parts.2

/-- `multiset::lower_bound(key)`: the elements before the returned iterator
(those with `comp(e, key)`) and the elements from it on. -/
def window_lower_bound (in_data : List UInt8) (window_index : List Nat) (key : Nat) :
    List Nat × List Nat :=
  window_index.span (fun e => set_comparator in_data e key)

/-- `SIZE_T_MAX`. -/
def SIZE_T_MAX : Nat := 2 ^ 64 - 1

/-- Lines 572-596 of `bc0_compress`: the match offset and size chosen at
`read_offset`, before the size is clamped. -/
def bc0_find_match (in_data : List UInt8) (window_index : List Nat) (read_offset : Nat) :
    Nat × Nat :=
  let it := window_lower_bound in_data window_index read_offset
  let after : Nat × Nat :=
    match it.2 with
    | [] => (SIZE_T_MAX, 0)
    | match_offset :: _ => (match_offset, get_match_length in_data read_offset match_offset)
  match it.1.getLast? with
  | none => after
  | some before_match_offset =>
    let before_match_size := get_match_length in_data read_offset before_match_offset
    if before_match_size > after.2 then (before_match_offset, before_match_size) else after

/-- Lines 612-624 of `bc0_compress`: the index update, `n` positions still to
be covered. Returns the new `read_offset` and index. -/
def bc0_update_index (in_data : List UInt8) : Nat → Nat → List Nat → Nat × List Nat
  | 0, read_offset, window_index => (read_offset, window_index)
  | n + 1, read_offset, window_index =>
    let erased :=
      if read_offset ≥ 0x1000 then window_erase in_data window_index (read_offset - 0x1000)
      else window_index
    bc0_update_index in_data n (read_offset + 1) (window_emplace in_data erased read_offset)

/-- Lines 598-610 of `bc0_compress`: the opcode written for a match. -/
def bc0_write_opcode (in_data : List UInt8) (lw : LZSSInterleavedWriter)
    (read_offset match_offset match_size : Nat) : Except CompressError LZSSInterleavedWriter :=
  if match_size ≥ 3 then
    match lw.write_control false with
    | .error e => .error e
    | .ok lw1 =>
      let memo_offset := (match_offset + SIZE_MOD - 0x12) % SIZE_MOD
      let lw2 := lw1.write_data (UInt8.ofNat (memo_offset &&& 0xFF))
      let lw3 := lw2.write_data (UInt8.ofNat (((memo_offset >>> 4) &&& 0xF0) ||| (match_size - 3)))
      .ok lw3.flush_if_ready
  else
    match lw.write_control true with
    | .error e => .error e
    | .ok lw1 => .ok (lw1.write_data (in_data.getD read_offset 0)).flush_if_ready

/-- The main loop of `bc0_compress` (lines 564-625). Every iteration advances
`read_offset`, so the length of the input is enough fuel. -/
def bc0_compress_loop (in_data : List UInt8) :
    Nat → Nat → List Nat → LZSSInterleavedWriter → Except CompressError LZSSInterleavedWriter
  | 0, read_offset, _, lw =>
    if read_offset < in_data.length then .error .outOfFuel else .ok lw
  | fuel + 1, read_offset, window_index, lw =>
    if read_offset < in_data.length then
      let found := bc0_find_match in_data window_index read_offset
      let match_size := if found.2 < 3 then 1 else found.2
      match bc0_write_opcode in_data lw read_offset found.1 match_size with
      | .error e => .error e
      | .ok lw1 =>
        let next := bc0_update_index in_data match_size read_offset window_index
        bc0_compress_loop in_data fuel next.1 next.2 lw1
    else .ok lw

/-- `bc0_compress(in_data, in_size, progress_fn)`; the progress callback only
observes the state and is left out. -/
def bc0_compress (in_data : List UInt8) : Except CompressError (List UInt8) :=
  match bc0_compress_loop in_data in_data.length 0 [] (LZSSInterleavedWriter.new 2) with
  | .error e => .error e
  | .ok lw => .ok lw.close


/-! ## Auxiliary definitions for the BC0 round trip

The compressor writes a sequence of opcodes, eight to a group; these
definitions name that sequence so that what `bc0_compress` writes can be
related to what `bc0_decompress` reads. -/

/-- An opcode of a BC0 stream: a literal byte, or the two data bytes of a
backreference. -/
inductive BC0Op where
  | lit (v : UInt8)
  | ref (a1 a2 : UInt8)
  deriving DecidableEq, Repr

/-- The control bit of an opcode. -/
def BC0Op.flag : BC0Op → Nat
  | .lit _ => 1
  | .ref _ _ => 0

/-- The data bytes of an opcode. -/
def BC0Op.data : BC0Op → List UInt8
  | .lit v => [v]
  | .ref a1 a2 => [a1, a2]

/-- The control byte of a group of opcodes, first opcode in bit 0. -/
def bc0_group_control : List BC0Op → Nat
  | [] => 0
  | op :: g => op.flag + 2 * bc0_group_control g

/-- The bytes of a group: its control byte, then the data of its opcodes. -/
def bc0_group_bytes (g : List BC0Op) : List UInt8 :=
  UInt8.ofNat (bc0_group_control g) :: g.flatMap BC0Op.data

/-- What `bc0_decompress` does to its output and memo for an opcode. -/
def bc0_apply (st : BC0State) : BC0Op → BC0State
  | .lit v =>
    { st with
      w := st.w ++ [v]
      memo := Function.update st.memo st.memo_offset v
      memo_offset := (st.memo_offset + 1) &&& 0x0FFF }
  | .ref a1 a2 =>
    bc0_copy (a1.toNat ||| ((a2.toNat <<< 4) &&& 0xF00)) ((a2.toNat &&& 0x0F) + 3) 0 st

/-- The memo of `bc0_decompress` mirrors the last `0x1000` bytes of the output
`out`, and the write cursor follows the output length. -/
def BC0State.mirrors (st : BC0State) (out : List UInt8) : Prop :=
  st.w = out ∧ st.memo_offset = (0x0FEE + out.length) % 0x1000 ∧
  ∀ i, i < out.length → out.length ≤ i + 0x1000 →
    st.memo ((0x0FEE + i) % 0x1000) = out.getD i 0

/-- The writer holds the groups `full` (flushed, eight opcodes each) and the
opcodes `part` of the group being filled. -/
def LZSSInterleavedWriter.holds (lw : LZSSInterleavedWriter) (full : List (List BC0Op))
    (part : List BC0Op) : Prop :=
  lw.w = full.flatMap bc0_group_bytes ∧ (∀ g ∈ full, g.length = 8) ∧ part.length < 8 ∧
  lw.next_control_bit = 2 ^ part.length ∧ lw.buf_offset = 1 + (part.flatMap BC0Op.data).length ∧
  lw.buf.length = 17 ∧ ∃ pad, lw.buf = bc0_group_bytes part ++ pad

/-- The pair (flushed groups, current group) after one more opcode. -/
def bc0_push (full : List (List BC0Op)) (part : List BC0Op) (op : BC0Op) :
    List (List BC0Op) × List BC0Op :=
  if part.length + 1 < 8 then (full, part ++ [op]) else (full ++ [part ++ [op]], [])

/-- The opcode `bc0_compress` writes for a match of `match_size` bytes (already
clamped) at `match_offset`, found at `read_offset`. -/
def bc0_op_of (in_data : List UInt8) (read_offset match_offset match_size : Nat) : BC0Op :=
  if match_size ≥ 3 then
    let memo_offset := (match_offset + SIZE_MOD - 0x12) % SIZE_MOD
    .ref (UInt8.ofNat (memo_offset &&& 0xFF))
      (UInt8.ofNat (((memo_offset >>> 4) &&& 0xF0) ||| (match_size - 3)))
  else .lit (in_data.getD read_offset 0)

/-- The memo invariant of `bc0_decompress` after `n = st.w.length` output
bytes: the cursor is `(0xFEE + n) mod 4096`, the memo mirrors the last 4096
output bytes, and the cells not written yet are zero. -/
def BC0State.memo_inv (st : BC0State) : Prop :=
  st.mirrors st.w ∧
  ∀ i, st.w.length ≤ i → i < 0x1000 → st.memo ((0x0FEE + i) % 0x1000) = 0

/-! ## Commands (`SendCommands.cc`) -/

/-- Errors raised by `generate_stats_change_subcommands` and by
`set_mask_for_ep3_game_command`. -/
inductive CommandError where
  /-- `runtime_error("stats change command is too large")`. -/
  | statsChangeTooLarge
  /-- `logic_error("Episode 3 game command is too short for masking")`. -/
  | tooShortForMasking
  /-- `runtime_error("command size field does not match actual size")`. -/
  | sizeFieldMismatch
  /-- `logic_error("only one of header->mask_key and mask_key may be nonzero")`. -/
  | maskKeys
  /-- The loop counter of the embedding ran out (proved unreachable). -/
  | outOfFuel
  deriving DecidableEq, Repr

/-- Modelled from the spec: the struct `G_UpdatePlayerStat_6x9A` is declared in
`CommandFormats.hh`, which is not among the sources, and the specification
leaves command layouts out. It is kept as the six values of the initialiser
`{{0x9A, 0x02, client_id}, 0, stat_ch, sub_amount}` on line 1513, in that
order; the last one is the amount of the subcommand, a `uint8_t`. -/
structure G_UpdatePlayerStat_6x9A where
  subcommand : Nat
  size : Nat
  client_id : Nat
  client_id2 : Nat
  what : UInt8
  amount : UInt8
  deriving DecidableEq, Repr

/-- The `while (amount > 0)` loop of `generate_stats_change_subcommands`.
`sub_amount` is a `uint8_t`, `amount` a `uint32_t`. Every iteration takes at
least 1 off `amount`, so `amount` itself is enough fuel. -/
def generate_stats_change_loop (client_id : Nat) (stat_ch : UInt8) :
    Nat → Nat → List G_UpdatePlayerStat_6x9A →
    Except CommandError (List G_UpdatePlayerStat_6x9A)
  | 0, amount, subs => if amount > 0 then .error .outOfFuel else .ok subs
  | fuel + 1, amount, subs =>
    if amount > 0 then
      let sub_amount := (min amount 0xFF) % 256
      generate_stats_change_loop client_id stat_ch fuel
        ((amount + 2 ^ 32 - sub_amount) % 2 ^ 32)
        (subs ++ [{ subcommand := 0x9A, size := 0x02, client_id := client_id, client_id2 := 0,
                    what := stat_ch, amount := UInt8.ofNat sub_amount }])
    else .ok subs

/-- `generate_stats_change_subcommands(client_id, stat, amount)`. The size of
`G_UpdatePlayerStat_6x9A`, declared in the missing `CommandFormats.hh`, is the
parameter `sizeof_sub`; `stat` is the value of the enumerator. -/
def generate_stats_change_subcommands (sizeof_sub client_id stat amount : Nat) :
    Except CommandError (List G_UpdatePlayerStat_6x9A) :=
  if amount > (0x7BF8 * 0xFF) / sizeof_sub then .error .statsChangeTooLarge
  else generate_stats_change_loop client_id (UInt8.ofNat stat) amount amount []

/-- The loop of `set_mask_for_ep3_game_command` (lines 1807-1810): `n`
iterations are left, `z` is the index and `k`, a `uint8_t`, the running key. -/
def set_mask_loop : Nat → Nat → Nat → List UInt8 → List UInt8
  | 0, _, _, data => data
  | n + 1, z, k, data =>
    let k1 := (k * 7 + 3) % 256
    set_mask_loop n (z + 1) k1 (data.set z (UInt8.ofNat ((data.getD z 0).toNat ^^^ k1)))

/-- `set_mask_for_ep3_game_command(vdata, size, mask_key)` on a buffer of `size`
bytes, which it changes in place: the result is the buffer afterwards. The
header struct is declared in the missing `CommandFormats.hh`; the offsets of
its one-byte fields `basic_header.size` and `mask_key` are the parameters
`size_offset` and `key_offset`. The function calls itself at most once, with
`mask_key = 0`; `fuel` bounds the depth of the calls. -/
def set_mask_calls (size_offset key_offset : Nat) :
    Nat → List UInt8 → UInt8 → Except CommandError (List UInt8)
  | 0, _, _ => .error .outOfFuel
  | fuel + 1, data, mask_key =>
    if data.length < 8 then .error .tooShortForMasking
    else
      let command_bytes := (data.getD size_offset 0).toNat * 4
      if command_bytes ≠ data.length then .error .sizeFieldMismatch
      else if data.getD key_offset 0 = mask_key then .ok data
      else
        let unmasked :=
          if mask_key ≠ 0 ∧ data.getD key_offset 0 ≠ 0 then
            set_mask_calls size_offset key_offset fuel data 0
          else .ok data
        match unmasked with
        | .error e => .error e
        | .ok data1 =>
          if decide (data1.getD key_offset 0 = 0) = decide (mask_key = 0) then .error .maskKeys
          else
            let k := (((data1.getD key_offset 0).toNat ^^^ mask_key.toNat) + 0x80) % 256
            let data2 := set_mask_loop (command_bytes - 8) 8 k data1
            .ok (data2.set key_offset mask_key)

/-- `set_mask_for_ep3_game_command`, with the two calls it can nest. -/
def set_mask_for_ep3_game_command (size_offset key_offset : Nat) (data : List UInt8)
    (mask_key : UInt8) : Except CommandError (List UInt8) :=
  set_mask_calls size_offset key_offset 2 data mask_key

/-! ## Auxiliary definitions for the ordered index of `bc0_compress` -/

/-- What `set_comparator` decides, in words: comparing `n` values of `f` from
`a` and from `b`, the first pair that differs has the smaller value on the
side of `a`, or no pair differs and `a < b`. -/
def lex_before (f : Nat → Nat) (n a b : Nat) : Prop :=
  (∃ i, i < n ∧ (∀ j, j < i → f (a + j) = f (b + j)) ∧ f (a + i) < f (b + i)) ∨
  ((∀ j, j < n → f (a + j) = f (b + j)) ∧ a < b)

/-- The byte of the input at an offset, as a number. -/
def byte_at (in_data : List UInt8) (j : Nat) : Nat := (in_data.getD j 0).toNat

/-- The values of `read_offset` and `window_index` at the start of each
iteration of the main loop of `bc0_compress` (lines 564-625): the loop of
`bc0_compress_loop` without the writer, which has no part in either value. -/
def bc0_compress_trace (in_data : List UInt8) : Nat → Nat → List Nat → List (Nat × List Nat)
  | 0, _, _ => []
  | fuel + 1, read_offset, window_index =>
    if read_offset < in_data.length then
      let found := bc0_find_match in_data window_index read_offset
      let match_size := if found.2 < 3 then 1 else found.2
      let next := bc0_update_index in_data match_size read_offset window_index
      (read_offset, window_index) :: bc0_compress_trace in_data fuel next.1 next.2
    else []

/-- The state of the ordered index when the compressor is at `read_offset`: it
holds each of the offsets `max(0, read_offset - 0x1000) .. read_offset - 1`
once and nothing else, in the order of `set_comparator` (for an input of
fewer than `2 ^ 64` bytes, `in_size` being a `size_t`). -/
def bc0_index_inv (in_data : List UInt8) (read_offset : Nat) (window_index : List Nat) : Prop :=
  read_offset ≤ in_data.length ∧ window_index.Nodup ∧
  (∀ m, m ∈ window_index ↔ (read_offset - 0x1000 ≤ m ∧ m < read_offset)) ∧
  (in_data.length < SIZE_MOD →
    window_index.Pairwise (fun x y => set_comparator in_data x y = true))

/-! ## Auxiliary definitions for compression level 0 -/

/-- The stream the specification describes for compression level 0, written
out: the bytes of the input as literal opcodes, eight behind each control byte
`0xFF`, then the stop opcode (control bits 0 and 1, two zero bytes). The last
control byte holds the bits of the 0 to 7 literals left, bit 0 first, and above
them the bits of the stop opcode; after 7 literals only the first bit of the
stop opcode fits, and the second opens a control byte of its own, which stands
before the two zero bytes. -/
def prs_literal_stream : List UInt8 → List UInt8
  | b0 :: b1 :: b2 :: b3 :: b4 :: b5 :: b6 :: b7 :: rest =>
    0xFF :: b0 :: b1 :: b2 :: b3 :: b4 :: b5 :: b6 :: b7 :: prs_literal_stream rest
  | b =>
    if b.length = 7 then 0x7F :: b ++ [0x01, 0, 0]
    else UInt8.ofNat (2 ^ b.length - 1 + 2 ^ (b.length + 1)) :: b ++ [0, 0]

/-- The pending control bits after `j` literal control bits in the open control
byte: `j` marker bits from bit 15 down, and `j` one bits at the top of the low
byte. -/
def prs_literal_pending (j : Nat) : Nat := 65536 - 2 ^ (16 - j) + (2 ^ j - 1) * 2 ^ (8 - j)

/-- The compressor has written the bytes `d` as literals and nothing else: the
groups `full` of eight literals with their control bytes `0xFF`, and the
literals `cur` of the open group behind its reserved control byte. -/
def PRSCompressor.literals_written (c : PRSCompressor) (d : List UInt8) : Prop :=
  ∃ (full : List (List UInt8)) (cur : List UInt8),
    d = full.flatten ++ cur ∧ (∀ g ∈ full, g.length = 8) ∧ cur.length ≤ 8 ∧
    c.output = full.flatMap (fun g => 0xFF :: g) ++ 0 :: cur ∧
    c.control_byte_offset = 9 * full.length ∧
    c.pending_control_bits = prs_literal_pending cur.length

/-- The state of a compressor at level 0 with a forward log of `S` bytes that
has received the bytes `done`: the bytes before `reverse_log.end_offset()` are
written as literals, the others wait in the forward log. -/
def PRSCompressor.level0 (c : PRSCompressor) (S : Nat) (done : List UInt8) : Prop :=
  c.compression_level = 0 ∧ c.closed = false ∧ c.forward_log.data.length = S ∧
  c.input_bytes = done.length ∧ c.reverse_log.end_offset ≤ done.length ∧
  done.length ≤ c.reverse_log.end_offset + S ∧
  (∀ i, c.reverse_log.end_offset ≤ i → i < done.length →
    c.forward_log.at i = done.getD i 0) ∧
  c.literals_written (done.take c.reverse_log.end_offset)

/-! ## Example states for the ties between candidate matches -/

/-- The compressor of level 2 that has received
`05 03 09 05 03 05 03 07 01 05 03 06` and committed the first five bytes: three
literals and a short copy of two bytes. -/
def prs_state_tie_k0 : PRSCompressor :=
  { compression_level := 2
    closed := false
    control_byte_offset := 0
    pending_control_bits := 0xFE0E
    input_bytes := 12
    forward_log := { data := [5, 3, 9, 5, 3, 5, 3, 7, 1, 5, 3, 6, 0, 0, 0, 0] }
    reverse_log := { data := [5, 3, 9, 5, 3] }
    output := [0, 5, 3, 9, 253] }

/-- The same compressor two calls of `advance` later, with eight bytes
committed: a second short copy of two bytes and the literal `07`. -/
def prs_state_tie_k1 : PRSCompressor :=
  { compression_level := 2
    closed := false
    control_byte_offset := 5
    pending_control_bits := 0xF080
    input_bytes := 12
    forward_log := { data := [5, 3, 9, 5, 3, 5, 3, 7, 1, 5, 3, 6, 0, 0, 0, 0] }
    reverse_log := { data := [5, 3, 9, 5, 3, 5, 3, 7] }
    output := [7, 5, 3, 9, 253, 0, 254, 7] }

/-! ## The PRS readers consume input -/

theorem get_u8_length {r : List UInt8} {v : UInt8} {rest : List UInt8}
    (h : get_u8 r = .ok (v, rest)) : r = v :: rest := by
  cases r with
  | nil => simp [get_u8] at h
  | cons b t =>
    simp only [get_u8, Except.ok.injEq, Prod.mk.injEq] at h
    rw [h.1, h.2]

theorem read_length {cr cr1 : ControlStreamReader} {b : Bool}
    (h : cr.read = .ok (b, cr1)) : cr1.r.length ≤ cr.r.length := by
  unfold ControlStreamReader.read at h
  split at h
  · cases hr : cr.r with
    | nil => rw [hr] at h; simp [get_u8] at h
    | cons c t =>
      rw [hr] at h
      simp only [get_u8, Except.ok.injEq, Prod.mk.injEq] at h
      rw [← h.2]; simp
  · simp only [Except.ok.injEq, Prod.mk.injEq] at h
    rw [← h.2]

theorem get_u8_error {r : List UInt8} {e : DecompressError}
    (h : get_u8 r = .error e) : e = .endOfInput ∧ r = [] := by
  cases r with
  | nil => simp only [get_u8, Except.error.injEq] at h; exact ⟨h.symm, rfl⟩
  | cons b t => simp [get_u8] at h

theorem read_error {cr : ControlStreamReader} {e : DecompressError}
    (h : cr.read = .error e) : e = .endOfInput ∧ cr.r = [] := by
  unfold ControlStreamReader.read at h
  by_cases hb : cr.bits &&& 0x0100 = 0
  · simp only [hb, if_true] at h
    rcases g : get_u8 cr.r with e1 | ⟨b, rest⟩
    · simp only [g, Except.error.injEq] at h
      rw [← h]; exact get_u8_error g
    · simp [g] at h
  · simp [hb] at h

theorem prs_read_backreference_error {cr : ControlStreamReader} {e : DecompressError}
    (h : prs_read_backreference cr = .error e) : e = .endOfInput := by
  unfold prs_read_backreference at h
  rcases h1 : cr.read with e1 | ⟨b, cr1⟩
  · simp only [h1, Except.error.injEq] at h
    rw [← h]; exact (read_error h1).1
  · cases b
    · simp only [h1] at h
      rcases h2 : cr1.read with e1 | ⟨b1, cr2⟩
      · simp only [h2, Except.error.injEq] at h
        rw [← h]; exact (read_error h2).1
      · simp only [h2] at h
        rcases h3 : cr2.read with e1 | ⟨b0, cr3⟩
        · simp only [h3, Except.error.injEq] at h
          rw [← h]; exact (read_error h3).1
        · simp only [h3] at h
          rcases g : get_u8 cr3.r with e1 | ⟨v, r4⟩
          · simp only [g, Except.error.injEq] at h
            rw [← h]; exact (get_u8_error g).1
          · simp [g] at h
    · simp only [h1] at h
      rcases g1 : get_u8 cr1.r with e1 | ⟨lo, r2⟩
      · simp only [g1, Except.error.injEq] at h
        rw [← h]; exact (get_u8_error g1).1
      · simp only [g1] at h
        rcases g2 : get_u8 r2 with e1 | ⟨hi, r3⟩
        · simp only [g2, Except.error.injEq] at h
          rw [← h]; exact (get_u8_error g2).1
        · simp only [g2] at h
          by_cases hstop : (lo.toNat ||| hi.toNat <<< 8) >>> 3 ||| NOT_1FFF = NOT_1FFF
          · simp [hstop] at h
          · simp only [hstop, if_false] at h
            by_cases hsz : (lo.toNat ||| hi.toNat <<< 8) &&& 7 ≠ 0
            · simp [hsz] at h
            · simp only [hsz, if_false] at h
              rcases g3 : get_u8 r3 with e1 | ⟨n, r4⟩
              · simp only [g3, Except.error.injEq] at h
                rw [← h]; exact (get_u8_error g3).1
              · simp [g3] at h

theorem prs_copy_error (m ro : Nat) : ∀ (n z : Nat) (w : List UInt8) (e : DecompressError),
    prs_copy m ro n z w = .error e → e = .maxOutputSize := by
  intro n
  induction n with
  | zero => intro z w e h; simp [prs_copy] at h
  | succ n ih =>
    intro z w e h
    unfold prs_copy at h
    by_cases hfull : m ≠ 0 ∧ w.length = m
    · simp only [hfull, and_self, if_true, Except.error.injEq, ne_eq, not_false_eq_true] at h
      exact h.symm
    · rw [if_neg hfull] at h
      exact ih _ _ _ h

theorem prs_copy_backreference_error {m offset count : Nat} {w : List UInt8}
    {e : DecompressError} (h : prs_copy_backreference m w offset count = .error e) :
    e = .maxOutputSize ∨ e = .backrefBeyondBeginning := by
  unfold prs_copy_backreference at h
  simp only at h
  by_cases hoff : (w.length + offset) % SIZE_MOD ≥ w.length
  · rw [if_pos hoff] at h
    simp only [Except.error.injEq] at h
    exact Or.inr h.symm
  · rw [if_neg hoff] at h
    exact Or.inl (prs_copy_error _ _ _ _ _ _ h)

theorem prs_read_backreference_length {cr cr2 : ControlStreamReader} {x : Nat × Nat}
    (h : prs_read_backreference cr = .ok (some x, cr2)) : cr2.r.length < cr.r.length := by
  unfold prs_read_backreference at h
  rcases h1 : cr.read with e | ⟨b, cr1⟩
  · simp [h1] at h
  · have l1 := read_length h1
    cases b
    · -- short backreference
      simp only [h1] at h
      rcases h2 : cr1.read with e | ⟨b1, cr2'⟩
      · simp [h2] at h
      · have l2 := read_length h2
        simp only [h2] at h
        rcases h3 : cr2'.read with e | ⟨b0, cr3⟩
        · simp [h3] at h
        · have l3 := read_length h3
          simp only [h3] at h
          rcases g : get_u8 cr3.r with e | ⟨v, r4⟩
          · simp [g] at h
          · have e := get_u8_length g
            simp only [g, Except.ok.injEq, Prod.mk.injEq] at h
            rw [← h.2]; simp only
            rw [e] at l3; simp at l3; omega
    · -- long backreference
      simp only [h1] at h
      rcases g1 : get_u8 cr1.r with e | ⟨lo, r2⟩
      · simp [g1] at h
      · have e1 := get_u8_length g1
        simp only [g1] at h
        rcases g2 : get_u8 r2 with e | ⟨hi, r3⟩
        · simp [g2] at h
        · have e2 := get_u8_length g2
          have l3 : r3.length + 2 ≤ cr.r.length := by
            rw [e1, e2] at l1; simpa using l1
          simp only [g2] at h
          by_cases hstop : (lo.toNat ||| hi.toNat <<< 8) >>> 3 ||| NOT_1FFF = NOT_1FFF
          · simp [hstop] at h
          · simp only [hstop, if_false] at h
            by_cases hsz : (lo.toNat ||| hi.toNat <<< 8) &&& 7 ≠ 0
            · simp only [hsz, if_true, ne_eq, not_false_eq_true, Except.ok.injEq, Prod.mk.injEq] at h
              rw [← h.2]; simp only; omega
            · simp only [hsz, if_false] at h
              rcases g3 : get_u8 r3 with e | ⟨n, r4⟩
              · simp [g3] at h
              · have e3 := get_u8_length g3
                simp only [g3, Except.ok.injEq, Prod.mk.injEq] at h
                rw [← h.2]; simp only
                rw [e3] at l3; simp at l3; omega

/-! ## `prs_decompress_size` against `prs_decompress` -/

theorem prs_copy_length (m ro : Nat) : ∀ (n z : Nat) (w : List UInt8), (m = 0 ∨ w.length ≤ m) →
    (prs_copy m ro n z w).toOption.map List.length =
      if m ≠ 0 ∧ w.length + n > m then none else some (w.length + n) := by
  intro n
  induction n with
  | zero =>
    intro z w hw
    have : ¬ (m ≠ 0 ∧ w.length + 0 > m) := by omega
    rw [if_neg this]
    simp [prs_copy, Except.toOption]
  | succ n ih =>
    intro z w hw
    unfold prs_copy
    by_cases hfull : m ≠ 0 ∧ w.length = m
    · have : m ≠ 0 ∧ w.length + (n + 1) > m := by omega
      simp [hfull, this, Except.toOption]
    · rw [if_neg hfull]
      have hw' : m = 0 ∨ (w ++ [w.getD (ro + z) 0]).length ≤ m := by
        simp only [List.length_append, List.length_singleton]; omega
      rw [ih (z + 1) _ hw']
      simp only [List.length_append, List.length_singleton]
      by_cases hc : m ≠ 0 ∧ w.length + 1 + n > m
      · have : m ≠ 0 ∧ w.length + (n + 1) > m := by omega
        rw [if_pos hc, if_pos this]
      · have : ¬ (m ≠ 0 ∧ w.length + (n + 1) > m) := by omega
        rw [if_neg hc, if_neg this]
        congr 1; omega

theorem prs_copy_ok_length {m ro n z : Nat} {w w2 : List UInt8} (hw : m = 0 ∨ w.length ≤ m)
    (h : prs_copy m ro n z w = .ok w2) : w2.length = w.length + n ∧ (m = 0 ∨ w2.length ≤ m) := by
  have := prs_copy_length m ro n z w hw
  rw [h] at this
  simp only [Except.toOption, Option.map_some'] at this
  split at this
  · simp at this
  · simp only [Option.some.injEq] at this
    omega

/-- Errors of one iteration of `prs_decompress` are never `outOfFuel`. -/
theorem prs_decompress_step_error {m : Nat} {cr : ControlStreamReader} {w : List UInt8}
    {e : DecompressError} (h : prs_decompress_step m cr w = .error e) :
    e = .endOfInput ∨ e = .maxOutputSize ∨ e = .backrefBeyondBeginning := by
  unfold prs_decompress_step at h
  rcases h1 : cr.read with e1 | ⟨b, cr1⟩
  · simp only [h1, Except.error.injEq] at h
    rw [← h]; exact Or.inl (read_error h1).1
  · cases b
    · simp only [h1] at h
      rcases hb : prs_read_backreference cr1 with e1 | ⟨x, cr2⟩
      · simp only [hb, Except.error.injEq] at h
        rw [← h]; exact Or.inl (prs_read_backreference_error hb)
      · cases x with
        | none => simp [hb] at h
        | some x =>
          simp only [hb] at h
          rcases hc : prs_copy_backreference m w x.1 x.2 with e1 | w2
          · simp only [hc, Except.error.injEq] at h
            rw [← h]
            rcases prs_copy_backreference_error hc with h' | h'
            · exact Or.inr (Or.inl h')
            · exact Or.inr (Or.inr h')
          · simp [hc] at h
    · simp only [h1] at h
      by_cases hfull : m ≠ 0 ∧ w.length = m
      · rw [if_pos hfull] at h
        simp only [Except.error.injEq] at h
        exact Or.inr (Or.inl h.symm)
      · rw [if_neg hfull] at h
        rcases g : get_u8 cr1.r with e1 | ⟨v, r2⟩
        · simp only [g, Except.error.injEq] at h
          rw [← h]; exact Or.inl (get_u8_error g).1
        · simp [g] at h

/-- An iteration of `prs_decompress` that goes round again has read a byte. -/
theorem prs_decompress_step_length {m : Nat} {cr cr1 : ControlStreamReader}
    {w w1 : List UInt8} (h : prs_decompress_step m cr w = .ok (.next cr1 w1)) :
    cr1.r.length < cr.r.length := by
  unfold prs_decompress_step at h
  rcases h1 : cr.read with e1 | ⟨b, cr0⟩
  · simp [h1] at h
  · have l1 := read_length h1
    cases b
    · simp only [h1] at h
      rcases hb : prs_read_backreference cr0 with e1 | ⟨x, cr2⟩
      · simp [hb] at h
      · cases x with
        | none => simp [hb] at h
        | some x =>
          have l2 := prs_read_backreference_length hb
          simp only [hb] at h
          rcases hc : prs_copy_backreference m w x.1 x.2 with e1 | w2
          · simp [hc] at h
          · simp only [hc, Except.ok.injEq, PRSStep.next.injEq] at h
            rw [← h.1]; omega
    · simp only [h1] at h
      by_cases hfull : m ≠ 0 ∧ w.length = m
      · rw [if_pos hfull] at h; simp at h
      · rw [if_neg hfull] at h
        rcases g : get_u8 cr0.r with e1 | ⟨v, r2⟩
        · simp [g] at h
        · have e := get_u8_length g
          simp only [g, Except.ok.injEq, PRSStep.next.injEq] at h
          rw [← h.1]; simp only
          rw [e] at l1; simp at l1; omega

theorem prs_size_loop_refines (m : Nat) : ∀ (fuel : Nat) (cr : ControlStreamReader)
    (w : List UInt8), (m = 0 ∨ w.length ≤ m) →
    (prs_decompress_size_loop m fuel cr w.length).toOption =
      (prs_decompress_loop m fuel cr w).toOption.map List.length := by
  intro fuel
  induction fuel with
  | zero =>
    intro cr w _
    unfold prs_decompress_size_loop prs_decompress_loop
    by_cases hr : cr.r = [] <;> simp [hr, Except.toOption]
  | succ fuel ih =>
    intro cr w hw
    unfold prs_decompress_size_loop prs_decompress_loop prs_decompress_step
    by_cases hr : cr.r = []
    · simp [hr, Except.toOption]
    · rw [if_neg hr, if_neg hr]
      rcases h1 : cr.read with e1 | ⟨b, cr1⟩
      · simp [Except.toOption]
      · cases b
        · -- backreference
          simp only
          rcases hb : prs_read_backreference cr1 with e1 | ⟨x, cr2⟩
          · simp [Except.toOption]
          · cases x with
            | none => simp [Except.toOption]
            | some x =>
              obtain ⟨offset, count⟩ := x
              simp only
              unfold prs_copy_backreference
              simp only
              by_cases hoff : (w.length + offset) % SIZE_MOD ≥ w.length
              · rw [if_pos hoff, if_pos hoff]; simp [Except.toOption]
              · rw [if_neg hoff, if_neg hoff]
                have hlen := prs_copy_length m ((w.length + offset) % SIZE_MOD) count 0 w hw
                by_cases hc : m ≠ 0 ∧ w.length + count > m
                · rw [if_pos hc] at hlen ⊢
                  cases hcopy : prs_copy m ((w.length + offset) % SIZE_MOD) count 0 w with
                  | error e => simp [Except.toOption]
                  | ok w2 => rw [hcopy] at hlen; simp [Except.toOption] at hlen
                · rw [if_neg hc] at hlen ⊢
                  cases hcopy : prs_copy m ((w.length + offset) % SIZE_MOD) count 0 w with
                  | error e => rw [hcopy] at hlen; simp [Except.toOption] at hlen
                  | ok w2 =>
                    have hl := prs_copy_ok_length hw hcopy
                    simp only
                    rw [← hl.1]
                    exact ih cr2 w2 hl.2
        · -- literal
          simp only
          by_cases hfull : m ≠ 0 ∧ w.length = m
          · have h2 : m ≠ 0 ∧ w.length + 1 > m := by omega
            rw [if_pos hfull]
            rcases g : get_u8 cr1.r with e1 | ⟨v, r2⟩
            · simp [Except.toOption]
            · simp only
              rw [if_pos h2]; simp [Except.toOption]
          · have h2 : ¬ (m ≠ 0 ∧ w.length + 1 > m) := by omega
            rw [if_neg hfull]
            rcases g : get_u8 cr1.r with e1 | ⟨v, r2⟩
            · simp [Except.toOption]
            · simp only
              rw [if_neg h2]
              have hw' : m = 0 ∨ (w ++ [v]).length ≤ m := by
                simp only [List.length_append, List.length_singleton]; omega
              have := ih { r := r2, bits := cr1.bits } (w ++ [v]) hw'
              simpa using this

/-- The loop of `prs_decompress` never runs out of fuel when the fuel is at
least the number of unread bytes. -/
theorem prs_decompress_loop_fuel (m : Nat) : ∀ (fuel : Nat) (cr : ControlStreamReader)
    (w : List UInt8), cr.r.length ≤ fuel →
    prs_decompress_loop m fuel cr w ≠ .error .outOfFuel := by
  intro fuel
  induction fuel with
  | zero =>
    intro cr w h
    have : cr.r = [] := List.length_eq_zero.mp (by omega)
    simp [prs_decompress_loop, this]
  | succ fuel ih =>
    intro cr w h
    unfold prs_decompress_loop
    by_cases hr : cr.r = []
    · simp [hr]
    · rw [if_neg hr]
      rcases hs : prs_decompress_step m cr w with e | res
      · simp only [ne_eq, Except.error.injEq]
        rcases prs_decompress_step_error hs with h' | h' | h' <;> rw [h'] <;> simp
      · cases res with
        | stop cr1 w1 => simp
        | next cr1 w1 =>
          have := prs_decompress_step_length hs
          simp only
          apply ih; omega

/-- The loop of `prs_decompress_size` never runs out of fuel when the fuel is
at least the number of unread bytes. -/
theorem prs_decompress_size_loop_fuel (m : Nat) : ∀ (fuel : Nat) (cr : ControlStreamReader)
    (ret : Nat), cr.r.length ≤ fuel →
    prs_decompress_size_loop m fuel cr ret ≠ .error .outOfFuel := by
  intro fuel
  induction fuel with
  | zero =>
    intro cr ret h
    have : cr.r = [] := List.length_eq_zero.mp (by omega)
    simp [prs_decompress_size_loop, this]
  | succ fuel ih =>
    intro cr ret h
    unfold prs_decompress_size_loop
    by_cases hr : cr.r = []
    · simp [hr]
    · rw [if_neg hr]
      rcases h1 : cr.read with e | ⟨b, cr1⟩
      · simp only [ne_eq, Except.error.injEq]
        rw [(read_error h1).1]; simp
      · have l1 := read_length h1
        cases b
        · simp only
          rcases hb : prs_read_backreference cr1 with e | ⟨x, cr2⟩
          · simp only [ne_eq, Except.error.injEq]
            rw [prs_read_backreference_error hb]; simp
          · cases x with
            | none => simp
            | some x =>
              have l2 := prs_read_backreference_length hb
              simp only
              by_cases hoff : (ret + x.1) % SIZE_MOD ≥ ret
              · rw [if_pos hoff]; simp
              · rw [if_neg hoff]
                by_cases hc : m ≠ 0 ∧ ret + x.2 > m
                · rw [if_pos hc]; simp
                · rw [if_neg hc]
                  apply ih; omega
        · simp only
          rcases g : get_u8 cr1.r with e | ⟨v, r2⟩
          · simp only [ne_eq, Except.error.injEq]
            rw [(get_u8_error g).1]; simp
          · have e := get_u8_length g
            simp only
            by_cases hc : m ≠ 0 ∧ ret + 1 > m
            · rw [if_pos hc]; simp
            · rw [if_neg hc]
              apply ih
              simp only
              rw [e] at l1; simp at l1; omega

/-- C4: on every input `s` and every cap `m`, `prs_decompress_size` fails
exactly when `prs_decompress` fails, and when they succeed the size returned
is the length of the decompressed buffer; neither failure is an artefact of
the loop counter. -/
theorem prs_decompress_size_agrees (s : List UInt8) (m : Nat) :
    (prs_decompress_size s m).toOption = (prs_decompress s m).toOption.map List.length ∧
    prs_decompress s m ≠ .error .outOfFuel ∧
    prs_decompress_size s m ≠ .error .outOfFuel := by
  refine ⟨?_, ?_, ?_⟩
  · have := prs_size_loop_refines m s.length { r := s, bits := 0 } [] (by simp)
    simpa [prs_decompress_size, prs_decompress] using this
  · exact prs_decompress_loop_fuel m s.length _ _ (Nat.le_refl _)
  · exact prs_decompress_size_loop_fuel m s.length _ _ (Nat.le_refl _)

/-! ## Reading from a longer input -/

set_option maxRecDepth 100000 in
theorem control_bit8 : ∀ n < 256, ∀ k < 8, ((0xFF00 ||| n) >>> k) &&& 0x0100 ≠ 0 := by decide

set_option maxRecDepth 100000 in
theorem control_bit0_even : ∀ n < 256, n % 2 = 0 → (0xFF00 ||| n) &&& 1 = 0 := by decide

set_option maxRecDepth 100000 in
theorem control_bit1_clear : ∀ n < 256, n % 4 = 0 → ((0xFF00 ||| n) >>> 1) &&& 1 = 0 := by decide

set_option maxRecDepth 100000 in
theorem control_bit1_set : ∀ n < 256, n % 4 = 2 → ((0xFF00 ||| n) >>> 1) &&& 1 ≠ 0 := by decide

theorem read_refill {bits : Nat} (hb : bits &&& 0x0100 = 0) (c : UInt8) (r : List UInt8) :
    ControlStreamReader.read { r := c :: r, bits := bits } =
      .ok (decide ((0xFF00 ||| c.toNat) &&& 1 ≠ 0), { r := r, bits := (0xFF00 ||| c.toNat) >>> 1 }) := by
  simp [ControlStreamReader.read, hb, get_u8]

theorem read_buffered {bits : Nat} (hb : bits &&& 0x0100 ≠ 0) (r : List UInt8) :
    ControlStreamReader.read { r := r, bits := bits } =
      .ok (decide (bits &&& 1 ≠ 0), { r := r, bits := bits >>> 1 }) := by
  simp [ControlStreamReader.read, hb]

/-! ## Decoded offsets are negative -/

theorem lor_not_1FFF {x : Nat} (h : x < 0x2000) : x ||| NOT_1FFF = NOT_1FFF + x := by
  have := Nat.mul_add_lt_is_or (i := 13) (b := x) (by norm_num; omega) (2 ^ 51 - 1)
  rw [Nat.lor_comm]
  unfold NOT_1FFF
  norm_num at this ⊢
  omega

theorem lor_not_FF {x : Nat} (h : x < 0x100) : x ||| NOT_FF = NOT_FF + x := by
  have := Nat.mul_add_lt_is_or (i := 8) (b := x) (by norm_num; omega) (2 ^ 56 - 1)
  rw [Nat.lor_comm]
  unfold NOT_FF
  norm_num at this ⊢
  omega

theorem u16_of_bytes_lt (lo hi : UInt8) : (lo.toNat ||| (hi.toNat <<< 8)) < 65536 := by
  have h1 := lo.toNat_lt
  have h2 := hi.toNat_lt
  apply Nat.or_lt_two_pow (n := 16)
  · norm_num at h1 ⊢; omega
  · rw [Nat.shiftLeft_eq]; norm_num at h2 ⊢; omega

/-- Every backreference that `prs_read_backreference` returns has an offset
`2 ^ 64 - d` with `1 ≤ d ≤ 0x1FFF`, the pattern of the negative number `-d`. -/
theorem prs_read_backreference_offset {cr cr2 : ControlStreamReader} {offset count : Nat}
    (h : prs_read_backreference cr = .ok (some (offset, count), cr2)) :
    ∃ d, 1 ≤ d ∧ d ≤ 0x1FFF ∧ offset = 2 ^ 64 - d := by
  unfold prs_read_backreference at h
  rcases h1 : cr.read with e | ⟨b, cr1⟩
  · simp [h1] at h
  · cases b
    · simp only [h1] at h
      rcases h2 : cr1.read with e | ⟨b1, cr2'⟩
      · simp [h2] at h
      · simp only [h2] at h
        rcases h3 : cr2'.read with e | ⟨b0, cr3⟩
        · simp [h3] at h
        · simp only [h3] at h
          rcases g : get_u8 cr3.r with e | ⟨v, r4⟩
          · simp [g] at h
          · simp only [g, Except.ok.injEq, Prod.mk.injEq, Option.some.injEq] at h
            have hv := v.toNat_lt
            have := lor_not_FF (x := v.toNat) (by norm_num at hv ⊢; omega)
            refine ⟨0x100 - v.toNat, by omega, by omega, ?_⟩
            rw [← h.1.1, this]
            unfold NOT_FF
            norm_num at hv ⊢; omega
    · simp only [h1] at h
      rcases g1 : get_u8 cr1.r with e | ⟨lo, r2⟩
      · simp [g1] at h
      · simp only [g1] at h
        rcases g2 : get_u8 r2 with e | ⟨hi, r3⟩
        · simp [g2] at h
        · simp only [g2] at h
          have ha := u16_of_bytes_lt lo hi
          have hx : (lo.toNat ||| hi.toNat <<< 8) >>> 3 < 0x2000 := by
            rw [Nat.shiftRight_eq_div_pow]; omega
          have hor := lor_not_1FFF hx
          by_cases hstop : (lo.toNat ||| hi.toNat <<< 8) >>> 3 ||| NOT_1FFF = NOT_1FFF
          · simp [hstop] at h
          · have hne : (lo.toNat ||| hi.toNat <<< 8) >>> 3 ≠ 0 := by
              intro h0; apply hstop; rw [hor, h0]; rfl
            have hoff : (lo.toNat ||| hi.toNat <<< 8) >>> 3 ||| NOT_1FFF =
                2 ^ 64 - (0x2000 - (lo.toNat ||| hi.toNat <<< 8) >>> 3) := by
              rw [hor]; unfold NOT_1FFF; norm_num at hx ⊢; omega
            simp only [hstop, if_false] at h
            by_cases hsz : (lo.toNat ||| hi.toNat <<< 8) &&& 7 ≠ 0
            · simp only [hsz, if_true, ne_eq, not_false_eq_true, Except.ok.injEq,
                Prod.mk.injEq, Option.some.injEq] at h
              exact ⟨_, by omega, by omega, h.1.1 ▸ hoff⟩
            · simp only [hsz, if_false] at h
              rcases g3 : get_u8 r3 with e | ⟨n, r4⟩
              · simp [g3] at h
              · simp only [g3, Except.ok.injEq, Prod.mk.injEq, Option.some.injEq] at h
                exact ⟨_, by omega, by omega, h.1.1 ▸ hoff⟩

theorem toSSize_neg {d : Nat} (h1 : 1 ≤ d) (h2 : d ≤ 0x2000) :
    toSSize (2 ^ 64 - d) = -(d : Int) := by
  unfold toSSize
  have : ¬ (2 ^ 64 - d < 2 ^ 63) := by norm_num; omega
  rw [if_neg this]
  norm_num
  omega

/-- The range check of a backreference with offset `-d`. -/
theorem prs_copy_backreference_check (m : Nat) (w : List UInt8) (d count : Nat)
    (h1 : 1 ≤ d) (h2 : d ≤ 0x2000) (hw : w.length < 2 ^ 64) :
    (w.length < d → prs_copy_backreference m w (2 ^ 64 - d) count = .error .backrefBeyondBeginning) ∧
    (d ≤ w.length → prs_copy_backreference m w (2 ^ 64 - d) count =
      prs_copy m (w.length - d) count 0 w) := by
  unfold prs_copy_backreference SIZE_MOD
  simp only
  constructor
  · intro hlt
    have : (w.length + (2 ^ 64 - d)) % 2 ^ 64 ≥ w.length := by norm_num at hw ⊢; omega
    rw [if_pos this]
  · intro hle
    have : ¬ (w.length + (2 ^ 64 - d)) % 2 ^ 64 ≥ w.length := by norm_num at hw ⊢; omega
    rw [if_neg this]
    have : (w.length + (2 ^ 64 - d)) % 2 ^ 64 = w.length - d := by norm_num at hw ⊢; omega
    rw [this]

theorem prs_copy_no_cap (ro : Nat) (n z : Nat) (w : List UInt8) :
    ∃ w2, prs_copy 0 ro n z w = .ok w2 := by
  have := prs_copy_length 0 ro n z w (Or.inl rfl)
  rcases h : prs_copy 0 ro n z w with e | w2
  · rw [h] at this; simp [Except.toOption] at this
  · exact ⟨w2, rfl⟩

/-- The first opcode of a stream whose control byte starts with the bits 0, 0:
the short copy is read and, the output being empty, rejected. -/
theorem prs_first_short_copy (c : UInt8) (rest : List UInt8) (m : Nat)
    (hc : c.toNat % 4 = 0) :
    prs_decompress (c :: rest) m =
      .error (if rest = [] then .endOfInput else .backrefBeyondBeginning) := by
  have hn := c.toNat_lt
  have hlt : c.toNat < 256 := by norm_num at hn ⊢; omega
  have b0 := control_bit0_even c.toNat hlt (by omega)
  have b1 := control_bit1_clear c.toNat hlt hc
  have k1 := control_bit8 c.toNat hlt 1 (by decide)
  have k2 := control_bit8 c.toNat hlt 2 (by decide)
  have k3 := control_bit8 c.toNat hlt 3 (by decide)
  have s2 : ((0xFF00 ||| c.toNat) >>> 1) >>> 1 = (0xFF00 ||| c.toNat) >>> 2 := by
    rw [← Nat.shiftRight_add]
  have s3 : ((0xFF00 ||| c.toNat) >>> 2) >>> 1 = (0xFF00 ||| c.toNat) >>> 3 := by
    rw [← Nat.shiftRight_add]
  unfold prs_decompress
  simp only [List.length_cons]
  unfold prs_decompress_loop
  rw [if_neg (by simp)]
  unfold prs_decompress_step
  rw [read_refill (by decide)]
  simp only [b0, ne_eq, not_true_eq_false, decide_False]
  unfold prs_read_backreference
  rw [read_buffered k1]
  simp only [b1, ne_eq, not_true_eq_false, decide_False, s2]
  rw [read_buffered k2]
  simp only [s3]
  rw [read_buffered k3]
  cases rest with
  | nil => simp [get_u8]
  | cons v rest =>
    simp only [get_u8]
    unfold prs_copy_backreference
    simp

/-- The first opcode of a stream whose control byte starts with the bits 0, 1
and whose 16-bit field has a non-zero offset part: the long copy is read and,
the output being empty, rejected (or the length byte of an extended copy is
missing). -/
theorem prs_first_long_copy (c lo hi : UInt8) (rest : List UInt8) (m : Nat)
    (hc : c.toNat % 4 = 2) (hoff : (lo.toNat ||| hi.toNat <<< 8) >>> 3 ≠ 0) :
    prs_decompress (c :: lo :: hi :: rest) m =
      .error (if (lo.toNat ||| hi.toNat <<< 8) &&& 7 = 0 ∧ rest = [] then .endOfInput
        else .backrefBeyondBeginning) := by
  have hn := c.toNat_lt
  have hlt : c.toNat < 256 := by norm_num at hn ⊢; omega
  have b0 := control_bit0_even c.toNat hlt (by omega)
  have b1 := control_bit1_set c.toNat hlt hc
  have k1 := control_bit8 c.toNat hlt 1 (by decide)
  have ha := u16_of_bytes_lt lo hi
  have hx : (lo.toNat ||| hi.toNat <<< 8) >>> 3 < 0x2000 := by
    rw [Nat.shiftRight_eq_div_pow]; omega
  have hstop : ¬ ((lo.toNat ||| hi.toNat <<< 8) >>> 3 ||| NOT_1FFF = NOT_1FFF) := by
    rw [lor_not_1FFF hx]; omega
  unfold prs_decompress
  simp only [List.length_cons]
  unfold prs_decompress_loop
  rw [if_neg (by simp)]
  unfold prs_decompress_step
  rw [read_refill (by decide)]
  simp only [b0, ne_eq, not_true_eq_false, decide_False]
  unfold prs_read_backreference
  rw [read_buffered k1]
  simp only [b1, ne_eq, not_false_eq_true, decide_True, get_u8, hstop, if_false]
  by_cases hsz : (lo.toNat ||| hi.toNat <<< 8) &&& 7 = 0
  · cases rest with
    | nil => simp [hsz, get_u8]
    | cons n rest =>
      simp only [hsz, not_true_eq_false, if_false, get_u8]
      unfold prs_copy_backreference
      simp
  · simp only [hsz, not_false_eq_true, if_true, false_and, if_false]
    unfold prs_copy_backreference
    simp

/-- C6: when `prs_decompress` has read a non-stop backreference (short, long or
extended) with offset `o` while the output has length `L`, the offset is
negative and the copy fails with "backreference offset beyond beginning of
output" exactly when `L + o < 0`; without a cap that is the only way the copy
fails, and the whole decompression then fails with that error. In particular
a stream whose first opcode is a short copy, or a long copy with a non-zero
offset field, fails. -/
theorem prs_backreference_range_check (cr cr2 : ControlStreamReader) (offset count : Nat)
    (w : List UInt8) (m : Nat)
    (hread : prs_read_backreference cr = .ok (some (offset, count), cr2))
    (hw : w.length < 2 ^ 64) :
    toSSize offset < 0 ∧
    (prs_copy_backreference m w offset count = .error .backrefBeyondBeginning ↔
      (w.length : Int) + toSSize offset < 0) ∧
    ((∃ e, prs_copy_backreference 0 w offset count = .error e) ↔
      (w.length : Int) + toSSize offset < 0) ∧
    (∀ (cr0 : ControlStreamReader) (fuel : Nat), cr0.r ≠ [] → cr0.read = .ok (false, cr) →
      (w.length : Int) + toSSize offset < 0 →
      prs_decompress_loop m (fuel + 1) cr0 w = .error .backrefBeyondBeginning) ∧
    (∀ (c : UInt8) (rest : List UInt8) (m1 : Nat), c.toNat % 4 = 0 →
      ∃ e, prs_decompress (c :: rest) m1 = .error e) ∧
    (∀ (c lo hi : UInt8) (rest : List UInt8) (m1 : Nat), c.toNat % 4 = 2 →
      (lo.toNat ||| hi.toNat <<< 8) >>> 3 ≠ 0 →
      ∃ e, prs_decompress (c :: lo :: hi :: rest) m1 = .error e) := by
  obtain ⟨d, hd1, hd2, rfl⟩ := prs_read_backreference_offset hread
  have hs := toSSize_neg hd1 (by omega : d ≤ 0x2000)
  have hchk := prs_copy_backreference_check m w d count hd1 (by omega) hw
  have hchk0 := prs_copy_backreference_check 0 w d count hd1 (by omega) hw
  have hiff : (w.length : Int) + toSSize (2 ^ 64 - d) < 0 ↔ w.length < d := by
    rw [hs]; omega
  refine ⟨by rw [hs]; omega, ?_, ?_, ?_, ?_, ?_⟩
  · rw [hiff]
    constructor
    · intro h
      by_contra hge
      rw [hchk.2 (by omega)] at h
      have := prs_copy_error _ _ _ _ _ _ h
      simp at this
    · exact hchk.1
  · rw [hiff]
    constructor
    · rintro ⟨e, h⟩
      by_contra hge
      rw [hchk0.2 (by omega)] at h
      obtain ⟨w2, h2⟩ := prs_copy_no_cap (w.length - d) count 0 w
      rw [h2] at h; simp at h
    · intro h; exact ⟨_, hchk0.1 h⟩
  · intro cr0 fuel hne h0 hneg
    unfold prs_decompress_loop
    rw [if_neg hne]
    unfold prs_decompress_step
    simp only [h0, hread]
    rw [hchk.1 (hiff.mp hneg)]
  · intro c rest m1 hc
    exact ⟨_, prs_first_short_copy c rest m1 hc⟩
  · intro c lo hi rest m1 hc hoff
    exact ⟨_, prs_first_long_copy c lo hi rest m1 hc hoff⟩

/-- Witness of C6: the stream `19 41 F0` (a literal, then a short copy of
five bytes from 16 bytes back) at the short copy, with one byte of output. -/
theorem prs_backreference_range_check_witness :
    toSSize (0xF0 ||| NOT_FF) < 0 ∧
    (prs_copy_backreference 0 [0x41] (0xF0 ||| NOT_FF) 5 = .error .backrefBeyondBeginning ↔
      (([0x41] : List UInt8).length : Int) + toSSize (0xF0 ||| NOT_FF) < 0) :=
  have h := prs_backreference_range_check
    { r := [0xF0], bits := (0xFF00 ||| 0x19) >>> 2 } { r := [], bits := (0xFF00 ||| 0x19) >>> 5 }
    (0xF0 ||| NOT_FF) 5 [0x41] 0 (by decide) (by decide)
  ⟨h.1, h.2.1⟩

theorem ones_bit8 : ∀ i < 8, 1 ≤ i → (0xFFFF >>> i) &&& 0x0100 ≠ 0 := by decide

theorem ones_bit0 : ∀ i < 8, (0xFFFF >>> i) &&& 1 ≠ 0 := by decide

theorem prs_decompress_loop_nil (m fuel bits : Nat) (w : List UInt8) :
    prs_decompress_loop m fuel { r := [], bits := bits } w = .ok w := by
  cases fuel <;> simp [prs_decompress_loop]

theorem prs_decompress_loop_succ (m fuel : Nat) (cr : ControlStreamReader) (w : List UInt8)
    (hne : cr.r ≠ []) :
    prs_decompress_loop m (fuel + 1) cr w =
      match prs_decompress_step m cr w with
      | .error e => .error e
      | .ok (.stop _ w1) => .ok w1
      | .ok (.next cr1 w1) => prs_decompress_loop m fuel cr1 w1 := by
  rw [prs_decompress_loop, if_neg hne]

/-- A literal whose control bit is buffered. -/
theorem prs_step_literal_buffered (m bits : Nat) (v : UInt8) (r w : List UInt8)
    (h8 : bits &&& 0x0100 ≠ 0) (h0 : bits &&& 1 ≠ 0) (hfull : ¬ (m ≠ 0 ∧ w.length = m)) :
    prs_decompress_step m { r := v :: r, bits := bits } w =
      .ok (.next { r := r, bits := bits >>> 1 } (w ++ [v])) := by
  unfold prs_decompress_step
  rw [read_buffered h8]
  simp only [h0, ne_eq, not_false_eq_true, decide_True]
  rw [if_neg hfull]
  simp only [get_u8]

/-- A literal whose control bit is the first of a new control byte. -/
theorem prs_step_literal_refill (m bits : Nat) (c v : UInt8) (r w : List UInt8)
    (h8 : bits &&& 0x0100 = 0) (h0 : (0xFF00 ||| c.toNat) &&& 1 ≠ 0)
    (hfull : ¬ (m ≠ 0 ∧ w.length = m)) :
    prs_decompress_step m { r := c :: v :: r, bits := bits } w =
      .ok (.next { r := r, bits := (0xFF00 ||| c.toNat) >>> 1 } (w ++ [v])) := by
  unfold prs_decompress_step
  rw [read_refill h8]
  simp only [h0, ne_eq, not_false_eq_true, decide_True]
  rw [if_neg hfull]
  simp only [get_u8]

/-- Literals whose control bits are buffered: `i` bits of the control byte
`0xFF` have been used. -/
theorem prs_literals_buffered (m : Nat) : ∀ (g : List UInt8) (i : Nat) (rest w : List UInt8)
    (fuel : Nat), 1 ≤ i → i + g.length ≤ 8 → (m = 0 ∨ w.length + g.length ≤ m) →
    prs_decompress_loop m (fuel + g.length) { r := g ++ rest, bits := 0xFFFF >>> i } w =
      prs_decompress_loop m fuel { r := rest, bits := 0xFFFF >>> (i + g.length) } (w ++ g) := by
  intro g
  induction g with
  | nil => intro i rest w fuel _ _ _; simp
  | cons v g ih =>
    intro i rest w fuel hi hlen hm
    simp only [List.length_cons] at hlen hm
    have h8 := ones_bit8 i (by omega) hi
    have h0 := ones_bit0 i (by omega)
    have hfull : ¬ (m ≠ 0 ∧ w.length = m) := by omega
    have hfuel : fuel + (v :: g).length = (fuel + g.length) + 1 := by
      simp only [List.length_cons]; omega
    rw [hfuel, List.cons_append, prs_decompress_loop_succ _ _ _ _ (by simp),
      prs_step_literal_buffered m _ v _ w h8 h0 hfull]
    simp only
    rw [← Nat.shiftRight_add]
    rw [ih (i + 1) rest (w ++ [v]) fuel (by omega) (by omega)
      (by simp only [List.length_append, List.length_singleton]; omega)]
    simp only [List.length_cons, List.append_assoc, List.singleton_append]
    congr 2
    rw [Nat.add_assoc, Nat.add_comm 1]

/-- One group: the control byte `0xFF` followed by one to eight literals.
The loop goes round once for each literal. -/
theorem prs_literal_group (m : Nat) (g rest w : List UInt8) (bits fuel : Nat)
    (hb : bits &&& 0x0100 = 0) (h1 : 1 ≤ g.length) (h8 : g.length ≤ 8)
    (hm : m = 0 ∨ w.length + g.length ≤ m) :
    prs_decompress_loop m (fuel + g.length) { r := 0xFF :: (g ++ rest), bits := bits } w =
      prs_decompress_loop m fuel { r := rest, bits := 0xFFFF >>> g.length } (w ++ g) := by
  cases g with
  | nil => simp at h1
  | cons v g =>
    simp only [List.length_cons] at h8 hm
    have hfull : ¬ (m ≠ 0 ∧ w.length = m) := by omega
    have hfuel : fuel + (v :: g).length = (fuel + g.length) + 1 := by
      simp only [List.length_cons]; omega
    rw [hfuel, List.cons_append, prs_decompress_loop_succ _ _ _ _ (by simp),
      prs_step_literal_refill m bits 0xFF v _ w hb (by decide) hfull]
    simp only [List.length_cons]
    have hFF : (0xFF00 ||| (0xFF : UInt8).toNat) >>> 1 = 0xFFFF >>> 1 := by decide
    rw [hFF, prs_literals_buffered m g 1 rest (w ++ [v]) fuel (by omega) (by omega)
      (by simp only [List.length_append, List.length_singleton]; omega)]
    simp only [List.append_assoc, List.singleton_append]
    congr 2
    rw [Nat.add_comm]

theorem prs_literal_groups (m : Nat) : ∀ (groups : List (List UInt8)) (last w : List UInt8)
    (bits fuel : Nat), bits &&& 0x0100 = 0 → (∀ g ∈ groups, g.length = 8) →
    1 ≤ last.length → last.length ≤ 8 →
    (m = 0 ∨ w.length + (groups ++ [last]).flatten.length ≤ m) →
    (groups ++ [last]).flatten.length ≤ fuel →
    prs_decompress_loop m fuel
      { r := (groups ++ [last]).flatMap (fun g => 0xFF :: g), bits := bits } w =
      .ok (w ++ (groups ++ [last]).flatten) := by
  intro groups
  induction groups with
  | nil =>
    intro last w bits fuel hb _ h1 h8 hm hf
    simp only [List.nil_append, List.flatMap_cons, List.flatMap_nil, List.append_nil,
      List.flatten_cons, List.flatten_nil] at hm hf ⊢
    obtain ⟨f, rfl⟩ : ∃ f, fuel = f + last.length := ⟨fuel - last.length, by omega⟩
    have := prs_literal_group m last [] w bits f hb h1 h8 hm
    simp only [List.append_nil] at this
    rw [this, prs_decompress_loop_nil]
  | cons g groups ih =>
    intro last w bits fuel hb hg h1 h8 hm hf
    have hg8 : g.length = 8 := hg g (List.mem_cons_self _ _)
    simp only [List.cons_append, List.flatMap_cons, List.flatten_cons, List.length_append] at hm hf ⊢
    obtain ⟨f, rfl⟩ : ∃ f, fuel = f + g.length := ⟨fuel - g.length, by omega⟩
    rw [prs_literal_group m g _ w bits f hb (by omega) (by omega) (by omega)]
    rw [hg8]
    rw [ih last (w ++ g) (0xFFFF >>> 8) f (by decide) (fun x hx => hg x (List.mem_cons_of_mem _ hx))
      h1 h8 (by simp only [List.length_append]; omega) (by omega)]
    rw [List.append_assoc]

/-- C8: a PRS stream of literals only, with no stop opcode, that ends at an
opcode boundary decodes to its literals: when a byte list is cut into groups
of 8 bytes and a last group of 1 to 8 bytes and each group is prefixed with
the control byte `0xFF`, `prs_decompress` returns the byte list (the control
bits the last group leaves unused are ignored); and the empty stream decodes
to the empty buffer. The cap is absent or at least the decoded size. -/
theorem prs_literal_stream_decodes (groups : List (List UInt8)) (last : List UInt8) (m : Nat)
    (hg : ∀ g ∈ groups, g.length = 8) (h1 : 1 ≤ last.length) (h8 : last.length ≤ 8)
    (hm : m = 0 ∨ (groups ++ [last]).flatten.length ≤ m) :
    prs_decompress ((groups ++ [last]).flatMap (fun g => 0xFF :: g)) m =
      .ok (groups ++ [last]).flatten ∧
    prs_decompress [] m = .ok [] := by
  constructor
  · have := prs_literal_groups m groups last [] 0
      ((groups ++ [last]).flatMap (fun g => 0xFF :: g)).length (by decide) hg h1 h8
      (by simpa using hm)
      (by
        simp only [List.length_flatten, List.length_flatMap, List.length_cons]
        apply List.sum_le_sum
        intro g _
        simp only [Function.comp, List.length_cons]
        omega)
    simpa [prs_decompress] using this
  · simp [prs_decompress, prs_decompress_loop]

/-- Witness of C8: nine literals, in a full group and a group of one. -/
theorem prs_literal_stream_decodes_witness :
    prs_decompress [0xFF, 1, 2, 3, 4, 5, 6, 7, 8, 0xFF, 9] 0 = .ok [1, 2, 3, 4, 5, 6, 7, 8, 9] :=
  (prs_literal_stream_decodes [[1, 2, 3, 4, 5, 6, 7, 8]] [9] 0 (by decide) (by decide)
    (by decide) (Or.inl rfl)).1

/-! ## `bc0_decompress` never fails -/

theorem bc0_copy_r (off : Nat) : ∀ (n z : Nat) (st : BC0State),
    (bc0_copy off n z st).r = st.r ∧
    (bc0_copy off n z st).control_stream_bits = st.control_stream_bits := by
  intro n
  induction n with
  | zero => intro z st; exact ⟨rfl, rfl⟩
  | succ n ih =>
    intro z st
    unfold bc0_copy
    simp only
    exact ih _ _

/-- An opcode of `bc0_decompress`, started with input left, does not fail; if
the loop goes on, input was read. -/
theorem bc0_opcode_ok (st : BC0State) (hne : st.r ≠ []) :
    ∃ res, bc0_opcode st = .ok res ∧ ∀ st1, res = some st1 → st1.r.length < st.r.length := by
  unfold bc0_opcode
  cases hr : st.r with
  | nil => exact absurd hr hne
  | cons a r1 =>
    by_cases hb : st.control_stream_bits &&& 1 = 0
    · simp only [hb, if_true, get_u8]
      cases r1 with
      | nil => exact ⟨none, by simp⟩
      | cons a2 r2 =>
        simp only [reduceCtorEq, if_false]
        refine ⟨_, rfl, ?_⟩
        intro st1 h
        simp only [Option.some.injEq] at h
        rw [← h, (bc0_copy_r _ _ _ _).1]
        simp only [List.length_cons]
        omega
    · simp only [hb, if_false, get_u8]
      refine ⟨_, rfl, ?_⟩
      intro st1 h
      simp only [Option.some.injEq] at h
      rw [← h]
      simp only [List.length_cons]
      omega

/-- An iteration of the loop of `bc0_decompress`, started with input left,
does not fail; if the loop goes on, input was read. -/
theorem bc0_step_ok (st : BC0State) (hne : st.r ≠ []) :
    ∃ res, bc0_step st = .ok res ∧ ∀ st1, res = some st1 → st1.r.length < st.r.length := by
  unfold bc0_step
  simp only
  by_cases hb : (st.control_stream_bits >>> 1) &&& 0x100 = 0
  · rw [if_pos hb]
    cases hr : st.r with
    | nil => exact absurd hr hne
    | cons c r1 =>
      simp only [get_u8]
      cases r1 with
      | nil => exact ⟨none, by simp⟩
      | cons a r2 =>
        simp only [reduceCtorEq, if_false]
        obtain ⟨res, h1, h2⟩ := bc0_opcode_ok
          { st with r := a :: r2, control_stream_bits := 0xFF00 ||| c.toNat } (by simp)
        refine ⟨res, h1, ?_⟩
        intro st1 hs
        have := h2 st1 hs
        simp only [List.length_cons] at this ⊢
        omega
  · rw [if_neg hb]
    obtain ⟨res, h1, h2⟩ := bc0_opcode_ok
      { st with control_stream_bits := st.control_stream_bits >>> 1 } hne
    exact ⟨res, h1, h2⟩

theorem bc0_decompress_loop_ok : ∀ (fuel : Nat) (st : BC0State), st.r.length ≤ fuel →
    ∃ res, bc0_decompress_loop fuel st = .ok res := by
  intro fuel
  induction fuel with
  | zero =>
    intro st h
    have : st.r = [] := List.length_eq_zero.mp (by omega)
    exact ⟨(st, false), by simp [bc0_decompress_loop, this]⟩
  | succ fuel ih =>
    intro st h
    unfold bc0_decompress_loop
    by_cases hr : st.r = []
    · exact ⟨(st, false), by simp [hr]⟩
    · rw [if_neg hr]
      obtain ⟨res, h1, h2⟩ := bc0_step_ok st hr
      rw [h1]
      cases res with
      | none => exact ⟨(st, true), rfl⟩
      | some st1 =>
        have := h2 st1 rfl
        exact ih st1 (by omega)

/-- C9: `bc0_decompress` returns normally on every input: it never raises and
never reads past the end of the input (which would be the `endOfInput` error
of `get_u8`). An input that ends right after a control byte yields no output
for that byte, and one that ends after the first byte of a backreference
yields none for that backreference. -/
theorem bc0_decompress_total (s : List UInt8) :
    (∃ out, bc0_decompress s = .ok out) ∧
    (∀ c : UInt8, bc0_decompress [c] = .ok []) ∧
    (∀ c a1 : UInt8, c.toNat % 2 = 0 → bc0_decompress [c, a1] = .ok []) := by
  refine ⟨?_, ?_, ?_⟩
  · obtain ⟨res, h⟩ := bc0_decompress_loop_ok s.length (bc0_init s) (Nat.le_refl _)
    exact ⟨res.1.w, by unfold bc0_decompress bc0_init at *; rw [h]⟩
  · intro c
    simp [bc0_decompress, bc0_decompress_loop, bc0_init, bc0_step, get_u8]
  · intro c a1 hc
    have hn := c.toNat_lt
    have b0 := control_bit0_even c.toNat (by norm_num at hn ⊢; omega) hc
    simp [bc0_decompress, bc0_decompress_loop, bc0_init, bc0_step, get_u8, bc0_opcode, b0]

/-! ## A partial opcode at the end of a BC0 stream -/

theorem bc0_decompress_loop_succ (fuel : Nat) (st : BC0State) (hne : st.r ≠ []) :
    bc0_decompress_loop (fuel + 1) st =
      match bc0_step st with
      | .error e => .error e
      | .ok none => .ok (st, true)
      | .ok (some st1) => bc0_decompress_loop fuel st1 := by
  rw [bc0_decompress_loop, if_neg hne]

/-- More fuel than unread bytes changes nothing. -/
theorem bc0_decompress_loop_fuel : ∀ (fuel fuel2 : Nat) (st : BC0State),
    st.r.length ≤ fuel → st.r.length ≤ fuel2 →
    bc0_decompress_loop fuel st = bc0_decompress_loop fuel2 st := by
  intro fuel
  induction fuel with
  | zero =>
    intro fuel2 st h _
    have hr : st.r = [] := List.length_eq_zero.mp (by omega)
    cases fuel2 <;> simp [bc0_decompress_loop, hr]
  | succ fuel ih =>
    intro fuel2 st h h2
    by_cases hr : st.r = []
    · cases fuel2 <;> simp [bc0_decompress_loop, hr]
    · cases fuel2 with
      | zero =>
        exfalso; apply hr; exact List.length_eq_zero.mp (by omega)
      | succ fuel2 =>
        unfold bc0_decompress_loop
        rw [if_neg hr, if_neg hr]
        obtain ⟨res, h1, hlen⟩ := bc0_step_ok st hr
        rw [h1]
        cases res with
        | none => rfl
        | some st1 =>
          have := hlen st1 rfl
          exact ih fuel2 st1 (by omega) (by omega)

theorem bc0_copy_append (off : Nat) (t : List UInt8) : ∀ (n z : Nat) (st : BC0State),
    bc0_copy off n z { st with r := st.r ++ t } =
      { bc0_copy off n z st with r := (bc0_copy off n z st).r ++ t } := by
  intro n
  induction n with
  | zero => intro z st; rfl
  | succ n ih =>
    intro z st
    exact ih (z + 1)
      { st with
        w := st.w ++ [st.memo ((off + z) &&& 0x0FFF)]
        memo := Function.update st.memo st.memo_offset (st.memo ((off + z) &&& 0x0FFF))
        memo_offset := (st.memo_offset + 1) &&& 0x0FFF }

/-- An opcode that is decoded in full is decoded in the same way when more
input follows. -/
theorem bc0_opcode_append (st st1 : BC0State) (t : List UInt8)
    (h : bc0_opcode st = .ok (some st1)) :
    bc0_opcode { st with r := st.r ++ t } = .ok (some { st1 with r := st1.r ++ t }) := by
  unfold bc0_opcode at h ⊢
  by_cases hb : st.control_stream_bits &&& 1 = 0
  · simp only [hb, if_true] at h ⊢
    cases hr : st.r with
    | nil => rw [hr] at h; simp [get_u8] at h
    | cons a1 r1 =>
      rw [hr] at h
      cases r1 with
      | nil => simp [get_u8] at h
      | cons a2 r2 =>
        simp only [get_u8, reduceCtorEq, if_false, Except.ok.injEq, Option.some.injEq] at h
        simp only [List.cons_append, get_u8, reduceCtorEq, if_false, Except.ok.injEq,
          Option.some.injEq]
        rw [← h]
        exact bc0_copy_append _ t _ _ { st with r := r2 }
  · simp only [hb, if_false] at h ⊢
    cases hr : st.r with
    | nil => rw [hr] at h; simp [get_u8] at h
    | cons v r1 =>
      rw [hr] at h
      simp only [get_u8, Except.ok.injEq, Option.some.injEq] at h
      simp only [List.cons_append, get_u8, Except.ok.injEq, Option.some.injEq]
      rw [← h]

/-- An iteration that goes round the loop again does the same when more input
follows. -/
theorem bc0_step_append (st st1 : BC0State) (t : List UInt8)
    (h : bc0_step st = .ok (some st1)) :
    bc0_step { st with r := st.r ++ t } = .ok (some { st1 with r := st1.r ++ t }) := by
  unfold bc0_step at h ⊢
  simp only at h ⊢
  by_cases hb : (st.control_stream_bits >>> 1) &&& 0x100 = 0
  · rw [if_pos hb] at h ⊢
    cases hr : st.r with
    | nil => rw [hr] at h; simp [get_u8] at h
    | cons c r1 =>
      rw [hr] at h
      cases r1 with
      | nil => simp [get_u8] at h
      | cons a r2 =>
        simp only [get_u8, reduceCtorEq, if_false] at h
        simp only [List.cons_append, get_u8, reduceCtorEq, if_false]
        exact bc0_opcode_append _ _ t h
  · rw [if_neg hb] at h ⊢
    exact bc0_opcode_append _ _ t h

/-- A run that ends between two opcodes is the beginning of the run on a
longer input. -/
theorem bc0_decompress_loop_append (t : List UInt8) : ∀ (fuel : Nat) (st stf : BC0State),
    st.r.length ≤ fuel → bc0_decompress_loop fuel st = .ok (stf, false) →
    ∀ fuel2, (st.r ++ t).length ≤ fuel2 →
    bc0_decompress_loop fuel2 { st with r := st.r ++ t } =
      bc0_decompress_loop t.length { stf with r := t } := by
  intro fuel
  induction fuel with
  | zero =>
    intro st stf h hrun fuel2 h2
    have hr : st.r = [] := List.length_eq_zero.mp (by omega)
    simp only [bc0_decompress_loop, hr, if_true, Except.ok.injEq, Prod.mk.injEq, and_true] at hrun
    rw [← hrun, hr, List.nil_append]
    rw [hr] at h2
    exact bc0_decompress_loop_fuel _ _ _ (by simpa using h2) (Nat.le_refl _)
  | succ fuel ih =>
    intro st stf h hrun fuel2 h2
    by_cases hr : st.r = []
    · simp only [bc0_decompress_loop, hr, if_true, Except.ok.injEq, Prod.mk.injEq, and_true] at hrun
      rw [← hrun, hr, List.nil_append]
      rw [hr] at h2
      exact bc0_decompress_loop_fuel _ _ _ (by simpa using h2) (Nat.le_refl _)
    · unfold bc0_decompress_loop at hrun
      rw [if_neg hr] at hrun
      obtain ⟨res, h1, hlen⟩ := bc0_step_ok st hr
      rw [h1] at hrun
      cases res with
      | none => simp at hrun
      | some st1 =>
        have hl := hlen st1 rfl
        simp only at hrun
        cases fuel2 with
        | zero => simp at h2; exact absurd h2.1 hr
        | succ fuel2 =>
          have hne : st.r ++ t ≠ [] := by simp [hr]
          rw [bc0_decompress_loop_succ fuel2 { st with r := st.r ++ t } hne,
            bc0_step_append st st1 t h1]
          simp only
          have := ih st1 stf (by omega) hrun fuel2 (by
            simp only [List.length_append] at h2 ⊢; omega)
          exact this

/-- C10: appending a partial opcode to a BC0 stream that ends at an opcode
boundary does not change what `bc0_decompress` returns. `bits` are the control
bits left when the stream `s` ends between two opcodes; the appended byte `x`
is a partial opcode when all 8 bits of the last control byte are used (then
`x` is a lone control byte) or when the next control bit is 0 (then `x` is the
first byte of a backreference whose second byte is missing). -/
theorem bc0_partial_opcode_ignored (s : List UInt8) (bits : Nat) (x : UInt8)
    (hs : bc0_boundary_bits s = some bits)
    (hp : (bits >>> 1) &&& 0x100 = 0 ∨ (bits >>> 1) &&& 1 = 0) :
    bc0_decompress (s ++ [x]) = bc0_decompress s := by
  unfold bc0_boundary_bits at hs
  rcases hrun : bc0_decompress_loop s.length (bc0_init s) with e | ⟨stf, brk⟩
  · simp [hrun] at hs
  · cases brk
    · simp only [hrun, Option.some.injEq] at hs
      have hext := bc0_decompress_loop_append [x] s.length (bc0_init s) stf (Nat.le_refl _) hrun
        (s ++ [x]).length (Nat.le_refl _)
      have hinit : { bc0_init s with r := (bc0_init s).r ++ [x] } = bc0_init (s ++ [x]) := rfl
      rw [hinit] at hext
      unfold bc0_decompress
      rw [hext, hrun]
      simp only [List.length_singleton]
      rw [bc0_decompress_loop_succ 0 _ (by simp)]
      unfold bc0_step
      simp only [hs]
      by_cases hb : (bits >>> 1) &&& 0x100 = 0
      · simp [hb, get_u8]
      · rcases hp with hp | hp
        · exact absurd hp hb
        · simp [hb, bc0_opcode, hp, get_u8]
    · simp [hrun] at hs

/-- Witness of C10: after eight literals the control byte is used up and a
ninth byte is a lone control byte. -/
theorem bc0_partial_opcode_ignored_witness :
    bc0_decompress ([0xFF, 1, 2, 3, 4, 5, 6, 7, 8] ++ [0x55]) =
      bc0_decompress [0xFF, 1, 2, 3, 4, 5, 6, 7, 8] :=
  bc0_partial_opcode_ignored [0xFF, 1, 2, 3, 4, 5, 6, 7, 8] 0x1FF 0x55 (by decide) (by decide)

/-! ## The PRS compressor never raises -/

theorem write_control_fields (c : PRSCompressor) (z : Bool) :
    (c.write_control z).reverse_log = c.reverse_log ∧
    (c.write_control z).forward_log = c.forward_log ∧
    (c.write_control z).input_bytes = c.input_bytes ∧
    (c.write_control z).compression_level = c.compression_level ∧
    (c.write_control z).closed = c.closed := by
  unfold PRSCompressor.write_control
  split <;> exact ⟨rfl, rfl, rfl, rfl, rfl⟩

theorem write_control_pending (c : PRSCompressor) (z : Bool) :
    (c.write_control z).pending_control_bits &&& 0xFF00 ≠ 0 := by
  unfold PRSCompressor.write_control
  split
  · cases z <;> simp only [Bool.false_eq_true, if_false, if_true] <;> decide
  · intro h
    cases z
    · simp only [Bool.false_eq_true, if_false] at h
      have : (((c.pending_control_bits >>> 1) ||| 0x8000) &&& 0xFF00).testBit 15 = true := by
        simp only [Nat.testBit_and, Nat.testBit_or, Bool.and_eq_true, Bool.or_eq_true]
        exact ⟨Or.inr (by decide), by decide⟩
      rw [h] at this
      simp at this
    · simp only [if_true] at h
      have : (((c.pending_control_bits >>> 1) ||| 0x8080) &&& 0xFF00).testBit 15 = true := by
        simp only [Nat.testBit_and, Nat.testBit_or, Bool.and_eq_true, Bool.or_eq_true]
        exact ⟨Or.inr (by decide), by decide⟩
      rw [h] at this
      simp at this

theorem move_forward_fields (n : Nat) : ∀ c : PRSCompressor,
    (c.move_forward_data_to_reverse_log n).reverse_log.end_offset = c.reverse_log.end_offset + n ∧
    (c.move_forward_data_to_reverse_log n).forward_log = c.forward_log ∧
    (c.move_forward_data_to_reverse_log n).input_bytes = c.input_bytes ∧
    (c.move_forward_data_to_reverse_log n).compression_level = c.compression_level ∧
    (c.move_forward_data_to_reverse_log n).closed = c.closed ∧
    (c.move_forward_data_to_reverse_log n).output = c.output ∧
    (c.move_forward_data_to_reverse_log n).control_byte_offset = c.control_byte_offset ∧
    (c.move_forward_data_to_reverse_log n).pending_control_bits = c.pending_control_bits := by
  induction n with
  | zero => intro c; exact ⟨rfl, rfl, rfl, rfl, rfl, rfl, rfl, rfl⟩
  | succ n ih =>
    intro c
    unfold PRSCompressor.move_forward_data_to_reverse_log
    have := ih { c with
      reverse_log := c.reverse_log.push_back (c.forward_log.at c.reverse_log.end_offset) }
    refine ⟨?_, this.2.1, this.2.2.1, this.2.2.2.1, this.2.2.2.2.1, this.2.2.2.2.2.1,
      this.2.2.2.2.2.2.1, this.2.2.2.2.2.2.2⟩
    rw [this.1]
    simp only [ReverseLog.end_offset, ReverseLog.push_back, List.length_append,
      List.length_singleton]
    omega

/-- Popping as many bytes as were pushed restores the reverse log. -/
theorem pop_back_move_forward (n : Nat) : ∀ c : PRSCompressor,
    Nat.iterate ReverseLog.pop_back n (c.move_forward_data_to_reverse_log n).reverse_log =
      c.reverse_log := by
  induction n with
  | zero => intro c; rfl
  | succ n ih =>
    intro c
    rw [Function.iterate_succ_apply']
    unfold PRSCompressor.move_forward_data_to_reverse_log
    rw [ih]
    simp [ReverseLog.pop_back, ReverseLog.push_back]

theorem find_lt (rl : ReverseLog) (v : UInt8) : ∀ o ∈ rl.find v, o < rl.end_offset := by
  intro o ho
  unfold ReverseLog.find at ho
  rw [List.mem_filter, List.mem_range] at ho
  exact ho.1

theorem prs_match_size_le (c : PRSCompressor) (co mo mlb : Nat) : ∀ (fuel ms : Nat),
    ms ≤ 0x100 → prs_match_size c co mo mlb fuel ms ≤ 0x100 := by
  intro fuel
  induction fuel with
  | zero => intro ms h; exact h
  | succ fuel ih =>
    intro ms h
    unfold prs_match_size
    split
    · rename_i hc
      exact ih (ms + 1) (by omega)
    · exact h

theorem prs_search_offsets_ok (c : PRSCompressor) (E k : Nat) : ∀ (offs : List Nat)
    (best : BestMatch), (∀ o ∈ offs, o < E + k) → best.valid E →
    ∃ best1, prs_search_offsets c k (E + k) offs best = .ok best1 ∧ best1.valid E := by
  intro offs
  induction offs with
  | nil => intro best _ hv; exact ⟨best, rfl, hv⟩
  | cons mo rest ih =>
    intro best hlt hv
    have hmo : mo < E + k := hlt mo (List.mem_cons_self _ _)
    have hrest : ∀ o ∈ rest, o < E + k := fun o ho => hlt o (List.mem_cons_of_mem _ ho)
    unfold prs_search_offsets
    by_cases hfull : ¬ best.best_match_size < 0x100
    · rw [if_pos hfull]; exact ⟨best, rfl, hv⟩
    · rw [if_neg hfull]
      by_cases hold : mo + 0x2000 ≤ E + k
      · rw [if_pos hold]; exact ih best hrest hv
      · rw [if_neg hold]
        have hmlb : (E + k + SIZE_MOD - mo) % SIZE_MOD = E + k - mo := by
          unfold SIZE_MOD; norm_num; omega
        have hz : ¬ ((E + k + SIZE_MOD - mo) % SIZE_MOD = 0 ∧ E + k < c.input_bytes) := by
          rw [hmlb]; omega
        simp only
        rw [if_neg hz]
        split
        · apply ih _ hrest
          refine ⟨prs_match_size_le c _ _ _ _ _ (by omega), ?_⟩
          intro _
          simp only
          omega
        · exact ih best hrest hv

/-- The search of `advance` does not raise, leaves the compressor as it was,
and returns a valid best match. -/
theorem prs_search_ok (c : PRSCompressor) : ∀ (n k : Nat) (best : BestMatch),
    best.valid c.reverse_log.end_offset →
    ∃ best1, prs_search c n k best = .ok (c, best1) ∧ best1.valid c.reverse_log.end_offset := by
  intro n
  induction n with
  | zero => intro k best hv; exact ⟨best, rfl, hv⟩
  | succ n ih =>
    intro k best hv
    unfold prs_search
    simp only
    have hf := move_forward_fields k c
    have hlt : ∀ o ∈ (c.move_forward_data_to_reverse_log k).reverse_log.find
        ((c.move_forward_data_to_reverse_log k).forward_log.at
          (c.move_forward_data_to_reverse_log k).reverse_log.end_offset),
        o < c.reverse_log.end_offset + k := by
      intro o ho
      have := find_lt _ _ o ho
      rw [hf.1] at this
      exact this
    rw [hf.1]
    obtain ⟨best1, h1, hv1⟩ := prs_search_offsets_ok (c.move_forward_data_to_reverse_log k)
      c.reverse_log.end_offset k _ best hlt hv
    rw [hf.1] at h1
    rw [h1]
    simp only
    have hrestore : { c.move_forward_data_to_reverse_log k with
        reverse_log := Nat.iterate ReverseLog.pop_back k
          (c.move_forward_data_to_reverse_log k).reverse_log } = c := by
      rw [pop_back_move_forward]
      cases c
      simp only [PRSCompressor.mk.injEq]
      simp only at hf
      exact ⟨hf.2.2.2.1, hf.2.2.2.2.1, hf.2.2.2.2.2.2.1, hf.2.2.2.2.2.2.2, hf.2.2.1, hf.2.1,
        trivial, hf.2.2.2.2.2.1⟩
    rw [hrestore]
    exact ih (k + 1) best1 hv1

theorem advance_literal_fields (c : PRSCompressor) :
    c.advance_literal.reverse_log.end_offset = c.reverse_log.end_offset + 1 ∧
    c.advance_literal.input_bytes = c.input_bytes ∧
    c.advance_literal.forward_log = c.forward_log ∧
    c.advance_literal.closed = c.closed ∧
    c.advance_literal.compression_level = c.compression_level := by
  unfold PRSCompressor.advance_literal
  simp only
  have hw := write_control_fields c true
  have hm := move_forward_fields 1
    { c.write_control true with
      output := (c.write_control true).output ++
        [(c.write_control true).forward_log.at (c.write_control true).reverse_log.end_offset] }
  simp only at hm
  refine ⟨?_, ?_, ?_, ?_, ?_⟩
  · rw [hm.1, hw.1]
  · rw [hm.2.2.1, hw.2.2.1]
  · rw [hm.2.1, hw.2.1]
  · rw [hm.2.2.2.2.1, hw.2.2.2.2]
  · rw [hm.2.2.2.1, hw.2.2.2.1]

theorem advance_literals_fields (n : Nat) : ∀ c : PRSCompressor,
    (c.advance_literals n).reverse_log.end_offset = c.reverse_log.end_offset + n ∧
    (c.advance_literals n).input_bytes = c.input_bytes ∧
    (c.advance_literals n).forward_log = c.forward_log ∧
    (c.advance_literals n).closed = c.closed ∧
    (c.advance_literals n).compression_level = c.compression_level := by
  induction n with
  | zero => intro c; exact ⟨rfl, rfl, rfl, rfl, rfl⟩
  | succ n ih =>
    intro c
    unfold PRSCompressor.advance_literals
    have h1 := advance_literal_fields c
    have h2 := ih c.advance_literal
    refine ⟨?_, ?_, ?_, ?_, ?_⟩
    · rw [h2.1, h1.1]; omega
    · rw [h2.2.1, h1.2.1]
    · rw [h2.2.2.1, h1.2.2.1]
    · rw [h2.2.2.2.1, h1.2.2.2.1]
    · rw [h2.2.2.2.2, h1.2.2.2.2]

theorem advance_short_copy_fields (c : PRSCompressor) (offset size : Nat) :
    (c.advance_short_copy offset size).reverse_log.end_offset = c.reverse_log.end_offset + size ∧
    (c.advance_short_copy offset size).input_bytes = c.input_bytes ∧
    (c.advance_short_copy offset size).forward_log = c.forward_log ∧
    (c.advance_short_copy offset size).closed = c.closed ∧
    (c.advance_short_copy offset size).compression_level = c.compression_level := by
  unfold PRSCompressor.advance_short_copy
  simp only
  have h1 := write_control_fields c false
  have h2 := write_control_fields (c.write_control false) false
  have h3 := write_control_fields ((c.write_control false).write_control false)
    (decide ((size - 2) % 256 &&& 2 ≠ 0))
  have h4 := write_control_fields (((c.write_control false).write_control false).write_control
    (decide ((size - 2) % 256 &&& 2 ≠ 0))) (decide ((size - 2) % 256 &&& 1 ≠ 0))
  refine ⟨?_, ?_, ?_, ?_, ?_⟩
  · rw [(move_forward_fields size _).1]; simp only; rw [h4.1, h3.1, h2.1, h1.1]
  · rw [(move_forward_fields size _).2.2.1]; simp only; rw [h4.2.2.1, h3.2.2.1, h2.2.2.1, h1.2.2.1]
  · rw [(move_forward_fields size _).2.1]; simp only; rw [h4.2.1, h3.2.1, h2.2.1, h1.2.1]
  · rw [(move_forward_fields size _).2.2.2.2.1]; simp only
    rw [h4.2.2.2.2, h3.2.2.2.2, h2.2.2.2.2, h1.2.2.2.2]
  · rw [(move_forward_fields size _).2.2.2.1]; simp only
    rw [h4.2.2.2.1, h3.2.2.2.1, h2.2.2.2.1, h1.2.2.2.1]

theorem advance_long_copy_fields (c : PRSCompressor) (offset size : Nat) :
    (c.advance_long_copy offset size).reverse_log.end_offset = c.reverse_log.end_offset + size ∧
    (c.advance_long_copy offset size).input_bytes = c.input_bytes ∧
    (c.advance_long_copy offset size).forward_log = c.forward_log ∧
    (c.advance_long_copy offset size).closed = c.closed ∧
    (c.advance_long_copy offset size).compression_level = c.compression_level := by
  unfold PRSCompressor.advance_long_copy
  simp only
  have h1 := write_control_fields c false
  have h2 := write_control_fields (c.write_control false) true
  refine ⟨?_, ?_, ?_, ?_, ?_⟩
  · rw [(move_forward_fields size _).1]; simp only; rw [h2.1, h1.1]
  · rw [(move_forward_fields size _).2.2.1]; simp only; rw [h2.2.2.1, h1.2.2.1]
  · rw [(move_forward_fields size _).2.1]; simp only; rw [h2.2.1, h1.2.1]
  · rw [(move_forward_fields size _).2.2.2.2.1]; simp only; rw [h2.2.2.2.2, h1.2.2.2.2]
  · rw [(move_forward_fields size _).2.2.2.1]; simp only; rw [h2.2.2.2.1, h1.2.2.2.1]

theorem advance_extended_copy_fields (c : PRSCompressor) (offset size : Nat) :
    (c.advance_extended_copy offset size).reverse_log.end_offset =
      c.reverse_log.end_offset + size ∧
    (c.advance_extended_copy offset size).input_bytes = c.input_bytes ∧
    (c.advance_extended_copy offset size).forward_log = c.forward_log ∧
    (c.advance_extended_copy offset size).closed = c.closed ∧
    (c.advance_extended_copy offset size).compression_level = c.compression_level := by
  unfold PRSCompressor.advance_extended_copy
  simp only
  have h1 := write_control_fields c false
  have h2 := write_control_fields (c.write_control false) true
  refine ⟨?_, ?_, ?_, ?_, ?_⟩
  · rw [(move_forward_fields size _).1]; simp only; rw [h2.1, h1.1]
  · rw [(move_forward_fields size _).2.2.1]; simp only; rw [h2.2.2.1, h1.2.2.1]
  · rw [(move_forward_fields size _).2.1]; simp only; rw [h2.2.1, h1.2.1]
  · rw [(move_forward_fields size _).2.2.2.2.1]; simp only; rw [h2.2.2.2.2, h1.2.2.2.2]
  · rw [(move_forward_fields size _).2.2.2.1]; simp only; rw [h2.2.2.2.1, h1.2.2.2.1]

/-- The signed value of the wrapped difference `best_match_offset - end_offset`
of a valid match. -/
theorem backreference_offset_signed {off e : Nat} (h1 : off < e) (h2 : e < off + 0x2000) :
    toSSize ((((off : Int) - (e : Int)) % (2 ^ 64 : Int)).toNat) = (off : Int) - (e : Int) := by
  unfold toSSize
  have : ¬ ((((off : Int) - (e : Int)) % (2 ^ 64 : Int)).toNat < 2 ^ 63) := by omega
  rw [if_neg this]
  omega

/-- `advance` never raises, whatever the state of the compressor, and commits
at least one byte. -/
theorem advance_ok (c : PRSCompressor) :
    ∃ c1, c.advance = .ok c1 ∧ c.reverse_log.end_offset < c1.reverse_log.end_offset ∧
      c1.input_bytes = c.input_bytes ∧ c1.forward_log = c.forward_log ∧
      c1.closed = c.closed ∧ c1.compression_level = c.compression_level := by
  unfold PRSCompressor.advance
  obtain ⟨best, hs, hv⟩ := prs_search_ok c c.compression_level 0
    { best_match_size := 0, best_match_offset := 0, best_match_literals := 0 }
    ⟨by simp, by simp⟩
  rw [hs]
  simp only
  have hl := advance_literals_fields best.best_match_literals c
  by_cases h2 : best.best_match_size < 2
  · rw [if_pos h2]
    have := advance_literal_fields (c.advance_literals best.best_match_literals)
    exact ⟨_, rfl, by omega, by rw [this.2.1, hl.2.1], by rw [this.2.2.1, hl.2.2.1],
      by rw [this.2.2.2.1, hl.2.2.2.1], by rw [this.2.2.2.2, hl.2.2.2.2]⟩
  · rw [if_neg h2]
    obtain ⟨hsz, hoff⟩ := hv
    have hoff := hoff (by omega)
    have hsig := backreference_offset_signed (e := (c.advance_literals
      best.best_match_literals).reverse_log.end_offset) (by rw [hl.1]; exact hoff.1)
      (by rw [hl.1]; exact hoff.2)
    split
    · have := advance_short_copy_fields (c.advance_literals best.best_match_literals)
        ((((best.best_match_offset : Int) - ((c.advance_literals
          best.best_match_literals).reverse_log.end_offset : Int)) % (2 ^ 64 : Int)).toNat)
        best.best_match_size
      exact ⟨_, rfl, by omega, by rw [this.2.1, hl.2.1], by rw [this.2.2.1, hl.2.2.1],
        by rw [this.2.2.2.1, hl.2.2.2.1], by rw [this.2.2.2.2, hl.2.2.2.2]⟩
    · by_cases h3 : best.best_match_size < 3
      · rw [if_pos h3]
        have := advance_literal_fields (c.advance_literals best.best_match_literals)
        exact ⟨_, rfl, by omega, by rw [this.2.1, hl.2.1], by rw [this.2.2.1, hl.2.2.1],
          by rw [this.2.2.2.1, hl.2.2.2.1], by rw [this.2.2.2.2, hl.2.2.2.2]⟩
      rw [if_neg h3]
      split
      · have := advance_long_copy_fields (c.advance_literals best.best_match_literals)
          ((((best.best_match_offset : Int) - ((c.advance_literals
            best.best_match_literals).reverse_log.end_offset : Int)) % (2 ^ 64 : Int)).toNat)
          best.best_match_size
        exact ⟨_, rfl, by omega, by rw [this.2.1, hl.2.1], by rw [this.2.2.1, hl.2.2.1],
          by rw [this.2.2.2.1, hl.2.2.2.1], by rw [this.2.2.2.2, hl.2.2.2.2]⟩
      · have hext : toSSize ((((best.best_match_offset : Int) - ((c.advance_literals
            best.best_match_literals).reverse_log.end_offset : Int)) % (2 ^ 64 : Int)).toNat)
              ≥ -0x1FFF ∧ best.best_match_size ≤ 0x100 := by
          rw [hsig, hl.1]
          constructor
          · omega
          · exact hsz
        rw [if_pos hext]
        have := advance_extended_copy_fields (c.advance_literals best.best_match_literals)
          ((((best.best_match_offset : Int) - ((c.advance_literals
            best.best_match_literals).reverse_log.end_offset : Int)) % (2 ^ 64 : Int)).toNat)
          best.best_match_size
        exact ⟨_, rfl, by omega, by rw [this.2.1, hl.2.1], by rw [this.2.2.1, hl.2.2.1],
          by rw [this.2.2.2.1, hl.2.2.2.1], by rw [this.2.2.2.2, hl.2.2.2.2]⟩

theorem add_byte_ok (c : PRSCompressor) (v : UInt8) :
    ∃ c1, c.add_byte v = .ok c1 ∧ c1.closed = c.closed := by
  unfold PRSCompressor.add_byte
  simp only
  split
  · obtain ⟨c1, h1, _, _, _, hc, _⟩ := advance_ok c
    rw [h1]
    exact ⟨_, rfl, hc⟩
  · exact ⟨_, rfl, rfl⟩

theorem add_bytes_ok : ∀ (data : List UInt8) (c : PRSCompressor),
    ∃ c1, c.add_bytes data = .ok c1 ∧ c1.closed = c.closed := by
  intro data
  induction data with
  | nil => intro c; exact ⟨c, rfl, rfl⟩
  | cons v rest ih =>
    intro c
    unfold PRSCompressor.add_bytes
    obtain ⟨c1, h1, hc1⟩ := add_byte_ok c v
    rw [h1]
    obtain ⟨c2, h2, hc2⟩ := ih c1
    exact ⟨c2, h2, by rw [hc2, hc1]⟩

theorem drain_ok : ∀ (fuel : Nat) (c : PRSCompressor),
    c.input_bytes - c.reverse_log.end_offset ≤ fuel →
    ∃ c1, PRSCompressor.drain fuel c = .ok c1 := by
  intro fuel
  induction fuel with
  | zero =>
    intro c h
    unfold PRSCompressor.drain
    have : ¬ c.reverse_log.end_offset < c.input_bytes := by omega
    rw [if_neg this]
    exact ⟨c, rfl⟩
  | succ fuel ih =>
    intro c h
    unfold PRSCompressor.drain
    split
    · obtain ⟨c1, h1, hlt, hin, _⟩ := advance_ok c
      rw [h1]
      exact ih c1 (by omega)
    · exact ⟨c, rfl⟩

theorem close_ok (c : PRSCompressor) : ∃ c1, c.close = .ok c1 := by
  unfold PRSCompressor.close
  split
  · obtain ⟨c1, h1⟩ := drain_ok (c.input_bytes - c.reverse_log.end_offset) c (Nat.le_refl _)
    rw [h1]
    simp only
    unfold PRSCompressor.flush_control
    have hp := write_control_pending (c1.write_control false) true
    simp only
    rw [if_pos hp]
    exact ⟨_, rfl⟩
  · exact ⟨c, rfl⟩

/-- C5: `prs_compress` returns normally for every input and every level.
`advance` never raises from any state: its search leaves the compressor
unchanged and returns a best match of at most 256 bytes that, when it has at
least one byte, starts 1 to 8191 bytes before the boundary (so the modulus
`match_loop_bytes` is never zero and "invalid best match" is not reached), and
`advance` commits at least one byte; the `flush_control` of `close` finds
pending control bits and does not raise. -/
theorem prs_compress_never_raises (forward_log : ForwardLog) (data : List UInt8)
    (compression_level : Nat) :
    (∃ out, prs_compress forward_log data compression_level = .ok out) ∧
    (∀ c : PRSCompressor, ∃ c1, c.advance = .ok c1 ∧
      c.reverse_log.end_offset < c1.reverse_log.end_offset) ∧
    (∀ c : PRSCompressor, ∃ best,
      prs_search c c.compression_level 0
        { best_match_size := 0, best_match_offset := 0, best_match_literals := 0 } =
        .ok (c, best) ∧
      best.best_match_size ≤ 0x100 ∧
      (1 ≤ best.best_match_size →
        best.best_match_offset < c.reverse_log.end_offset + best.best_match_literals ∧
        c.reverse_log.end_offset + best.best_match_literals < best.best_match_offset + 0x2000)) ∧
    (∀ c : PRSCompressor, ∃ c1, c.close = .ok c1) := by
  refine ⟨?_, ?_, ?_, close_ok⟩
  · unfold prs_compress PRSCompressor.add
    have hnew : (PRSCompressor.new forward_log compression_level).closed = false := rfl
    rw [hnew]
    simp only [Bool.false_eq_true, if_false]
    obtain ⟨c1, h1, _⟩ := add_bytes_ok data (PRSCompressor.new forward_log compression_level)
    rw [h1]
    obtain ⟨c2, h2⟩ := close_ok c1
    simp only
    rw [h2]
    exact ⟨_, rfl⟩
  · intro c
    obtain ⟨c1, h1, hlt, _⟩ := advance_ok c
    exact ⟨c1, h1, hlt⟩
  · intro c
    obtain ⟨best, hs, hv⟩ := prs_search_ok c c.compression_level 0
      { best_match_size := 0, best_match_offset := 0, best_match_literals := 0 }
      ⟨by simp, by simp⟩
    exact ⟨best, hs, hv.1, hv.2⟩

/-! ## BC0: control bytes and backreference fields -/

set_option maxRecDepth 100000 in
theorem control_bit_div : ∀ c < 256, ∀ j < 8, ((0xFF00 ||| c) >>> j) &&& 1 = (c / 2 ^ j) % 2 := by
  decide

set_option maxRecDepth 100000 in
theorem control_used_up : ∀ c < 256, ((0xFF00 ||| c) >>> 8) &&& 0x100 = 0 := by decide

set_option maxRecDepth 100000 in
theorem nibble_fields : ∀ h < 16, ∀ s < 16,
    ((16 * h ||| s) &&& 0x0F = s) ∧ (((16 * h ||| s) <<< 4) &&& 0xF00 = 256 * h) ∧
    (16 * h ||| s < 256) := by
  decide

set_option maxRecDepth 100000 in
theorem mask_F0 : ∀ x < 256, x &&& 0xF0 = 16 * (x / 16) := by decide

theorem and_F0 (x : Nat) : x &&& 0xF0 = 16 * (x % 256 / 16) := by
  have h1 : x &&& 0xF0 = (x &&& 0xFF) &&& 0xF0 := by
    rw [Nat.and_assoc]
    rfl
  rw [h1, Nat.and_pow_two_sub_one_eq_mod x 8]
  exact mask_F0 _ (Nat.mod_lt _ (by decide))

theorem bc0_group_control_lt : ∀ g : List BC0Op, bc0_group_control g < 2 ^ g.length := by
  intro g
  induction g with
  | nil => simp [bc0_group_control]
  | cons op g ih =>
    have hf : op.flag ≤ 1 := by cases op <;> simp [BC0Op.flag]
    simp only [bc0_group_control, List.length_cons, pow_succ]
    omega

theorem bc0_group_control_append (g : List BC0Op) (op : BC0Op) :
    bc0_group_control (g ++ [op]) = bc0_group_control g + op.flag * 2 ^ g.length := by
  induction g with
  | nil => simp [bc0_group_control]
  | cons op1 g ih =>
    show bc0_group_control (op1 :: (g ++ [op])) = _
    simp only [bc0_group_control, ih, List.length_cons, pow_succ]
    ring

/-- Bit `pre.length` of the control byte is the flag of the opcode after `pre`. -/
theorem bc0_group_control_bit (pre : List BC0Op) (op : BC0Op) (post : List BC0Op) :
    (bc0_group_control (pre ++ op :: post) / 2 ^ pre.length) % 2 = op.flag := by
  induction pre with
  | nil =>
    have hf : op.flag ≤ 1 := by cases op <;> simp [BC0Op.flag]
    simp only [List.nil_append, bc0_group_control, List.length_nil, pow_zero, Nat.div_one]
    omega
  | cons p pre ih =>
    have hf : p.flag ≤ 1 := by cases p <;> simp [BC0Op.flag]
    show bc0_group_control (p :: (pre ++ op :: post)) / 2 ^ (pre.length + 1) % 2 = _
    simp only [bc0_group_control, pow_succ]
    rw [Nat.mul_comm (2 ^ pre.length) 2, ← Nat.div_div_eq_div_mul]
    have : (p.flag + 2 * bc0_group_control (pre ++ op :: post)) / 2 =
        bc0_group_control (pre ++ op :: post) := by omega
    rw [this]
    exact ih

theorem toNat_ofNat_lt {n : Nat} (h : n < 256) : (UInt8.ofNat n).toNat = n := by
  show (BitVec.ofNat 8 n).toNat = n
  simp only [BitVec.toNat_ofNat]
  omega

/-- The two data bytes `bc0_compress` writes for a match at `match_offset` of
`match_size` bytes decode to the memo position of `match_offset` and to
`match_size`. -/
theorem bc0_backreference_fields (match_offset match_size : Nat)
    (h3 : 3 ≤ match_size) (h18 : match_size ≤ 0x12) :
    let memo_offset := (match_offset + SIZE_MOD - 0x12) % SIZE_MOD
    let a1 := UInt8.ofNat (memo_offset &&& 0xFF)
    let a2 := UInt8.ofNat (((memo_offset >>> 4) &&& 0xF0) ||| (match_size - 3))
    (a1.toNat ||| ((a2.toNat <<< 4) &&& 0xF00)) = (0x0FEE + match_offset) % 0x1000 ∧
    (a2.toNat &&& 0x0F) + 3 = match_size := by
  intro memo_offset a1 a2
  have hX : memo_offset % 0x1000 = (0x0FEE + match_offset) % 0x1000 := by
    show (match_offset + SIZE_MOD - 0x12) % SIZE_MOD % 0x1000 = _
    unfold SIZE_MOD
    norm_num
    omega
  have hlo : memo_offset &&& 0xFF = memo_offset % 256 := Nat.and_pow_two_sub_one_eq_mod _ 8
  have hhi : (memo_offset >>> 4) &&& 0xF0 = 16 * (memo_offset % 0x1000 / 256) := by
    rw [and_F0, Nat.shiftRight_eq_div_pow]
    omega
  have hn := nibble_fields (memo_offset % 0x1000 / 256) (by omega) (match_size - 3) (by omega)
  have ha1 : a1.toNat = memo_offset % 256 := by
    show (UInt8.ofNat (memo_offset &&& 0xFF)).toNat = _
    rw [hlo]
    exact toNat_ofNat_lt (by omega)
  have ha2 : a2.toNat = 16 * (memo_offset % 0x1000 / 256) ||| (match_size - 3) := by
    show (UInt8.ofNat (((memo_offset >>> 4) &&& 0xF0) ||| (match_size - 3))).toNat = _
    rw [hhi]
    exact toNat_ofNat_lt hn.2.2
  rw [ha1, ha2, hn.1, hn.2.1]
  constructor
  · have := Nat.mul_add_lt_is_or (i := 8) (b := memo_offset % 256)
      (by norm_num; omega) (memo_offset % 0x1000 / 256)
    rw [Nat.lor_comm]
    norm_num at this ⊢
    rw [← this, ← hX]
    omega
  · omega

/-! ## BC0: decoding a stream of opcode groups -/

theorem bc0_copy_with (off : Nat) (x : List UInt8) (b : Nat) : ∀ (n z : Nat) (st : BC0State),
    bc0_copy off n z { st with r := x, control_stream_bits := b } =
      { bc0_copy off n z st with r := x, control_stream_bits := b } := by
  intro n
  induction n with
  | zero => intro z st; rfl
  | succ n ih =>
    intro z st
    exact ih (z + 1)
      { st with
        w := st.w ++ [st.memo ((off + z) &&& 0x0FFF)]
        memo := Function.update st.memo st.memo_offset (st.memo ((off + z) &&& 0x0FFF))
        memo_offset := (st.memo_offset + 1) &&& 0x0FFF }

theorem bc0_apply_with (st : BC0State) (op : BC0Op) (x : List UInt8) (b : Nat) :
    bc0_apply { st with r := x, control_stream_bits := b } op =
      { bc0_apply st op with r := x, control_stream_bits := b } := by
  cases op with
  | lit v => rfl
  | ref a1 a2 => exact bc0_copy_with _ x b _ _ st

theorem bc0_foldl_with (x : List UInt8) (b : Nat) : ∀ (g : List BC0Op) (st : BC0State),
    g.foldl bc0_apply { st with r := x, control_stream_bits := b } =
      { g.foldl bc0_apply st with r := x, control_stream_bits := b } := by
  intro g
  induction g with
  | nil => intro st; rfl
  | cons op g ih =>
    intro st
    simp only [List.foldl_cons]
    rw [bc0_apply_with, ih]

theorem bc0_opcode_op (st : BC0State) (op : BC0Op) (rest : List UInt8)
    (hr : st.r = op.data ++ rest) (hflag : st.control_stream_bits &&& 1 = op.flag) :
    bc0_opcode st =
      .ok (some (bc0_apply { st with r := rest, control_stream_bits := st.control_stream_bits } op)) := by
  unfold bc0_opcode
  cases op with
  | lit v =>
    have hb : ¬ (st.control_stream_bits &&& 1 = 0) := by rw [hflag]; simp [BC0Op.flag]
    rw [if_neg hb, hr]
    rfl
  | ref a1 a2 =>
    have hb : st.control_stream_bits &&& 1 = 0 := by rw [hflag]; rfl
    rw [if_pos hb, hr]
    simp only [BC0Op.data, List.cons_append, List.nil_append, get_u8, reduceCtorEq, if_false]
    rfl

theorem bc0_step_buffered (st : BC0State) (op : BC0Op) (rest : List UInt8)
    (hr : st.r = op.data ++ rest) (h8 : (st.control_stream_bits >>> 1) &&& 0x100 ≠ 0)
    (hflag : (st.control_stream_bits >>> 1) &&& 1 = op.flag) :
    bc0_step st = .ok (some (bc0_apply
      { st with r := rest, control_stream_bits := st.control_stream_bits >>> 1 } op)) := by
  unfold bc0_step
  simp only
  rw [if_neg h8]
  exact bc0_opcode_op { st with control_stream_bits := st.control_stream_bits >>> 1 } op rest hr hflag

theorem bc0_op_data_ne_nil (op : BC0Op) (rest : List UInt8) : op.data ++ rest ≠ [] := by
  cases op <;> simp [BC0Op.data]

theorem bc0_step_refill (st : BC0State) (c : UInt8) (op : BC0Op) (rest : List UInt8)
    (hr : st.r = c :: (op.data ++ rest)) (h8 : (st.control_stream_bits >>> 1) &&& 0x100 = 0)
    (hflag : (0xFF00 ||| c.toNat) &&& 1 = op.flag) :
    bc0_step st = .ok (some (bc0_apply
      { st with r := rest, control_stream_bits := 0xFF00 ||| c.toNat } op)) := by
  unfold bc0_step
  simp only
  rw [if_pos h8, hr]
  simp only [get_u8]
  rw [if_neg (bc0_op_data_ne_nil op rest)]
  exact bc0_opcode_op { st with r := op.data ++ rest, control_stream_bits := 0xFF00 ||| c.toNat }
    op rest rfl hflag

theorem bc0_apply_r (st : BC0State) (op : BC0Op) :
    (bc0_apply st op).r = st.r ∧
    (bc0_apply st op).control_stream_bits = st.control_stream_bits := by
  cases op with
  | lit v => exact ⟨rfl, rfl⟩
  | ref a1 a2 => exact bc0_copy_r _ _ _ st

/-- The opcodes `g` of a group whose control byte is loaded, `pre` being the
opcodes of the group already decoded. -/
theorem bc0_run_buffered : ∀ (g pre : List BC0Op) (rest : List UInt8) (st : BC0State)
    (fuel : Nat), 1 ≤ pre.length → (pre ++ g).length ≤ 8 →
    st.r = g.flatMap BC0Op.data ++ rest →
    st.control_stream_bits = (0xFF00 ||| bc0_group_control (pre ++ g)) >>> (pre.length - 1) →
    bc0_decompress_loop (fuel + g.length) st =
      bc0_decompress_loop fuel
        { g.foldl bc0_apply st with
          r := rest
          control_stream_bits :=
            (0xFF00 ||| bc0_group_control (pre ++ g)) >>> (pre.length + g.length - 1) } := by
  intro g
  induction g with
  | nil =>
    intro pre rest st fuel _ _ hr hb
    simp only [List.flatMap_nil, List.nil_append] at hr
    simp only [List.length_nil, Nat.add_zero, List.foldl_nil]
    rw [← hr, ← hb]
  | cons op g ih =>
    intro pre rest st fuel hpre hlen hr hb
    have hlen' : pre.length + (g.length + 1) ≤ 8 := by
      simpa [List.length_append] using hlen
    have hc := bc0_group_control_lt (pre ++ op :: g)
    have hc256 : bc0_group_control (pre ++ op :: g) < 256 := by
      have : 2 ^ (pre ++ op :: g).length ≤ 2 ^ 8 := Nat.pow_le_pow_right (by decide) hlen
      omega
    have hshift : st.control_stream_bits >>> 1 =
        (0xFF00 ||| bc0_group_control (pre ++ op :: g)) >>> pre.length := by
      rw [hb, ← Nat.shiftRight_add]
      congr 1
      omega
    have h8 : (st.control_stream_bits >>> 1) &&& 0x100 ≠ 0 := by
      rw [hshift]
      exact control_bit8 _ hc256 _ (by omega)
    have hflag : (st.control_stream_bits >>> 1) &&& 1 = op.flag := by
      rw [hshift, control_bit_div _ hc256 _ (by omega)]
      exact bc0_group_control_bit pre op g
    have hr' : st.r = op.data ++ (g.flatMap BC0Op.data ++ rest) := by
      rw [hr, List.flatMap_cons, List.append_assoc]
    have hne : st.r ≠ [] := by rw [hr']; exact bc0_op_data_ne_nil _ _
    have hfuel : fuel + (op :: g).length = (fuel + g.length) + 1 := by
      simp only [List.length_cons]; omega
    rw [hfuel, bc0_decompress_loop_succ _ _ hne, bc0_step_buffered st op _ hr' h8 hflag]
    simp only
    have happ : pre ++ op :: g = (pre ++ [op]) ++ g := by simp
    rw [ih (pre ++ [op]) rest _ fuel (by simp) (by rw [← happ]; exact hlen)
      (by rw [(bc0_apply_r _ _).1])
      (by
        rw [(bc0_apply_r _ _).2, ← happ, hshift]
        simp)]
    rw [bc0_apply_with, bc0_foldl_with, ← happ]
    simp only [List.foldl_cons, List.length_append, List.length_singleton, List.length_cons]
    have e1 : pre.length + (([] : List BC0Op).length + 1) + g.length - 1 =
        pre.length + (g.length + 1) - 1 := by simp only [List.length_nil]; omega
    rw [e1]

/-- A whole group, read when the previous control byte is used up. -/
theorem bc0_run_group (g : List BC0Op) (rest : List UInt8) (st : BC0State) (fuel : Nat)
    (h1 : 1 ≤ g.length) (h8 : g.length ≤ 8)
    (hr : st.r = bc0_group_bytes g ++ rest)
    (hb : (st.control_stream_bits >>> 1) &&& 0x100 = 0) :
    bc0_decompress_loop (fuel + g.length) st =
      bc0_decompress_loop fuel
        { g.foldl bc0_apply st with
          r := rest
          control_stream_bits := (0xFF00 ||| bc0_group_control g) >>> (g.length - 1) } := by
  cases g with
  | nil => simp at h1
  | cons op g =>
    have hc := bc0_group_control_lt (op :: g)
    have hc256 : bc0_group_control (op :: g) < 256 := by
      have : 2 ^ (op :: g).length ≤ 2 ^ 8 := Nat.pow_le_pow_right (by decide) h8
      omega
    have hcn : (UInt8.ofNat (bc0_group_control (op :: g))).toNat = bc0_group_control (op :: g) :=
      toNat_ofNat_lt hc256
    have hr' : st.r = UInt8.ofNat (bc0_group_control (op :: g)) ::
        (op.data ++ (g.flatMap BC0Op.data ++ rest)) := by
      rw [hr]
      simp [bc0_group_bytes, List.flatMap_cons]
    have hne : st.r ≠ [] := by rw [hr']; simp
    have hflag : (0xFF00 ||| (UInt8.ofNat (bc0_group_control (op :: g))).toNat) &&& 1 = op.flag := by
      rw [hcn]
      have := control_bit_div _ hc256 0 (by decide)
      simp only [Nat.shiftRight_zero, pow_zero, Nat.div_one] at this
      rw [this]
      simpa using bc0_group_control_bit [] op g
    have hfuel : fuel + (op :: g).length = (fuel + g.length) + 1 := by
      simp only [List.length_cons]; omega
    rw [hfuel, bc0_decompress_loop_succ _ _ hne, bc0_step_refill st _ op _ hr' hb hflag]
    simp only
    rw [hcn]
    rw [bc0_run_buffered g [op] rest _ fuel (by simp) (by simpa using h8)
      (by rw [(bc0_apply_r _ _).1])
      (by rw [(bc0_apply_r _ _).2]; simp)]
    rw [bc0_apply_with, bc0_foldl_with]
    simp only [List.foldl_cons, List.length_singleton, List.length_cons, List.singleton_append]
    have e1 : ([] : List BC0Op).length + 1 + g.length - 1 = g.length + 1 - 1 := by
      simp only [List.length_nil]; omega
    rw [e1]

theorem bc0_decompress_loop_nil (fuel : Nat) (st : BC0State) (h : st.r = []) :
    bc0_decompress_loop fuel st = .ok (st, false) := by
  cases fuel <;> simp [bc0_decompress_loop, h]

/-- A stream of full groups followed by a last, shorter group decodes to the
effect of its opcodes in order. -/
theorem bc0_run_groups : ∀ (full : List (List BC0Op)) (last : List BC0Op) (st : BC0State)
    (fuel : Nat), (∀ g ∈ full, g.length = 8) → last.length < 8 →
    st.r = full.flatMap bc0_group_bytes ++ (if last = [] then [] else bc0_group_bytes last) →
    (st.control_stream_bits >>> 1) &&& 0x100 = 0 →
    (full.flatten ++ last).length ≤ fuel →
    ∃ stf, bc0_decompress_loop fuel st = .ok (stf, false) ∧
      stf.w = ((full.flatten ++ last).foldl bc0_apply st).w := by
  intro full
  induction full with
  | nil =>
    intro last st fuel _ hl hr hb hf
    simp only [List.flatMap_nil, List.nil_append, List.flatten_nil] at hr hf ⊢
    by_cases hlast : last = []
    · rw [if_pos hlast] at hr
      subst hlast
      exact ⟨st, bc0_decompress_loop_nil fuel st hr, rfl⟩
    · rw [if_neg hlast] at hr
      have h1 : 1 ≤ last.length := by
        cases last with
        | nil => exact absurd rfl hlast
        | cons => simp
      obtain ⟨f, rfl⟩ : ∃ f, fuel = f + last.length := ⟨fuel - last.length, by omega⟩
      rw [bc0_run_group last [] st f h1 (by omega) (by simpa using hr) hb]
      exact ⟨_, bc0_decompress_loop_nil _ _ rfl, rfl⟩
  | cons g full ih =>
    intro last st fuel hg hl hr hb hf
    have hg8 : g.length = 8 := hg g (List.mem_cons_self _ _)
    simp only [List.flatMap_cons, List.flatten_cons, List.append_assoc, List.length_append] at hr hf
    obtain ⟨f, rfl⟩ : ∃ f, fuel = f + g.length := ⟨fuel - g.length, by omega⟩
    rw [bc0_run_group g _ st f (by omega) (by omega) hr hb]
    have hc := bc0_group_control_lt g
    have hc256 : bc0_group_control g < 256 := by rw [hg8] at hc; omega
    obtain ⟨stf, h1, h2⟩ := ih last
      { g.foldl bc0_apply st with
        r := full.flatMap bc0_group_bytes ++ (if last = [] then [] else bc0_group_bytes last)
        control_stream_bits := (0xFF00 ||| bc0_group_control g) >>> (g.length - 1) }
      f (fun x hx => hg x (List.mem_cons_of_mem _ hx)) hl rfl
      (by
        simp only
        rw [← Nat.shiftRight_add, hg8]
        exact control_used_up _ hc256)
      (by simp only [List.length_append]; omega)
    refine ⟨stf, h1, ?_⟩
    rw [h2, bc0_foldl_with]
    simp only [List.flatten_cons, List.append_assoc, List.foldl_append]

/-! ## BC0: what the writer holds -/

set_option maxRecDepth 100000 in
theorem next_control_bit_shift : ∀ k < 8,
    (2 ^ k <<< 1) % 256 = if k + 1 < 8 then 2 ^ (k + 1) else 0 := by decide

theorem holds_new : (LZSSInterleavedWriter.new 2).holds [] [] := by
  refine ⟨rfl, by simp, by simp, rfl, rfl, by simp [LZSSInterleavedWriter.new], ?_⟩
  exact ⟨List.replicate 16 0, by decide⟩

theorem bc0_op_data_length (op : BC0Op) : 1 ≤ op.data.length ∧ op.data.length ≤ 2 := by
  cases op <;> simp [BC0Op.data]

theorem bc0_ops_data_length : ∀ part : List BC0Op,
    (part.flatMap BC0Op.data).length ≤ 2 * part.length := by
  intro part
  induction part with
  | nil => simp
  | cons op part ih =>
    have := bc0_op_data_length op
    simp only [List.flatMap_cons, List.length_append, List.length_cons]
    omega

/-- `write_control` on a writer that holds fewer than eight opcodes of the
current group: the control byte gains the bit of the new opcode. -/
theorem holds_write_control (lw : LZSSInterleavedWriter) (full : List (List BC0Op))
    (part : List BC0Op) (op : BC0Op) (h : lw.holds full part) :
    ∃ lw1 pad, lw.write_control (decide (op.flag = 1)) = .ok lw1 ∧
      lw1.w = lw.w ∧ lw1.buf_offset = lw.buf_offset ∧
      lw1.buf = UInt8.ofNat (bc0_group_control (part ++ [op])) :: (part.flatMap BC0Op.data ++ pad) ∧
      lw1.next_control_bit = (if part.length + 1 < 8 then 2 ^ (part.length + 1) else 0) ∧
      (part.flatMap BC0Op.data ++ pad).length + 1 = 17 := by
  obtain ⟨hw, hfull, hlen, hncb, hoff, hbl, pad, hbuf⟩ := h
  have hne : lw.next_control_bit ≠ 0 := by
    rw [hncb]; exact Nat.pos_iff_ne_zero.mp (Nat.two_pow_pos _)
  have hc := bc0_group_control_lt part
  have hp : 2 ^ part.length ≤ 2 ^ 7 := Nat.pow_le_pow_right (by decide) (by omega)
  have hc0 : (lw.buf.getD 0 0).toNat = bc0_group_control part := by
    rw [hbuf]
    simp only [bc0_group_bytes, List.cons_append, List.getD_cons_zero]
    exact toNat_ofNat_lt (by omega)
  have hpl : (part.flatMap BC0Op.data ++ pad).length + 1 = 17 := by
    rw [← hbl, hbuf]
    simp [bc0_group_bytes]
  unfold LZSSInterleavedWriter.write_control
  rw [if_neg hne, hncb, next_control_bit_shift _ hlen]
  refine ⟨_, pad, rfl, rfl, rfl, ?_, rfl, hpl⟩
  cases op with
  | lit v =>
    simp only [BC0Op.flag, decide_True, if_true]
    rw [hc0, hbuf]
    have hor : bc0_group_control part ||| 2 ^ part.length =
        bc0_group_control (part ++ [BC0Op.lit v]) := by
      rw [bc0_group_control_append, Nat.lor_comm]
      have := Nat.mul_add_lt_is_or hc 1
      simp only [Nat.mul_one] at this
      rw [← this]
      simp only [BC0Op.flag]
      omega
    rw [hor]
    simp [bc0_group_bytes]
  | ref a1 a2 =>
    have hd : decide (BC0Op.flag (BC0Op.ref a1 a2) = 1) = false := by
      simp [BC0Op.flag]
    rw [hd]
    simp only [Bool.false_eq_true, if_false]
    have : bc0_group_control (part ++ [BC0Op.ref a1 a2]) = bc0_group_control part := by
      rw [bc0_group_control_append]; simp [BC0Op.flag]
    rw [this, hbuf]
    simp [bc0_group_bytes]

theorem write_data_step (lw : LZSSInterleavedWriter) (c v : UInt8) (d pad : List UInt8)
    (hbuf : lw.buf = c :: (d ++ pad)) (hoff : lw.buf_offset = 1 + d.length) (hpad : pad ≠ []) :
    (lw.write_data v).buf = c :: ((d ++ [v]) ++ pad.tail) ∧
    (lw.write_data v).buf_offset = 1 + (d ++ [v]).length ∧
    (lw.write_data v).w = lw.w ∧
    (lw.write_data v).next_control_bit = lw.next_control_bit := by
  cases pad with
  | nil => exact absurd rfl hpad
  | cons p pad1 =>
    refine ⟨?_, ?_, rfl, rfl⟩
    · simp only [LZSSInterleavedWriter.write_data, hbuf, hoff]
      rw [Nat.add_comm, List.set_cons_succ, List.set_append]
      simp
    · simp only [LZSSInterleavedWriter.write_data, hoff, List.length_append,
        List.length_singleton]
      omega

/-- Writing the data bytes of an opcode. -/
theorem write_data_op (lw : LZSSInterleavedWriter) (c : UInt8) (d pad : List UInt8)
    (op : BC0Op) (hbuf : lw.buf = c :: (d ++ pad)) (hoff : lw.buf_offset = 1 + d.length)
    (hpad : 2 ≤ pad.length) :
    ∃ pad2, (op.data.foldl LZSSInterleavedWriter.write_data lw).buf =
        c :: ((d ++ op.data) ++ pad2) ∧
      (op.data.foldl LZSSInterleavedWriter.write_data lw).buf_offset =
        1 + (d ++ op.data).length ∧
      (op.data.foldl LZSSInterleavedWriter.write_data lw).w = lw.w ∧
      (op.data.foldl LZSSInterleavedWriter.write_data lw).next_control_bit =
        lw.next_control_bit ∧
      (d ++ op.data).length + pad2.length = d.length + pad.length := by
  have hne : pad ≠ [] := by intro h0; rw [h0] at hpad; simp at hpad
  cases op with
  | lit v =>
    obtain ⟨h1, h2, h3, h4⟩ := write_data_step lw c v d pad hbuf hoff hne
    refine ⟨pad.tail, h1, h2, h3, h4, ?_⟩
    simp only [BC0Op.data, List.length_append, List.length_singleton, List.length_tail]
    omega
  | ref a1 a2 =>
    obtain ⟨h1, h2, h3, h4⟩ := write_data_step lw c a1 d pad hbuf hoff hne
    have hne2 : pad.tail ≠ [] := by
      intro h0
      have := congrArg List.length h0
      simp only [List.length_tail, List.length_nil] at this
      omega
    obtain ⟨k1, k2, k3, k4⟩ := write_data_step (lw.write_data a1) c a2 (d ++ [a1]) pad.tail
      h1 h2 hne2
    refine ⟨pad.tail.tail, ?_, ?_, ?_, ?_, ?_⟩
    · simp only [BC0Op.data, List.foldl_cons, List.foldl_nil]
      rw [k1]
      simp
    · simp only [BC0Op.data, List.foldl_cons, List.foldl_nil]
      rw [k2]
      simp
    · simp only [BC0Op.data, List.foldl_cons, List.foldl_nil]
      rw [k3, h3]
    · simp only [BC0Op.data, List.foldl_cons, List.foldl_nil]
      rw [k4, h4]
    · simp only [BC0Op.data, List.length_append, List.length_cons, List.length_nil,
        List.length_tail]
      omega

theorem bc0_push_flatten (full : List (List BC0Op)) (part : List BC0Op) (op : BC0Op) :
    (bc0_push full part op).1.flatten ++ (bc0_push full part op).2 =
      full.flatten ++ part ++ [op] := by
  unfold bc0_push
  split <;> simp

/-- Writing the control bit and the data bytes of an opcode, then
`flush_if_ready`. -/
theorem holds_write_op (lw : LZSSInterleavedWriter) (full : List (List BC0Op))
    (part : List BC0Op) (op : BC0Op) (h : lw.holds full part) :
    ∃ lw1, lw.write_control (decide (op.flag = 1)) = .ok lw1 ∧
      ((op.data.foldl LZSSInterleavedWriter.write_data lw1).flush_if_ready).holds
        (bc0_push full part op).1 (bc0_push full part op).2 := by
  obtain ⟨lw1, pad, hwc, e1, e2, e3, e4, hpl⟩ := holds_write_control lw full part op h
  obtain ⟨hw, hfull, hlen, hncb, hoff, hbl, _, _⟩ := h
  refine ⟨lw1, hwc, ?_⟩
  have hdl := bc0_ops_data_length part
  have hpadlen : 2 ≤ pad.length := by
    rw [List.length_append] at hpl
    omega
  obtain ⟨pad2, d1, d2, d3, d4, d5⟩ := write_data_op lw1
    (UInt8.ofNat (bc0_group_control (part ++ [op]))) (part.flatMap BC0Op.data) pad op e3
    (by rw [e2, hoff]) hpadlen
  have hflat : (part ++ [op]).flatMap BC0Op.data = part.flatMap BC0Op.data ++ op.data := by
    simp
  have hl17 : (op.data.foldl LZSSInterleavedWriter.write_data lw1).buf.length = 17 := by
    rw [d1]
    rw [List.length_append] at hpl
    simp only [List.length_cons, List.length_append] at d5 ⊢
    omega
  have hbytes : (op.data.foldl LZSSInterleavedWriter.write_data lw1).buf =
      bc0_group_bytes (part ++ [op]) ++ pad2 := by
    rw [d1, ← hflat]
    rfl
  unfold LZSSInterleavedWriter.flush_if_ready bc0_push
  rw [d4, e4]
  by_cases hlt : part.length + 1 < 8
  · have hne : (2 : Nat) ^ (part.length + 1) ≠ 0 := Nat.pos_iff_ne_zero.mp (Nat.two_pow_pos _)
    simp only [hlt, if_true]
    rw [if_neg hne]
    refine ⟨by rw [d3, e1, hw], hfull, by simpa using hlt, ?_, by rw [d2, hflat], hl17,
      pad2, hbytes⟩
    rw [d4, e4, if_pos hlt]
    simp
  · simp only [hlt, if_false, if_true]
    refine ⟨?_, ?_, by simp, rfl, rfl, ?_, ?_⟩
    · rw [d3, e1]
      simp only [hw, List.flatMap_append, List.flatMap_cons, List.flatMap_nil, List.append_nil]
      congr 1
      rw [hbytes, d2]
      exact List.take_left' (by simp [bc0_group_bytes, Nat.add_comm])
    · intro g hg
      rw [List.mem_append] at hg
      rcases hg with hg | hg
      · exact hfull g hg
      · simp only [List.mem_singleton] at hg
        rw [hg]; simp only [List.length_append, List.length_singleton]; omega
    · rw [List.length_set]
      exact hl17
    · rw [hbytes]
      exact ⟨_, rfl⟩

theorem holds_close (lw : LZSSInterleavedWriter) (full : List (List BC0Op))
    (part : List BC0Op) (h : lw.holds full part) :
    lw.close = full.flatMap bc0_group_bytes ++ (if part = [] then [] else bc0_group_bytes part) := by
  obtain ⟨hw, hfull, hlen, hncb, hoff, hbl, pad, hbuf⟩ := h
  unfold LZSSInterleavedWriter.close
  by_cases hp : part = []
  · subst hp
    simp only [List.flatMap_nil, List.length_nil, Nat.add_zero, pow_zero] at hoff hncb
    have : ¬ (lw.buf_offset > 1 ∨ lw.next_control_bit ≠ 1) := by omega
    rw [if_neg this, hw]
    simp
  · have hd : 1 ≤ (part.flatMap BC0Op.data).length := by
      cases part with
      | nil => exact absurd rfl hp
      | cons op part =>
        have := bc0_op_data_length op
        simp only [List.flatMap_cons, List.length_append]
        omega
    have : lw.buf_offset > 1 ∨ lw.next_control_bit ≠ 1 := Or.inl (by omega)
    rw [if_pos this, if_neg hp, hw, hbuf]
    congr 1
    exact List.take_left' (by simp [bc0_group_bytes, hoff, Nat.add_comm])

/-! ## BC0: the memo mirrors the output -/

theorem mirrors_init (s : List UInt8) : (bc0_init s).mirrors [] := by
  refine ⟨rfl, rfl, ?_⟩
  intro i hi
  simp at hi

theorem take_succ_getD (l : List UInt8) (k : Nat) (h : k < l.length) :
    l.take (k + 1) = l.take k ++ [l.getD k 0] := by
  rw [List.take_succ, List.getD_eq_getElem?_getD, List.getElem?_eq_getElem h]
  rfl

theorem getD_take (l : List UInt8) (k i : Nat) (h : i < k) :
    (l.take k).getD i 0 = l.getD i 0 := by
  rw [List.getD_eq_getElem?_getD, List.getD_eq_getElem?_getD, List.getElem?_take_of_lt h]

/-- Appending a byte to the output and storing it at the write cursor. -/
theorem mirrors_put (st : BC0State) (out : List UInt8) (v : UInt8) (h : st.mirrors out) :
    BC0State.mirrors
      { st with
        w := st.w ++ [v]
        memo := Function.update st.memo st.memo_offset v
        memo_offset := (st.memo_offset + 1) &&& 0x0FFF }
      (out ++ [v]) := by
  obtain ⟨hw, hmo, hmemo⟩ := h
  refine ⟨by simp only [hw], ?_, ?_⟩
  · simp only [List.length_append, List.length_singleton]
    rw [Nat.and_pow_two_sub_one_eq_mod _ 12, hmo]
    omega
  · intro i hi hwin
    simp only [List.length_append, List.length_singleton] at hi hwin
    simp only
    by_cases hlast : i = out.length
    · subst hlast
      rw [← hmo, Function.update_same]
      simp
    · have hne : (0x0FEE + i) % 0x1000 ≠ st.memo_offset := by rw [hmo]; omega
      rw [Function.update_noteq hne, hmemo i (by omega) (by omega),
        List.getD_append _ _ _ _ (by omega)]

/-- The copy loop of a backreference whose source is `match_offset`, at most
`0x1000` bytes back, when the input repeats there. -/
theorem mirrors_copy (in_data : List UInt8) (R m : Nat) (hm : m < R) (hwin : R ≤ m + 0x1000) :
    ∀ (k z : Nat) (st : BC0State), st.mirrors (in_data.take (R + z)) →
    R + z + k ≤ in_data.length →
    (∀ j, j < z + k → in_data.getD (m + j) 0 = in_data.getD (R + j) 0) →
    (bc0_copy ((0x0FEE + m) % 0x1000) k z st).mirrors (in_data.take (R + z + k)) := by
  intro k
  induction k with
  | zero => intro z st h _ _; exact h
  | succ k ih =>
    intro z st h hlen heq
    unfold bc0_copy
    simp only
    have hslot : ((0x0FEE + m) % 0x1000 + z) &&& 0x0FFF = (0x0FEE + (m + z)) % 0x1000 := by
      rw [Nat.and_pow_two_sub_one_eq_mod _ 12]
      omega
    have htl : (in_data.take (R + z)).length = R + z := by
      rw [List.length_take]; omega
    have hv : st.memo (((0x0FEE + m) % 0x1000 + z) &&& 0x0FFF) = in_data.getD (R + z) 0 := by
      rw [hslot, h.2.2 (m + z) (by rw [htl]; omega) (by rw [htl]; omega),
        getD_take _ _ _ (by omega)]
      exact heq z (by omega)
    rw [hv]
    have hput := mirrors_put st _ (in_data.getD (R + z) 0) h
    rw [← take_succ_getD _ _ (by omega)] at hput
    have := ih (z + 1) _ hput (by omega) (fun j hj => heq j (by omega))
    have e : R + (z + 1) + k = R + z + (k + 1) := by omega
    rw [e] at this
    exact this

/-! ## BC0: what the compressor finds -/

theorem get_match_length_loop_spec (in_data : List UInt8) (a b : Nat) : ∀ (fuel ret : Nat),
    ret ≤ 0x12 →
    (∀ z, z < ret → a + z < in_data.length ∧ in_data.getD (a + z) 0 = in_data.getD (b + z) 0) →
    get_match_length_loop in_data a b fuel ret ≤ 0x12 ∧
    ∀ z, z < get_match_length_loop in_data a b fuel ret →
      a + z < in_data.length ∧ in_data.getD (a + z) 0 = in_data.getD (b + z) 0 := by
  intro fuel
  induction fuel with
  | zero => intro ret h1 h2; exact ⟨h1, h2⟩
  | succ fuel ih =>
    intro ret h1 h2
    unfold get_match_length_loop
    split
    · rename_i hc
      apply ih (ret + 1) (by omega)
      intro z hz
      by_cases hzr : z = ret
      · subst hzr; exact ⟨hc.2.1, hc.2.2.2⟩
      · exact h2 z (by omega)
    · exact ⟨h1, h2⟩

theorem get_match_length_spec (in_data : List UInt8) (a b : Nat) :
    get_match_length in_data a b ≤ 0x12 ∧
    ∀ z, z < get_match_length in_data a b →
      a + z < in_data.length ∧ in_data.getD (a + z) 0 = in_data.getD (b + z) 0 :=
  get_match_length_loop_spec in_data a b 0x12 0 (by decide) (fun z hz => absurd hz (by omega))

/-- The match that `bc0_compress` picks is empty or is measured at an offset
of the index. -/
theorem bc0_find_match_spec (in_data : List UInt8) (window_index : List Nat) (read_offset : Nat) :
    (bc0_find_match in_data window_index read_offset).2 = 0 ∨
    ((bc0_find_match in_data window_index read_offset).1 ∈ window_index ∧
      (bc0_find_match in_data window_index read_offset).2 =
        get_match_length in_data read_offset
          (bc0_find_match in_data window_index read_offset).1) := by
  unfold bc0_find_match window_lower_bound
  simp only [List.span_eq_take_drop]
  have hsplit := List.takeWhile_append_dropWhile
    (fun e => set_comparator in_data e read_offset) window_index
  have hafter : ∀ (after : Nat × Nat),
      after = (match List.dropWhile (fun e => set_comparator in_data e read_offset)
        window_index with
        | [] => (SIZE_T_MAX, 0)
        | match_offset :: _ =>
          (match_offset, get_match_length in_data read_offset match_offset)) →
      after.2 = 0 ∨ (after.1 ∈ window_index ∧
        after.2 = get_match_length in_data read_offset after.1) := by
    intro after ha
    cases hd : List.dropWhile (fun e => set_comparator in_data e read_offset) window_index with
    | nil => rw [hd] at ha; rw [ha]; exact Or.inl rfl
    | cons mo rest =>
      rw [hd] at ha
      rw [ha]
      refine Or.inr ⟨?_, rfl⟩
      rw [← hsplit, hd]
      simp
  cases hl : (List.takeWhile (fun e => set_comparator in_data e read_offset)
      window_index).getLast? with
  | none => exact hafter _ rfl
  | some bm =>
    simp only
    split
    · refine Or.inr ⟨?_, rfl⟩
      obtain ⟨ys, hys⟩ := List.getLast?_eq_some_iff.mp hl
      rw [← hsplit, hys]
      simp
    · exact hafter _ rfl

theorem set_comparator_loop_irrefl (in_data : List UInt8) : ∀ (n a : Nat),
    set_comparator_loop in_data n a a = false := by
  intro n
  induction n with
  | zero => intro a; simp [set_comparator_loop]
  | succ n ih =>
    intro a
    unfold set_comparator_loop
    have hirr : ¬ (in_data.getD a 0 < in_data.getD a 0) := UInt8.lt_irrefl _
    simp only [hirr, if_false, gt_iff_lt]
    exact ih (a + 1)

theorem set_comparator_irrefl (in_data : List UInt8) (a : Nat) :
    set_comparator in_data a a = false := by
  unfold set_comparator
  exact set_comparator_loop_irrefl _ _ _

theorem not_mem_window_erase (in_data : List UInt8) (window_index : List Nat) (key : Nat) :
    key ∉ window_erase in_data window_index key := by
  unfold window_erase
  intro h
  rw [List.mem_filter] at h
  simp [set_comparator_irrefl] at h

theorem mem_window_erase (in_data : List UInt8) (window_index : List Nat) (key e : Nat)
    (h : e ∈ window_erase in_data window_index key) : e ∈ window_index := by
  unfold window_erase at h
  exact (List.mem_filter.mp h).1

theorem mem_window_emplace (in_data : List UInt8) (window_index : List Nat) (key e : Nat)
    (h : e ∈ window_emplace in_data window_index key) : e ∈ window_index ∨ e = key := by
  unfold window_emplace at h
  simp only [List.span_eq_take_drop, List.mem_append, List.mem_cons] at h
  rcases h with h | h | h
  · exact Or.inl ((List.takeWhile_sublist _).subset h)
  · exact Or.inr h
  · exact Or.inl ((List.dropWhile_sublist _).subset h)

/-- After the index update every offset of the index is among the last
`0x1000` positions before the new `read_offset`. -/
theorem bc0_update_index_spec (in_data : List UInt8) : ∀ (n R : Nat) (idx : List Nat),
    (∀ e ∈ idx, e < R ∧ R ≤ e + 0x1000) →
    (bc0_update_index in_data n R idx).1 = R + n ∧
    ∀ e ∈ (bc0_update_index in_data n R idx).2, e < R + n ∧ R + n ≤ e + 0x1000 := by
  intro n
  induction n with
  | zero => intro R idx h; exact ⟨rfl, h⟩
  | succ n ih =>
    intro R idx h
    unfold bc0_update_index
    simp only
    have hstep : ∀ e ∈ window_emplace in_data
        (if R ≥ 0x1000 then window_erase in_data idx (R - 0x1000) else idx) R,
        e < R + 1 ∧ R + 1 ≤ e + 0x1000 := by
      intro e he
      rcases mem_window_emplace _ _ _ _ he with he | he
      · by_cases hR : R ≥ 0x1000
        · rw [if_pos hR] at he
          have hin := h e (mem_window_erase _ _ _ _ he)
          have hne : e ≠ R - 0x1000 := by
            intro heq; rw [heq] at he
            exact not_mem_window_erase _ _ _ he
          omega
        · rw [if_neg hR] at he
          have hin := h e he
          omega
      · omega
    have := ih (R + 1) _ hstep
    refine ⟨by rw [this.1]; omega, ?_⟩
    intro e he
    have := this.2 e he
    omega

/-! ## BC0: the round trip -/

theorem holds_write_opcode (in_data : List UInt8) (lw : LZSSInterleavedWriter)
    (full : List (List BC0Op)) (part : List BC0Op) (R mo ms : Nat) (h : lw.holds full part) :
    ∃ lw1, bc0_write_opcode in_data lw R mo ms = .ok lw1 ∧
      lw1.holds (bc0_push full part (bc0_op_of in_data R mo ms)).1
        (bc0_push full part (bc0_op_of in_data R mo ms)).2 := by
  unfold bc0_write_opcode bc0_op_of
  by_cases h3 : ms ≥ 3
  · simp only [h3, if_true]
    obtain ⟨lw1, hwc, hh⟩ := holds_write_op lw full part
      (.ref (UInt8.ofNat (((mo + SIZE_MOD - 0x12) % SIZE_MOD) &&& 0xFF))
        (UInt8.ofNat (((((mo + SIZE_MOD - 0x12) % SIZE_MOD) >>> 4) &&& 0xF0) ||| (ms - 3)))) h
    have hd : decide ((BC0Op.ref (UInt8.ofNat (((mo + SIZE_MOD - 0x12) % SIZE_MOD) &&& 0xFF))
        (UInt8.ofNat (((((mo + SIZE_MOD - 0x12) % SIZE_MOD) >>> 4) &&& 0xF0) ||| (ms - 3)))).flag
        = 1) = false := rfl
    rw [hd] at hwc
    rw [hwc]
    exact ⟨_, rfl, hh⟩
  · simp only [h3, if_false]
    obtain ⟨lw1, hwc, hh⟩ := holds_write_op lw full part (.lit (in_data.getD R 0)) h
    have hd : decide ((BC0Op.lit (in_data.getD R 0)).flag = 1) = true := rfl
    rw [hd] at hwc
    rw [hwc]
    exact ⟨_, rfl, hh⟩

/-- The opcode written at `read_offset` makes the decoder append the next
`match_size` bytes of the input. -/
theorem mirrors_apply_op (in_data : List UInt8) (R mo ms : Nat) (st : BC0State)
    (hst : st.mirrors (in_data.take R)) (hR : R < in_data.length)
    (hms : ms = 1 ∨ (3 ≤ ms ∧ ms ≤ 0x12 ∧ mo < R ∧ R ≤ mo + 0x1000 ∧ R + ms ≤ in_data.length ∧
      ∀ j, j < ms → in_data.getD (mo + j) 0 = in_data.getD (R + j) 0)) :
    (bc0_apply st (bc0_op_of in_data R mo ms)).mirrors (in_data.take (R + ms)) := by
  unfold bc0_op_of
  rcases hms with h1 | ⟨h3, h18, hmo, hwin, hlen, heq⟩
  · subst h1
    simp only [ge_iff_le, Nat.not_ofNat_le_one, if_false]
    have := mirrors_put st _ (in_data.getD R 0) hst
    rw [← take_succ_getD _ _ hR] at this
    exact this
  · simp only [ge_iff_le, h3, if_true]
    have hf := bc0_backreference_fields mo ms h3 h18
    simp only at hf
    unfold bc0_apply
    simp only
    rw [hf.1, hf.2]
    have := mirrors_copy in_data R mo hmo hwin ms 0 st (by simpa using hst) (by omega)
      (by simpa using heq)
    simpa using this

/-- The main loop of `bc0_compress`: it does not raise, and the opcodes the
writer holds at the end make the decoder produce the whole input. -/
theorem bc0_compress_loop_spec (in_data : List UInt8) : ∀ (fuel R : Nat) (idx : List Nat)
    (lw : LZSSInterleavedWriter) (full : List (List BC0Op)) (part : List BC0Op),
    in_data.length - R ≤ fuel → R ≤ in_data.length →
    (∀ e ∈ idx, e < R ∧ R ≤ e + 0x1000) → lw.holds full part →
    ((full.flatten ++ part).foldl bc0_apply (bc0_init [])).mirrors (in_data.take R) →
    ∃ lw1 full1 part1, bc0_compress_loop in_data fuel R idx lw = .ok lw1 ∧
      lw1.holds full1 part1 ∧
      ((full1.flatten ++ part1).foldl bc0_apply (bc0_init [])).mirrors in_data := by
  intro fuel
  induction fuel with
  | zero =>
    intro R idx lw full part hf hR _ hh hm
    have hRn : R = in_data.length := by omega
    unfold bc0_compress_loop
    rw [if_neg (by omega)]
    refine ⟨lw, full, part, rfl, hh, ?_⟩
    rw [hRn, List.take_length] at hm
    exact hm
  | succ fuel ih =>
    intro R idx lw full part hf hR hidx hh hm
    unfold bc0_compress_loop
    by_cases hlt : R < in_data.length
    · rw [if_pos hlt]
      simp only
      have hfm := bc0_find_match_spec in_data idx R
      generalize bc0_find_match in_data idx R = found at hfm ⊢
      have hms : (if found.2 < 3 then 1 else found.2) = 1 ∨
          (3 ≤ (if found.2 < 3 then 1 else found.2) ∧
            (if found.2 < 3 then 1 else found.2) ≤ 0x12 ∧ found.1 < R ∧ R ≤ found.1 + 0x1000 ∧
            R + (if found.2 < 3 then 1 else found.2) ≤ in_data.length ∧
            ∀ j, j < (if found.2 < 3 then 1 else found.2) →
              in_data.getD (found.1 + j) 0 = in_data.getD (R + j) 0) := by
        by_cases h3 : found.2 < 3
        · rw [if_pos h3]; exact Or.inl rfl
        · rw [if_neg h3]
          refine Or.inr ?_
          rcases hfm with h0 | ⟨hmem, hgml⟩
          · omega
          · have hspec := get_match_length_spec in_data R found.1
            rw [← hgml] at hspec
            have hin := hidx _ hmem
            refine ⟨by omega, hspec.1, hin.1, hin.2, ?_, ?_⟩
            · have := (hspec.2 (found.2 - 1) (by omega)).1
              omega
            · intro j hj
              exact ((hspec.2 j hj).2).symm
      generalize (if found.2 < 3 then 1 else found.2) = ms at hms ⊢
      have hms1 : 1 ≤ ms ∧ R + ms ≤ in_data.length := by
        rcases hms with h | h
        · omega
        · omega
      obtain ⟨lw1, hw, hh1⟩ := holds_write_opcode in_data lw full part R found.1 ms hh
      rw [hw]
      simp only
      have hup := bc0_update_index_spec in_data ms R idx hidx
      have hsem := mirrors_apply_op in_data R found.1 ms _ hm hlt hms
      have hfold : bc0_apply ((full.flatten ++ part).foldl bc0_apply (bc0_init []))
          (bc0_op_of in_data R found.1 ms) =
          ((bc0_push full part (bc0_op_of in_data R found.1 ms)).1.flatten ++
            (bc0_push full part (bc0_op_of in_data R found.1 ms)).2).foldl bc0_apply
            (bc0_init []) := by
        rw [bc0_push_flatten]
        simp only [List.foldl_append, List.foldl_cons, List.foldl_nil]
      rw [hfold] at hsem
      exact ih _ _ lw1 _ _ (by rw [hup.1]; omega) (by rw [hup.1]; omega)
        (by rw [hup.1]; exact hup.2) hh1 (by rw [hup.1]; exact hsem)
    · rw [if_neg hlt]
      have hRn : R = in_data.length := by omega
      refine ⟨lw, full, part, rfl, hh, ?_⟩
      rw [hRn, List.take_length] at hm
      exact hm

theorem bc0_ops_le_data : ∀ g : List BC0Op, g.length ≤ (g.flatMap BC0Op.data).length := by
  intro g
  induction g with
  | nil => simp
  | cons op g ih =>
    have := bc0_op_data_length op
    simp only [List.flatMap_cons, List.length_append, List.length_cons]
    omega

theorem bc0_ops_le_stream (full : List (List BC0Op)) (part : List BC0Op) :
    (full.flatten ++ part).length ≤
      (full.flatMap bc0_group_bytes ++ (if part = [] then [] else bc0_group_bytes part)).length := by
  have hp : part.length ≤ (if part = [] then [] else bc0_group_bytes part).length := by
    by_cases h : part = []
    · simp [h]
    · rw [if_neg h]
      have := bc0_ops_le_data part
      simp only [bc0_group_bytes, List.length_cons]
      omega
  have hfull : full.flatten.length ≤ (full.flatMap bc0_group_bytes).length := by
    induction full with
    | nil => simp
    | cons g full ih =>
      have := bc0_ops_le_data g
      simp only [List.flatten_cons, List.flatMap_cons, List.length_append, bc0_group_bytes,
        List.length_cons] at ih ⊢
      omega
  simp only [List.length_append]
  omega

/-- C2: for every byte buffer `b`, `bc0_compress` returns a stream that
`bc0_decompress` turns back into exactly `b`. -/
theorem bc0_roundtrip (b : List UInt8) :
    ∃ c, bc0_compress b = .ok c ∧ bc0_decompress c = .ok b := by
  obtain ⟨lw1, full1, part1, hloop, hh, hm⟩ := bc0_compress_loop_spec b b.length 0 []
    (LZSSInterleavedWriter.new 2) [] [] (by omega) (Nat.zero_le _) (by simp) holds_new
    (by simpa using mirrors_init [])
  refine ⟨lw1.close, ?_, ?_⟩
  · unfold bc0_compress
    rw [hloop]
  · rw [holds_close lw1 full1 part1 hh]
    obtain ⟨hfull, hlen⟩ : (∀ g ∈ full1, g.length = 8) ∧ part1.length < 8 := ⟨hh.2.1, hh.2.2.1⟩
    obtain ⟨stf, hrun, hw⟩ := bc0_run_groups full1 part1
      (bc0_init (full1.flatMap bc0_group_bytes ++
        (if part1 = [] then [] else bc0_group_bytes part1)))
      (full1.flatMap bc0_group_bytes ++
        (if part1 = [] then [] else bc0_group_bytes part1)).length
      hfull hlen rfl (by simp [bc0_init]) (bc0_ops_le_stream full1 part1)
    unfold bc0_decompress
    rw [hrun]
    simp only [Except.ok.injEq]
    rw [hw]
    have hinit : ∀ s : List UInt8, bc0_init s =
        { bc0_init [] with r := s, control_stream_bits := 0x0000 } := fun _ => rfl
    rw [hinit, bc0_foldl_with]
    exact hm.1

/-! ## The PRS round trip at compression level 2 and above

When fewer than `compression_level` bytes are left, the search of `advance`
tries literal prefixes that reach the end of the input. There the forward log
is read past `input_bytes`, a candidate of match size 0 is taken as the best
match (`0 >= 0 + 0`) together with its `num_literals`, and `advance` then
writes `best_match_literals` literals and one more, committing bytes that
were never added. -/

set_option maxRecDepth 100000 in
/-- C1, evaluated at the input `41` with compression level 3 (forward log of
`0x101` zeroed bytes): the compressed stream holds three literals and
decompresses to `41 00 00`, not to the input. -/
theorem prs_roundtrip_level3_fails :
    prs_compress (ForwardLog.zeroed 0x101) [0x41] 3 = .ok [0x17, 0x41, 0, 0, 0, 0] ∧
    prs_decompress [0x17, 0x41, 0, 0, 0, 0] 0 = .ok [0x41, 0, 0] := by
  decide

set_option maxRecDepth 100000 in
/-- C3, evaluated at the input `00` with compression level 2 (forward log of
`0x101` zeroed bytes): the compressed stream holds two literals and
`prs_decompress_size` returns 2 for an input of one byte. -/
theorem prs_decompress_size_level2_fails :
    prs_compress (ForwardLog.zeroed 0x101) [0x00] 2 = .ok [0x0B, 0, 0, 0, 0] ∧
    prs_decompress_size [0x0B, 0, 0, 0, 0] 0 = .ok 2 := by
  decide

/-! ## The output-size cap of `prs_decompress` -/

/-- Under a cap `N` the copy loop is the uncapped one when the result fits and
fails otherwise. -/
theorem prs_copy_cap (N ro : Nat) (hN : 0 < N) : ∀ (n z : Nat) (w : List UInt8), w.length ≤ N →
    prs_copy N ro n z w =
      if w.length + n ≤ N then prs_copy 0 ro n z w else .error .maxOutputSize := by
  intro n
  induction n with
  | zero => intro z w hw; simp [prs_copy, hw]
  | succ n ih =>
    intro z w hw
    have h0 : ¬ ((0 : Nat) ≠ 0 ∧ w.length = 0) := by simp
    rw [prs_copy, prs_copy, if_neg h0]
    by_cases hfull : N ≠ 0 ∧ w.length = N
    · have : ¬ (w.length + (n + 1) ≤ N) := by omega
      rw [if_pos hfull, if_neg this]
    · have hw' : (w ++ [w.getD (ro + z) 0]).length ≤ N := by
        simp only [List.length_append, List.length_singleton]; omega
      rw [if_neg hfull, ih (z + 1) _ hw']
      simp only [List.length_append, List.length_singleton]
      by_cases hc : w.length + 1 + n ≤ N
      · have : w.length + (n + 1) ≤ N := by omega
        rw [if_pos hc, if_pos this]
      · have : ¬ (w.length + (n + 1) ≤ N) := by omega
        rw [if_neg hc, if_neg this]

/-- The uncapped copy loop appends `n` bytes. -/
theorem prs_copy_grows (ro : Nat) : ∀ (n z : Nat) (w w2 : List UInt8),
    prs_copy 0 ro n z w = .ok w2 → w2.length = w.length + n := by
  intro n z w w2 h
  exact (prs_copy_ok_length (Or.inl rfl) h).1

/-- The range check of a backreference does not depend on the cap. -/
theorem prs_copy_backreference_cap (N : Nat) (hN : 0 < N) (w : List UInt8) (offset count : Nat)
    (hw : w.length ≤ N) :
    (∀ w2, prs_copy_backreference 0 w offset count = .ok w2 →
      w2.length = w.length + count ∧
      prs_copy_backreference N w offset count =
        if w2.length ≤ N then .ok w2 else .error .maxOutputSize) ∧
    (∀ e, prs_copy_backreference 0 w offset count = .error e →
      prs_copy_backreference N w offset count = .error e) := by
  unfold prs_copy_backreference
  simp only
  by_cases hoff : (w.length + offset) % SIZE_MOD ≥ w.length
  · simp only [if_pos hoff]
    constructor
    · intro w2 h; simp at h
    · intro e h; exact h
  · simp only [if_neg hoff]
    constructor
    · intro w2 h
      have hl := prs_copy_grows _ _ _ _ _ h
      refine ⟨hl, ?_⟩
      rw [prs_copy_cap N _ hN _ _ _ hw, hl, h]
    · intro e h
      obtain ⟨w2, h2⟩ := prs_copy_no_cap ((w.length + offset) % SIZE_MOD) count 0 w
      rw [h2] at h; simp at h

/-- One iteration under a cap `N`, against the uncapped iteration. -/
theorem prs_decompress_step_cap (N : Nat) (hN : 0 < N) (cr : ControlStreamReader)
    (w : List UInt8) (hw : w.length ≤ N) :
    (∀ cr1 w1, prs_decompress_step 0 cr w = .ok (.next cr1 w1) →
      w.length ≤ w1.length ∧
      prs_decompress_step N cr w =
        if w1.length ≤ N then .ok (.next cr1 w1) else .error .maxOutputSize) ∧
    (∀ cr1 w1, prs_decompress_step 0 cr w = .ok (.stop cr1 w1) →
      w1 = w ∧ prs_decompress_step N cr w = .ok (.stop cr1 w1)) ∧
    (∀ e, prs_decompress_step 0 cr w = .error e →
      prs_decompress_step N cr w = .error e ∨
      prs_decompress_step N cr w = .error .maxOutputSize) := by
  unfold prs_decompress_step
  rcases h1 : cr.read with e1 | ⟨b, cr0⟩
  · simp
  · cases b
    · simp only
      rcases hb : prs_read_backreference cr0 with e1 | ⟨x, cr2⟩
      · simp
      · cases x with
        | none => simp
        | some x =>
          obtain ⟨offset, count⟩ := x
          simp only
          have hcap := prs_copy_backreference_cap N hN w offset count hw
          rcases hc : prs_copy_backreference 0 w offset count with e1 | w2
          · rw [hcap.2 e1 hc]; simp
          · obtain ⟨hl, hN2⟩ := hcap.1 w2 hc
            rw [hN2]
            refine ⟨?_, ?_, ?_⟩
            · intro cr1 w1 h
              simp only [Except.ok.injEq, PRSStep.next.injEq] at h
              obtain ⟨h1, h2⟩ := h
              subst h1; subst h2
              refine ⟨by omega, ?_⟩
              by_cases hfit : w2.length ≤ N
              · simp [hfit]
              · simp [hfit]
            · intro cr1 w1 h; simp at h
            · intro e h; simp at h
    · simp only
      have h0 : ¬ ((0 : Nat) ≠ 0 ∧ w.length = 0) := by simp
      rw [if_neg h0]
      by_cases hfull : N ≠ 0 ∧ w.length = N
      · rw [if_pos hfull]
        rcases g : get_u8 cr0.r with e1 | ⟨v, r2⟩
        · simp
        · refine ⟨?_, ?_, ?_⟩
          · intro cr1 w1 h
            simp only [Except.ok.injEq, PRSStep.next.injEq] at h
            obtain ⟨_, h2⟩ := h
            subst h2
            have : ¬ ((w ++ [v]).length ≤ N) := by
              simp only [List.length_append, List.length_singleton]; omega
            exact ⟨by simp, by rw [if_neg this]⟩
          · intro cr1 w1 h; simp at h
          · intro e h; simp at h
      · rw [if_neg hfull]
        rcases g : get_u8 cr0.r with e1 | ⟨v, r2⟩
        · simp
        · refine ⟨?_, ?_, ?_⟩
          · intro cr1 w1 h
            simp only [Except.ok.injEq, PRSStep.next.injEq] at h
            obtain ⟨h1, h2⟩ := h
            subst h1; subst h2
            have : (w ++ [v]).length ≤ N := by
              simp only [List.length_append, List.length_singleton]; omega
            exact ⟨by simp, by rw [if_pos this]⟩
          · intro cr1 w1 h; simp at h
          · intro e h; simp at h

/-- The output of the uncapped loop is at least as long as what it starts
from. -/
theorem prs_decompress_loop_grows : ∀ (fuel : Nat) (cr : ControlStreamReader)
    (w w2 : List UInt8), prs_decompress_loop 0 fuel cr w = .ok w2 → w.length ≤ w2.length := by
  intro fuel
  induction fuel with
  | zero =>
    intro cr w w2 h
    unfold prs_decompress_loop at h
    by_cases hr : cr.r = []
    · simp only [hr, if_true, Except.ok.injEq] at h; rw [h]
    · simp [hr] at h
  | succ fuel ih =>
    intro cr w w2 h
    by_cases hr : cr.r = []
    · unfold prs_decompress_loop at h
      simp only [hr, if_true, Except.ok.injEq] at h; rw [h]
    · rw [prs_decompress_loop_succ _ _ _ _ hr] at h
      have hstep := prs_decompress_step_cap (w.length + 1) (by omega) cr w (by omega)
      rcases hs : prs_decompress_step 0 cr w with e | res
      · simp [hs] at h
      · cases res with
        | stop cr1 w1 =>
          simp only [hs, Except.ok.injEq] at h
          rw [← h, (hstep.2.1 cr1 w1 hs).1]
        | next cr1 w1 =>
          simp only [hs] at h
          have hl := ih cr1 w1 w2 h
          have := (hstep.1 cr1 w1 hs).1
          omega

/-- The loop under a cap `N`, against the uncapped loop. -/
theorem prs_decompress_loop_cap (N : Nat) (hN : 0 < N) : ∀ (fuel : Nat)
    (cr : ControlStreamReader) (w : List UInt8), w.length ≤ N →
    (∀ w2, prs_decompress_loop 0 fuel cr w = .ok w2 →
      prs_decompress_loop N fuel cr w =
        if w2.length ≤ N then .ok w2 else .error .maxOutputSize) ∧
    (∀ e, prs_decompress_loop 0 fuel cr w = .error e →
      ∃ e1, prs_decompress_loop N fuel cr w = .error e1) := by
  intro fuel
  induction fuel with
  | zero =>
    intro cr w hw
    unfold prs_decompress_loop
    by_cases hr : cr.r = []
    · simp only [hr, if_true, Except.ok.injEq]
      constructor
      · intro w2 h; subst h; simp [hw]
      · intro e h; simp at h
    · simp [hr]
  | succ fuel ih =>
    intro cr w hw
    by_cases hr : cr.r = []
    · unfold prs_decompress_loop
      simp only [hr, if_true, Except.ok.injEq]
      constructor
      · intro w2 h; subst h; simp [hw]
      · intro e h; simp at h
    · rw [prs_decompress_loop_succ _ _ _ _ hr, prs_decompress_loop_succ _ _ _ _ hr]
      have hstep := prs_decompress_step_cap N hN cr w hw
      rcases hs : prs_decompress_step 0 cr w with e | res
      · rcases hstep.2.2 e hs with h | h
        · rw [h]; simp
        · rw [h]; simp
      · cases res with
        | stop cr1 w1 =>
          obtain ⟨hw1, h⟩ := hstep.2.1 cr1 w1 hs
          rw [h]
          simp only [Except.ok.injEq]
          constructor
          · intro w2 h2; subst h2; subst hw1; simp [hw]
          · intro e h2; simp at h2
        | next cr1 w1 =>
          obtain ⟨hw1, h⟩ := hstep.1 cr1 w1 hs
          rw [h]
          simp only
          by_cases hfit : w1.length ≤ N
          · rw [if_pos hfit]
            exact ih cr1 w1 hfit
          · rw [if_neg hfit]
            constructor
            · intro w2 h2
              have := prs_decompress_loop_grows _ _ _ _ h2
              have : ¬ (w2.length ≤ N) := by omega
              rw [if_neg this]
            · intro e _; exact ⟨_, rfl⟩

/-- Without a cap an iteration never raises "maximum output size exceeded". -/
theorem prs_decompress_step_no_cap (cr : ControlStreamReader) (w : List UInt8) :
    prs_decompress_step 0 cr w ≠ .error .maxOutputSize := by
  intro h
  unfold prs_decompress_step at h
  rcases h1 : cr.read with e1 | ⟨b, cr0⟩
  · simp only [h1, Except.error.injEq] at h
    have := (read_error h1).1
    rw [h] at this; cases this
  · cases b
    · simp only [h1] at h
      rcases hb : prs_read_backreference cr0 with e1 | ⟨x, cr2⟩
      · simp only [hb, Except.error.injEq] at h
        have := prs_read_backreference_error hb
        rw [h] at this; cases this
      · cases x with
        | none => simp [hb] at h
        | some x =>
          simp only [hb] at h
          rcases hc : prs_copy_backreference 0 w x.1 x.2 with e1 | w2
          · simp only [hc, Except.error.injEq] at h
            subst h
            unfold prs_copy_backreference at hc
            simp only at hc
            split at hc
            · simp at hc
            · obtain ⟨w2, h2⟩ := prs_copy_no_cap ((w.length + x.1) % SIZE_MOD) x.2 0 w
              rw [h2] at hc; simp at hc
          · simp [hc] at h
    · simp only [h1] at h
      have h0 : ¬ ((0 : Nat) ≠ 0 ∧ w.length = 0) := by simp
      rw [if_neg h0] at h
      rcases g : get_u8 cr0.r with e1 | ⟨v, r2⟩
      · simp only [g, Except.error.injEq] at h
        have := (get_u8_error g).1
        rw [h] at this; cases this
      · simp [g] at h

/-- Without a cap the loop never raises "maximum output size exceeded". -/
theorem prs_decompress_loop_no_cap : ∀ (fuel : Nat) (cr : ControlStreamReader) (w : List UInt8),
    prs_decompress_loop 0 fuel cr w ≠ .error .maxOutputSize := by
  intro fuel
  induction fuel with
  | zero =>
    intro cr w h
    unfold prs_decompress_loop at h
    by_cases hr : cr.r = []
    · simp [hr] at h
    · simp [hr] at h
  | succ fuel ih =>
    intro cr w h
    by_cases hr : cr.r = []
    · unfold prs_decompress_loop at h
      simp [hr] at h
    · rw [prs_decompress_loop_succ _ _ _ _ hr] at h
      rcases hs : prs_decompress_step 0 cr w with e | res
      · simp only [hs, Except.error.injEq] at h
        subst h
        exact prs_decompress_step_no_cap cr w hs
      · cases res with
        | stop cr1 w1 => simp [hs] at h
        | next cr1 w1 =>
          simp only [hs] at h
          exact ih cr1 w1 h

theorem prs_decompress_cap_zero (s : List UInt8) :
    prs_decompress s 0 ≠ .error .maxOutputSize :=
  prs_decompress_loop_no_cap _ _ _

/-- C11. For a cap `N > 0`: a stream whose uncapped decoding succeeds with at
most `N` bytes decodes to the same buffer under the cap (exactly `N` bytes are
accepted); a stream whose uncapped decoding yields more than `N` bytes fails
under the cap with "maximum output size exceeded"; a stream that fails uncapped
fails under the cap too. With the cap 0 that error is never raised. -/
theorem prs_decompress_cap (s : List UInt8) (N : Nat) (hN : 0 < N) :
    (∀ w, prs_decompress s 0 = .ok w → w.length ≤ N → prs_decompress s N = .ok w) ∧
    (∀ w, prs_decompress s 0 = .ok w → N < w.length →
      prs_decompress s N = .error .maxOutputSize) ∧
    (∀ e, prs_decompress s 0 = .error e → ∃ e1, prs_decompress s N = .error e1) ∧
    prs_decompress s 0 ≠ .error .maxOutputSize := by
  have hloop := prs_decompress_loop_cap N hN s.length { r := s, bits := 0 } [] (by simp)
  refine ⟨?_, ?_, ?_, ?_⟩
  · intro w h hw
    have := hloop.1 w h
    rw [if_pos hw] at this
    exact this
  · intro w h hw
    have := hloop.1 w h
    rw [if_neg (by omega)] at this
    exact this
  · intro e h
    exact hloop.2 e h
  · exact prs_decompress_cap_zero s

set_option maxRecDepth 100000 in
theorem prs_decompress_cap_witness :
    prs_decompress [0x17, 0x41, 0x42, 0x43, 0, 0] 3 = .ok [0x41, 0x42, 0x43] ∧
    prs_decompress [0x17, 0x41, 0x42, 0x43, 0, 0] 2 = .error .maxOutputSize :=
  ⟨(prs_decompress_cap [0x17, 0x41, 0x42, 0x43, 0, 0] 3 (by decide)).1 [0x41, 0x42, 0x43]
      (by decide) (by decide),
   (prs_decompress_cap [0x17, 0x41, 0x42, 0x43, 0, 0] 2 (by decide)).2.1 [0x41, 0x42, 0x43]
      (by decide) (by decide)⟩

/-! ## `close` and `add` after `close` -/

/-- A sequence of `add` calls on an open compressor succeeds and leaves it
open. -/
theorem add_all_ok : ∀ (chunks : List (List UInt8)) (c : PRSCompressor), c.closed = false →
    ∃ c1, c.add_all chunks = .ok c1 ∧ c1.closed = false := by
  intro chunks
  induction chunks with
  | nil => intro c hc; exact ⟨c, rfl, hc⟩
  | cons data rest ih =>
    intro c hc
    obtain ⟨c1, h1, hc1⟩ := add_bytes_ok data c
    have hadd : c.add data = .ok c1 := by
      unfold PRSCompressor.add
      simp [hc, h1]
    obtain ⟨c2, h2, hc2⟩ := ih c1 (by rw [hc1, hc])
    refine ⟨c2, ?_, hc2⟩
    unfold PRSCompressor.add_all
    simp only [hadd]
    exact h2

/-- The compressor returned by `close` is closed. -/
theorem close_closed {c c1 : PRSCompressor} (h : c.close = .ok c1) : c1.closed = true := by
  unfold PRSCompressor.close at h
  by_cases hc : c.closed = true
  · rw [if_neg (not_not.mpr hc)] at h
    simp only [Except.ok.injEq] at h
    rw [← h]; exact hc
  · rw [if_pos hc] at h
    rcases hd : PRSCompressor.drain (c.input_bytes - c.reverse_log.end_offset) c with e | c2
    · simp [hd] at h
    · simp only [hd] at h
      split at h
      · cases h
      · simp only [Except.ok.injEq] at h
        rw [← h]

/-- On a closed compressor `close` changes nothing. -/
theorem close_of_closed {c : PRSCompressor} (h : c.closed = true) : c.close = .ok c := by
  unfold PRSCompressor.close
  simp [h]

/-- C12. `close` is idempotent: whatever state the compressor is in, `close`
returns, and calling it again returns the same compressor state, hence the same
output buffer, with every field unchanged. This holds in particular after any
sequence of `add` calls on a new compressor, which always succeeds. -/
theorem prs_close_idempotent :
    (∀ c : PRSCompressor, ∃ c1, c.close = .ok c1 ∧ c1.closed = true ∧ c1.close = .ok c1) ∧
    (∀ (forward_log : ForwardLog) (compression_level : Nat) (chunks : List (List UInt8)),
      ∃ c c1, (PRSCompressor.new forward_log compression_level).add_all chunks = .ok c ∧
        c.close = .ok c1 ∧ c1.close = .ok c1 ∧
        PRSCompressor.close c1 = PRSCompressor.close c) := by
  constructor
  · intro c
    obtain ⟨c1, h1⟩ := close_ok c
    exact ⟨c1, h1, close_closed h1, close_of_closed (close_closed h1)⟩
  · intro forward_log compression_level chunks
    obtain ⟨c, hc, _⟩ := add_all_ok chunks (PRSCompressor.new forward_log compression_level) rfl
    obtain ⟨c1, h1⟩ := close_ok c
    have h2 := close_of_closed (close_closed h1)
    exact ⟨c, c1, hc, h1, h2, by rw [h2, h1]⟩

/-- C13. `add` raises "compressor is closed" exactly when the compressor is
closed. After `close` every `add`, with any data, fails with that error; the
error is raised before anything is written, so the state stays the one `close`
left and a further `close` returns it again. Before `close`, that is after any
sequence of `add` calls on a new compressor, `add` succeeds. -/
theorem prs_add_after_close :
    (∀ (c : PRSCompressor) (data : List UInt8),
      c.add data = .error .compressorClosed ↔ c.closed = true) ∧
    (∀ (c : PRSCompressor) (data : List UInt8), ∃ c1, c.close = .ok c1 ∧
      c1.add data = .error .compressorClosed ∧ c1.add [] = .error .compressorClosed ∧
      c1.close = .ok c1) ∧
    (∀ (forward_log : ForwardLog) (compression_level : Nat) (chunks : List (List UInt8))
      (data : List UInt8),
      ∃ c c1, (PRSCompressor.new forward_log compression_level).add_all chunks = .ok c ∧
        c.closed = false ∧ c.add data = .ok c1) := by
  have hiff : ∀ (c : PRSCompressor) (data : List UInt8),
      c.add data = .error .compressorClosed ↔ c.closed = true := by
    intro c data
    unfold PRSCompressor.add
    by_cases hc : c.closed = true
    · simp [hc]
    · obtain ⟨c1, h1, _⟩ := add_bytes_ok data c
      simp [hc, h1]
  refine ⟨hiff, ?_, ?_⟩
  · intro c data
    obtain ⟨c1, h1⟩ := close_ok c
    have hcl := close_closed h1
    exact ⟨c1, h1, (hiff c1 data).2 hcl, (hiff c1 []).2 hcl, close_of_closed hcl⟩
  · intro forward_log compression_level chunks data
    obtain ⟨c, hc, hopen⟩ :=
      add_all_ok chunks (PRSCompressor.new forward_log compression_level) rfl
    obtain ⟨c1, h1, _⟩ := add_bytes_ok data c
    refine ⟨c, c1, hc, hopen, ?_⟩
    unfold PRSCompressor.add
    simp [hopen, h1]

/-! ## What a backreference copies -/

/-- The byte a copy with offset `-d` reads for its `z`-th output byte, the
first `z` bytes being appended already, is byte `L - d + z % d` of the old
output. -/
theorem prs_copy_source (w : List UInt8) (d z : Nat) (h1 : 1 ≤ d) (hd : d ≤ w.length) :
    (w ++ (List.range z).map (fun i => w.getD (w.length - d + i % d) 0)).getD
      (w.length - d + z) 0 = w.getD (w.length - d + z % d) 0 := by
  by_cases hz : z < d
  · rw [List.getD_append _ _ _ _ (by omega), Nat.mod_eq_of_lt hz]
  · have hz' : d ≤ z := by omega
    rw [List.getD_append_right _ _ _ _ (by omega)]
    have hidx : w.length - d + z - w.length = z - d := by omega
    have hlt : z - d < z := by omega
    rw [hidx, Nat.mod_eq_sub_mod hz']
    simp [List.getD_eq_getElem?_getD, List.getElem?_map, List.getElem?_range, hlt]

/-- The copy loop of a backreference with offset `-d`, entered after `z` bytes,
appends the remaining bytes of the repeating pattern. -/
theorem prs_copy_pattern (m : Nat) (w : List UInt8) (d : Nat) (h1 : 1 ≤ d) (hd : d ≤ w.length) :
    ∀ (n z : Nat), (m = 0 ∨ w.length + z + n ≤ m) →
    prs_copy m (w.length - d) n z
        (w ++ (List.range z).map (fun i => w.getD (w.length - d + i % d) 0)) =
      .ok (w ++ (List.range (z + n)).map (fun i => w.getD (w.length - d + i % d) 0)) := by
  intro n
  induction n with
  | zero => intro z _; simp [prs_copy]
  | succ n ih =>
    intro z hm
    have hfull : ¬ (m ≠ 0 ∧
        (w ++ (List.range z).map (fun i => w.getD (w.length - d + i % d) 0)).length = m) := by
      simp only [List.length_append, List.length_map, List.length_range]; omega
    rw [prs_copy, if_neg hfull, prs_copy_source w d z h1 hd]
    have happ : w ++ (List.range z).map (fun i => w.getD (w.length - d + i % d) 0) ++
        [w.getD (w.length - d + z % d) 0] =
        w ++ (List.range (z + 1)).map (fun i => w.getD (w.length - d + i % d) 0) := by
      rw [List.range_succ, List.map_append, List.append_assoc]; rfl
    rw [happ, ih (z + 1) (by omega)]
    have : z + 1 + n = z + (n + 1) := by omega
    rw [this]

/-- C14. A backreference with offset `-d`, `1 ≤ d ≤ L`, and length `n` appends
`n` bytes to the output `w` of length `L`, the `z`-th of which is byte
`L - d + z % d` of `w`; this holds also for `n > d`, where the range runs past
the old end of the output and the pattern repeats. A literal `A` followed by a
short copy with offset `-1` and length 5 decodes to six `A` bytes. -/
theorem prs_backreference_repeats (m : Nat) (w : List UInt8) (d n : Nat) (h1 : 1 ≤ d)
    (hd : d ≤ w.length) (hw : w.length < 2 ^ 64) (hm : m = 0 ∨ w.length + n ≤ m) :
    prs_copy_backreference m w (2 ^ 64 - d) n =
      .ok (w ++ (List.range n).map (fun z => w.getD (w.length - d + z % d) 0)) ∧
    prs_decompress [0x59, 0x41, 0xFF, 0, 0] 0 = .ok (List.replicate 6 0x41) := by
  constructor
  · have hro : (w.length + (2 ^ 64 - d)) % SIZE_MOD = w.length - d := by
      have e : w.length + (2 ^ 64 - d) = (w.length - d) + 2 ^ 64 := by
        norm_num at hw ⊢; omega
      rw [e]
      unfold SIZE_MOD
      rw [Nat.add_mod_right, Nat.mod_eq_of_lt (by omega)]
    unfold prs_copy_backreference
    simp only [hro]
    rw [if_neg (by omega)]
    have := prs_copy_pattern m w d h1 hd n 0 (by omega)
    simpa using this
  · decide

set_option maxRecDepth 100000 in
theorem prs_backreference_repeats_witness :
    prs_copy_backreference 0 [0x41, 0x42, 0x43] (2 ^ 64 - 2) 5 =
      .ok [0x41, 0x42, 0x43, 0x42, 0x43, 0x42, 0x43, 0x42] :=
  (prs_backreference_repeats 0 [0x41, 0x42, 0x43] 2 5 (by decide) (by decide)
    (by decide) (Or.inl rfl)).1

/-! ## The stop opcode -/

/-- After the control bits 0 then 1, a 16-bit field whose top 13 bits are zero
makes the iteration leave the loop, with the output as it was and the bytes
after the field unread. -/
theorem prs_step_stop (m : Nat) (cr cr1 cr2 : ControlStreamReader) (lo hi : UInt8)
    (rest w : List UInt8) (hb0 : cr.read = .ok (false, cr1)) (hb1 : cr1.read = .ok (true, cr2))
    (hr : cr2.r = lo :: hi :: rest) (hstop : (lo.toNat ||| (hi.toNat <<< 8)) >>> 3 = 0) :
    prs_decompress_step m cr w = .ok (.stop { r := rest, bits := cr2.bits } w) := by
  unfold prs_decompress_step
  simp only [hb0]
  unfold prs_read_backreference
  simp only [hb1, hr, get_u8, hstop, Nat.zero_or, if_true]

/-- A stream that starts with a stop opcode decodes to the empty buffer. -/
theorem prs_first_stop (c lo : UInt8) (t : List UInt8) (m : Nat) (hc : c.toNat % 4 = 2)
    (hlo : lo.toNat < 8) : prs_decompress (c :: lo :: 0 :: t) m = .ok [] := by
  have hn := c.toNat_lt
  have hlt : c.toNat < 256 := by norm_num at hn ⊢; omega
  have b0 := control_bit0_even c.toNat hlt (by omega)
  have b1 := control_bit1_set c.toNat hlt hc
  have k1 := control_bit8 c.toNat hlt 1 (by decide)
  have hstop : (lo.toNat ||| ((0 : UInt8).toNat <<< 8)) >>> 3 = 0 := by
    have h0 : (0 : UInt8).toNat = 0 := rfl
    rw [h0, Nat.zero_shiftLeft, Nat.or_zero, Nat.shiftRight_eq_div_pow]
    omega
  have hstep := prs_step_stop m { r := c :: lo :: 0 :: t, bits := 0 }
    { r := lo :: 0 :: t, bits := (0xFF00 ||| c.toNat) >>> 1 }
    { r := lo :: 0 :: t, bits := (0xFF00 ||| c.toNat) >>> 1 >>> 1 } lo 0 t []
    (by rw [read_refill (by decide)]
        simp only [b0, ne_eq, not_true_eq_false, decide_False])
    (by rw [read_buffered k1]
        simp only [b1, ne_eq, not_false_eq_true, decide_True])
    rfl hstop
  unfold prs_decompress
  simp only [List.length_cons]
  rw [prs_decompress_loop_succ _ _ _ _ (by simp), hstep]

/-- C15. After the control bits 0 then 1, a 16-bit little-endian field whose
top 13 bits are zero ends the decoding successfully with the bytes produced so
far, whatever its low 3 bits are and whatever bytes follow: the iteration
leaves the loop with the output unchanged and the rest of the input unread.
So a stream that starts with a stop opcode decodes to the empty buffer and a
stream of eight literals followed by a stop opcode decodes to the eight bytes,
whatever comes after the opcode. -/
theorem prs_stop_opcode (m : Nat) (cr cr1 cr2 : ControlStreamReader) (lo hi : UInt8)
    (rest w : List UInt8) (fuel : Nat)
    (hb0 : cr.read = .ok (false, cr1)) (hb1 : cr1.read = .ok (true, cr2))
    (hr : cr2.r = lo :: hi :: rest) (hstop : (lo.toNat ||| (hi.toNat <<< 8)) >>> 3 = 0) :
    prs_decompress_step m cr w = .ok (.stop { r := rest, bits := cr2.bits } w) ∧
    prs_decompress_loop m (fuel + 1) cr w = .ok w ∧
    (∀ (c lo1 : UInt8) (t : List UInt8), c.toNat % 4 = 2 → lo1.toNat < 8 →
      prs_decompress (c :: lo1 :: 0 :: t) m = .ok []) ∧
    (∀ (g : List UInt8) (c lo1 : UInt8) (t : List UInt8), g.length = 8 → c.toNat % 4 = 2 →
      lo1.toNat < 8 → (m = 0 ∨ 8 ≤ m) →
      prs_decompress (0xFF :: (g ++ c :: lo1 :: 0 :: t)) m = .ok g) := by
  have hstep := prs_step_stop m cr cr1 cr2 lo hi rest w hb0 hb1 hr hstop
  refine ⟨hstep, ?_, ?_, ?_⟩
  · have l1 := read_length hb0
    have l2 := read_length hb1
    have hne : cr.r ≠ [] := by
      intro h
      rw [h] at l1
      rw [hr] at l2
      simp only [List.length_cons, List.length_nil] at l1 l2
      omega
    rw [prs_decompress_loop_succ _ _ _ _ hne, hstep]
  · intro c lo1 t hc hlo
    exact prs_first_stop c lo1 t m hc hlo
  · intro g c lo1 t hg hc hlo hm
    have hn := c.toNat_lt
    have hlt : c.toNat < 256 := by norm_num at hn ⊢; omega
    have b0 := control_bit0_even c.toNat hlt (by omega)
    have b1 := control_bit1_set c.toNat hlt hc
    have k1 := control_bit8 c.toNat hlt 1 (by decide)
    have hstop1 : (lo1.toNat ||| ((0 : UInt8).toNat <<< 8)) >>> 3 = 0 := by
      have h0 : (0 : UInt8).toNat = 0 := rfl
      rw [h0, Nat.zero_shiftLeft, Nat.or_zero, Nat.shiftRight_eq_div_pow]
      omega
    have hs := prs_step_stop m { r := c :: lo1 :: 0 :: t, bits := 0xFFFF >>> g.length }
      { r := lo1 :: 0 :: t, bits := (0xFF00 ||| c.toNat) >>> 1 }
      { r := lo1 :: 0 :: t, bits := (0xFF00 ||| c.toNat) >>> 1 >>> 1 } lo1 0 t ([] ++ g)
      (by rw [read_refill (by rw [hg]; decide)]
          simp only [b0, ne_eq, not_true_eq_false, decide_False])
      (by rw [read_buffered k1]
          simp only [b1, ne_eq, not_false_eq_true, decide_True])
      rfl hstop1
    unfold prs_decompress
    have hlen : (0xFF :: (g ++ c :: lo1 :: 0 :: t)).length = (t.length + 3 + 1) + g.length := by
      simp only [List.length_cons, List.length_append]; omega
    rw [hlen, prs_literal_group m g (c :: lo1 :: 0 :: t) [] 0 (t.length + 3 + 1) (by decide)
      (by omega) (by omega) (by simp only [List.length_nil]; omega),
      prs_decompress_loop_succ _ _ _ _ (by simp), hs]
    simp

set_option maxRecDepth 100000 in
theorem prs_stop_opcode_witness :
    prs_decompress_loop 0 1 { r := [0x02, 0x07, 0x00, 0x99], bits := 0 } [0x41] = .ok [0x41] :=
  (prs_stop_opcode 0 { r := [0x02, 0x07, 0x00, 0x99], bits := 0 }
    { r := [0x07, 0x00, 0x99], bits := 0x7F81 } { r := [0x07, 0x00, 0x99], bits := 0x3FC0 }
    0x07 0x00 [0x99] [0x41] 0 (by decide) (by decide) rfl (by decide)).2.1

/-! ## Agreement of the copy opcodes between compressor and decompressor -/

/-- With room left in the pending control bits, `write_control` shifts the new
bit in. -/
theorem write_control_shift (c : PRSCompressor) (z : Bool)
    (h : c.pending_control_bits &&& 0x0100 = 0) :
    c.write_control z =
      { c with
        pending_control_bits := (c.pending_control_bits >>> 1) ||| (if z then 0x8080 else 0x8000) } := by
  unfold PRSCompressor.write_control
  rw [if_neg (by rw [h]; simp)]

/-- With control bits pending, `flush_control` writes the control byte in
place. -/
theorem flush_control_pending (c : PRSCompressor) (h : c.pending_control_bits &&& 0xFF00 ≠ 0) :
    c.flush_control =
      .ok { c with
        pending_control_bits := prs_flush_shift 16 c.pending_control_bits
        output := c.output.set c.control_byte_offset
          (UInt8.ofNat (prs_flush_shift 16 c.pending_control_bits &&& 0xFF)) } := by
  unfold PRSCompressor.flush_control
  rw [if_pos h]

/-- The low byte of the pattern of `-d`. -/
theorem neg_low_byte (d : Nat) (h1 : 1 ≤ d) (h2 : d ≤ 2 ^ 64) :
    (2 ^ 64 - d) &&& 0xFF = ((-(d : Int)) % 256).toNat := by
  have e : (0xFF : Nat) = 2 ^ 8 - 1 := by norm_num
  rw [e, Nat.and_pow_two_sub_one_eq_mod]
  norm_num at h2 ⊢
  omega

/-- The short-copy branch of the decoder: after a control bit 0, the control
bits 0, `b1`, `b0` and the data byte `v`. -/
theorem prs_read_short_copy (cr cr1 cr2 cr3 : ControlStreamReader) (b1 b0 : Bool) (v : UInt8)
    (rest : List UInt8) (h0 : cr.read = .ok (false, cr1)) (h1 : cr1.read = .ok (b1, cr2))
    (h2 : cr2.read = .ok (b0, cr3)) (hr : cr3.r = v :: rest) :
    prs_read_backreference cr =
      .ok (some (v.toNat ||| NOT_FF, (((if b1 then 1 else 0) <<< 1) ||| (if b0 then 1 else 0)) + 2),
        { r := rest, bits := cr3.bits }) := by
  unfold prs_read_backreference
  simp only [h0, h1, h2, hr, get_u8]

/-- The data byte of a short copy with offset `-d` decodes to the pattern of
`-d`. -/
theorem short_offset_decodes (d : Nat) (h1 : 1 ≤ d) (h2 : d ≤ 256) :
    (UInt8.ofNat ((-(d : Int)) % 256).toNat).toNat ||| NOT_FF = 2 ^ 64 - d := by
  have hlt : ((-(d : Int)) % 256).toNat < 256 := by omega
  rw [toNat_ofNat_lt hlt, lor_not_FF hlt]
  unfold NOT_FF
  norm_num
  omega

/-- The first control byte after four control bits 0, 0, `b1`, `b0` were
written to a new compressor and flushed. -/
theorem short_copy_control_byte (b1 b0 : Bool) :
    prs_flush_shift 16
      (((((((0 >>> 1 ||| (if false then 0x8080 else 0x8000)) >>> 1) |||
        (if false then 0x8080 else 0x8000)) >>> 1) ||| (if b1 then 0x8080 else 0x8000)) >>> 1)
        ||| (if b0 then 0x8080 else 0x8000)) &&& 0xFF =
      (if b1 then 4 else 0) + (if b0 then 8 else 0) := by
  cases b1 <;> cases b0 <;> decide

/-- Up to four control bits written from empty pending bits leave bit 8
clear. -/
theorem pending_four (z1 z2 z3 : Bool) :
    (0 >>> 1 ||| (if z1 then 0x8080 else 0x8000)) &&& 0x0100 = 0 ∧
    (((0 >>> 1 ||| (if z1 then 0x8080 else 0x8000)) >>> 1) |||
      (if z2 then 0x8080 else 0x8000)) &&& 0x0100 = 0 ∧
    (((((0 >>> 1 ||| (if z1 then 0x8080 else 0x8000)) >>> 1) |||
      (if z2 then 0x8080 else 0x8000)) >>> 1) ||| (if z3 then 0x8080 else 0x8000)) &&& 0x0100 =
      0 := by
  cases z1 <;> cases z2 <;> cases z3 <;> decide

/-- Four control bits written to a compressor with no pending control bits are
only shifted in: no control byte is completed. -/
theorem write_control_four (c : PRSCompressor) (z1 z2 z3 z4 : Bool)
    (h : c.pending_control_bits = 0) :
    (((c.write_control z1).write_control z2).write_control z3).write_control z4 =
      { c with
        pending_control_bits :=
          ((((((0 >>> 1 ||| (if z1 then 0x8080 else 0x8000)) >>> 1) |||
            (if z2 then 0x8080 else 0x8000)) >>> 1) ||| (if z3 then 0x8080 else 0x8000)) >>> 1)
            ||| (if z4 then 0x8080 else 0x8000) } := by
  have hp := pending_four z1 z2 z3
  rw [write_control_shift c z1 (by rw [h]; decide), h]
  rw [write_control_shift _ z2 hp.1]
  rw [write_control_shift _ z3 hp.2.1]
  rw [write_control_shift _ z4 hp.2.2]

/-- The count a short copy decodes to. -/
theorem short_count_decodes (n : Nat) (hn1 : 2 ≤ n) (hn2 : n ≤ 5) :
    (((if (n - 2).testBit 1 then 1 else 0) <<< 1) ||| (if (n - 2).testBit 0 then 1 else 0)) + 2 =
      n := by
  interval_cases n <;> rfl

/-- The control bits `advance_short_copy` derives from the size. -/
theorem short_size_bits (n : Nat) (hn1 : 2 ≤ n) (hn2 : n ≤ 5) :
    decide ((n - 2) % 256 &&& 2 ≠ 0) = (n - 2).testBit 1 ∧
    decide ((n - 2) % 256 &&& 1 ≠ 0) = (n - 2).testBit 0 := by
  interval_cases n <;> exact ⟨rfl, rfl⟩

/-- The first four control bits the decoder reads from a fresh control byte
`c` are the four low bits of `c`, lowest first. -/
theorem control_byte_reads (c : UInt8) (r : List UInt8) :
    ControlStreamReader.read { r := c :: r, bits := 0 } =
      .ok (decide (c.toNat % 2 = 1), { r := r, bits := (0xFF00 ||| c.toNat) >>> 1 }) ∧
    ControlStreamReader.read { r := r, bits := (0xFF00 ||| c.toNat) >>> 1 } =
      .ok (decide (c.toNat / 2 % 2 = 1), { r := r, bits := (0xFF00 ||| c.toNat) >>> 2 }) ∧
    ControlStreamReader.read { r := r, bits := (0xFF00 ||| c.toNat) >>> 2 } =
      .ok (decide (c.toNat / 4 % 2 = 1), { r := r, bits := (0xFF00 ||| c.toNat) >>> 3 }) ∧
    ControlStreamReader.read { r := r, bits := (0xFF00 ||| c.toNat) >>> 3 } =
      .ok (decide (c.toNat / 8 % 2 = 1), { r := r, bits := (0xFF00 ||| c.toNat) >>> 4 }) := by
  have hn := c.toNat_lt
  have hlt : c.toNat < 256 := by norm_num at hn ⊢; omega
  have d0 := control_bit_div c.toNat hlt 0 (by decide)
  have d1 := control_bit_div c.toNat hlt 1 (by decide)
  have d2 := control_bit_div c.toNat hlt 2 (by decide)
  have d3 := control_bit_div c.toNat hlt 3 (by decide)
  have k1 := control_bit8 c.toNat hlt 1 (by decide)
  have k2 := control_bit8 c.toNat hlt 2 (by decide)
  have k3 := control_bit8 c.toNat hlt 3 (by decide)
  simp only [Nat.shiftRight_zero, pow_zero, Nat.div_one, pow_one] at d0 d1
  simp only [Nat.reducePow] at d2 d3
  have hdec : ∀ x y : Nat, x = y % 2 → decide (x ≠ 0) = decide (y % 2 = 1) := by
    intro x y hxy
    subst hxy
    apply decide_eq_decide.mpr
    omega
  refine ⟨?_, ?_, ?_, ?_⟩
  · rw [read_refill (by decide), hdec _ _ d0]
  · rw [read_buffered k1, hdec _ _ d1, ← Nat.shiftRight_add]
  · rw [read_buffered k2, hdec _ _ d2, ← Nat.shiftRight_add]
  · rw [read_buffered k3, hdec _ _ d3, ← Nat.shiftRight_add]

/-- The four low bits of the control byte of a flushed short copy. -/
theorem short_copy_control_bits (b1 b0 : Bool) :
    (if b1 then 4 else 0) + (if b0 then 8 else 0) < 256 ∧
    decide (((if b1 then 4 else 0) + (if b0 then 8 else 0)) % 2 = 1) = false ∧
    decide (((if b1 then 4 else 0) + (if b0 then 8 else 0)) / 2 % 2 = 1) = false ∧
    decide (((if b1 then 4 else 0) + (if b0 then 8 else 0)) / 4 % 2 = 1) = b1 ∧
    decide (((if b1 then 4 else 0) + (if b0 then 8 else 0)) / 8 % 2 = 1) = b0 := by
  cases b1 <;> cases b0 <;> decide

/-- A compressor with no pending control bits whose output is the one
reserved control byte: after the control bits 0, 0, `b1`, `b0` and the data
byte `v` are written, `n` bytes are committed and the control bits are
flushed, the output is the control byte `4 * b1 + 8 * b0` and `v`, from which
the decoder reads the control bits 0, 0, `b1`, `b0` and then finds `v`. -/
theorem short_copy_flushed (c0 : PRSCompressor) (hp : c0.pending_control_bits = 0)
    (ho : c0.output = [0]) (hc : c0.control_byte_offset = 0) (b1 b0 : Bool) (v : UInt8) (n : Nat)
    (rest : List UInt8) :
    ∃ c2 cr1 cr2 cr3 cr4,
      PRSCompressor.flush_control
        (PRSCompressor.move_forward_data_to_reverse_log
          { ((((c0.write_control false).write_control false).write_control b1).write_control b0) with
            output :=
              ((((c0.write_control false).write_control false).write_control b1).write_control
                b0).output ++ [v] } n) = .ok c2 ∧
      c2.output = [UInt8.ofNat ((if b1 then 4 else 0) + (if b0 then 8 else 0)), v] ∧
      ControlStreamReader.read { r := c2.output ++ rest, bits := 0 } = .ok (false, cr1) ∧
      cr1.read = .ok (false, cr2) ∧ cr2.read = .ok (b1, cr3) ∧ cr3.read = .ok (b0, cr4) ∧
      cr4.r = v :: rest := by
  have hfour := write_control_four c0 false false b1 b0 hp
  obtain ⟨_, _, _, _, _, hout, hcbo, hpend⟩ := move_forward_fields n
    { ((((c0.write_control false).write_control false).write_control b1).write_control b0) with
      output :=
        ((((c0.write_control false).write_control false).write_control b1).write_control
          b0).output ++ [v] }
  have hnz := write_control_pending (((c0.write_control false).write_control false).write_control
    b1) b0
  have hflush := flush_control_pending
    (PRSCompressor.move_forward_data_to_reverse_log
      { ((((c0.write_control false).write_control false).write_control b1).write_control b0) with
        output :=
          ((((c0.write_control false).write_control false).write_control b1).write_control
            b0).output ++ [v] } n) (by rw [hpend]; exact hnz)
  have hset :
      (PRSCompressor.move_forward_data_to_reverse_log
        { ((((c0.write_control false).write_control false).write_control b1).write_control b0) with
          output :=
            ((((c0.write_control false).write_control false).write_control b1).write_control
              b0).output ++ [v] } n).output.set
        (PRSCompressor.move_forward_data_to_reverse_log
          { ((((c0.write_control false).write_control false).write_control b1).write_control b0) with
            output :=
              ((((c0.write_control false).write_control false).write_control b1).write_control
                b0).output ++ [v] } n).control_byte_offset
        (UInt8.ofNat (prs_flush_shift 16
          (PRSCompressor.move_forward_data_to_reverse_log
            { ((((c0.write_control false).write_control false).write_control b1).write_control
                b0) with
              output :=
                ((((c0.write_control false).write_control false).write_control b1).write_control
                  b0).output ++ [v] } n).pending_control_bits &&& 0xFF)) =
      [UInt8.ofNat ((if b1 then 4 else 0) + (if b0 then 8 else 0)), v] := by
    rw [hout, hcbo, hpend, hfour]
    simp only [ho, hc, short_copy_control_byte b1 b0]
    rfl
  have hbits := short_copy_control_bits b1 b0
  have hreads := control_byte_reads
    (UInt8.ofNat ((if b1 then 4 else 0) + (if b0 then 8 else 0))) (v :: rest)
  rw [toNat_ofNat_lt hbits.1, hbits.2.1, hbits.2.2.1, hbits.2.2.2.1, hbits.2.2.2.2] at hreads
  refine ⟨_, _, _, _, _, hflush, hset, ?_, hreads.2.1, hreads.2.2.1, hreads.2.2.2, rfl⟩
  rw [hset]
  exact hreads.1

/-- C16. Short-copy opcode agreement, for an offset `-d` with `1 ≤ d ≤ 256`
(the 64-bit pattern `2 ^ 64 - d`) and a size `n` in `[2, 5]`:
`advance_short_copy` writes the control bits 0, 0, bit 1 of `n - 2`, bit 0 of
`n - 2` in that order and then the one data byte `-d mod 256`; the decoder,
having read a control bit 0, reads from the control bits 0, bit 1, bit 0 and
that byte exactly the offset `-d` and the count `n`; and the bytes a new
compressor holds after this one opcode is written and the control bits are
flushed are read back by the decoder as that offset and count. -/
theorem prs_short_copy_agreement (d n : Nat) (hd1 : 1 ≤ d) (hd2 : d ≤ 256) (hn1 : 2 ≤ n)
    (hn2 : n ≤ 5) :
    toSSize (2 ^ 64 - d) = -(d : Int) ∧
    (∀ c : PRSCompressor,
      c.advance_short_copy (2 ^ 64 - d) n =
        PRSCompressor.move_forward_data_to_reverse_log
          { ((((c.write_control false).write_control false).write_control
                ((n - 2).testBit 1)).write_control ((n - 2).testBit 0)) with
            output :=
              ((((c.write_control false).write_control false).write_control
                ((n - 2).testBit 1)).write_control ((n - 2).testBit 0)).output ++
                [UInt8.ofNat ((-(d : Int)) % 256).toNat] } n) ∧
    (∀ (cr cr1 cr2 cr3 : ControlStreamReader) (rest : List UInt8),
      cr.read = .ok (false, cr1) → cr1.read = .ok ((n - 2).testBit 1, cr2) →
      cr2.read = .ok ((n - 2).testBit 0, cr3) →
      cr3.r = UInt8.ofNat ((-(d : Int)) % 256).toNat :: rest →
      prs_read_backreference cr =
        .ok (some (2 ^ 64 - d, n), { r := rest, bits := cr3.bits })) ∧
    (∀ (forward_log : ForwardLog) (level : Nat) (rest : List UInt8),
      ∃ c2 cr1 bits,
        ((PRSCompressor.new forward_log level).advance_short_copy (2 ^ 64 - d) n).flush_control =
          .ok c2 ∧
        c2.output =
          [UInt8.ofNat ((if (n - 2).testBit 1 then 4 else 0) + (if (n - 2).testBit 0 then 8 else 0)),
            UInt8.ofNat ((-(d : Int)) % 256).toNat] ∧
        ControlStreamReader.read { r := c2.output ++ rest, bits := 0 } = .ok (false, cr1) ∧
        prs_read_backreference cr1 = .ok (some (2 ^ 64 - d, n), { r := rest, bits := bits })) := by
  have hadv : ∀ c : PRSCompressor,
      c.advance_short_copy (2 ^ 64 - d) n =
        PRSCompressor.move_forward_data_to_reverse_log
          { ((((c.write_control false).write_control false).write_control
                ((n - 2).testBit 1)).write_control ((n - 2).testBit 0)) with
            output :=
              ((((c.write_control false).write_control false).write_control
                ((n - 2).testBit 1)).write_control ((n - 2).testBit 0)).output ++
                [UInt8.ofNat ((-(d : Int)) % 256).toNat] } n := by
    intro c
    unfold PRSCompressor.advance_short_copy
    simp only [neg_low_byte d hd1 (by norm_num; omega), (short_size_bits n hn1 hn2).1,
      (short_size_bits n hn1 hn2).2]
  have hdec : ∀ (cr cr1 cr2 cr3 : ControlStreamReader) (rest : List UInt8),
      cr.read = .ok (false, cr1) → cr1.read = .ok ((n - 2).testBit 1, cr2) →
      cr2.read = .ok ((n - 2).testBit 0, cr3) →
      cr3.r = UInt8.ofNat ((-(d : Int)) % 256).toNat :: rest →
      prs_read_backreference cr =
        .ok (some (2 ^ 64 - d, n), { r := rest, bits := cr3.bits }) := by
    intro cr cr1 cr2 cr3 rest h0 h1 h2 hr
    rw [prs_read_short_copy cr cr1 cr2 cr3 _ _ _ rest h0 h1 h2 hr,
      short_offset_decodes d hd1 hd2, short_count_decodes n hn1 hn2]
  refine ⟨toSSize_neg hd1 (by omega), hadv, hdec, ?_⟩
  intro forward_log level rest
  obtain ⟨c2, cr1, cr2, cr3, cr4, hflush, hout, h0, h1, h2, h3, hr⟩ :=
    short_copy_flushed (PRSCompressor.new forward_log level) rfl rfl rfl ((n - 2).testBit 1)
      ((n - 2).testBit 0) (UInt8.ofNat ((-(d : Int)) % 256).toNat) n rest
  rw [← hadv] at hflush
  exact ⟨c2, cr1, cr4.bits, hflush, hout, h0, hdec cr1 cr2 cr3 cr4 rest h1 h2 h3 hr⟩

set_option maxRecDepth 100000 in
theorem prs_short_copy_agreement_witness :
    prs_read_backreference { r := [0xF1, 0x99], bits := 0x7F04 } =
      .ok (some (2 ^ 64 - 15, 3), { r := [0x99], bits := 0x0FE0 }) :=
  (prs_short_copy_agreement 15 3 (by decide) (by decide) (by decide) (by decide)).2.2.1
    { r := [0xF1, 0x99], bits := 0x7F04 } { r := [0xF1, 0x99], bits := 0x3F82 }
    { r := [0xF1, 0x99], bits := 0x1FC1 } { r := [0xF1, 0x99], bits := 0x0FE0 } [0x99]
    (by decide) (by decide) (by decide) (by decide)

/-! ## Long and extended copies -/

/-- A number is its low byte joined with the rest shifted up. -/
theorem u16_join (X : Nat) : X % 256 ||| ((X / 256) <<< 8) = X := by
  have h := Nat.mul_add_lt_is_or (show X % 256 < 2 ^ 8 by norm_num; omega) (X / 256)
  rw [Nat.shiftLeft_eq, Nat.lor_comm, Nat.mul_comm (X / 256) (2 ^ 8), ← h]
  norm_num
  omega

/-- The 16-bit field of a long or extended copy with offset `-d` and low bits
`k`, and what the decoder makes of its two bytes. -/
theorem long_field (d k : Nat) (hd1 : 1 ≤ d) (hd2 : d ≤ 8191) (hk : k < 8) :
    (((2 ^ 64 - d) <<< 3) ||| k) % 2 ^ 16 = (((-(d : Int)) % 8192).toNat <<< 3) ||| k ∧
    (UInt8.ofNat (((((-(d : Int)) % 8192).toNat <<< 3) ||| k) &&& 0xFF)).toNat |||
      ((UInt8.ofNat (((((-(d : Int)) % 8192).toNat <<< 3) ||| k) >>> 8)).toNat <<< 8) =
      (((-(d : Int)) % 8192).toNat <<< 3) ||| k ∧
    (((((-(d : Int)) % 8192).toNat <<< 3) ||| k) >>> 3) ||| NOT_1FFF = 2 ^ 64 - d ∧
    2 ^ 64 - d ≠ NOT_1FFF ∧
    ((((-(d : Int)) % 8192).toNat <<< 3) ||| k) &&& 7 = k := by
  have hm : ((-(d : Int)) % 8192).toNat = 8192 - d := by omega
  have e1 : ((2 ^ 64 - d) <<< 3) ||| k = 2 ^ 3 * (2 ^ 64 - d) + k := by
    rw [Nat.shiftLeft_eq, Nat.mul_comm]
    exact (Nat.mul_add_lt_is_or (by norm_num; omega) _).symm
  have e2 : ((8192 - d) <<< 3) ||| k = 2 ^ 3 * (8192 - d) + k := by
    rw [Nat.shiftLeft_eq, Nat.mul_comm]
    exact (Nat.mul_add_lt_is_or (by norm_num; omega) _).symm
  have e7 : (7 : Nat) = 2 ^ 3 - 1 := by norm_num
  have eFF : (0xFF : Nat) = 2 ^ 8 - 1 := by norm_num
  rw [hm, e1, e2]
  have hlo : (2 ^ 3 * (8192 - d) + k) &&& 0xFF = (2 ^ 3 * (8192 - d) + k) % 256 := by
    rw [eFF, Nat.and_pow_two_sub_one_eq_mod]
  have hhi : (2 ^ 3 * (8192 - d) + k) >>> 8 = (2 ^ 3 * (8192 - d) + k) / 256 := by
    rw [Nat.shiftRight_eq_div_pow]
  have hlt1 : (2 ^ 3 * (8192 - d) + k) % 256 < 256 := Nat.mod_lt _ (by decide)
  have hlt2 : (2 ^ 3 * (8192 - d) + k) / 256 < 256 := by omega
  have hjoin := u16_join (2 ^ 3 * (8192 - d) + k)
  have hsh : (2 ^ 3 * (8192 - d) + k) >>> 3 = 8192 - d := by
    rw [Nat.shiftRight_eq_div_pow]; omega
  refine ⟨?_, ?_, ?_, ?_, ?_⟩
  · norm_num; omega
  · rw [hlo, hhi, toNat_ofNat_lt hlt1, toNat_ofNat_lt hlt2, hjoin]
  · rw [hsh, lor_not_1FFF (by omega)]
    unfold NOT_1FFF
    norm_num; omega
  · unfold NOT_1FFF
    norm_num; omega
  · rw [e7, Nat.and_pow_two_sub_one_eq_mod]
    omega

/-- The long-copy branch of the decoder: after a control bit 0, the control
bit 1 and the two bytes of a field with a non-zero offset part. -/
theorem prs_read_long_copy (cr cr1 : ControlStreamReader) (lo hi : UInt8) (rest : List UInt8)
    (h0 : cr.read = .ok (true, cr1)) (hr : cr1.r = lo :: hi :: rest)
    (hoff : ((lo.toNat ||| (hi.toNat <<< 8)) >>> 3) ||| NOT_1FFF ≠ NOT_1FFF) :
    prs_read_backreference cr =
      if (lo.toNat ||| (hi.toNat <<< 8)) &&& 7 ≠ 0 then
        .ok (some (((lo.toNat ||| (hi.toNat <<< 8)) >>> 3) ||| NOT_1FFF,
          ((lo.toNat ||| (hi.toNat <<< 8)) &&& 7) + 2), { r := rest, bits := cr1.bits })
      else
        match get_u8 rest with
        | .error e => .error e
        | .ok (n, r4) =>
          .ok (some (((lo.toNat ||| (hi.toNat <<< 8)) >>> 3) ||| NOT_1FFF, n.toNat + 1),
            { r := r4, bits := cr1.bits }) := by
  unfold prs_read_backreference
  simp only [h0, hr, get_u8, hoff, if_false]

/-- Two control bits written to a compressor with no pending control bits are
only shifted in. -/
theorem write_control_two (c : PRSCompressor) (z1 z2 : Bool) (h : c.pending_control_bits = 0) :
    (c.write_control z1).write_control z2 =
      { c with
        pending_control_bits :=
          ((0 >>> 1 ||| (if z1 then 0x8080 else 0x8000)) >>> 1) |||
            (if z2 then 0x8080 else 0x8000) } := by
  have hp := pending_four z1 z2 false
  rw [write_control_shift c z1 (by rw [h]; decide), h]
  rw [write_control_shift _ z2 hp.1]

/-- The control byte after the control bits 0, 1 were written to a new
compressor and flushed. -/
theorem long_copy_control_byte :
    prs_flush_shift 16
      (((0 >>> 1 ||| (if false then 0x8080 else 0x8000)) >>> 1) |||
        (if true then 0x8080 else 0x8000)) &&& 0xFF = 2 := by
  decide

/-- A compressor with no pending control bits whose output is the one
reserved control byte: after the control bits 0, 1 and the data bytes `data`
are written, `n` bytes are committed and the control bits are flushed, the
output is the control byte 2 and `data`, from which the decoder reads the
control bits 0, 1 and then finds `data`. -/
theorem long_copy_flushed (c0 : PRSCompressor) (hp : c0.pending_control_bits = 0)
    (ho : c0.output = [0]) (hc : c0.control_byte_offset = 0) (data : List UInt8) (n : Nat)
    (rest : List UInt8) :
    ∃ c2 cr1 cr2,
      PRSCompressor.flush_control
        (PRSCompressor.move_forward_data_to_reverse_log
          { ((c0.write_control false).write_control true) with
            output := ((c0.write_control false).write_control true).output ++ data } n) = .ok c2 ∧
      c2.output = UInt8.ofNat 2 :: data ∧
      ControlStreamReader.read { r := c2.output ++ rest, bits := 0 } = .ok (false, cr1) ∧
      cr1.read = .ok (true, cr2) ∧ cr2.r = data ++ rest ∧
      cr2.bits = (0xFF00 ||| 2) >>> 2 := by
  have htwo := write_control_two c0 false true hp
  obtain ⟨_, _, _, _, _, hout, hcbo, hpend⟩ := move_forward_fields n
    { ((c0.write_control false).write_control true) with
      output := ((c0.write_control false).write_control true).output ++ data }
  have hnz := write_control_pending (c0.write_control false) true
  have hflush := flush_control_pending
    (PRSCompressor.move_forward_data_to_reverse_log
      { ((c0.write_control false).write_control true) with
        output := ((c0.write_control false).write_control true).output ++ data } n)
    (by rw [hpend]; exact hnz)
  have hset :
      (PRSCompressor.move_forward_data_to_reverse_log
        { ((c0.write_control false).write_control true) with
          output := ((c0.write_control false).write_control true).output ++ data } n).output.set
        (PRSCompressor.move_forward_data_to_reverse_log
          { ((c0.write_control false).write_control true) with
            output := ((c0.write_control false).write_control true).output ++ data }
          n).control_byte_offset
        (UInt8.ofNat (prs_flush_shift 16
          (PRSCompressor.move_forward_data_to_reverse_log
            { ((c0.write_control false).write_control true) with
              output := ((c0.write_control false).write_control true).output ++ data }
            n).pending_control_bits &&& 0xFF)) =
      UInt8.ofNat 2 :: data := by
    rw [hout, hcbo, hpend, htwo]
    simp only [ho, hc, long_copy_control_byte]
    rfl
  have hreads := control_byte_reads (UInt8.ofNat 2) (data ++ rest)
  rw [toNat_ofNat_lt (by decide)] at hreads
  refine ⟨_, _, _, hflush, hset, ?_, hreads.2.1, rfl, rfl⟩
  rw [hset]
  exact hreads.1

/-- C17. Long and extended copy agreement, for an offset `-d` with
`1 ≤ d ≤ 8191` (the 64-bit pattern `2 ^ 64 - d`). For a size `n` in `[3, 9]`
`advance_long_copy` writes the control bits 0, 1 and the two bytes, low byte
first, of the 16-bit value `((-d mod 8192) << 3) | (n - 2)`; for a size `n` in
`[10, 256]` `advance_extended_copy` writes the control bits 0, 1, the two bytes
of `(-d mod 8192) << 3` and a third byte `n - 1`. In both cases the decoder,
having read a control bit 0, reads from the control bit 1 and those bytes
exactly the offset `-d` and the count `n`, not the stop opcode; and the bytes a
new compressor holds after this one opcode is written and the control bits are
flushed are read back by the decoder as that offset and count. -/
theorem prs_long_copy_agreement (d n : Nat) (hd1 : 1 ≤ d) (hd2 : d ≤ 8191) :
    toSSize (2 ^ 64 - d) = -(d : Int) ∧
    (3 ≤ n → n ≤ 9 →
      (∀ c : PRSCompressor,
        c.advance_long_copy (2 ^ 64 - d) n =
          PRSCompressor.move_forward_data_to_reverse_log
            { ((c.write_control false).write_control true) with
              output := ((c.write_control false).write_control true).output ++
                [UInt8.ofNat (((((-(d : Int)) % 8192).toNat <<< 3) ||| (n - 2)) &&& 0xFF),
                  UInt8.ofNat (((((-(d : Int)) % 8192).toNat <<< 3) ||| (n - 2)) >>> 8)] } n) ∧
      (∀ (cr cr1 : ControlStreamReader) (rest : List UInt8), cr.read = .ok (true, cr1) →
        cr1.r = UInt8.ofNat (((((-(d : Int)) % 8192).toNat <<< 3) ||| (n - 2)) &&& 0xFF) ::
          UInt8.ofNat (((((-(d : Int)) % 8192).toNat <<< 3) ||| (n - 2)) >>> 8) :: rest →
        prs_read_backreference cr =
          .ok (some (2 ^ 64 - d, n), { r := rest, bits := cr1.bits })) ∧
      (∀ (forward_log : ForwardLog) (level : Nat) (rest : List UInt8),
        ∃ c2 cr1 bits,
          ((PRSCompressor.new forward_log level).advance_long_copy (2 ^ 64 - d) n).flush_control =
            .ok c2 ∧
          c2.output = [0x02,
            UInt8.ofNat (((((-(d : Int)) % 8192).toNat <<< 3) ||| (n - 2)) &&& 0xFF),
            UInt8.ofNat (((((-(d : Int)) % 8192).toNat <<< 3) ||| (n - 2)) >>> 8)] ∧
          ControlStreamReader.read { r := c2.output ++ rest, bits := 0 } = .ok (false, cr1) ∧
          prs_read_backreference cr1 =
            .ok (some (2 ^ 64 - d, n), { r := rest, bits := bits }))) ∧
    (10 ≤ n → n ≤ 256 →
      (∀ c : PRSCompressor,
        c.advance_extended_copy (2 ^ 64 - d) n =
          PRSCompressor.move_forward_data_to_reverse_log
            { ((c.write_control false).write_control true) with
              output := ((c.write_control false).write_control true).output ++
                [UInt8.ofNat ((((-(d : Int)) % 8192).toNat <<< 3) &&& 0xFF),
                  UInt8.ofNat ((((-(d : Int)) % 8192).toNat <<< 3) >>> 8),
                  UInt8.ofNat (n - 1)] } n) ∧
      (∀ (cr cr1 : ControlStreamReader) (rest : List UInt8), cr.read = .ok (true, cr1) →
        cr1.r = UInt8.ofNat ((((-(d : Int)) % 8192).toNat <<< 3) &&& 0xFF) ::
          UInt8.ofNat ((((-(d : Int)) % 8192).toNat <<< 3) >>> 8) :: UInt8.ofNat (n - 1) :: rest →
        prs_read_backreference cr =
          .ok (some (2 ^ 64 - d, n), { r := rest, bits := cr1.bits })) ∧
      (∀ (forward_log : ForwardLog) (level : Nat) (rest : List UInt8),
        ∃ c2 cr1 bits,
          ((PRSCompressor.new forward_log level).advance_extended_copy (2 ^ 64 - d)
            n).flush_control = .ok c2 ∧
          c2.output = [0x02,
            UInt8.ofNat ((((-(d : Int)) % 8192).toNat <<< 3) &&& 0xFF),
            UInt8.ofNat ((((-(d : Int)) % 8192).toNat <<< 3) >>> 8), UInt8.ofNat (n - 1)] ∧
          ControlStreamReader.read { r := c2.output ++ rest, bits := 0 } = .ok (false, cr1) ∧
          prs_read_backreference cr1 =
            .ok (some (2 ^ 64 - d, n), { r := rest, bits := bits }))) := by
  refine ⟨toSSize_neg hd1 (by omega), ?_, ?_⟩
  · intro hn1 hn2
    obtain ⟨f1, f2, f3, f4, f5⟩ := long_field d (n - 2) hd1 hd2 (by omega)
    have hadv : ∀ c : PRSCompressor,
        c.advance_long_copy (2 ^ 64 - d) n =
          PRSCompressor.move_forward_data_to_reverse_log
            { ((c.write_control false).write_control true) with
              output := ((c.write_control false).write_control true).output ++
                [UInt8.ofNat (((((-(d : Int)) % 8192).toNat <<< 3) ||| (n - 2)) &&& 0xFF),
                  UInt8.ofNat (((((-(d : Int)) % 8192).toNat <<< 3) ||| (n - 2)) >>> 8)] }
            n := by
      intro c
      unfold PRSCompressor.advance_long_copy
      simp only [f1, List.append_assoc, List.singleton_append]
    have hdec : ∀ (cr cr1 : ControlStreamReader) (rest : List UInt8),
        cr.read = .ok (true, cr1) →
        cr1.r = UInt8.ofNat (((((-(d : Int)) % 8192).toNat <<< 3) ||| (n - 2)) &&& 0xFF) ::
          UInt8.ofNat (((((-(d : Int)) % 8192).toNat <<< 3) ||| (n - 2)) >>> 8) :: rest →
        prs_read_backreference cr =
          .ok (some (2 ^ 64 - d, n), { r := rest, bits := cr1.bits }) := by
      intro cr cr1 rest h0 hr
      rw [prs_read_long_copy cr cr1 _ _ rest h0 hr (by rw [f2, f3]; exact f4), f2, f3, f5,
        if_pos (by omega)]
      have : n - 2 + 2 = n := by omega
      rw [this]
    refine ⟨hadv, hdec, ?_⟩
    intro forward_log level rest
    obtain ⟨c2, cr1, cr2, hflush, hout, h0, h1, hr, _⟩ :=
      long_copy_flushed (PRSCompressor.new forward_log level) rfl rfl rfl
        [UInt8.ofNat (((((-(d : Int)) % 8192).toNat <<< 3) ||| (n - 2)) &&& 0xFF),
          UInt8.ofNat (((((-(d : Int)) % 8192).toNat <<< 3) ||| (n - 2)) >>> 8)] n rest
    rw [← hadv] at hflush
    exact ⟨c2, cr1, cr2.bits, hflush, hout, h0, hdec cr1 cr2 rest h1 hr⟩
  · intro hn1 hn2
    obtain ⟨f1, f2, f3, f4, f5⟩ := long_field d 0 hd1 hd2 (by omega)
    simp only [Nat.or_zero] at f1 f2 f3 f5
    have hadv : ∀ c : PRSCompressor,
        c.advance_extended_copy (2 ^ 64 - d) n =
          PRSCompressor.move_forward_data_to_reverse_log
            { ((c.write_control false).write_control true) with
              output := ((c.write_control false).write_control true).output ++
                [UInt8.ofNat ((((-(d : Int)) % 8192).toNat <<< 3) &&& 0xFF),
                  UInt8.ofNat ((((-(d : Int)) % 8192).toNat <<< 3) >>> 8),
                  UInt8.ofNat (n - 1)] } n := by
      intro c
      unfold PRSCompressor.advance_extended_copy
      simp only [f1, List.append_assoc, List.singleton_append, List.cons_append,
        List.nil_append]
    have hdec : ∀ (cr cr1 : ControlStreamReader) (rest : List UInt8),
        cr.read = .ok (true, cr1) →
        cr1.r = UInt8.ofNat ((((-(d : Int)) % 8192).toNat <<< 3) &&& 0xFF) ::
          UInt8.ofNat ((((-(d : Int)) % 8192).toNat <<< 3) >>> 8) :: UInt8.ofNat (n - 1) ::
            rest →
        prs_read_backreference cr =
          .ok (some (2 ^ 64 - d, n), { r := rest, bits := cr1.bits }) := by
      intro cr cr1 rest h0 hr
      rw [prs_read_long_copy cr cr1 _ _ _ h0 hr (by rw [f2, f3]; exact f4), f2, f3, f5,
        if_neg (by simp)]
      simp only [get_u8]
      rw [toNat_ofNat_lt (by omega)]
      have : n - 1 + 1 = n := by omega
      rw [this]
    refine ⟨hadv, hdec, ?_⟩
    intro forward_log level rest
    obtain ⟨c2, cr1, cr2, hflush, hout, h0, h1, hr, _⟩ :=
      long_copy_flushed (PRSCompressor.new forward_log level) rfl rfl rfl
        [UInt8.ofNat ((((-(d : Int)) % 8192).toNat <<< 3) &&& 0xFF),
          UInt8.ofNat ((((-(d : Int)) % 8192).toNat <<< 3) >>> 8), UInt8.ofNat (n - 1)] n rest
    rw [← hadv] at hflush
    exact ⟨c2, cr1, cr2.bits, hflush, hout, h0, hdec cr1 cr2 rest h1 hr⟩

set_option maxRecDepth 100000 in
theorem prs_long_copy_agreement_witness :
    prs_read_backreference { r := [0xF9, 0xFF, 0x99], bits := 0x7F01 } =
      .ok (some (2 ^ 64 - 1, 3), { r := [0x99], bits := 0x3F80 }) :=
  ((prs_long_copy_agreement 1 3 (by decide) (by decide)).2.1 (by decide) (by decide)).2.1
    { r := [0xF9, 0xFF, 0x99], bits := 0x7F01 } { r := [0xF9, 0xFF, 0x99], bits := 0x3F80 } [0x99]
    (by decide) (by decide)

/-! ## The backreference fields of BC0 -/

/-- The memo offset `bc0_compress` computes, reduced to the memo size, is
`(m - 18) mod 4096`, and its two bytes are those of that number. -/
theorem bc0_memo_offset_bytes (m k : Nat) :
    (m + SIZE_MOD - 0x12) % SIZE_MOD % 4096 = (((m : Int) - 18) % 4096).toNat ∧
    (((m : Int) - 18) % 4096).toNat = (m + 0xFEE) % 4096 ∧
    ((m + SIZE_MOD - 0x12) % SIZE_MOD) &&& 0xFF = (((m : Int) - 18) % 4096).toNat &&& 0xFF ∧
    ((((m + SIZE_MOD - 0x12) % SIZE_MOD) >>> 4) &&& 0xF0) ||| k =
      (((((m : Int) - 18) % 4096).toNat >>> 8) <<< 4) ||| k := by
  have eFF : (0xFF : Nat) = 2 ^ 8 - 1 := by norm_num
  have h1 : (m + SIZE_MOD - 0x12) % SIZE_MOD % 4096 = (((m : Int) - 18) % 4096).toNat := by
    unfold SIZE_MOD
    norm_num
    omega
  refine ⟨h1, by omega, ?_, ?_⟩
  · rw [eFF, Nat.and_pow_two_sub_one_eq_mod, Nat.and_pow_two_sub_one_eq_mod, ← h1]
    generalize (m + SIZE_MOD - 0x12) % SIZE_MOD = M
    omega
  · rw [and_F0, Nat.shiftRight_eq_div_pow, Nat.shiftRight_eq_div_pow, Nat.shiftLeft_eq, ← h1]
    generalize (m + SIZE_MOD - 0x12) % SIZE_MOD = M
    have e : 16 * (M / 2 ^ 4 % 256 / 16) = M % 4096 / 2 ^ 8 * 2 ^ 4 := by omega
    rw [e]

/-- C18. BC0 backreference field agreement, for every match offset `m`, also
`m < 18` where `m - 0x12` wraps around, and every length `n` in `[3, 18]`: with
`p = (m - 18) mod 4096`, which is `(m + 0xFEE) mod 4096`, the opcode
`bc0_compress` writes is the control bit 0 and the two data bytes `p & 0xFF`
and `((p >> 8) << 4) | (n - 3)`, and `bc0_decompress`, reading a control bit 0
and those two bytes, copies `n` bytes from memo offset `p`. -/
theorem bc0_backreference_agreement (m n : Nat) (h3 : 3 ≤ n) (h18 : n ≤ 18) :
    (((m : Int) - 18) % 4096).toNat = (m + 0xFEE) % 4096 ∧
    (∀ (in_data : List UInt8) (lw lw1 : LZSSInterleavedWriter) (read_offset : Nat),
      lw.write_control false = .ok lw1 →
      bc0_write_opcode in_data lw read_offset m n =
        .ok ((lw1.write_data (UInt8.ofNat ((((m : Int) - 18) % 4096).toNat &&& 0xFF))).write_data
          (UInt8.ofNat ((((((m : Int) - 18) % 4096).toNat >>> 8) <<< 4) |||
            (n - 3)))).flush_if_ready) ∧
    (∀ (st : BC0State) (rest : List UInt8), st.control_stream_bits &&& 1 = 0 →
      bc0_opcode { st with
        r := UInt8.ofNat ((((m : Int) - 18) % 4096).toNat &&& 0xFF) ::
          UInt8.ofNat ((((((m : Int) - 18) % 4096).toNat >>> 8) <<< 4) ||| (n - 3)) :: rest } =
        .ok (some (bc0_copy ((m + 0xFEE) % 4096) n 0 { st with r := rest }))) := by
  obtain ⟨_, e2, e3, e4⟩ := bc0_memo_offset_bytes m (n - 3)
  have hf := bc0_backreference_fields m n h3 h18
  simp only [e3, e4] at hf
  refine ⟨e2, ?_, ?_⟩
  · intro in_data lw lw1 read_offset hw
    unfold bc0_write_opcode
    rw [if_pos (by omega)]
    simp only [hw, e3, e4]
  · intro st rest hbit
    unfold bc0_opcode
    simp only [hbit, if_true, get_u8]
    rw [if_neg (by simp), hf.1, hf.2]
    have : 0x0FEE + m = m + 0xFEE := by omega
    rw [this]

set_option maxRecDepth 100000 in
theorem bc0_backreference_agreement_witness :
    bc0_opcode { bc0_init [] with r := [0xF3, 0xFF, 0x99] } =
      .ok (some (bc0_copy 4083 18 0 { bc0_init [] with r := [0x99] })) :=
  (bc0_backreference_agreement 5 18 (by decide) (by decide)).2.2 (bc0_init []) [0x99]
    (by decide)

/-! ## A backreference as the first opcode of a BC0 stream -/

/-- Copying from a memo that holds only zeros appends zeros and leaves the
memo as it is. -/
theorem bc0_copy_zero (off : Nat) : ∀ (n z : Nat) (st : BC0State), st.memo = (fun _ => 0) →
    (bc0_copy off n z st).w = st.w ++ List.replicate n 0 ∧
    (bc0_copy off n z st).memo = (fun _ => 0) := by
  intro n
  induction n with
  | zero => intro z st h; exact ⟨by simp [bc0_copy], h⟩
  | succ n ih =>
    intro z st h
    unfold bc0_copy
    simp only
    have hup : Function.update st.memo st.memo_offset (st.memo ((off + z) &&& 0x0FFF)) =
        (fun _ => 0) := by
      rw [h]
      funext i
      rw [Function.update_apply]
      split <;> rfl
    obtain ⟨hw, hm⟩ := ih (z + 1)
      { st with
        w := st.w ++ [st.memo ((off + z) &&& 0x0FFF)]
        memo := Function.update st.memo st.memo_offset (st.memo ((off + z) &&& 0x0FFF))
        memo_offset := (st.memo_offset + 1) &&& 0x0FFF } hup
    refine ⟨?_, hm⟩
    rw [hw]
    simp only [h, List.append_assoc, List.singleton_append, List.replicate_succ]

/-- The first iteration of `bc0_decompress` on a stream `00 a1 a2`. -/
theorem bc0_first_step (a1 a2 : UInt8) :
    bc0_step (bc0_init [0x00, a1, a2]) =
      .ok (some (bc0_copy (a1.toNat ||| ((a2.toNat <<< 4) &&& 0xF00)) ((a2.toNat &&& 0x0F) + 3) 0
        { r := [], w := [], memo := fun _ => 0, memo_offset := 0x0FEE,
          control_stream_bits := 0xFF00 ||| (0x00 : UInt8).toNat })) := by
  have hb : ((0 : Nat) >>> 1) &&& 0x100 = 0 := by decide
  have hb2 : (0xFF00 ||| (0x00 : UInt8).toNat) &&& 1 = 0 := by decide
  have h1 : ¬ ([a1, a2] = ([] : List UInt8)) := by simp
  have h2 : ¬ ([a2] = ([] : List UInt8)) := by simp
  simp only [bc0_step, bc0_init, hb, if_true, get_u8, h1, if_false, bc0_opcode, hb2, h2]

/-- The definition of `bc0_decompress`, as an equation to rewrite with. -/
theorem bc0_decompress_eq (data : List UInt8) :
    bc0_decompress data =
      match bc0_decompress_loop data.length (bc0_init data) with
      | .error e => .error e
      | .ok (st, _) => .ok st.w := rfl

/-- C19. The memo starts as 4096 zero bytes, so a backreference that is the
first opcode of a stream does not fail and yields zeros: for all bytes `a1` and
`a2` the stream `00 a1 a2` decodes to `(a2 & 0x0F) + 3` zero bytes. -/
theorem bc0_first_backreference_zeros (a1 a2 : UInt8) :
    bc0_decompress [0x00, a1, a2] = .ok (List.replicate ((a2.toNat &&& 0x0F) + 3) 0) := by
  have hz := bc0_copy_zero (a1.toNat ||| ((a2.toNat <<< 4) &&& 0xF00)) ((a2.toNat &&& 0x0F) + 3) 0
    { r := [], w := [], memo := fun _ => 0, memo_offset := 0x0FEE,
      control_stream_bits := 0xFF00 ||| (0x00 : UInt8).toNat } rfl
  have hr := bc0_copy_r (a1.toNat ||| ((a2.toNat <<< 4) &&& 0xF00)) ((a2.toNat &&& 0x0F) + 3) 0
    { r := [], w := [], memo := fun _ => 0, memo_offset := 0x0FEE,
      control_stream_bits := 0xFF00 ||| (0x00 : UInt8).toNat }
  have hne : (bc0_init [0x00, a1, a2]).r ≠ [] := by simp [bc0_init]
  have hlen : ([0x00, a1, a2] : List UInt8).length = 2 + 1 := rfl
  rw [bc0_decompress_eq, hlen, bc0_decompress_loop_succ _ _ hne, bc0_first_step]
  simp only
  rw [bc0_decompress_loop_nil _ _ hr.1]
  simp only
  rw [hz.1, List.nil_append]

/-! ## Compressing a run of zero bytes at level 1 -/

theorem getD_replicate_zero (n i : Nat) : (List.replicate n (0 : UInt8)).getD i 0 = 0 := by
  rw [List.getD_eq_getElem?_getD, List.getElem?_replicate]
  split <;> rfl

theorem set_replicate_zero (n i : Nat) :
    (List.replicate n (0 : UInt8)).set i 0 = List.replicate n 0 := by
  apply List.ext_getElem
  · simp
  · intro k h1 h2
    simp [List.getElem_set]

theorem find_replicate_zero (E : Nat) :
    ReverseLog.find { data := List.replicate E 0 } 0 = List.range E := by
  unfold ReverseLog.find
  simp only [List.length_replicate, getD_replicate_zero, decide_True]
  exact List.filter_eq_self.mpr (fun _ _ => rfl)

set_option maxRecDepth 100000 in
/-- With fewer than 8 control bits pending, bit 8 is clear and a further bit
is shifted in below the markers. -/
theorem pending_shift : ∀ j < 8, ∀ low < 256,
    (65536 - 2 ^ (16 - j) + low) &&& 0x0100 = 0 ∧
    ((65536 - 2 ^ (16 - j) + low) >>> 1) ||| 0x8080 = 65536 - 2 ^ (16 - (j + 1)) + (low / 2 + 128) ∧
    ((65536 - 2 ^ (16 - j) + low) >>> 1) ||| 0x8000 = 65536 - 2 ^ (16 - (j + 1)) + low / 2 := by
  intro j hj
  interval_cases j <;> decide

set_option maxRecDepth 100000 in
/-- With 8 control bits pending, bit 8 is set. -/
theorem pending_full : ∀ low < 256, (65536 - 2 ^ (16 - 8) + low) &&& 0x0100 ≠ 0 := by decide

/-- Every control bit written costs one bit. -/
theorem write_control_potential (c : PRSCompressor) (z : Bool) (P : Nat) (h : c.potential P) :
    (c.write_control z).potential (P + 1) := by
  obtain ⟨j, low, hj, hlow, hp, hP⟩ := h
  unfold PRSCompressor.write_control
  by_cases h8 : j = 8
  · subst h8
    have hfull := pending_full low hlow
    rw [← hp] at hfull
    rw [if_pos hfull]
    cases z
    · refine ⟨1, 0, by omega, by omega, ?_, ?_⟩
      · simp
      · simp only [List.length_append, List.length_set, List.length_singleton]; omega
    · refine ⟨1, 128, by omega, by omega, ?_, ?_⟩
      · simp
      · simp only [List.length_append, List.length_set, List.length_singleton]; omega
  · have hj' : j < 8 := by omega
    obtain ⟨s0, s1, s2⟩ := pending_shift j hj' low hlow
    rw [← hp] at s0 s1 s2
    rw [if_neg (by rw [s0]; simp)]
    cases z
    · refine ⟨j + 1, low / 2, by omega, by omega, ?_, ?_⟩
      · simp only [Bool.false_eq_true, if_false]; exact s2
      · simp only; omega
    · refine ⟨j + 1, low / 2 + 128, by omega, by omega, ?_, ?_⟩
      · simp only [if_true]; exact s1
      · simp only; omega

theorem write_control_zero_data (c : PRSCompressor) (z : Bool) (S E I : Nat)
    (h : c.zero_data S E I) : (c.write_control z).zero_data S E I := by
  obtain ⟨h1, h2, h3, h4, h5⟩ := h
  obtain ⟨f1, f2, f3, f4, f5⟩ := write_control_fields c z
  exact ⟨by rw [f4, h1], by rw [f5, h2], by rw [f2, h3], by rw [f1, h4], by rw [f3, h5]⟩

/-- A data byte costs eight bits. -/
theorem put_u8_potential (c : PRSCompressor) (v : UInt8) (P : Nat) (h : c.potential P) :
    PRSCompressor.potential { c with output := c.output ++ [v] } (P + 8) := by
  obtain ⟨j, low, hj, hlow, hp, hP⟩ := h
  refine ⟨j, low, hj, hlow, hp, ?_⟩
  simp only [List.length_append, List.length_singleton]
  omega

theorem put_u8_zero_data (c : PRSCompressor) (v : UInt8) (S E I : Nat) (h : c.zero_data S E I) :
    PRSCompressor.zero_data { c with output := c.output ++ [v] } S E I := h

/-- Committing bytes of a run of zeros extends the reverse log by zeros. -/
theorem move_forward_zero_data (S I : Nat) : ∀ (n E : Nat) (c : PRSCompressor),
    c.zero_data S E I → (c.move_forward_data_to_reverse_log n).zero_data S (E + n) I := by
  intro n
  induction n with
  | zero => intro E c h; exact h
  | succ n ih =>
    intro E c h
    obtain ⟨h1, h2, h3, h4, h5⟩ := h
    unfold PRSCompressor.move_forward_data_to_reverse_log
    have hnext : PRSCompressor.zero_data
        { c with reverse_log := c.reverse_log.push_back (c.forward_log.at c.reverse_log.end_offset) }
        S (E + 1) I := by
      refine ⟨h1, h2, h3, ?_, h5⟩
      show c.reverse_log.data ++ [c.forward_log.at c.reverse_log.end_offset] = _
      unfold ForwardLog.at
      rw [h3, h4, getD_replicate_zero, List.replicate_succ']
    have := ih (E + 1) _ hnext
    have e : E + 1 + n = E + (n + 1) := by omega
    rw [e] at this
    exact this

theorem move_forward_potential (n : Nat) (c : PRSCompressor) (P : Nat) (h : c.potential P) :
    (c.move_forward_data_to_reverse_log n).potential P := by
  obtain ⟨j, low, hj, hlow, hp, hP⟩ := h
  obtain ⟨_, _, _, _, _, hout, _, hpend⟩ := move_forward_fields n c
  exact ⟨j, low, hj, hlow, by rw [hpend, hp], by rw [hout]; exact hP⟩

/-- A literal in a run of zeros: one byte committed, 9 bits written. -/
theorem advance_literal_run (c : PRSCompressor) (S E I P : Nat) (hz : c.zero_data S E I)
    (hp : c.potential P) :
    c.advance_literal.zero_data S (E + 1) I ∧ c.advance_literal.potential (P + 9) := by
  unfold PRSCompressor.advance_literal
  simp only
  have z1 := write_control_zero_data c true S E I hz
  have p1 := write_control_potential c true P hp
  have z2 := put_u8_zero_data _ ((c.write_control true).forward_log.at
    (c.write_control true).reverse_log.end_offset) S E I z1
  have p2 := put_u8_potential _ ((c.write_control true).forward_log.at
    (c.write_control true).reverse_log.end_offset) _ p1
  exact ⟨move_forward_zero_data S I 1 E _ z2, move_forward_potential 1 _ _ p2⟩

/-- A short copy in a run of zeros: `size` bytes committed, 12 bits written. -/
theorem advance_short_copy_run (c : PRSCompressor) (offset size S E I P : Nat)
    (hz : c.zero_data S E I) (hp : c.potential P) :
    (c.advance_short_copy offset size).zero_data S (E + size) I ∧
    (c.advance_short_copy offset size).potential (P + 12) := by
  unfold PRSCompressor.advance_short_copy
  simp only
  have z1 := write_control_zero_data _ (decide ((size - 2) % 256 &&& 1 ≠ 0)) S E I
    (write_control_zero_data _ (decide ((size - 2) % 256 &&& 2 ≠ 0)) S E I
      (write_control_zero_data _ false S E I (write_control_zero_data c false S E I hz)))
  have p1 := write_control_potential _ (decide ((size - 2) % 256 &&& 1 ≠ 0)) _
    (write_control_potential _ (decide ((size - 2) % 256 &&& 2 ≠ 0)) _
      (write_control_potential _ false _ (write_control_potential c false P hp)))
  have z2 := put_u8_zero_data _ (UInt8.ofNat (offset &&& 0xFF)) S E I z1
  have p2 := put_u8_potential _ (UInt8.ofNat (offset &&& 0xFF)) _ p1
  exact ⟨move_forward_zero_data S I size E _ z2, move_forward_potential size _ _ p2⟩

/-- A long copy in a run of zeros: `size` bytes committed, 18 bits written. -/
theorem advance_long_copy_run (c : PRSCompressor) (offset size S E I P : Nat)
    (hz : c.zero_data S E I) (hp : c.potential P) :
    (c.advance_long_copy offset size).zero_data S (E + size) I ∧
    (c.advance_long_copy offset size).potential (P + 18) := by
  unfold PRSCompressor.advance_long_copy
  simp only
  have z1 := write_control_zero_data _ true S E I (write_control_zero_data c false S E I hz)
  have p1 := write_control_potential _ true _ (write_control_potential c false P hp)
  have z2 := put_u8_zero_data _ (UInt8.ofNat ((((offset <<< 3) ||| (size - 2)) % 2 ^ 16) >>> 8))
    S E I (put_u8_zero_data _
      (UInt8.ofNat ((((offset <<< 3) ||| (size - 2)) % 2 ^ 16) &&& 0xFF)) S E I z1)
  have p2 := put_u8_potential _ (UInt8.ofNat ((((offset <<< 3) ||| (size - 2)) % 2 ^ 16) >>> 8))
    _ (put_u8_potential _
      (UInt8.ofNat ((((offset <<< 3) ||| (size - 2)) % 2 ^ 16) &&& 0xFF)) _ p1)
  exact ⟨move_forward_zero_data S I size E _ z2, move_forward_potential size _ _ p2⟩

/-- An extended copy in a run of zeros: `size` bytes committed, 26 bits
written. -/
theorem advance_extended_copy_run (c : PRSCompressor) (offset size S E I P : Nat)
    (hz : c.zero_data S E I) (hp : c.potential P) :
    (c.advance_extended_copy offset size).zero_data S (E + size) I ∧
    (c.advance_extended_copy offset size).potential (P + 26) := by
  unfold PRSCompressor.advance_extended_copy
  simp only
  have z1 := write_control_zero_data _ true S E I (write_control_zero_data c false S E I hz)
  have p1 := write_control_potential _ true _ (write_control_potential c false P hp)
  have z2 := put_u8_zero_data _ (UInt8.ofNat (size - 1)) S E I
    (put_u8_zero_data _ (UInt8.ofNat (((offset <<< 3) % 2 ^ 16) >>> 8)) S E I
      (put_u8_zero_data _ (UInt8.ofNat (((offset <<< 3) % 2 ^ 16) &&& 0xFF)) S E I z1))
  have p2 := put_u8_potential _ (UInt8.ofNat (size - 1)) _
    (put_u8_potential _ (UInt8.ofNat (((offset <<< 3) % 2 ^ 16) >>> 8)) _
      (put_u8_potential _ (UInt8.ofNat (((offset <<< 3) % 2 ^ 16) &&& 0xFF)) _ p1))
  exact ⟨move_forward_zero_data S I size E _ z2, move_forward_potential size _ _ p2⟩

/-- In a run of zeros every comparison of the match loop succeeds, so a match
is as long as the bytes left, up to 0x100. -/
theorem prs_match_size_zero (c : PRSCompressor) (S E I : Nat) (hz : c.zero_data S E I)
    (co mo mlb : Nat) : ∀ (fuel ms : Nat), ms ≤ min 0x100 (I - co) →
    min 0x100 (I - co) ≤ ms + fuel →
    prs_match_size c co mo mlb fuel ms = min 0x100 (I - co) := by
  obtain ⟨_, _, h3, h4, h5⟩ := hz
  have hat : ∀ x y, c.reverse_log.at x = c.forward_log.at y := by
    intro x y
    unfold ReverseLog.at ForwardLog.at
    rw [h3, h4, getD_replicate_zero, getD_replicate_zero]
  intro fuel
  induction fuel with
  | zero =>
    intro ms h1 h2
    unfold prs_match_size
    omega
  | succ fuel ih =>
    intro ms h1 h2
    unfold prs_match_size
    by_cases hlt : ms < min 0x100 (I - co)
    · have hc : ms < 0x100 ∧ co + ms < c.input_bytes ∧
          c.reverse_log.at (mo + ms % mlb) = c.forward_log.at (co + ms) := by
        refine ⟨by omega, by rw [h5]; omega, hat _ _⟩
      rw [if_pos hc]
      exact ih (ms + 1) (by omega) (by omega)
    · have hc : ¬ (ms < 0x100 ∧ co + ms < c.input_bytes ∧
          c.reverse_log.at (mo + ms % mlb) = c.forward_log.at (co + ms)) := by
        rw [h5]; omega
      rw [if_neg hc]
      omega

/-- Once a match of 0x100 bytes is found the search over the start offsets
ends. -/
theorem prs_search_offsets_full (c : PRSCompressor) (k co : Nat) (offs : List Nat)
    (best : BestMatch) (h : best.best_match_size = 0x100) :
    prs_search_offsets c k co offs best = .ok best := by
  cases offs with
  | nil => rfl
  | cons o rest =>
    unfold prs_search_offsets
    rw [if_pos (by omega)]

/-- The remainder the match loop divides by is not zero for a start offset
before the boundary. -/
theorem match_loop_bytes_pos (E o : Nat) (ho : o < E) (hE : E < 0x2000) :
    (E + SIZE_MOD - o) % SIZE_MOD ≠ 0 := by
  unfold SIZE_MOD
  norm_num
  omega

/-- With fewer than 0x100 zeros left, every start offset gives a match of all
of them and the last one tried is kept. -/
theorem prs_search_offsets_short (c : PRSCompressor) (S E I : Nat) (hz : c.zero_data S E I)
    (hE1 : 1 ≤ E) (hE : E < 0x2000) (hk : I - E < 0x100) :
    ∀ (l : List Nat) (best : BestMatch), (∀ o ∈ l, o < E) → best.best_match_size ≤ I - E →
    best.best_match_literals = 0 →
    prs_search_offsets c 0 E (l ++ [E - 1]) best =
      .ok { best_match_size := I - E, best_match_offset := E - 1, best_match_literals := 0 } := by
  have hms : ∀ o, prs_match_size c E o ((E + SIZE_MOD - o) % SIZE_MOD) 0x100 0 = I - E := by
    intro o
    rw [prs_match_size_zero c S E I hz E o _ 0x100 0 (by omega) (by omega)]
    omega
  intro l
  induction l with
  | nil =>
    intro best _ hb hl
    simp only [List.nil_append]
    unfold prs_search_offsets
    rw [if_neg (by omega), if_neg (by omega),
      if_neg (by intro h; exact match_loop_bytes_pos E (E - 1) (by omega) hE h.1)]
    simp only [hms]
    rw [if_pos (by omega)]
    rfl
  | cons o rest ih =>
    intro best hmem hb hl
    have ho : o < E := hmem o (List.mem_cons_self _ _)
    simp only [List.cons_append]
    unfold prs_search_offsets
    rw [if_neg (by omega), if_neg (by omega),
      if_neg (by intro h; exact match_loop_bytes_pos E o ho hE h.1)]
    simp only [hms]
    rw [if_pos (by omega)]
    exact ih _ (fun x hx => hmem x (List.mem_cons_of_mem _ hx)) (Nat.le_refl _) rfl

/-- With at least 0x100 zeros left, the first start offset gives a match of
0x100 bytes, which ends the search. -/
theorem prs_search_offsets_long (c : PRSCompressor) (S E I : Nat) (hz : c.zero_data S E I)
    (hE1 : 1 ≤ E) (hE : E < 0x2000) (hk : 0x100 ≤ I - E) (rest : List Nat) :
    prs_search_offsets c 0 E (0 :: rest)
        { best_match_size := 0, best_match_offset := 0, best_match_literals := 0 } =
      .ok { best_match_size := 0x100, best_match_offset := 0, best_match_literals := 0 } := by
  have hms : prs_match_size c E 0 ((E + SIZE_MOD - 0) % SIZE_MOD) 0x100 0 = 0x100 := by
    rw [prs_match_size_zero c S E I hz E 0 _ 0x100 0 (by omega) (by omega)]
    omega
  unfold prs_search_offsets
  rw [if_neg (by simp), if_neg (by omega),
    if_neg (by intro h; exact match_loop_bytes_pos E 0 (by omega) hE h.1)]
  simp only [hms]
  rw [if_pos (by simp)]
  exact prs_search_offsets_full c 0 E rest _ rfl

/-- At level 1 the search tries no literal prefix: it is the search over the
start offsets at the boundary. -/
theorem prs_search_level1 (c : PRSCompressor) (best best1 : BestMatch)
    (h : prs_search_offsets c 0 c.reverse_log.end_offset
      (c.reverse_log.find (c.forward_log.at c.reverse_log.end_offset)) best = .ok best1) :
    prs_search c 1 0 best = .ok (c, best1) := by
  unfold prs_search
  simp only [PRSCompressor.move_forward_data_to_reverse_log, h, Function.iterate_zero, id_eq]
  unfold prs_search
  rfl

/-- What `advance` does once the search has returned a match without literal
prefix. -/
theorem advance_with_best (c : PRSCompressor) (sz off : Nat)
    (hs : prs_search c c.compression_level 0
      { best_match_size := 0, best_match_offset := 0, best_match_literals := 0 } =
      .ok (c, { best_match_size := sz, best_match_offset := off, best_match_literals := 0 })) :
    c.advance =
      if sz < 2 then .ok c.advance_literal
      else if toSSize ((((off : Int) - (c.reverse_log.end_offset : Int)) % (2 ^ 64 : Int)).toNat) ≥
          -0x100 ∧ sz ≤ 5 then
        .ok (c.advance_short_copy
          ((((off : Int) - (c.reverse_log.end_offset : Int)) % (2 ^ 64 : Int)).toNat) sz)
      else if sz < 3 then .ok c.advance_literal
      else if toSSize ((((off : Int) - (c.reverse_log.end_offset : Int)) % (2 ^ 64 : Int)).toNat) ≥
          -0x1FFF ∧ sz ≤ 9 then
        .ok (c.advance_long_copy
          ((((off : Int) - (c.reverse_log.end_offset : Int)) % (2 ^ 64 : Int)).toNat) sz)
      else if toSSize ((((off : Int) - (c.reverse_log.end_offset : Int)) % (2 ^ 64 : Int)).toNat) ≥
          -0x1FFF ∧ sz ≤ 0x100 then
        .ok (c.advance_extended_copy
          ((((off : Int) - (c.reverse_log.end_offset : Int)) % (2 ^ 64 : Int)).toNat) sz)
      else .error .invalidBestMatch := by
  unfold PRSCompressor.advance
  rw [hs]
  simp only [PRSCompressor.advance_literals]

/-- One `advance` in a run of zeros with `E` bytes committed out of `I`: it
commits `m` more bytes, and either writes a literal (9 bits), which happens
only at the very start or for the very last byte, or a copy of `m ≥ 2` bytes
that costs at most `6 * m` bits. -/
theorem advance_zero_run (c : PRSCompressor) (S E I P : Nat) (hz : c.zero_data S E I)
    (hp : c.potential P) (hE : E < I) (hI : I < 0x2000) :
    ∃ c1 m P1, c.advance = .ok c1 ∧ c1.zero_data S (E + m) I ∧ c1.potential P1 ∧ 1 ≤ m ∧
      E + m ≤ I ∧
      ((m = 1 ∧ P1 = P + 9 ∧ (E = 0 ∨ E + 1 = I)) ∨ (2 ≤ m ∧ P1 ≤ P + 6 * m)) := by
  have hz0 := hz
  obtain ⟨h1, h2, h3, h4, h5⟩ := hz
  have hend : c.reverse_log.end_offset = E := by
    unfold ReverseLog.end_offset
    rw [h4, List.length_replicate]
  have hat : c.forward_log.at E = 0 := by
    unfold ForwardLog.at
    rw [h3, getD_replicate_zero]
  have hfind : c.reverse_log.find 0 = List.range E := by
    unfold ReverseLog.find
    rw [h4]
    simp only [List.length_replicate, getD_replicate_zero, decide_True]
    exact List.filter_eq_self.mpr (fun _ _ => rfl)
  have hlit := advance_literal_run c S E I P hz0 hp
  by_cases hE0 : E = 0
  · -- nothing committed yet: no start offset, a literal
    have hs : prs_search c c.compression_level 0
        { best_match_size := 0, best_match_offset := 0, best_match_literals := 0 } =
        .ok (c, { best_match_size := 0, best_match_offset := 0, best_match_literals := 0 }) := by
      rw [h1]
      apply prs_search_level1
      rw [hend, hat, hfind, hE0]
      rfl
    rw [advance_with_best c 0 0 hs, if_pos (by omega)]
    exact ⟨_, 1, _, rfl, hlit.1, hlit.2, by omega, by omega, Or.inl ⟨rfl, rfl, Or.inl hE0⟩⟩
  · by_cases hk : I - E < 0x100
    · -- fewer than 0x100 bytes left: a match of all of them at offset -1
      have hs : prs_search c c.compression_level 0
          { best_match_size := 0, best_match_offset := 0, best_match_literals := 0 } =
          .ok (c, BestMatch.mk (I - E) (E - 1) 0) := by
        rw [h1]
        apply prs_search_level1
        rw [hend, hat, hfind]
        have hr : List.range E = List.range (E - 1) ++ [E - 1] := by
          have : E = (E - 1) + 1 := by omega
          rw [this, List.range_succ]
          simp
        rw [hr]
        exact prs_search_offsets_short c S E I hz0 (by omega) (by omega) hk _ _
          (fun o ho => by have := List.mem_range.mp ho; omega) (Nat.zero_le _) rfl
      have hoff := @backreference_offset_signed (E - 1) E (by omega) (by omega)
      rw [advance_with_best c (I - E) (E - 1) hs, hend, hoff]
      by_cases c1 : I - E < 2
      · rw [if_pos c1]
        exact ⟨_, 1, _, rfl, hlit.1, hlit.2, by omega, by omega,
          Or.inl ⟨rfl, rfl, Or.inr (by omega)⟩⟩
      · rw [if_neg c1]
        by_cases c2 : I - E ≤ 5
        · rw [if_pos ⟨by omega, c2⟩]
          have hrun := advance_short_copy_run c
            ((((E - 1 : Nat) : Int) - (E : Int)) % (2 ^ 64 : Int)).toNat (I - E) S E I P hz0 hp
          exact ⟨_, I - E, _, rfl, hrun.1, hrun.2, by omega, by omega, Or.inr ⟨by omega, by omega⟩⟩
        · rw [if_neg (by omega), if_neg (by omega)]
          by_cases c3 : I - E ≤ 9
          · rw [if_pos ⟨by omega, c3⟩]
            have hrun := advance_long_copy_run c
              ((((E - 1 : Nat) : Int) - (E : Int)) % (2 ^ 64 : Int)).toNat (I - E) S E I P hz0 hp
            exact ⟨_, I - E, _, rfl, hrun.1, hrun.2, by omega, by omega,
              Or.inr ⟨by omega, by omega⟩⟩
          · rw [if_neg (by omega), if_pos ⟨by omega, by omega⟩]
            have hrun := advance_extended_copy_run c
              ((((E - 1 : Nat) : Int) - (E : Int)) % (2 ^ 64 : Int)).toNat (I - E) S E I P hz0 hp
            exact ⟨_, I - E, _, rfl, hrun.1, hrun.2, by omega, by omega,
              Or.inr ⟨by omega, by omega⟩⟩
    · -- at least 0x100 bytes left: an extended copy of 0x100 bytes
      have hs : prs_search c c.compression_level 0
          { best_match_size := 0, best_match_offset := 0, best_match_literals := 0 } =
          .ok (c, BestMatch.mk 0x100 0 0) := by
        rw [h1]
        apply prs_search_level1
        rw [hend, hat, hfind]
        have hr : List.range E = 0 :: (List.range (E - 1)).map (· + 1) := by
          have : E = (E - 1) + 1 := by omega
          rw [this, List.range_succ_eq_map]
          simp
        rw [hr]
        exact prs_search_offsets_long c S E I hz0 (by omega) (by omega) (by omega) _
      have hoff := @backreference_offset_signed 0 E (by omega) (by omega)
      rw [advance_with_best c 0x100 0 hs, hend, hoff]
      have hge : ((0 : Nat) : Int) - (E : Int) ≥ -0x1FFF := by omega
      rw [if_neg (by omega), if_neg (by omega), if_neg (by omega), if_neg (by omega),
        if_pos ⟨hge, by omega⟩]
      have hrun := advance_extended_copy_run c
        ((((0 : Nat) : Int) - (E : Int)) % (2 ^ 64 : Int)).toNat 0x100 S E I P hz0 hp
      exact ⟨_, 0x100, _, rfl, hrun.1, hrun.2, by omega, by omega, Or.inr ⟨by omega, by omega⟩⟩

/-- Storing a zero byte in the forward log of a run of zeros. -/
theorem store_zero_run (c : PRSCompressor) (S E I P : Nat) (hz : c.zero_data S E I)
    (hp : c.potential P) :
    PRSCompressor.zero_data
      { c with forward_log := c.forward_log.put c.input_bytes 0, input_bytes := c.input_bytes + 1 }
      S E (I + 1) ∧
    PRSCompressor.potential
      { c with forward_log := c.forward_log.put c.input_bytes 0, input_bytes := c.input_bytes + 1 }
      P := by
  obtain ⟨h1, h2, h3, h4, h5⟩ := hz
  refine ⟨⟨h1, h2, ?_, h4, ?_⟩, hp⟩
  · show (c.forward_log.data.set (c.input_bytes % c.forward_log.data.length) 0) = _
    rw [h3, set_replicate_zero]
  · show c.input_bytes + 1 = I + 1
    rw [h5]

/-- One `add_byte` of a zero byte. While bytes are being added `advance` runs
only with a full forward log, of at least 2 bytes, so the only literal is the
first byte: the bits written stay within `11 + 6 * E`. -/
theorem add_byte_zero_run (c : PRSCompressor) (S E I P : Nat) (hS : 2 ≤ S)
    (hz : c.zero_data S E I) (hp : c.potential P) (h1 : E ≤ I) (h2 : I ≤ E + S)
    (hb0 : E = 0 → P ≤ 8) (hb : P ≤ 11 + 6 * E) (hI : I < 0x2000) :
    ∃ c1 E1 P1, c.add_byte 0 = .ok c1 ∧ c1.zero_data S E1 (I + 1) ∧ c1.potential P1 ∧
      E1 ≤ I + 1 ∧ I + 1 ≤ E1 + S ∧ (E1 = 0 → P1 ≤ 8) ∧ P1 ≤ 11 + 6 * E1 := by
  have hend : c.reverse_log.end_offset = E := by
    unfold ReverseLog.end_offset
    rw [hz.2.2.2.1, List.length_replicate]
  have hlen : c.forward_log.data.length = S := by
    rw [hz.2.2.1, List.length_replicate]
  unfold PRSCompressor.add_byte
  simp only []
  by_cases hfull : E + S ≤ I
  · rw [if_pos (by rw [hend, hlen, hz.2.2.2.2]; exact hfull)]
    obtain ⟨c1, m, P1, hadv, hz1, hp1, hm1, hm2, hcost⟩ :=
      advance_zero_run c S E I P hz hp (by omega) hI
    rw [hadv]
    simp only
    have hst := store_zero_run c1 S (E + m) I P1 hz1 hp1
    refine ⟨_, E + m, P1, rfl, hst.1, hst.2, by omega, by omega, by omega, ?_⟩
    rcases hcost with ⟨hm, hP, hor⟩ | ⟨hm, hP⟩
    · rcases hor with h0 | h0
      · have := hb0 h0
        omega
      · omega
    · omega
  · rw [if_neg (by rw [hend, hlen, hz.2.2.2.2]; exact hfull)]
    have hst := store_zero_run c S E I P hz hp
    exact ⟨_, E, P, rfl, hst.1, hst.2, by omega, by omega, hb0, hb⟩

/-- Adding `n` zero bytes. -/
theorem add_bytes_zero_run (S : Nat) (hS : 2 ≤ S) : ∀ (n : Nat) (c : PRSCompressor)
    (E I P : Nat), c.zero_data S E I → c.potential P → E ≤ I → I ≤ E + S → (E = 0 → P ≤ 8) →
    P ≤ 11 + 6 * E → I + n < 0x2000 →
    ∃ c1 E1 P1, c.add_bytes (List.replicate n 0) = .ok c1 ∧ c1.zero_data S E1 (I + n) ∧
      c1.potential P1 ∧ E1 ≤ I + n ∧ (E1 = 0 → P1 ≤ 8) ∧ P1 ≤ 11 + 6 * E1 := by
  intro n
  induction n with
  | zero =>
    intro c E I P hz hp h1 _ hb0 hb _
    exact ⟨c, E, P, rfl, hz, hp, h1, hb0, hb⟩
  | succ n ih =>
    intro c E I P hz hp h1 h2 hb0 hb hI
    obtain ⟨c1, E1, P1, hadd, hz1, hp1, g1, g2, g3, g4⟩ :=
      add_byte_zero_run c S E I P hS hz hp h1 h2 hb0 hb (by omega)
    obtain ⟨c2, E2, P2, hadd2, hz2, hp2, k1, k2, k3⟩ :=
      ih c1 E1 (I + 1) P1 hz1 hp1 g1 g2 g3 g4 (by omega)
    have e : I + 1 + n = I + (n + 1) := by omega
    rw [e] at hz2 k1
    refine ⟨c2, E2, P2, ?_, hz2, hp2, k1, k2, k3⟩
    rw [List.replicate_succ]
    unfold PRSCompressor.add_bytes
    rw [hadd]
    exact hadd2

/-- The loop of `close` on a run of zeros: everything is committed, and at
most one more literal is written, for the last byte. -/
theorem drain_zero_run (S I : Nat) (hI : I < 0x2000) : ∀ (fuel : Nat) (c : PRSCompressor)
    (E P : Nat), c.zero_data S E I → c.potential P → E ≤ I → I - E ≤ fuel → (E = 0 → P ≤ 8) →
    (E < I → P ≤ 11 + 6 * E) → P ≤ 14 + 6 * E →
    ∃ c1 P1, PRSCompressor.drain fuel c = .ok c1 ∧ c1.zero_data S I I ∧ c1.potential P1 ∧
      P1 ≤ 14 + 6 * I := by
  intro fuel
  induction fuel with
  | zero =>
    intro c E P hz hp h1 h2 _ _ hb
    have hEI : E = I := by omega
    subst hEI
    have hend : c.reverse_log.end_offset = E := by
      unfold ReverseLog.end_offset
      rw [hz.2.2.2.1, List.length_replicate]
    unfold PRSCompressor.drain
    rw [if_neg (by rw [hend, hz.2.2.2.2]; omega)]
    exact ⟨c, P, rfl, hz, hp, hb⟩
  | succ fuel ih =>
    intro c E P hz hp h1 h2 hb0 hb1 hb
    have hend : c.reverse_log.end_offset = E := by
      unfold ReverseLog.end_offset
      rw [hz.2.2.2.1, List.length_replicate]
    unfold PRSCompressor.drain
    by_cases hlt : E < I
    · rw [if_pos (by rw [hend, hz.2.2.2.2]; exact hlt)]
      obtain ⟨c1, m, P1, hadv, hz1, hp1, hm1, hm2, hcost⟩ :=
        advance_zero_run c S E I P hz hp hlt hI
      rw [hadv]
      simp only
      have hP := hb1 hlt
      apply ih c1 (E + m) P1 hz1 hp1 hm2 (by omega) (by omega)
      · intro h
        rcases hcost with ⟨hm, hP1, hor⟩ | ⟨hm, hP1⟩
        · rcases hor with h0 | h0
          · have := hb0 h0
            omega
          · omega
        · omega
      · rcases hcost with ⟨hm, hP1, hor⟩ | ⟨hm, hP1⟩
        · rcases hor with h0 | h0
          · have := hb0 h0
            omega
          · omega
        · omega
    · have hEI : E = I := by omega
      subst hEI
      rw [if_neg (by rw [hend, hz.2.2.2.2]; omega)]
      exact ⟨c, P, rfl, hz, hp, hb⟩

/-- In a run of zeros with at least 0x100 bytes left and something committed,
`advance` writes an extended copy of 0x100 bytes from the start of the reverse
log: with fewer than 0x100 bytes committed the match overlaps itself. -/
theorem advance_zero_run_long (c : PRSCompressor) (S E I : Nat) (hz : c.zero_data S E I)
    (hE1 : 1 ≤ E) (hk : E + 0x100 ≤ I) (hI : I < 0x2000) :
    c.advance =
      .ok (c.advance_extended_copy ((((0 : Nat) : Int) - (E : Int)) % (2 ^ 64 : Int)).toNat 0x100) := by
  have hz0 := hz
  obtain ⟨h1, h2, h3, h4, h5⟩ := hz
  have hend : c.reverse_log.end_offset = E := by
    unfold ReverseLog.end_offset
    rw [h4, List.length_replicate]
  have hat : c.forward_log.at E = 0 := by
    unfold ForwardLog.at
    rw [h3, getD_replicate_zero]
  have hfind : c.reverse_log.find 0 = List.range E := by
    unfold ReverseLog.find
    rw [h4]
    simp only [List.length_replicate, getD_replicate_zero, decide_True]
    exact List.filter_eq_self.mpr (fun _ _ => rfl)
  have hs : prs_search c c.compression_level 0
      { best_match_size := 0, best_match_offset := 0, best_match_literals := 0 } =
      .ok (c, BestMatch.mk 0x100 0 0) := by
    rw [h1]
    apply prs_search_level1
    rw [hend, hat, hfind]
    have hr : List.range E = 0 :: (List.range (E - 1)).map (· + 1) := by
      have : E = (E - 1) + 1 := by omega
      rw [this, List.range_succ_eq_map]
      simp
    rw [hr]
    exact prs_search_offsets_long c S E I hz0 (by omega) (by omega) (by omega) _
  have hoff := @backreference_offset_signed 0 E (by omega) (by omega)
  rw [advance_with_best c 0x100 0 hs, hend, hoff]
  have hge : ((0 : Nat) : Int) - (E : Int) ≥ -0x1FFF := by omega
  rw [if_neg (by omega), if_neg (by omega), if_neg (by omega), if_neg (by omega),
    if_pos ⟨hge, by omega⟩]

/-- `close` after a run of zeros: the stop opcode costs 18 bits, and the
output is as long as the bits written say. -/
theorem close_zero_run (c : PRSCompressor) (S E I P : Nat) (hz : c.zero_data S E I)
    (hp : c.potential P) (hEI : E ≤ I) (hI : I < 0x2000) (hb0 : E = 0 → P ≤ 8)
    (hb : P ≤ 11 + 6 * E) :
    ∃ c1, c.close = .ok c1 ∧ 8 * c1.output.length ≤ 32 + 6 * I := by
  have hend : c.reverse_log.end_offset = E := by
    unfold ReverseLog.end_offset
    rw [hz.2.2.2.1, List.length_replicate]
  obtain ⟨c1, P1, hdrain, hz1, hp1, hP1⟩ :=
    drain_zero_run S I hI (c.input_bytes - c.reverse_log.end_offset) c E P hz hp hEI
      (by rw [hend, hz.2.2.2.2]) hb0 (fun _ => hb) (by omega)
  have p4 := put_u8_potential _ 0 _ (put_u8_potential _ 0 _
    (write_control_potential _ true _ (write_control_potential c1 false P1 hp1)))
  have hnz := write_control_pending (c1.write_control false) true
  have hflush := flush_control_pending
    { ((c1.write_control false).write_control true) with
      output := ((c1.write_control false).write_control true).output ++ [0] ++ [0] } hnz
  obtain ⟨j, low, _, _, _, hlen⟩ := p4
  unfold PRSCompressor.close
  rw [if_pos (by rw [hz.2.1]; simp), hdrain]
  simp only
  rw [hflush]
  refine ⟨_, rfl, ?_⟩
  simp only [List.length_set]
  simp only [List.length_append, List.length_singleton] at hlen ⊢
  omega

/-- On an open compressor `add` is the loop over the bytes. -/
theorem add_open (c : PRSCompressor) (data : List UInt8) (h : c.closed = false) :
    c.add data = c.add_bytes data := by
  unfold PRSCompressor.add
  rw [h]
  rfl

/-- The definition of `prs_compress`, as an equation to rewrite with. -/
theorem prs_compress_eq (forward_log : ForwardLog) (data : List UInt8) (compression_level : Nat) :
    prs_compress forward_log data compression_level =
      match (PRSCompressor.new forward_log compression_level).add data with
      | .error e => .error e
      | .ok c =>
        match c.close with
        | .error e => .error e
        | .ok c1 => .ok c1.output := rfl

/-- A run of `n` zero bytes, `n < 0x2000`, compressed at level 1 with a forward
log of at least 2 bytes takes at most `(32 + 6 * n) / 8` bytes. -/
theorem prs_compress_zero_run (S n : Nat) (hS : 2 ≤ S) (hn : n < 0x2000) :
    ∃ out, prs_compress (ForwardLog.zeroed S) (List.replicate n 0) 1 = .ok out ∧
      8 * out.length ≤ 32 + 6 * n := by
  have hz0 : (PRSCompressor.new (ForwardLog.zeroed S) 1).zero_data S 0 0 :=
    ⟨rfl, rfl, rfl, rfl, rfl⟩
  have hp0 : (PRSCompressor.new (ForwardLog.zeroed S) 1).potential 8 :=
    ⟨0, 0, by omega, by omega, rfl, rfl⟩
  obtain ⟨c1, E1, P1, hadd, hz1, hp1, k1, k2, k3⟩ :=
    add_bytes_zero_run S hS n (PRSCompressor.new (ForwardLog.zeroed S) 1) 0 0 8 hz0 hp0
      (by omega) (by omega) (fun _ => by omega) (by omega) (by omega)
  rw [Nat.zero_add] at hz1 k1
  obtain ⟨c2, hclose, hlen⟩ := close_zero_run c1 S E1 n P1 hz1 hp1 k1 hn k2 k3
  refine ⟨c2.output, ?_, hlen⟩
  rw [prs_compress_eq, add_open _ _ rfl, hadd]
  simp only
  rw [hclose]

/-- C20. Compressing 4096 zero bytes at compression level 1 yields fewer than
4096 bytes (at most 3076), for every forward log of at least 2 bytes; the size
of the forward log is declared in `Compression.hh`, which is not among the
sources. While at least 0x100 bytes are left and something is committed, each
`advance` writes one extended copy of 0x100 bytes that starts at the beginning
of the committed bytes, a match that overlaps itself cyclically while fewer
than 0x100 bytes are committed. -/
theorem prs_zero_run_shrinks (S : Nat) (hS : 2 ≤ S) :
    (∃ out, prs_compress (ForwardLog.zeroed S) (List.replicate 4096 0) 1 = .ok out ∧
      out.length < 4096) ∧
    (∀ (c : PRSCompressor) (E I : Nat), c.zero_data S E I → 1 ≤ E → E + 0x100 ≤ I →
      I < 0x2000 →
      c.advance =
        .ok (c.advance_extended_copy
          ((((0 : Nat) : Int) - (E : Int)) % (2 ^ 64 : Int)).toNat 0x100)) := by
  constructor
  · obtain ⟨out, h, hl⟩ := prs_compress_zero_run S 4096 hS (by decide)
    exact ⟨out, h, by omega⟩
  · intro c E I hz hE1 hk hI
    exact advance_zero_run_long c S E I hz hE1 hk hI

theorem prs_zero_run_shrinks_witness :
    ∃ out, prs_compress (ForwardLog.zeroed 0x101) (List.replicate 4096 0) 1 = .ok out ∧
      out.length < 4096 :=
  (prs_zero_run_shrinks 0x101 (by decide)).1

/-! ## The PRS disassembler -/

theorem and_256_of_lt {z : Nat} (h : z < 256) : z &&& 0x0100 = 0 := by
  have h1 : z &&& 0x0100 ≤ z := Nat.and_le_left
  have h2 := Nat.and_two_pow z 8
  norm_num at h2
  cases hb : z.testBit 8
  · simpa [hb] using h2
  · simp [hb] at h2; omega

/-- The loop of `buffered_bits` ends within `fuel` iterations when `z` is below
`2 ^ (8 + fuel)`: more fuel gives the same result. A `uint16_t` is below
`2 ^ 16`, so the 16 iterations of `buffered_bits` are enough. -/
theorem buffered_bits_loop_fuel : ∀ (fuel z ret k : Nat), z < 2 ^ (8 + fuel) →
    buffered_bits_loop (fuel + k) z ret = buffered_bits_loop fuel z ret := by
  intro fuel
  induction fuel with
  | zero =>
    intro z ret k hz
    cases k with
    | zero => rfl
    | succ k =>
      have h0 := and_256_of_lt (z := z) (by simpa using hz)
      show buffered_bits_loop (0 + k + 1) z ret = ret
      rw [buffered_bits_loop]
      simp [h0]
  | succ fuel ih =>
    intro z ret k hz
    have e : fuel + 1 + k = (fuel + k) + 1 := by omega
    rw [e, buffered_bits_loop, buffered_bits_loop]
    split
    · apply ih
      rw [Nat.shiftRight_eq_div_pow]
      have : 2 ^ (8 + (fuel + 1)) = 2 * 2 ^ (8 + fuel) := by
        rw [← Nat.add_assoc, Nat.pow_succ, Nat.mul_comm]
      omega
    · rfl

/-- With the bits of a `uint16_t`, `buffered_bits` does not depend on the
iteration bound of the embedding. -/
theorem buffered_bits_fuel (cr : ControlStreamReader) (h : cr.bits < 2 ^ 16) (k : Nat) :
    buffered_bits_loop (16 + k) cr.bits 0 = cr.buffered_bits :=
  buffered_bits_loop_fuel 16 cr.bits 0 k (by norm_num at h ⊢; omega)

/-! ### Disassembling a stream compressed at level 2 or above

The stream `prs_compress` writes at level 2 or above for a short input holds
literals that were never added (see the round trip above), and the
disassembler reports them: its `end` line gives an output offset beyond the
length of the input. -/

set_option maxRecDepth 100000 in
/-- C21, evaluated at the input `41` with compression level 3 (forward log of
`0x101` zeroed bytes): `prs_disassemble` of the compressed stream does not
raise and ends with the `end` line, but that line reports the output offset 3
for an input of one byte. -/
theorem prs_disassemble_level3_end_offset :
    prs_compress (ForwardLog.zeroed 0x101) [0x41] 3 = .ok [0x17, 0x41, 0, 0, 0, 0] ∧
    prs_disassemble [0x17, 0x41, 0, 0, 0, 0] =
      ([.literal 0 0 0 0x41, .literal 2 17 1 0, .literal 3 26 2 0, .finish 4 35 3], none) := by
  decide

/-! ## The empty input -/

theorem move_forward_zero (c : PRSCompressor) :
    c.move_forward_data_to_reverse_log 0 = c := rfl

theorem stop_bytes : ([UInt8.ofNat 2, 0, 0] : List UInt8) = [0x02, 0x00, 0x00] := by decide

/-- The definition of `close` on an open compressor, as an equation to rewrite
with. -/
theorem close_open (c : PRSCompressor) (h : c.closed = false) :
    c.close =
      match PRSCompressor.drain (c.input_bytes - c.reverse_log.end_offset) c with
      | .error e => .error e
      | .ok c1 =>
        match PRSCompressor.flush_control
            { ((c1.write_control false).write_control true) with
              output := ((c1.write_control false).write_control true).output ++ [0] ++ [0] } with
        | .error e => .error e
        | .ok c5 => .ok { c5 with closed := true } := by
  unfold PRSCompressor.close
  rw [if_pos (by rw [h]; decide)]

/-- An open compressor that has received no byte and holds no control bit:
`close` writes the control bits 0, 1 and two zero bytes, and the flush writes
the control byte 2 in place, so the output keeps its three bytes. -/
theorem close_fresh (c : PRSCompressor) (hcl : c.closed = false) (hi : c.input_bytes = 0)
    (hp : c.pending_control_bits = 0) (ho : c.output = [0]) (hc : c.control_byte_offset = 0) :
    ∃ c5,
      PRSCompressor.flush_control
        { ((c.write_control false).write_control true) with
          output := ((c.write_control false).write_control true).output ++ [0] ++ [0] } = .ok c5 ∧
      c.close = .ok { c5 with closed := true } ∧ c5.output = [0x02, 0x00, 0x00] ∧
      ({ ((c.write_control false).write_control true) with
          output := ((c.write_control false).write_control true).output ++ [0] ++ [0] } :
        PRSCompressor).output.length = 3 := by
  obtain ⟨c2, cr1, cr2, hfl, hout, _⟩ := long_copy_flushed c hp ho hc [0, 0] 0 []
  rw [move_forward_zero] at hfl
  have hd : PRSCompressor.drain (c.input_bytes - c.reverse_log.end_offset) c = .ok c := by
    rw [hi, Nat.zero_sub]
    unfold PRSCompressor.drain
    rw [if_neg (by rw [hi]; omega)]
  have happ : ((c.write_control false).write_control true).output ++ [0] ++ [0] =
      ((c.write_control false).write_control true).output ++ [0, 0] := by
    rw [List.append_assoc]; rfl
  have hlen : ((c.write_control false).write_control true).output = [0] := by
    rw [write_control_two c false true hp]
    exact ho
  refine ⟨c2, ?_, ?_, ?_, ?_⟩
  · rw [happ]; exact hfl
  · rw [close_open c hcl, hd]
    simp only
    rw [happ, hfl]
  · rw [hout]; exact stop_bytes
  · show (((c.write_control false).write_control true).output ++ [0] ++ [0]).length = 3
    rw [hlen]; rfl

/-- The result of `prs_compress` from the results of its two steps. -/
theorem prs_compress_of (forward_log : ForwardLog) (data : List UInt8) (compression_level : Nat)
    (c c1 : PRSCompressor)
    (h1 : (PRSCompressor.new forward_log compression_level).add data = .ok c)
    (h2 : c.close = .ok c1) :
    prs_compress forward_log data compression_level = .ok c1.output := by
  rw [prs_compress_eq, h1]
  simp only [h2]

/-- Adding no byte leaves an open compressor as it is. -/
theorem add_nil (c : PRSCompressor) (h : c.closed = false) : c.add [] = .ok c := by
  rw [add_open c [] h]
  rfl

/-- C28. For the empty input `prs_compress` returns exactly the three bytes
`02 00 00` at every compression level and with every forward log: `close`
writes the control bits 0, 1 and the two zero bytes of the stop field into a
buffer of three bytes, and `flush_control` writes the control byte 2 in place
(its first branch), so the three bytes stay and no byte is cut off. -/
theorem prs_compress_empty (forward_log : ForwardLog) (compression_level : Nat) :
    prs_compress forward_log [] compression_level = .ok [0x02, 0x00, 0x00] ∧
    ∃ c5,
      PRSCompressor.flush_control
        { (((PRSCompressor.new forward_log compression_level).write_control false).write_control
            true) with
          output :=
            (((PRSCompressor.new forward_log compression_level).write_control false).write_control
              true).output ++ [0] ++ [0] } = .ok c5 ∧
      c5.output = [0x02, 0x00, 0x00] ∧
      c5.output.length =
        ((((PRSCompressor.new forward_log compression_level).write_control false).write_control
          true).output ++ [0] ++ [0]).length := by
  obtain ⟨c5, hfl, hclose, hout, hlen⟩ :=
    close_fresh (PRSCompressor.new forward_log compression_level) rfl rfl rfl rfl rfl
  refine ⟨?_, c5, hfl, hout, ?_⟩
  · rw [prs_compress_of forward_log [] compression_level _ _ (add_nil _ rfl) hclose]
    exact congrArg Except.ok hout
  · rw [hout]
    exact hlen.symm

/-! ## The opcode `advance` writes -/

/-- What `advance` does, with the best match of its search named: the search
returns the compressor as it was and a valid best match, and `advance` is the
chain of tests on that match. -/
theorem advance_eq (c : PRSCompressor) :
    ∃ best,
      prs_search c c.compression_level 0
        { best_match_size := 0, best_match_offset := 0, best_match_literals := 0 } =
        .ok (c, best) ∧
      best.valid c.reverse_log.end_offset ∧
      (c.advance_literals best.best_match_literals).reverse_log.end_offset =
        c.reverse_log.end_offset + best.best_match_literals ∧
      c.advance =
        if best.best_match_size < 2 then
          .ok (c.advance_literals best.best_match_literals).advance_literal
        else if toSSize ((((best.best_match_offset : Int) -
            ((c.advance_literals best.best_match_literals).reverse_log.end_offset : Int)) %
              (2 ^ 64 : Int)).toNat) ≥ -0x100 ∧ best.best_match_size ≤ 5 then
          .ok ((c.advance_literals best.best_match_literals).advance_short_copy
            ((((best.best_match_offset : Int) -
              ((c.advance_literals best.best_match_literals).reverse_log.end_offset : Int)) %
                (2 ^ 64 : Int)).toNat) best.best_match_size)
        else if best.best_match_size < 3 then
          .ok (c.advance_literals best.best_match_literals).advance_literal
        else if toSSize ((((best.best_match_offset : Int) -
            ((c.advance_literals best.best_match_literals).reverse_log.end_offset : Int)) %
              (2 ^ 64 : Int)).toNat) ≥ -0x1FFF ∧ best.best_match_size ≤ 9 then
          .ok ((c.advance_literals best.best_match_literals).advance_long_copy
            ((((best.best_match_offset : Int) -
              ((c.advance_literals best.best_match_literals).reverse_log.end_offset : Int)) %
                (2 ^ 64 : Int)).toNat) best.best_match_size)
        else if toSSize ((((best.best_match_offset : Int) -
            ((c.advance_literals best.best_match_literals).reverse_log.end_offset : Int)) %
              (2 ^ 64 : Int)).toNat) ≥ -0x1FFF ∧ best.best_match_size ≤ 0x100 then
          .ok ((c.advance_literals best.best_match_literals).advance_extended_copy
            ((((best.best_match_offset : Int) -
              ((c.advance_literals best.best_match_literals).reverse_log.end_offset : Int)) %
                (2 ^ 64 : Int)).toNat) best.best_match_size)
        else .error .invalidBestMatch := by
  obtain ⟨best, hs, hv⟩ := prs_search_ok c c.compression_level 0
    { best_match_size := 0, best_match_offset := 0, best_match_literals := 0 }
    ⟨by simp, by simp⟩
  refine ⟨best, hs, hv, (advance_literals_fields best.best_match_literals c).1, ?_⟩
  unfold PRSCompressor.advance
  rw [hs]

/-- The chain of tests of `advance` on a valid best match of `n` bytes at the
signed offset `o = off - e`, `e` being the boundary after the prefix
literals: the tests on the wrapped offset are tests on `o`, which lies in
`[-0x1FFF, -1]` once `n ≥ 1`, and the last branch is never taken. -/
theorem advance_chain (c2 : PRSCompressor) (off e n : Nat) (hn : n ≤ 0x100)
    (hoff : 1 ≤ n → off < e ∧ e < off + 0x2000) :
    (if n < 2 then .ok c2.advance_literal
      else if toSSize ((((off : Int) - (e : Int)) % (2 ^ 64 : Int)).toNat) ≥ -0x100 ∧ n ≤ 5 then
        .ok (c2.advance_short_copy ((((off : Int) - (e : Int)) % (2 ^ 64 : Int)).toNat) n)
      else if n < 3 then .ok c2.advance_literal
      else if toSSize ((((off : Int) - (e : Int)) % (2 ^ 64 : Int)).toNat) ≥ -0x1FFF ∧ n ≤ 9 then
        .ok (c2.advance_long_copy ((((off : Int) - (e : Int)) % (2 ^ 64 : Int)).toNat) n)
      else if toSSize ((((off : Int) - (e : Int)) % (2 ^ 64 : Int)).toNat) ≥ -0x1FFF ∧
          n ≤ 0x100 then
        .ok (c2.advance_extended_copy ((((off : Int) - (e : Int)) % (2 ^ 64 : Int)).toNat) n)
      else (.error .invalidBestMatch : Except CompressError PRSCompressor)) =
    .ok (prs_opcode_choice c2 ((off : Int) - (e : Int)) n) := by
  unfold prs_opcode_choice
  by_cases h2 : n < 2
  · rw [if_pos h2, if_pos h2]
  · rw [if_neg h2, if_neg h2]
    obtain ⟨h1, h3⟩ := hoff (by omega)
    rw [backreference_offset_signed h1 h3]
    by_cases hs : (off : Int) - (e : Int) ≥ -0x100 ∧ n ≤ 5
    · have hs2 : (off : Int) - (e : Int) ≥ -256 ∧ n ≤ 5 := hs
      rw [if_pos hs, if_pos hs2]
    · have hs2 : ¬ ((off : Int) - (e : Int) ≥ -256 ∧ n ≤ 5) := hs
      rw [if_neg hs, if_neg hs2]
      by_cases h3 : n < 3
      · have r2 : n = 2 := by omega
        rw [if_pos h3, if_pos r2]
      · have r2 : ¬ n = 2 := by omega
        rw [if_neg h3, if_neg r2]
        by_cases h9 : n ≤ 9
        · have hl : (off : Int) - (e : Int) ≥ -0x1FFF ∧ n ≤ 9 := ⟨by omega, h9⟩
          rw [if_pos hl, if_pos h9]
        · have hl : ¬ ((off : Int) - (e : Int) ≥ -0x1FFF ∧ n ≤ 9) := fun h => h9 h.2
          have hx : (off : Int) - (e : Int) ≥ -0x1FFF ∧ n ≤ 0x100 := ⟨by omega, hn⟩
          rw [if_neg hl, if_neg h9, if_pos hx]

/-- C23. `advance` chooses its opcode from the best match of its search, of
`n = best_match_size` bytes at the signed offset
`o = best_match_offset - (E + best_match_literals)` from the boundary after
the prefix literals, exactly as the chain `prs_opcode_choice` words it:
`n < 2` gives a literal; otherwise `o ≥ -256` and `n ≤ 5` gives a short copy;
otherwise `n = 2` gives a literal; otherwise `n ≤ 9` gives a long copy;
otherwise an extended copy. The search always succeeds, `n ≤ 256`, and for
`n ≥ 2` the offset lies in `[-8191, -1]`, so the last case is `10 ≤ n ≤ 256`
and `advance` never raises. -/
theorem prs_advance_opcode_choice (c : PRSCompressor) :
    ∃ best,
      prs_search c c.compression_level 0
        { best_match_size := 0, best_match_offset := 0, best_match_literals := 0 } =
        .ok (c, best) ∧
      best.best_match_size ≤ 256 ∧
      (2 ≤ best.best_match_size →
        -8191 ≤ (best.best_match_offset : Int) -
          ((c.reverse_log.end_offset + best.best_match_literals : Nat) : Int) ∧
        (best.best_match_offset : Int) -
          ((c.reverse_log.end_offset + best.best_match_literals : Nat) : Int) ≤ -1) ∧
      c.advance =
        .ok (prs_opcode_choice (c.advance_literals best.best_match_literals)
          ((best.best_match_offset : Int) -
            ((c.reverse_log.end_offset + best.best_match_literals : Nat) : Int))
          best.best_match_size) := by
  obtain ⟨best, hs, hv, he, ha⟩ := advance_eq c
  refine ⟨best, hs, hv.1, ?_, ?_⟩
  · intro h2
    have := hv.2 (by omega)
    omega
  · rw [ha, he]
    exact advance_chain _ _ _ _ hv.1 hv.2

/-- C26. The speculative commits of the search of `advance` are undone: for
every compressor state, whatever its level, the search returns, and the
compressor it returns is the one `advance` was entered with. Its reverse log
in particular has the same end offset, the same byte at every offset and the
same offsets for every byte value; and for every prefix length `k`, popping
`k` times after pushing `k` times gives the reverse log back. -/
theorem prs_search_undone (c : PRSCompressor) :
    ∃ c1 best,
      prs_search c c.compression_level 0
        { best_match_size := 0, best_match_offset := 0, best_match_literals := 0 } =
        .ok (c1, best) ∧
      c1 = c ∧ c1.reverse_log.end_offset = c.reverse_log.end_offset ∧
      (∀ o, c1.reverse_log.at o = c.reverse_log.at o) ∧
      (∀ v, c1.reverse_log.find v = c.reverse_log.find v) ∧
      ∀ k, Nat.iterate ReverseLog.pop_back k
        (c.move_forward_data_to_reverse_log k).reverse_log = c.reverse_log := by
  obtain ⟨best, hs, _⟩ := prs_search_ok c c.compression_level 0
    { best_match_size := 0, best_match_offset := 0, best_match_literals := 0 }
    ⟨by simp, by simp⟩
  exact ⟨c, best, hs, rfl, rfl, fun _ => rfl, fun _ => rfl,
    fun k => pop_back_move_forward k c⟩

/-- The wrapped difference `off - e` for a match that starts `d = e - off`
bytes back is the pattern of `-d`. -/
theorem backreference_offset_pattern {off e : Nat} (h1 : off < e) (h2 : e < off + 0x2000) :
    (((off : Int) - (e : Int)) % (2 ^ 64 : Int)).toNat = 2 ^ 64 - (e - off) := by
  omega

/-- C29. Every backreference `advance` writes, for every compressor state and
so for every input and every level of `prs_compress` (whose copies are all
written by `advance`, called from `add_byte` and from `close`), has a backward
distance `d` of 1 to 8191 bytes, not beyond the bytes committed, and a length
`n` of 2 to 256: after `k` prefix literals `advance` writes a literal, or a
short copy with `1 ≤ d ≤ 256` and `2 ≤ n ≤ 5`, or a long copy with
`1 ≤ d ≤ 8191` and `3 ≤ n ≤ 9`, or an extended copy with `1 ≤ d ≤ 8191` and
`10 ≤ n ≤ 256`. The offset argument is the 64-bit pattern of `-d`. -/
theorem prs_advance_backreference_bounds (c : PRSCompressor) :
    ∃ k,
      c.advance = .ok (c.advance_literals k).advance_literal ∨
      (∃ d n, 1 ≤ d ∧ d ≤ 256 ∧ d ≤ c.reverse_log.end_offset + k ∧ 2 ≤ n ∧ n ≤ 5 ∧
        c.advance = .ok ((c.advance_literals k).advance_short_copy (2 ^ 64 - d) n)) ∨
      (∃ d n, 1 ≤ d ∧ d ≤ 8191 ∧ d ≤ c.reverse_log.end_offset + k ∧ 3 ≤ n ∧ n ≤ 9 ∧
        c.advance = .ok ((c.advance_literals k).advance_long_copy (2 ^ 64 - d) n)) ∨
      (∃ d n, 1 ≤ d ∧ d ≤ 8191 ∧ d ≤ c.reverse_log.end_offset + k ∧ 10 ≤ n ∧ n ≤ 256 ∧
        c.advance = .ok ((c.advance_literals k).advance_extended_copy (2 ^ 64 - d) n)) := by
  obtain ⟨best, hs, hv, he, ha⟩ := advance_eq c
  refine ⟨best.best_match_literals, ?_⟩
  rw [ha, he]
  by_cases h2 : best.best_match_size < 2
  · left; rw [if_pos h2]
  · rw [if_neg h2]
    obtain ⟨h1, h3⟩ := hv.2 (by omega)
    rw [backreference_offset_signed h1 h3, backreference_offset_pattern h1 h3]
    by_cases hsc : (best.best_match_offset : Int) -
        ((c.reverse_log.end_offset + best.best_match_literals : Nat) : Int) ≥ -0x100 ∧
        best.best_match_size ≤ 5
    · rw [if_pos hsc]
      exact Or.inr (Or.inl ⟨_, _, by omega, by omega, by omega, by omega, hsc.2, rfl⟩)
    · rw [if_neg hsc]
      by_cases h3 : best.best_match_size < 3
      · left; rw [if_pos h3]
      · rw [if_neg h3]
        by_cases h9 : best.best_match_size ≤ 9
        · have hl : (best.best_match_offset : Int) -
              ((c.reverse_log.end_offset + best.best_match_literals : Nat) : Int) ≥ -0x1FFF ∧
              best.best_match_size ≤ 9 := ⟨by omega, h9⟩
          rw [if_pos hl]
          exact Or.inr (Or.inr (Or.inl ⟨_, _, by omega, by omega, by omega, by omega, h9, rfl⟩))
        · have hl : ¬ ((best.best_match_offset : Int) -
              ((c.reverse_log.end_offset + best.best_match_literals : Nat) : Int) ≥ -0x1FFF ∧
              best.best_match_size ≤ 9) := fun h => h9 h.2
          have hx : (best.best_match_offset : Int) -
              ((c.reverse_log.end_offset + best.best_match_literals : Nat) : Int) ≥ -0x1FFF ∧
              best.best_match_size ≤ 0x100 := ⟨by omega, hv.1⟩
          rw [if_neg hl, if_pos hx]
          exact Or.inr (Or.inr (Or.inr
            ⟨_, _, by omega, by omega, by omega, by omega, hv.1, rfl⟩))

/-! ## The BC0 disassembler follows the decompressor -/

/-- The copy loop appends `n` bytes to the output. -/
theorem bc0_copy_w (off : Nat) : ∀ (n z : Nat) (st : BC0State),
    ∃ ext, ext.length = n ∧ (bc0_copy off n z st).w = st.w ++ ext := by
  intro n
  induction n with
  | zero => intro z st; exact ⟨[], rfl, by simp [bc0_copy]⟩
  | succ n ih =>
    intro z st
    unfold bc0_copy
    simp only
    obtain ⟨ext, hl, hw⟩ := ih (z + 1)
      { st with
        w := st.w ++ [st.memo ((off + z) &&& 0x0FFF)]
        memo := Function.update st.memo st.memo_offset (st.memo ((off + z) &&& 0x0FFF))
        memo_offset := (st.memo_offset + 1) &&& 0x0FFF }
    refine ⟨st.memo ((off + z) &&& 0x0FFF) :: ext, by simp [hl], ?_⟩
    rw [hw]
    simp

/-- Lines that tile a range end where their byte counts add up to. -/
theorem bc0_lines_tile_sum : ∀ (lines : List BC0Line) (o n : Nat),
    bc0_lines_tile o lines n → o + (lines.map BC0Line.count).sum = n := by
  intro lines
  induction lines with
  | nil => intro o n h; simpa [bc0_lines_tile] using h
  | cons line rest ih =>
    intro o n h
    have := ih _ _ h.2
    simp only [List.map_cons, List.sum_cons]
    omega

/-- One more line, reporting the end of the range, extends the tiling by its
byte count. -/
theorem bc0_lines_tile_append : ∀ (lines : List BC0Line) (o n : Nat) (line : BC0Line),
    bc0_lines_tile o lines n → line.output_bytes = n →
    bc0_lines_tile o (lines ++ [line]) (n + line.count) := by
  intro lines
  induction lines with
  | nil =>
    intro o n line h hl
    have : o = n := h
    subst this
    exact ⟨hl, rfl⟩
  | cons l rest ih =>
    intro o n line h hl
    exact ⟨h.1, ih _ _ _ h.2 hl⟩

/-- One more opcode: a disassembler state that has printed `line` follows the
decompressor state that has appended `ext`. -/
theorem follows_append (ds ds1 : BC0DisState) (st st1 : BC0State) (line : BC0Line)
    (ext : List UInt8) (h : ds.follows st) (hl : line.output_bytes = ds.output_bytes)
    (hc : line.count = ext.length) (hw : st1.w = st.w ++ ext) (hr : ds1.r = st1.r)
    (hb : ds1.control_stream_bits = st1.control_stream_bits)
    (hlines : ds1.lines = ds.lines ++ [line])
    (ho : ds1.output_bytes = ds.output_bytes + line.count)
    (hv : ∀ o v, line = .literal o v → ext = [v]) :
    ds1.follows st1 := by
  obtain ⟨h1, h2, h3, h4, h5⟩ := h
  refine ⟨hr, hb, ?_, ?_, ?_⟩
  · rw [ho, hw, List.length_append, h3, hc]
  · have := bc0_lines_tile_append ds.lines 0 st.w.length line h4 (by rw [hl, h3])
    rw [hlines, hw, List.length_append, ← hc]
    exact this
  · intro o v hm
    rw [hlines] at hm
    simp only [List.mem_append, List.mem_singleton] at hm
    rcases hm with hm | hm
    · obtain ⟨ha, hb2⟩ := h5 o v hm
      refine ⟨by rw [hw, List.length_append]; omega, ?_⟩
      rw [hw, List.getD_append _ _ _ _ ha]
      exact hb2
    · have he := hv o v hm.symm
      have ho : o = st.w.length := by
        rw [← hm] at hl
        rw [← h3]
        exact hl
      subst ho
      refine ⟨by rw [hw, he]; simp, ?_⟩
      rw [hw, he, List.getD_append_right _ _ _ _ (Nat.le_refl _)]
      simp

/-- An opcode of the disassembler against the same opcode of the
decompressor. -/
theorem bc0_disassemble_opcode_follows (ds : BC0DisState) (st : BC0State) (h : ds.follows st) :
    (∀ e, bc0_opcode st = .error e → bc0_disassemble_opcode ds = .error e) ∧
    (bc0_opcode st = .ok none → bc0_disassemble_opcode ds = .ok none) ∧
    (∀ st1, bc0_opcode st = .ok (some st1) →
      ∃ ds1, bc0_disassemble_opcode ds = .ok (some ds1) ∧ ds1.follows st1) := by
  have h0 := h
  obtain ⟨h1, h2, h3, h4, h5⟩ := h
  unfold bc0_opcode bc0_disassemble_opcode
  rw [h1, h2]
  by_cases hb : st.control_stream_bits &&& 1 = 0
  · rw [if_pos hb, if_pos hb]
    cases hr : st.r with
    | nil => simp [get_u8]
    | cons a1 r1 =>
      cases r1 with
      | nil => simp [get_u8]
      | cons a2 r2 =>
        simp only [get_u8, reduceCtorEq, if_false]
        refine ⟨by simp, by simp, ?_⟩
        intro st1 hst
        simp only [Except.ok.injEq, Option.some.injEq] at hst
        refine ⟨_, rfl, ?_⟩
        obtain ⟨ext, hl, hw⟩ := bc0_copy_w (a1.toNat ||| ((a2.toNat <<< 4) &&& 0xF00))
          ((a2.toNat &&& 0x0F) + 3) 0 { st with r := r2 }
        have hf := bc0_copy_r (a1.toNat ||| ((a2.toNat <<< 4) &&& 0xF00))
          ((a2.toNat &&& 0x0F) + 3) 0 { st with r := r2 }
        rw [hst] at hw hf
        exact follows_append ds _ st st1
          (.backreference ds.output_bytes ((a2.toNat &&& 0x0F) + 3)) ext h0 rfl hl.symm hw
          hf.1.symm hf.2.symm rfl rfl (by intro o v he; cases he)
  · rw [if_neg hb, if_neg hb]
    cases hr : st.r with
    | nil => simp [get_u8]
    | cons v r1 =>
      simp only [get_u8]
      refine ⟨by simp, by simp, ?_⟩
      intro st1 hst
      simp only [Except.ok.injEq, Option.some.injEq] at hst
      refine ⟨_, rfl, ?_⟩
      subst hst
      exact follows_append ds _ st _ (.literal ds.output_bytes v) [v] h0 rfl rfl rfl rfl rfl rfl
        rfl (by intro o v2 he; cases he; rfl)

/-- An iteration of the disassembler against the same iteration of the
decompressor. -/
theorem bc0_disassemble_step_follows (ds : BC0DisState) (st : BC0State) (h : ds.follows st) :
    (∀ e, bc0_step st = .error e → bc0_disassemble_step ds = .error e) ∧
    (bc0_step st = .ok none → bc0_disassemble_step ds = .ok none) ∧
    (∀ st1, bc0_step st = .ok (some st1) →
      ∃ ds1, bc0_disassemble_step ds = .ok (some ds1) ∧ ds1.follows st1) := by
  have h0 := h
  obtain ⟨h1, h2, h3, h4, h5⟩ := h
  unfold bc0_step bc0_disassemble_step
  simp only
  rw [h1, h2]
  by_cases hb : (st.control_stream_bits >>> 1) &&& 0x100 = 0
  · rw [if_pos hb, if_pos hb]
    cases hr : st.r with
    | nil => simp [get_u8]
    | cons c r1 =>
      simp only [get_u8]
      by_cases hr1 : r1 = []
      · rw [if_pos hr1, if_pos hr1]; simp
      · rw [if_neg hr1, if_neg hr1]
        exact bc0_disassemble_opcode_follows
          { ds with r := r1, control_stream_bits := 0xFF00 ||| c.toNat }
          { st with r := r1, control_stream_bits := 0xFF00 ||| c.toNat }
          ⟨rfl, rfl, h3, h4, h5⟩
  · rw [if_neg hb, if_neg hb]
    exact bc0_disassemble_opcode_follows
      { ds with r := st.r, control_stream_bits := st.control_stream_bits >>> 1 }
      { st with control_stream_bits := st.control_stream_bits >>> 1 }
      ⟨rfl, rfl, h3, h4, h5⟩

/-- The loop of the disassembler against the loop of the decompressor. -/
theorem bc0_disassemble_loop_follows : ∀ (fuel : Nat) (ds : BC0DisState) (st : BC0State),
    ds.follows st →
    (∀ e, bc0_decompress_loop fuel st = .error e → bc0_disassemble_loop fuel ds = .error e) ∧
    (∀ st1 b, bc0_decompress_loop fuel st = .ok (st1, b) →
      ∃ ds1, bc0_disassemble_loop fuel ds = .ok ds1 ∧ ds1.follows st1) := by
  intro fuel
  induction fuel with
  | zero =>
    intro ds st h
    unfold bc0_decompress_loop bc0_disassemble_loop
    rw [h.1]
    by_cases hr : st.r = []
    · rw [if_pos hr, if_pos hr]
      refine ⟨by simp, ?_⟩
      intro st1 b hst
      simp only [Except.ok.injEq, Prod.mk.injEq] at hst
      rw [← hst.1]
      exact ⟨ds, rfl, h⟩
    · rw [if_neg hr, if_neg hr]
      simp
  | succ fuel ih =>
    intro ds st h
    unfold bc0_decompress_loop bc0_disassemble_loop
    rw [h.1]
    by_cases hr : st.r = []
    · rw [if_pos hr, if_pos hr]
      refine ⟨by simp, ?_⟩
      intro st1 b hst
      simp only [Except.ok.injEq, Prod.mk.injEq] at hst
      rw [← hst.1]
      exact ⟨ds, rfl, h⟩
    · rw [if_neg hr, if_neg hr]
      obtain ⟨he, hn, hs⟩ := bc0_disassemble_step_follows ds st h
      rcases hstep : bc0_step st with e | res
      · rw [he e hstep]; simp
      · cases res with
        | none =>
          rw [hn hstep]
          refine ⟨by simp, ?_⟩
          intro st1 b hst
          simp only [Except.ok.injEq, Prod.mk.injEq] at hst
          rw [← hst.1]
          exact ⟨ds, rfl, h⟩
        | some st1 =>
          obtain ⟨ds1, hd, hf⟩ := hs st1 hstep
          rw [hd]
          exact ih ds1 st1 hf

/-- C22. For every input `s`, `bc0_disassemble` decodes the opcodes
`bc0_decompress` decodes: neither raises, the byte counts of the lines (1 for
a literal line, `(a2 & 0x0F) + 3` for a backreference line) add up to the
length of the decompressed output, the lines tile the output (each reports the
offset at which the line before it ends), and a literal line shows the output
byte at its offset. -/
theorem bc0_disassemble_agrees (s : List UInt8) :
    ∃ lines out, bc0_disassemble s = .ok lines ∧ bc0_decompress s = .ok out ∧
      (lines.map BC0Line.count).sum = out.length ∧
      bc0_lines_tile 0 lines out.length ∧
      ∀ o v, BC0Line.literal o v ∈ lines → o < out.length ∧ out.getD o 0 = v := by
  obtain ⟨res, hres⟩ := bc0_decompress_loop_ok s.length (bc0_init s) (Nat.le_refl _)
  obtain ⟨st1, b⟩ := res
  have hinit : BC0DisState.follows
      { r := s, control_stream_bits := 0x0000, output_bytes := 0, lines := [] } (bc0_init s) :=
    ⟨rfl, rfl, rfl, rfl, by intro o v hm; cases hm⟩
  obtain ⟨ds1, hd, hf⟩ := (bc0_disassemble_loop_follows s.length _ _ hinit).2 st1 b hres
  refine ⟨ds1.lines, st1.w, ?_, ?_, ?_, hf.2.2.2.1, hf.2.2.2.2⟩
  · unfold bc0_disassemble
    rw [hd]
  · rw [bc0_decompress_eq, hres]
  · have := bc0_lines_tile_sum _ _ _ hf.2.2.2.1
    omega

/-! ## The memo invariant of `bc0_decompress` -/

theorem memo_inv_init (s : List UInt8) : (bc0_init s).memo_inv :=
  ⟨mirrors_init s, fun _ _ _ => rfl⟩

/-- Writing a byte to the output and to the memo at the cursor keeps the memo
invariant: the cell written is the one of the new output byte, and every cell
of an offset not reached yet is another cell. -/
theorem memo_inv_put (st : BC0State) (v : UInt8) (h : st.memo_inv) :
    BC0State.memo_inv
      { st with
        w := st.w ++ [v]
        memo := Function.update st.memo st.memo_offset v
        memo_offset := (st.memo_offset + 1) &&& 0x0FFF } := by
  obtain ⟨hm, hz⟩ := h
  refine ⟨mirrors_put st st.w v hm, ?_⟩
  intro i hi hlt
  simp only [List.length_append, List.length_singleton] at hi
  simp only
  have hne : (0x0FEE + i) % 0x1000 ≠ st.memo_offset := by rw [hm.2.1]; omega
  rw [Function.update_noteq hne]
  exact hz i (by omega) hlt

/-- The copy loop of a backreference keeps the memo invariant, whatever the
offset it reads from. -/
theorem memo_inv_copy (off : Nat) : ∀ (n z : Nat) (st : BC0State), st.memo_inv →
    (bc0_copy off n z st).memo_inv := by
  intro n
  induction n with
  | zero => intro z st h; exact h
  | succ n ih =>
    intro z st h
    unfold bc0_copy
    exact ih (z + 1) _ (memo_inv_put st _ h)

theorem memo_inv_opcode (st st1 : BC0State) (h : st.memo_inv)
    (hs : bc0_opcode st = .ok (some st1)) : st1.memo_inv := by
  unfold bc0_opcode at hs
  by_cases hb : st.control_stream_bits &&& 1 = 0
  · rw [if_pos hb] at hs
    rcases g1 : get_u8 st.r with e | ⟨a1, r1⟩
    · simp [g1] at hs
    · simp only [g1] at hs
      by_cases hr1 : r1 = []
      · simp [hr1] at hs
      · rw [if_neg hr1] at hs
        rcases g2 : get_u8 r1 with e | ⟨a2, r2⟩
        · simp [g2] at hs
        · simp only [g2, Except.ok.injEq, Option.some.injEq] at hs
          rw [← hs]
          exact memo_inv_copy _ _ _ _ h
  · rw [if_neg hb] at hs
    rcases g1 : get_u8 st.r with e | ⟨v, r1⟩
    · simp [g1] at hs
    · simp only [g1, Except.ok.injEq, Option.some.injEq] at hs
      rw [← hs]
      exact memo_inv_put st v h

theorem memo_inv_step (st st1 : BC0State) (h : st.memo_inv)
    (hs : bc0_step st = .ok (some st1)) : st1.memo_inv := by
  unfold bc0_step at hs
  simp only at hs
  by_cases hb : (st.control_stream_bits >>> 1) &&& 0x100 = 0
  · rw [if_pos hb] at hs
    rcases g1 : get_u8 st.r with e | ⟨c, r1⟩
    · simp [g1] at hs
    · simp only [g1] at hs
      by_cases hr1 : r1 = []
      · simp [hr1] at hs
      · rw [if_neg hr1] at hs
        refine memo_inv_opcode _ st1 ?_ hs
        exact h
  · rw [if_neg hb] at hs
    refine memo_inv_opcode _ st1 ?_ hs
    exact h

theorem memo_inv_loop : ∀ (fuel : Nat) (st st1 : BC0State) (b : Bool), st.memo_inv →
    bc0_decompress_loop fuel st = .ok (st1, b) → st1.memo_inv := by
  intro fuel
  induction fuel with
  | zero =>
    intro st st1 b h hs
    unfold bc0_decompress_loop at hs
    by_cases hr : st.r = []
    · rw [if_pos hr] at hs
      simp only [Except.ok.injEq, Prod.mk.injEq] at hs
      rw [← hs.1]; exact h
    · rw [if_neg hr] at hs; simp at hs
  | succ fuel ih =>
    intro st st1 b h hs
    by_cases hr : st.r = []
    · unfold bc0_decompress_loop at hs
      rw [if_pos hr] at hs
      simp only [Except.ok.injEq, Prod.mk.injEq] at hs
      rw [← hs.1]; exact h
    · rw [bc0_decompress_loop_succ _ _ hr] at hs
      rcases hstep : bc0_step st with e | res
      · simp [hstep] at hs
      · cases res with
        | none =>
          simp only [hstep, Except.ok.injEq, Prod.mk.injEq] at hs
          rw [← hs.1]; exact h
        | some st2 =>
          simp only [hstep] at hs
          exact ih st2 st1 b (memo_inv_step st st2 h hstep) hs

/-- C30. The memo invariant of `bc0_decompress`. With `n` the number of output
bytes written so far, the write cursor is `(0xFEE + n) mod 4096`, the cell
`(0xFEE + i) mod 4096` holds output byte `i` for every `i` with
`max(0, n - 4096) ≤ i < n`, and the cells of the offsets `n ≤ i < 4096`, not
written yet, are zero. This holds at the start, is kept by every single write
(the write of a literal, and the copy loop of a backreference, which makes
its writes one by one), and so holds for the state the loop ends in, on every
input `s`. -/
theorem bc0_memo_invariant (s : List UInt8) :
    (bc0_init s).memo_inv ∧
    (∀ (st : BC0State) (v : UInt8), st.memo_inv →
      BC0State.memo_inv
        { st with
          w := st.w ++ [v]
          memo := Function.update st.memo st.memo_offset v
          memo_offset := (st.memo_offset + 1) &&& 0x0FFF }) ∧
    (∀ (off n z : Nat) (st : BC0State), st.memo_inv → (bc0_copy off n z st).memo_inv) ∧
    ∃ st b, bc0_decompress_loop s.length (bc0_init s) = .ok (st, b) ∧
      bc0_decompress s = .ok st.w ∧
      st.memo_offset = (0x0FEE + st.w.length) % 0x1000 ∧
      (∀ i, i < st.w.length → st.w.length ≤ i + 0x1000 →
        st.memo ((0x0FEE + i) % 0x1000) = st.w.getD i 0) ∧
      (∀ i, st.w.length ≤ i → i < 0x1000 → st.memo ((0x0FEE + i) % 0x1000) = 0) := by
  refine ⟨memo_inv_init s, memo_inv_put, memo_inv_copy, ?_⟩
  obtain ⟨res, hres⟩ := bc0_decompress_loop_ok s.length (bc0_init s) (Nat.le_refl _)
  obtain ⟨st, b⟩ := res
  have hinv := memo_inv_loop _ _ _ _ (memo_inv_init s) hres
  refine ⟨st, b, hres, ?_, hinv.1.2.1, hinv.1.2.2, hinv.2⟩
  rw [bc0_decompress_eq, hres]

/-! ## Ties between candidate matches

A candidate of `match_size` bytes replaces the best match exactly when
`match_size >= best_match_size + best_match_literals`, where
`best_match_literals` is the prefix length the best match was found with, not
the prefix length of the candidate. -/

/-- One start offset inside the window: the candidate replaces the best match
exactly when its size is at least `best_match_size + best_match_literals`. -/
theorem prs_search_offsets_step (c : PRSCompressor) (k co mo : Nat) (rest : List Nat)
    (best : BestMatch) (hb : best.best_match_size < 0x100) (h1 : mo < co)
    (h2 : co < mo + 0x2000) :
    prs_search_offsets c k co (mo :: rest) best =
      prs_search_offsets c k co rest
        (if prs_candidate_size c co mo ≥ best.best_match_size + best.best_match_literals then
          { best_match_size := prs_candidate_size c co mo
            best_match_offset := mo
            best_match_literals := k }
        else best) := by
  rw [prs_search_offsets, if_neg (not_not.mpr hb), if_neg (by omega)]
  have hmlb : (co + SIZE_MOD - mo) % SIZE_MOD ≠ 0 := by
    unfold SIZE_MOD; norm_num; omega
  simp only
  rw [if_neg (fun h => hmlb h.1)]
  unfold prs_candidate_size
  split <;> rfl

/-- A start offset outside the window is passed over. -/
theorem prs_search_offsets_far (c : PRSCompressor) (k co mo : Nat) (rest : List Nat)
    (best : BestMatch) (hb : best.best_match_size < 0x100) (h : mo + 0x2000 ≤ co) :
    prs_search_offsets c k co (mo :: rest) best = prs_search_offsets c k co rest best := by
  rw [prs_search_offsets, if_neg (not_not.mpr hb), if_pos h]

/-- With a best match of `0x100` bytes or more the loop over the start offsets
ends at once. -/
theorem prs_search_offsets_done (c : PRSCompressor) (k co : Nat) (offs : List Nat)
    (best : BestMatch) (h : ¬ best.best_match_size < 0x100) :
    prs_search_offsets c k co offs best = .ok best := by
  cases offs with
  | nil => rfl
  | cons o rest => rw [prs_search_offsets, if_pos h]

/-- Candidates shorter than `best_match_size + best_match_literals` leave the
best match as it is. -/
theorem prs_search_offsets_skip (c : PRSCompressor) (k co : Nat) (l : List Nat) :
    ∀ (pre : List Nat) (best : BestMatch),
    (∀ p ∈ pre, p < co ∧
      prs_candidate_size c co p < best.best_match_size + best.best_match_literals) →
    prs_search_offsets c k co (pre ++ l) best = prs_search_offsets c k co l best := by
  intro pre
  induction pre with
  | nil => intro best _; rfl
  | cons p pre ih =>
    intro best h
    have hp := h p (List.mem_cons_self _ _)
    have hrest : ∀ q ∈ pre, q < co ∧
        prs_candidate_size c co q < best.best_match_size + best.best_match_literals :=
      fun q hq => h q (List.mem_cons_of_mem _ hq)
    by_cases hb : best.best_match_size < 0x100
    · rw [List.cons_append]
      by_cases hw : p + 0x2000 ≤ co
      · rw [prs_search_offsets_far c k co p _ best hb hw]
        exact ih best hrest
      · rw [prs_search_offsets_step c k co p _ best hb hp.1 (by omega), if_neg (by omega)]
        exact ih best hrest
    · rw [prs_search_offsets_done c k co _ best hb, prs_search_offsets_done c k co _ best hb]

/-- Candidates shorter than `best_match_size + best_match_literals` to the end
of the loop: the best match is returned as it is. -/
theorem prs_search_offsets_rejects (c : PRSCompressor) (k co : Nat) (offs : List Nat)
    (best : BestMatch)
    (h : ∀ p ∈ offs, p < co ∧
      prs_candidate_size c co p < best.best_match_size + best.best_match_literals) :
    prs_search_offsets c k co offs best = .ok best := by
  have := prs_search_offsets_skip c k co [] offs best h
  rw [List.append_nil] at this
  rw [this]
  rfl

/-- Without literal prefix, the last of the longest candidates is selected. -/
theorem prs_search_offsets_last (c : PRSCompressor) (co n o : Nat) (post : List Nat)
    (hn : n < 0x100) (ho : o < co ∧ co < o + 0x2000 ∧ prs_candidate_size c co o = n)
    (hpost : ∀ q ∈ post, q < co ∧ prs_candidate_size c co q < n) :
    ∀ (pre : List Nat) (best : BestMatch),
    best.best_match_size + best.best_match_literals ≤ n →
    (∀ p ∈ pre, p < co ∧ co < p + 0x2000 ∧ prs_candidate_size c co p ≤ n) →
    prs_search_offsets c 0 co (pre ++ o :: post) best =
      .ok { best_match_size := n, best_match_offset := o, best_match_literals := 0 } := by
  intro pre
  induction pre with
  | nil =>
    intro best hbest _
    rw [List.nil_append, prs_search_offsets_step c 0 co o post best (by omega) ho.1 ho.2.1,
      if_pos (by rw [ho.2.2]; exact hbest), ho.2.2]
    exact prs_search_offsets_rejects c 0 co post _ hpost
  | cons p pre ih =>
    intro best hbest hpre
    have hp := hpre p (List.mem_cons_self _ _)
    have hrest : ∀ q ∈ pre, q < co ∧ co < q + 0x2000 ∧ prs_candidate_size c co q ≤ n :=
      fun q hq => hpre q (List.mem_cons_of_mem _ hq)
    rw [List.cons_append, prs_search_offsets_step c 0 co p _ best (by omega) hp.1 hp.2.1]
    split
    · exact ih _ (by simp only; omega) hrest
    · exact ih best hbest hrest

/-- The first candidate tried, accepted with `n` bytes at the prefix length
`k`, stays selected when no later candidate is `k` bytes longer. -/
theorem prs_search_offsets_first (c : PRSCompressor) (k co n o : Nat) (post : List Nat)
    (best : BestMatch) (hn : n < 0x100)
    (hbest : best.best_match_size + best.best_match_literals ≤ n)
    (ho : o < co ∧ co < o + 0x2000 ∧ prs_candidate_size c co o = n)
    (hpost : ∀ q ∈ post, q < co ∧ prs_candidate_size c co q < n + k) :
    prs_search_offsets c k co (o :: post) best =
      .ok { best_match_size := n, best_match_offset := o, best_match_literals := k } := by
  rw [prs_search_offsets_step c k co o post best (by omega) ho.1 ho.2.1,
    if_pos (by rw [ho.2.2]; exact hbest), ho.2.2]
  exact prs_search_offsets_rejects c k co post _ hpost

/-- How the test on line 81 decides a tie between rounds. A candidate replaces
the best match exactly when its size is at least `best_match_size +
best_match_literals`, so a tie in length is decided by the prefix length `k0`
the best match was found with. First part: a best match of `n` bytes found
without prefix (`k0 = 0`) is replaced, at any larger prefix length `k`, by the
first candidate of the same `n` bytes: the candidates before it are shorter,
and no later one is `k` bytes longer. Second part: against a best match found
with `k0 ≥ 1`, candidates of the same size or shorter, indeed all that are
less than `k0` bytes longer, are turned down, at every prefix length. -/
theorem prs_tie_between_rounds (c : PRSCompressor) (k co : Nat) :
    (∀ (pre : List Nat) (o : Nat) (post : List Nat) (n off0 : Nat),
      1 ≤ k → n < 0x100 →
      (∀ p ∈ pre, p < co ∧ prs_candidate_size c co p < n) →
      (o < co ∧ co < o + 0x2000 ∧ prs_candidate_size c co o = n) →
      (∀ q ∈ post, q < co ∧ prs_candidate_size c co q < n + k) →
      prs_search_offsets c k co (pre ++ o :: post)
          { best_match_size := n, best_match_offset := off0, best_match_literals := 0 } =
        .ok { best_match_size := n, best_match_offset := o, best_match_literals := k }) ∧
    (∀ (offs : List Nat) (best : BestMatch),
      1 ≤ best.best_match_literals →
      (∀ p ∈ offs, p < co ∧
        prs_candidate_size c co p < best.best_match_size + best.best_match_literals) →
      prs_search_offsets c k co offs best = .ok best) := by
  constructor
  · intro pre o post n off0 _ hn hpre ho hpost
    rw [prs_search_offsets_skip c k co (o :: post) pre
      { best_match_size := n, best_match_offset := off0, best_match_literals := 0 }
      (fun p hp => ⟨(hpre p hp).1, (hpre p hp).2⟩)]
    exact prs_search_offsets_first c k co n o post _ hn (Nat.le_refl _) ho hpost
  · intro offs best _ h
    exact prs_search_offsets_rejects c k co offs best h

set_option maxRecDepth 100000 in
/-- Both parts of `prs_tie_between_rounds` at the compressor that has received
`02 09 05 01 02 01 02 09 07` and committed five bytes, with the sixth byte
pushed as a prefix literal (`k = 1`, boundary 6, start offsets 0 and 4).
Against the match of 2 bytes at offset 3 found without prefix, the candidate
of 2 bytes at offset 0 is taken; against the same match recorded with a prefix
of one literal, it is turned down. -/
theorem prs_tie_between_rounds_witness :
    prs_search_offsets (prs_state_02_09_05.move_forward_data_to_reverse_log 1) 1 6 ([] ++ 0 :: [4])
        { best_match_size := 2, best_match_offset := 3, best_match_literals := 0 } =
      .ok { best_match_size := 2, best_match_offset := 0, best_match_literals := 1 } ∧
    prs_search_offsets (prs_state_02_09_05.move_forward_data_to_reverse_log 1) 1 6 [0, 4]
        { best_match_size := 2, best_match_offset := 3, best_match_literals := 1 } =
      .ok { best_match_size := 2, best_match_offset := 3, best_match_literals := 1 } :=
  ⟨(prs_tie_between_rounds (prs_state_02_09_05.move_forward_data_to_reverse_log 1) 1 6).1
      [] 0 [4] 2 3 (by decide) (by decide) (by decide) (by decide) (by decide),
    (prs_tie_between_rounds (prs_state_02_09_05.move_forward_data_to_reverse_log 1) 1 6).2
      [0, 4] { best_match_size := 2, best_match_offset := 3, best_match_literals := 1 }
      (by decide) (by decide)⟩

set_option maxRecDepth 100000 in
/-- C24 fails on the input `02 09 05 01 02 01 02 09 07` at level 2 (forward log
of 16 zeroed bytes). After four calls of `advance` five bytes are committed.
The round without prefix has one candidate, offset 3, a match of 2 bytes; it
is the result of the search of level 1, which is the first round of the search
of level 2. In the round `k = 1` the start offsets are 0 and 4; offset 0 gives
the same 2 bytes and replaces the match found with `k = 0`, in whichever order
the two offsets are tried, and the search of level 2 ends with it. Had the
match at offset 3 been recorded with a prefix of one literal, the same
candidate would have been turned down. The output holds the literal `01` and a
short copy of 2 bytes from 6 bytes back (`FA`), where level 1 writes the short
copy from 2 bytes back (`FE`). -/
theorem prs_tie_between_rounds_fails :
    ((PRSCompressor.new (ForwardLog.zeroed 16) 2).add [2, 9, 5, 1, 2, 1, 2, 9, 7] >>=
      PRSCompressor.advance >>= PRSCompressor.advance >>= PRSCompressor.advance >>=
      PRSCompressor.advance) = .ok prs_state_02_09_05 ∧
    prs_state_02_09_05.reverse_log.find (prs_state_02_09_05.forward_log.at 5) = [3] ∧
    prs_search prs_state_02_09_05 1 0
        { best_match_size := 0, best_match_offset := 0, best_match_literals := 0 } =
      .ok (prs_state_02_09_05,
        { best_match_size := 2, best_match_offset := 3, best_match_literals := 0 }) ∧
    (prs_state_02_09_05.move_forward_data_to_reverse_log 1).reverse_log.find
        ((prs_state_02_09_05.move_forward_data_to_reverse_log 1).forward_log.at 6) = [0, 4] ∧
    prs_candidate_size (prs_state_02_09_05.move_forward_data_to_reverse_log 1) 6 0 = 2 ∧
    prs_search_offsets (prs_state_02_09_05.move_forward_data_to_reverse_log 1) 1 6 [0, 4]
        { best_match_size := 2, best_match_offset := 3, best_match_literals := 0 } =
      .ok { best_match_size := 2, best_match_offset := 0, best_match_literals := 1 } ∧
    prs_search_offsets (prs_state_02_09_05.move_forward_data_to_reverse_log 1) 1 6 [4, 0]
        { best_match_size := 2, best_match_offset := 3, best_match_literals := 0 } =
      .ok { best_match_size := 2, best_match_offset := 0, best_match_literals := 1 } ∧
    prs_search_offsets (prs_state_02_09_05.move_forward_data_to_reverse_log 1) 1 6 [0, 4]
        { best_match_size := 2, best_match_offset := 3, best_match_literals := 1 } =
      .ok { best_match_size := 2, best_match_offset := 3, best_match_literals := 1 } ∧
    prs_search prs_state_02_09_05 2 0
        { best_match_size := 0, best_match_offset := 0, best_match_literals := 0 } =
      .ok (prs_state_02_09_05,
        { best_match_size := 2, best_match_offset := 0, best_match_literals := 1 }) ∧
    prs_compress (ForwardLog.zeroed 16) [2, 9, 5, 1, 2, 1, 2, 9, 7] 2 =
      .ok [0x3F, 2, 9, 5, 1, 2, 1, 0x14, 0xFA, 7, 0, 0] ∧
    prs_compress (ForwardLog.zeroed 16) [2, 9, 5, 1, 2, 1, 2, 9, 7] 1 =
      .ok [0x1F, 2, 9, 5, 1, 2, 0x16, 0xFE, 9, 7, 0, 0] := by
  decide

/-- How the test on line 81 decides a tie within a round. For a fixed prefix
length `k` the start offsets are tried in the order `reverse_log.find` gives
them, and a candidate replaces the best match exactly when its size is at
least `best_match_size + best_match_literals`. First part: without prefix
(`k = 0`) the candidate selected is the last one tried among those of the
longest size `n < 0x100`. Second part: with a prefix (`k ≥ 1`) the first
candidate tried, once accepted with `n` bytes, is kept against every later
candidate that is less than `k` bytes longer, in particular against the
equally long ones tried after it. Third part: a candidate accepted with
`0x100` bytes ends the loop, so the offsets after it are not tried, whatever
they would give. -/
theorem prs_tie_within_round (c : PRSCompressor) (co : Nat) :
    (∀ (pre : List Nat) (o : Nat) (post : List Nat) (best : BestMatch) (n : Nat),
      n < 0x100 → best.best_match_size + best.best_match_literals ≤ n →
      (∀ p ∈ pre, p < co ∧ co < p + 0x2000 ∧ prs_candidate_size c co p ≤ n) →
      (o < co ∧ co < o + 0x2000 ∧ prs_candidate_size c co o = n) →
      (∀ q ∈ post, q < co ∧ prs_candidate_size c co q < n) →
      prs_search_offsets c 0 co (pre ++ o :: post) best =
        .ok { best_match_size := n, best_match_offset := o, best_match_literals := 0 }) ∧
    (∀ (k o : Nat) (post : List Nat) (best : BestMatch) (n : Nat),
      1 ≤ k → n < 0x100 → best.best_match_size + best.best_match_literals ≤ n →
      (o < co ∧ co < o + 0x2000 ∧ prs_candidate_size c co o = n) →
      (∀ q ∈ post, q < co ∧ prs_candidate_size c co q < n + k) →
      prs_search_offsets c k co (o :: post) best =
        .ok { best_match_size := n, best_match_offset := o, best_match_literals := k }) ∧
    (∀ (k o : Nat) (post : List Nat) (best : BestMatch),
      best.best_match_size < 0x100 →
      best.best_match_size + best.best_match_literals ≤ 0x100 →
      (o < co ∧ co < o + 0x2000 ∧ prs_candidate_size c co o = 0x100) →
      prs_search_offsets c k co (o :: post) best =
        .ok { best_match_size := 0x100, best_match_offset := o, best_match_literals := k }) := by
  refine ⟨?_, ?_, ?_⟩
  · intro pre o post best n hn hbest hpre ho hpost
    exact prs_search_offsets_last c co n o post hn ho hpost pre best hbest hpre
  · intro k o post best n _ hn hbest ho hpost
    exact prs_search_offsets_first c k co n o post best hn hbest ho hpost
  · intro k o post best hb hbest ho
    rw [prs_search_offsets_step c k co o post best hb ho.1 ho.2.1,
      if_pos (by rw [ho.2.2]; exact hbest), ho.2.2]
    exact prs_search_offsets_done c k co post _ (by simp)

set_option maxRecDepth 100000 in
/-- The three parts of `prs_tie_within_round`. First and second at the
compressor that has received `05 03 09 05 03 08 01 05 03 07` and holds seven
bytes in its reverse log (boundary 7, start offsets 0 and 3, both giving a
match of 2 bytes): tried without prefix, the later offset 3 is selected; tried
with a prefix of one literal, the earlier offset 0 is. Third at a compressor
that has committed 257 zero bytes out of 600 (boundary 257, start offsets 0 to
256, each giving `0x100` bytes): offset 0 is selected, the later offsets are
not tried. -/
theorem prs_tie_within_round_witness :
    prs_search_offsets (prs_state_05_03_09.move_forward_data_to_reverse_log 1) 0 7 ([0] ++ 3 :: [])
        { best_match_size := 0, best_match_offset := 0, best_match_literals := 0 } =
      .ok { best_match_size := 2, best_match_offset := 3, best_match_literals := 0 } ∧
    prs_search_offsets (prs_state_05_03_09.move_forward_data_to_reverse_log 1) 1 7 [0, 3]
        { best_match_size := 0, best_match_offset := 0, best_match_literals := 0 } =
      .ok { best_match_size := 2, best_match_offset := 0, best_match_literals := 1 } ∧
    prs_search_offsets prs_state_zeros 0 257 (0 :: List.range' 1 256)
        { best_match_size := 0, best_match_offset := 0, best_match_literals := 0 } =
      .ok { best_match_size := 0x100, best_match_offset := 0, best_match_literals := 0 } :=
  ⟨(prs_tie_within_round (prs_state_05_03_09.move_forward_data_to_reverse_log 1) 7).1
      [0] 3 [] { best_match_size := 0, best_match_offset := 0, best_match_literals := 0 } 2
      (by decide) (by decide) (by decide) (by decide) (by decide),
    (prs_tie_within_round (prs_state_05_03_09.move_forward_data_to_reverse_log 1) 7).2.1
      1 0 [3] { best_match_size := 0, best_match_offset := 0, best_match_literals := 0 } 2
      (by decide) (by decide) (by decide) (by decide) (by decide),
    (prs_tie_within_round prs_state_zeros 257).2.2
      0 0 (List.range' 1 256)
      { best_match_size := 0, best_match_offset := 0, best_match_literals := 0 }
      (by decide) (by decide)
      ⟨by decide, by decide,
        prs_match_size_zero prs_state_zeros 1024 257 600 ⟨rfl, rfl, rfl, rfl, rfl⟩ 257 0 _ 0x100 0
          (by decide) (by decide)⟩⟩

set_option maxRecDepth 100000 in
/-- C25 fails on the input `05 03 09 05 03 05 03 07 01 05 03 06` at level 2
(forward log of 16 zeroed bytes), in whichever order `reverse_log.find` gives
the start offsets. After five calls of `advance` eight bytes are committed;
with the ninth byte pushed as a prefix literal (`k = 1`, boundary 9) the start
offsets 0, 3 and 5 are all inside the window and all give the longest match,
of 2 bytes. Tried in ascending order, the first one, offset 0, is selected and
the two later ones are turned down, so the search ends with the earliest
offset and the output holds a short copy of 2 bytes from 9 bytes back (`F7`),
where level 1, which tries the same three offsets without prefix, copies from
4 bytes back (`FC`). Tried in descending order, that round selects the latest
offset 5, but then the round without prefix two calls earlier (five bytes
committed, boundary 5, start offsets 0 and 3, both giving 2 bytes) selects the
last one tried, the earliest offset 0. -/
theorem prs_tie_within_round_fails :
    ((PRSCompressor.new (ForwardLog.zeroed 16) 2).add [5, 3, 9, 5, 3, 5, 3, 7, 1, 5, 3, 6] >>=
      PRSCompressor.advance >>= PRSCompressor.advance >>= PRSCompressor.advance) =
      .ok prs_state_tie_k0 ∧
    (prs_state_tie_k0.advance >>= PRSCompressor.advance) = .ok prs_state_tie_k1 ∧
    (prs_state_tie_k1.move_forward_data_to_reverse_log 1).reverse_log.find
        ((prs_state_tie_k1.move_forward_data_to_reverse_log 1).forward_log.at 9) = [0, 3, 5] ∧
    prs_candidate_size (prs_state_tie_k1.move_forward_data_to_reverse_log 1) 9 0 = 2 ∧
    prs_candidate_size (prs_state_tie_k1.move_forward_data_to_reverse_log 1) 9 3 = 2 ∧
    prs_candidate_size (prs_state_tie_k1.move_forward_data_to_reverse_log 1) 9 5 = 2 ∧
    prs_search_offsets (prs_state_tie_k1.move_forward_data_to_reverse_log 1) 1 9 [0, 3, 5]
        { best_match_size := 0, best_match_offset := 0, best_match_literals := 0 } =
      .ok { best_match_size := 2, best_match_offset := 0, best_match_literals := 1 } ∧
    prs_search_offsets (prs_state_tie_k1.move_forward_data_to_reverse_log 1) 1 9 [5, 3, 0]
        { best_match_size := 0, best_match_offset := 0, best_match_literals := 0 } =
      .ok { best_match_size := 2, best_match_offset := 5, best_match_literals := 1 } ∧
    prs_search prs_state_tie_k1 2 0
        { best_match_size := 0, best_match_offset := 0, best_match_literals := 0 } =
      .ok (prs_state_tie_k1,
        { best_match_size := 2, best_match_offset := 0, best_match_literals := 1 }) ∧
    prs_state_tie_k0.reverse_log.find (prs_state_tie_k0.forward_log.at 5) = [0, 3] ∧
    prs_candidate_size prs_state_tie_k0 5 0 = 2 ∧
    prs_candidate_size prs_state_tie_k0 5 3 = 2 ∧
    prs_search_offsets prs_state_tie_k0 0 5 [0, 3]
        { best_match_size := 0, best_match_offset := 0, best_match_literals := 0 } =
      .ok { best_match_size := 2, best_match_offset := 3, best_match_literals := 0 } ∧
    prs_search_offsets prs_state_tie_k0 0 5 [3, 0]
        { best_match_size := 0, best_match_offset := 0, best_match_literals := 0 } =
      .ok { best_match_size := 2, best_match_offset := 0, best_match_literals := 0 } ∧
    prs_compress (ForwardLog.zeroed 16) [5, 3, 9, 5, 3, 5, 3, 7, 1, 5, 3, 6] 2 =
      .ok [0x07, 5, 3, 9, 0xFD, 0x18, 0xFE, 7, 1, 0x0A, 0xF7, 6, 0, 0] ∧
    prs_compress (ForwardLog.zeroed 16) [5, 3, 9, 5, 3, 5, 3, 7, 1, 5, 3, 6] 1 =
      .ok [0x07, 5, 3, 9, 0xFD, 0x18, 0xFE, 7, 1, 0x0A, 0xFC, 6, 0, 0] := by
  decide

/-! ## Control bits are packed least-significant bit first -/

theorem control_byte_lt : ∀ g : List Bool, control_byte g < 2 ^ g.length := by
  intro g
  induction g with
  | nil => simp [control_byte]
  | cons b g ih =>
    simp only [control_byte, List.length_cons, pow_succ]
    cases b <;> simp <;> omega

theorem control_byte_lt_256 (g : List Bool) (h : g.length ≤ 8) : control_byte g < 256 := by
  have h1 := control_byte_lt g
  have h2 : 2 ^ g.length ≤ 2 ^ 8 := Nat.pow_le_pow_right (by decide) h
  norm_num at h2
  omega

theorem control_byte_append (g : List Bool) (b : Bool) :
    control_byte (g ++ [b]) = control_byte g + (if b then 1 else 0) * 2 ^ g.length := by
  induction g with
  | nil => simp [control_byte]
  | cons b1 g ih =>
    show control_byte (b1 :: (g ++ [b])) = _
    simp only [control_byte, ih, List.length_cons, pow_succ]
    ring

/-- Bit `i` of the control byte of `g` is the bit `g` holds at index `i`. -/
theorem control_byte_bit : ∀ (g : List Bool) (i : Nat),
    decide (control_byte g / 2 ^ i % 2 = 1) = g.getD i false := by
  intro g
  induction g with
  | nil => intro i; simp [control_byte]
  | cons b g ih =>
    intro i
    cases i with
    | zero =>
      simp only [control_byte, pow_zero, Nat.div_one, List.getD_cons_zero]
      cases b
      · simp only [Bool.false_eq_true, if_false, decide_eq_false_iff_not]; omega
      · simp only [if_true, decide_eq_true_eq]; omega
    | succ i =>
      simp only [control_byte, pow_succ, List.getD_cons_succ]
      rw [Nat.mul_comm (2 ^ i) 2, ← Nat.div_div_eq_div_mul]
      have : ((if b = true then 1 else 0) + 2 * control_byte g) / 2 = control_byte g := by
        cases b
        · simp
        · simp only [if_true]; omega
      rw [this]
      exact ih i

theorem control_byte_testBit (g : List Bool) (i : Nat) :
    (control_byte g).testBit i = g.getD i false := by
  rw [Nat.testBit_to_div_mod]
  exact control_byte_bit g i

/-- Shifting the pending bits of `j < 8` control bits down by one. -/
theorem low_shift : ∀ j < 8, ∀ v : Nat,
    v * 2 ^ (8 - j) / 2 = v * 2 ^ (8 - (j + 1)) ∧ 2 ^ j * 2 ^ (8 - (j + 1)) = 128 := by
  intro j hj
  interval_cases j <;> intro v <;> simp <;> omega

/-- The pending bits of `j` control bits of value `v`, `v < 2 ^ j`, fit the
low byte. -/
theorem low_lt : ∀ j ≤ 8, ∀ v : Nat, v < 2 ^ j → v * 2 ^ (8 - j) < 256 := by
  intro j hj
  interval_cases j <;> intro v hv <;> simp at hv ⊢ <;> omega

set_option maxRecDepth 100000 in
/-- With 1 to 8 control bits pending, `flush_control` takes its first branch
and shifts the bits down to the low byte. -/
theorem pending_flush : ∀ j ≤ 8, 1 ≤ j → ∀ low < 256,
    (65536 - 2 ^ (16 - j) + low) &&& 0xFF00 ≠ 0 ∧
    prs_flush_shift 16 (65536 - 2 ^ (16 - j) + low) &&& 0xFF = low / 2 ^ (8 - j) := by
  intro j hj h1
  interval_cases j <;> decide

theorem next_pending : ∀ b : Bool,
    (if b = true then 0x8080 else 0x8000) =
      65536 - 2 ^ (16 - [b].length) + control_byte [b] * 2 ^ (8 - [b].length) := by
  decide

theorem first_pending : ∀ b : Bool,
    (0 >>> 1 ||| if b = true then 0x8080 else 0x8000) =
      65536 - 2 ^ (16 - [b].length) + control_byte [b] * 2 ^ (8 - [b].length) := by
  decide

/-- The first control bit written to a compressor that holds none. -/
theorem packs_first (c : PRSCompressor) (b : Bool) (hp : c.pending_control_bits = 0)
    (ho : c.output = [0]) (hc : c.control_byte_offset = 0) :
    (c.write_control b).packs [] [b] := by
  rw [write_control_shift c b (by rw [hp]; decide), hp]
  refine ⟨by simp, by simp, ?_, ?_, ?_⟩
  · simpa using ho
  · simpa using hc
  · exact first_pending b

/-- A further control bit while the control byte has room. -/
theorem packs_bit (c : PRSCompressor) (full : List (List Bool)) (cur : List Bool) (b : Bool)
    (h : c.packs full cur) (hl : cur.length < 8) :
    (c.write_control b).packs full (cur ++ [b]) := by
  obtain ⟨h1, h8, ho, hc, hp⟩ := h
  have hv := control_byte_lt cur
  have hlow := low_lt cur.length h8 (control_byte cur) hv
  obtain ⟨s0, s1, s2⟩ := pending_shift cur.length hl _ hlow
  obtain ⟨d1, d2⟩ := low_shift cur.length hl (control_byte cur)
  rw [← hp] at s0 s1 s2
  rw [write_control_shift c b s0]
  refine ⟨by simp, by simp; omega, ho, hc, ?_⟩
  simp only [List.length_append, List.length_singleton]
  rw [control_byte_append]
  cases b
  · simp only [Bool.false_eq_true, if_false]
    rw [s2, d1, Nat.zero_mul]
    rfl
  · simp only [if_true]
    rw [s1, d1, Nat.add_mul, Nat.one_mul, d2]

/-- The ninth control bit: the full control byte is written in place, a new
one is reserved at the end of the output, and the bit starts it. -/
theorem packs_next (c : PRSCompressor) (full : List (List Bool)) (cur : List Bool) (b : Bool)
    (h : c.packs full cur) (hl : cur.length = 8) :
    (c.write_control b).packs (full ++ [cur]) [b] := by
  obtain ⟨h1, h8, ho, hc, hp⟩ := h
  have hv := control_byte_lt_256 cur h8
  have hfull := pending_full (control_byte cur) hv
  have hlow : (65536 - 2 ^ (16 - 8) + control_byte cur) &&& 0xFF = control_byte cur := by
    have e : (0xFF : Nat) = 2 ^ 8 - 1 := by norm_num
    rw [e, Nat.and_pow_two_sub_one_eq_mod]
    norm_num
    omega
  rw [hl] at hp
  simp only [Nat.sub_self, pow_zero, Nat.mul_one] at hp
  rw [← hp] at hfull hlow
  unfold PRSCompressor.write_control
  rw [if_pos hfull]
  refine ⟨by simp, by simp, ?_, ?_, ?_⟩
  · simp only
    rw [hlow, ho, hc]
    have : (List.map (fun g => UInt8.ofNat (control_byte g)) full ++ [0]).set full.length
        (UInt8.ofNat (control_byte cur)) =
        List.map (fun g => UInt8.ofNat (control_byte g)) full ++ [UInt8.ofNat (control_byte cur)] := by
      rw [List.set_append_right _ _ (by simp)]
      simp
    rw [this]
    simp
  · simp only
    rw [ho]
    simp
  · exact next_pending b

theorem write_controls_cons (c : PRSCompressor) (b : Bool) (rest : List Bool) :
    c.write_controls (b :: rest) = (c.write_control b).write_controls rest := rfl

/-- Control bits written after the first keep the packing: complete groups of
eight bits are in the output, the group being filled is pending. -/
theorem write_controls_packs : ∀ (rest : List Bool) (c : PRSCompressor)
    (full : List (List Bool)) (cur : List Bool),
    c.packs full cur → (∀ g ∈ full, g.length = 8) →
    ∃ full2 cur2, (c.write_controls rest).packs full2 cur2 ∧ (∀ g ∈ full2, g.length = 8) ∧
      full2.flatten ++ cur2 = full.flatten ++ cur ++ rest := by
  intro rest
  induction rest with
  | nil => intro c full cur h hf; exact ⟨full, cur, h, hf, by simp⟩
  | cons b rest ih =>
    intro c full cur h hf
    rw [write_controls_cons]
    by_cases hl : cur.length < 8
    · obtain ⟨full2, cur2, h2, hf2, he⟩ := ih _ full (cur ++ [b]) (packs_bit c full cur b h hl) hf
      exact ⟨full2, cur2, h2, hf2, by rw [he]; simp⟩
    · have h8 : cur.length = 8 := by have := h.2.1; omega
      have hf1 : ∀ g ∈ full ++ [cur], g.length = 8 := by
        intro g hg
        rw [List.mem_append, List.mem_singleton] at hg
        rcases hg with hg | hg
        · exact hf g hg
        · rw [hg]; exact h8
      obtain ⟨full2, cur2, h2, hf2, he⟩ := ih _ (full ++ [cur]) [b] (packs_next c full cur b h h8) hf1
      exact ⟨full2, cur2, h2, hf2, by rw [he]; simp⟩

/-- Flushing writes the control byte of the group being filled in place: the
output is one control byte for each group. -/
theorem packs_flush (c : PRSCompressor) (full : List (List Bool)) (cur : List Bool)
    (h : c.packs full cur) :
    ∃ c2, c.flush_control = .ok c2 ∧
      c2.output = (full ++ [cur]).map (fun g => UInt8.ofNat (control_byte g)) := by
  obtain ⟨h1, h8, ho, hc, hp⟩ := h
  have hlow := low_lt cur.length h8 (control_byte cur) (control_byte_lt cur)
  obtain ⟨p1, p2⟩ := pending_flush cur.length h8 h1 _ hlow
  rw [← hp] at p1 p2
  rw [Nat.mul_div_cancel _ (Nat.pos_pow_of_pos _ (by decide))] at p2
  refine ⟨_, flush_control_pending c p1, ?_⟩
  simp only
  rw [p2, ho, hc, List.set_append_right _ _ (by simp)]
  simp

/-! ### Reading the control bits back -/

theorem read_bits_succ (n : Nat) (cr : ControlStreamReader) :
    read_bits (n + 1) cr =
      match cr.read with
      | .error e => .error e
      | .ok (b, cr1) =>
        match read_bits n cr1 with
        | .error e => .error e
        | .ok (bs, cr2) => .ok (b :: bs, cr2) := rfl

theorem read_bits_append : ∀ (a b : Nat) (cr cr1 cr2 : ControlStreamReader) (l1 l2 : List Bool),
    read_bits a cr = .ok (l1, cr1) → read_bits b cr1 = .ok (l2, cr2) →
    read_bits (a + b) cr = .ok (l1 ++ l2, cr2) := by
  intro a
  induction a with
  | zero =>
    intro b cr cr1 cr2 l1 l2 h1 h2
    simp only [read_bits, Except.ok.injEq, Prod.mk.injEq] at h1
    obtain ⟨e1, e2⟩ := h1
    subst e1
    subst e2
    simpa using h2
  | succ a ih =>
    intro b cr cr1 cr2 l1 l2 h1 h2
    have e : a + 1 + b = (a + b) + 1 := by omega
    rw [e, read_bits_succ]
    rw [read_bits_succ] at h1
    rcases hr : cr.read with e1 | ⟨x, cr0⟩
    · simp [hr] at h1
    · simp only [hr] at h1 ⊢
      rcases hn : read_bits a cr0 with e1 | ⟨bs, cr3⟩
      · simp [hn] at h1
      · simp only [hn, Except.ok.injEq, Prod.mk.injEq] at h1
        rw [ih b cr0 cr3 cr2 bs l2 hn (by rw [h1.2]; exact h2)]
        simp only [← h1.1, List.cons_append]

/-- The bits of a control byte that is already loaded, from bit `t` on. -/
theorem read_bits_buffered (n : Nat) (hn : n < 256) (rest : List UInt8) :
    ∀ (g : List Bool) (t : Nat), t + g.length ≤ 8 → 1 ≤ t →
    (∀ i, i < g.length → g.getD i false = decide (n / 2 ^ (t + i) % 2 = 1)) →
    read_bits g.length { r := rest, bits := (0xFF00 ||| n) >>> t } =
      .ok (g, { r := rest, bits := (0xFF00 ||| n) >>> (t + g.length) }) := by
  intro g
  induction g with
  | nil => intro t _ _ _; rfl
  | cons b g ih =>
    intro t ht h1 hg
    simp only [List.length_cons] at ht
    rw [List.length_cons, read_bits_succ, read_buffered (control_bit8 n hn t (by omega))]
    simp only
    rw [← Nat.shiftRight_add]
    have hi := ih (t + 1) (by omega) (by omega) (by
      intro i hi
      have := hg (i + 1) (by simp only [List.length_cons]; omega)
      simp only [List.getD_cons_succ] at this
      have e : t + 1 + i = t + (i + 1) := by omega
      rw [this, e])
    rw [hi]
    have hb := hg 0 (by simp)
    simp only [List.getD_cons_zero, Nat.add_zero] at hb
    have hd := control_bit_div n hn t (by omega)
    have : decide (((0xFF00 ||| n) >>> t) &&& 1 ≠ 0) = b := by
      rw [hd]
      exact Eq.trans (decide_eq_decide.mpr (by omega)) hb.symm
    rw [this]
    have e : t + 1 + g.length = t + (g.length + 1) := by omega
    rw [e]

/-- Reading a group of 1 to 8 control bits from its control byte, which is
loaded by the first read. -/
theorem read_bits_group (g : List Bool) (h1 : 1 ≤ g.length) (h8 : g.length ≤ 8)
    (rest : List UInt8) (bits : Nat) (hb : bits &&& 0x0100 = 0) :
    read_bits g.length { r := UInt8.ofNat (control_byte g) :: rest, bits := bits } =
      .ok (g, { r := rest, bits := (0xFF00 ||| control_byte g) >>> g.length }) := by
  have hn := control_byte_lt_256 g h8
  cases g with
  | nil => simp at h1
  | cons b g =>
    simp only [List.length_cons] at h8
    rw [List.length_cons, read_bits_succ, read_refill hb, toNat_ofNat_lt hn]
    simp only
    have hrest := read_bits_buffered (control_byte (b :: g)) hn rest g 1 (by omega)
      (Nat.le_refl _) (by
        intro i hi
        have := control_byte_bit (b :: g) (i + 1)
        simp only [List.getD_cons_succ] at this
        have e : 1 + i = i + 1 := by omega
        rw [← this, e])
    rw [hrest]
    have hb0 := control_byte_bit (b :: g) 0
    simp only [pow_zero, Nat.div_one, List.getD_cons_zero] at hb0
    have hd := control_bit_div (control_byte (b :: g)) hn 0 (by decide)
    simp only [Nat.shiftRight_zero, pow_zero, Nat.div_one] at hd
    have : decide ((0xFF00 ||| control_byte (b :: g)) &&& 1 ≠ 0) = b := by
      rw [hd]
      exact Eq.trans (decide_eq_decide.mpr (by omega)) hb0
    rw [this]
    have e : 1 + g.length = g.length + 1 := by omega
    rw [e]

theorem flatten_length_eight : ∀ full : List (List Bool), (∀ g ∈ full, g.length = 8) →
    full.flatten.length = 8 * full.length := by
  intro full
  induction full with
  | nil => intro _; rfl
  | cons g full ih =>
    intro h
    have h1 := h g (List.mem_cons_self _ _)
    have h2 := ih (fun x hx => h x (List.mem_cons_of_mem _ hx))
    simp only [List.flatten_cons, List.length_append, List.length_cons, h1, h2]
    omega

/-- Reading the control bytes of complete groups and of a last group gives the
bits back in order. -/
theorem read_bits_groups : ∀ (full : List (List Bool)) (cur : List Bool) (bits : Nat),
    (∀ g ∈ full, g.length = 8) → 1 ≤ cur.length → cur.length ≤ 8 → bits &&& 0x0100 = 0 →
    ∃ cr, read_bits (full.flatten ++ cur).length
      { r := (full ++ [cur]).map (fun g => UInt8.ofNat (control_byte g)), bits := bits } =
      .ok (full.flatten ++ cur, cr) := by
  intro full
  induction full with
  | nil =>
    intro cur bits _ h1 h8 hb
    exact ⟨_, read_bits_group cur h1 h8 [] bits hb⟩
  | cons g full ih =>
    intro cur bits hf h1 h8 hb
    have hg := hf g (List.mem_cons_self _ _)
    have hn := control_byte_lt_256 g (by omega)
    have hfirst := read_bits_group g (by omega) (by omega)
      ((full ++ [cur]).map (fun g => UInt8.ofNat (control_byte g))) bits hb
    have hused : ((0xFF00 ||| control_byte g) >>> g.length) &&& 0x0100 = 0 := by
      rw [hg]; exact control_used_up _ hn
    obtain ⟨cr, hrest⟩ := ih cur _ (fun x hx => hf x (List.mem_cons_of_mem _ hx)) h1 h8 hused
    refine ⟨cr, ?_⟩
    have := read_bits_append _ _ _ _ _ _ _ hfirst hrest
    simp only [List.flatten_cons, List.cons_append, List.map_cons, List.length_append,
      List.append_assoc] at this ⊢
    exact this

/-! ### Bit positions -/

/-- The bit at index `8 * i + j` of a sequence of groups of eight is at index
`j` of group `i`. -/
theorem flatten_getD : ∀ (full : List (List Bool)) (cur : List Bool) (i j : Nat),
    (∀ g ∈ full, g.length = 8) → cur.length ≤ 8 → j < 8 →
    (full.flatten ++ cur).getD (8 * i + j) false = ((full ++ [cur]).getD i []).getD j false := by
  intro full
  induction full with
  | nil =>
    intro cur i j _ h8 hj
    cases i with
    | zero => simp
    | succ i =>
      simp only [List.flatten_nil, List.nil_append, List.getD_cons_succ]
      rw [List.getD_eq_default _ _ (by omega)]
      simp
  | cons g full ih =>
    intro cur i j hf h8 hj
    have hg := hf g (List.mem_cons_self _ _)
    cases i with
    | zero =>
      simp only [List.flatten_cons, List.append_assoc, Nat.mul_zero, Nat.zero_add,
        List.cons_append, List.getD_cons_zero]
      rw [List.getD_append _ _ _ _ (by omega)]
    | succ i =>
      simp only [List.flatten_cons, List.append_assoc, List.cons_append, List.getD_cons_succ]
      rw [List.getD_append_right _ _ _ _ (by omega), hg]
      have e : 8 * (i + 1) + j - 8 = 8 * i + j := by omega
      rw [e]
      exact ih cur i j (fun x hx => hf x (List.mem_cons_of_mem _ hx)) h8 hj

/-- Bit `j` of control byte `i` is bit `j` of group `i`. -/
theorem control_bytes_testBit (groups : List (List Bool)) (hg : ∀ g ∈ groups, g.length ≤ 8)
    (i j : Nat) :
    ((groups.map (fun g => UInt8.ofNat (control_byte g))).getD i 0).toNat.testBit j =
      (groups.getD i []).getD j false := by
  by_cases hi : i < groups.length
  · rw [List.getD_eq_getElem _ _ (by simpa using hi), List.getD_eq_getElem _ _ hi,
      List.getElem_map, toNat_ofNat_lt (control_byte_lt_256 _ (hg _ (List.getElem_mem _))),
      control_byte_testBit]
  · rw [List.getD_eq_default _ _ (by simpa using hi),
      List.getD_eq_default groups [] (by omega)]
    simp

/-- C27. Control bits are packed least-significant bit first. When a new
compressor writes the control bits `bits`, at least one, and then flushes, the
output is `ceil(m / 8)` control bytes for `m` bits; bit `j` of byte `i` is
control bit `8 * i + j` wherever that index is below `m`, and is zero in the
positions beyond; and `m` calls of `ControlStreamReader::read` on those bytes
return the control bits in the order they were written. -/
theorem prs_control_bits_packed (forward_log : ForwardLog) (compression_level : Nat)
    (bits : List Bool) (hm : 1 ≤ bits.length) :
    ∃ c2 cr,
      ((PRSCompressor.new forward_log compression_level).write_controls bits).flush_control =
        .ok c2 ∧
      c2.output.length = (bits.length + 7) / 8 ∧
      (∀ i j, j < 8 → 8 * i + j < bits.length →
        (c2.output.getD i 0).toNat.testBit j = bits.getD (8 * i + j) false) ∧
      (∀ i j, j < 8 → bits.length ≤ 8 * i + j →
        (c2.output.getD i 0).toNat.testBit j = false) ∧
      read_bits bits.length { r := c2.output, bits := 0 } = .ok (bits, cr) := by
  cases bits with
  | nil => simp at hm
  | cons b rest =>
    rw [write_controls_cons]
    have h0 := packs_first (PRSCompressor.new forward_log compression_level) b rfl rfl rfl
    obtain ⟨full, cur, hp, hf, he⟩ := write_controls_packs rest _ [] [b] h0 (by simp)
    have hbits : full.flatten ++ cur = b :: rest := by rw [he]; simp
    obtain ⟨c2, hfl, hout⟩ := packs_flush _ full cur hp
    obtain ⟨cr, hread⟩ := read_bits_groups full cur 0 hf hp.1 hp.2.1 (by decide)
    have hlen : (b :: rest).length = 8 * full.length + cur.length := by
      rw [← hbits, List.length_append, flatten_length_eight full hf]
    have hg8 : ∀ g ∈ full ++ [cur], g.length ≤ 8 := by
      intro g hg
      rw [List.mem_append, List.mem_singleton] at hg
      rcases hg with hg | hg
      · rw [hf g hg]
      · rw [hg]; exact hp.2.1
    have hbit : ∀ i j, j < 8 →
        (c2.output.getD i 0).toNat.testBit j = (b :: rest).getD (8 * i + j) false := by
      intro i j hj
      rw [hout, control_bytes_testBit _ hg8, ← hbits, flatten_getD full cur i j hf hp.2.1 hj]
    refine ⟨c2, cr, hfl, ?_, ?_, ?_, ?_⟩
    · rw [hout, List.length_map, List.length_append, List.length_singleton, hlen]
      have := hp.1
      have := hp.2.1
      omega
    · intro i j hj _
      exact hbit i j hj
    · intro i j hj hge
      rw [hbit i j hj, List.getD_eq_default _ _ hge]
    · rw [hout, ← hbits]
      exact hread

set_option maxRecDepth 100000 in
/-- C27 at the nine control bits 1, 0, 1, 1, 0, 0, 0, 1, 1: the flushed
output is the two control bytes `8D 01`. -/
theorem prs_control_bits_packed_witness :
    1 ≤ [true, false, true, true, false, false, false, true, true].length ∧
    (((PRSCompressor.new (ForwardLog.zeroed 16) 1).write_controls
      [true, false, true, true, false, false, false, true, true]).flush_control.map
        PRSCompressor.output = .ok [0x8D, 0x01]) ∧
    ∃ c2 cr,
      ((PRSCompressor.new (ForwardLog.zeroed 16) 1).write_controls
        [true, false, true, true, false, false, false, true, true]).flush_control = .ok c2 ∧
      c2.output.length =
        ([true, false, true, true, false, false, false, true, true].length + 7) / 8 ∧
      (∀ i j, j < 8 →
        8 * i + j < [true, false, true, true, false, false, false, true, true].length →
        (c2.output.getD i 0).toNat.testBit j =
          [true, false, true, true, false, false, false, true, true].getD (8 * i + j) false) ∧
      (∀ i j, j < 8 →
        [true, false, true, true, false, false, false, true, true].length ≤ 8 * i + j →
        (c2.output.getD i 0).toNat.testBit j = false) ∧
      read_bits [true, false, true, true, false, false, false, true, true].length
        { r := c2.output, bits := 0 } =
        .ok ([true, false, true, true, false, false, false, true, true], cr) :=
  ⟨by decide, by decide,
    prs_control_bits_packed (ForwardLog.zeroed 16) 1
      [true, false, true, true, false, false, false, true, true] (by decide)⟩

/-! ## Adding the input in pieces -/

/-- The loop of `add` over a buffer made of two pieces is the loop over the
first piece followed by the loop over the second. -/
theorem add_bytes_append : ∀ (x y : List UInt8) (c c1 : PRSCompressor),
    c.add_bytes x = .ok c1 → c.add_bytes (x ++ y) = c1.add_bytes y := by
  intro x
  induction x with
  | nil =>
    intro y c c1 h
    simp only [PRSCompressor.add_bytes, Except.ok.injEq] at h
    rw [← h]
    rfl
  | cons v x ih =>
    intro y c c1 h
    rw [List.cons_append, PRSCompressor.add_bytes]
    rw [PRSCompressor.add_bytes] at h
    rcases hb : c.add_byte v with e | c0
    · simp [hb] at h
    · simp only [hb] at h ⊢
      exact ih y c0 c1 h

/-- C33. The output of the PRS compressor depends only on the concatenation of
the buffers passed to `add`: for all `x`, `y`, every level and every forward
log, `add(x)` and `add(y)` on a new compressor both succeed and leave the
compressor in the state `add(x ++ y)` leaves it in, field by field; `close()`
then succeeds and returns the bytes `prs_compress(x ++ y, level)` returns. -/
theorem prs_add_concatenation (forward_log : ForwardLog) (compression_level : Nat)
    (x y : List UInt8) :
    ∃ c1 c2 c3,
      (PRSCompressor.new forward_log compression_level).add x = .ok c1 ∧
      c1.add y = .ok c2 ∧
      (PRSCompressor.new forward_log compression_level).add (x ++ y) = .ok c2 ∧
      c2.close = .ok c3 ∧
      prs_compress forward_log (x ++ y) compression_level = .ok c3.output := by
  obtain ⟨c1, h1, hc1⟩ := add_bytes_ok x (PRSCompressor.new forward_log compression_level)
  obtain ⟨c2, h2, hc2⟩ := add_bytes_ok y c1
  obtain ⟨c3, h3⟩ := close_ok c2
  have hopen1 : c1.closed = false := by rw [hc1]; rfl
  have hxy : (PRSCompressor.new forward_log compression_level).add (x ++ y) = .ok c2 := by
    rw [add_open _ _ rfl, add_bytes_append x y _ c1 h1, h2]
  refine ⟨c1, c2, c3, ?_, ?_, hxy, h3, ?_⟩
  · rw [add_open _ _ rfl, h1]
  · rw [add_open _ _ hopen1, h2]
  · exact prs_compress_of forward_log (x ++ y) compression_level c2 c3 hxy h3

/-! ## Bytes committed beyond the input

At level 2 and above `advance` can commit bytes that were never added (see
the round trip above), so `reverse_log.end_offset()` overtakes
`input_bytes`. -/

set_option maxRecDepth 100000 in
/-- C32, evaluated at the input `41` with compression level 3 (forward log of
`0x101` zeroed bytes). After `add` the compressor has committed 0 of 1 bytes;
the one call of `advance` that `close` makes commits 3 bytes, and the closed
compressor has `end_offset = 3` with `input_bytes = 1`. -/
theorem prs_advance_overtakes_input :
    ((PRSCompressor.new (ForwardLog.zeroed 0x101) 3).add [0x41]).map
        (fun c => (c.reverse_log.end_offset, c.input_bytes)) = .ok (0, 1) ∧
    ((PRSCompressor.new (ForwardLog.zeroed 0x101) 3).add [0x41] >>=
        PRSCompressor.advance).map
        (fun c => (c.reverse_log.end_offset, c.input_bytes)) = .ok (3, 1) ∧
    ((PRSCompressor.new (ForwardLog.zeroed 0x101) 3).add [0x41] >>=
        PRSCompressor.close).map
        (fun c => (c.reverse_log.end_offset, c.input_bytes, c.output)) =
      .ok (3, 1, [0x17, 0x41, 0, 0, 0, 0]) := by
  decide

/-! ## `generate_stats_change_subcommands` -/

/-- The loop from `amount`, with enough fuel: it ends, appends subcommands
with the fixed fields of the initialiser, and their amounts are 255 as often
as it goes into `amount`, then the rest if there is one. -/
theorem generate_stats_change_loop_spec (client_id : Nat) (stat_ch : UInt8) :
    ∀ (fuel amount : Nat) (subs : List G_UpdatePlayerStat_6x9A),
    amount ≤ fuel → amount < 2 ^ 32 →
    ∃ new, generate_stats_change_loop client_id stat_ch fuel amount subs = .ok (subs ++ new) ∧
      new.map (fun s => s.amount.toNat) =
        List.replicate (amount / 255) 255 ++ (if amount % 255 = 0 then [] else [amount % 255]) ∧
      ∀ s ∈ new, s.subcommand = 0x9A ∧ s.size = 0x02 ∧ s.client_id = client_id ∧
        s.client_id2 = 0 ∧ s.what = stat_ch := by
  intro fuel
  induction fuel with
  | zero =>
    intro amount subs h _
    have h0 : amount = 0 := by omega
    subst h0
    exact ⟨[], by simp [generate_stats_change_loop], by simp, by simp⟩
  | succ fuel ih =>
    intro amount subs h h32
    unfold generate_stats_change_loop
    by_cases hpos : amount > 0
    · rw [if_pos hpos]
      simp only
      have hsub : (min amount 0xFF) % 256 = min amount 255 := by omega
      have hrest : (amount + 2 ^ 32 - (min amount 0xFF) % 256) % 2 ^ 32 = amount - min amount 255 := by
        rw [hsub]
        norm_num at h32 ⊢
        omega
      rw [hrest, hsub]
      obtain ⟨new, hl, hm, hf⟩ := ih (amount - min amount 255)
        (subs ++ [{ subcommand := 0x9A, size := 0x02, client_id := client_id, client_id2 := 0,
                    what := stat_ch, amount := UInt8.ofNat (min amount 255) }])
        (by omega) (by omega)
      refine ⟨{ subcommand := 0x9A, size := 0x02, client_id := client_id, client_id2 := 0,
                what := stat_ch, amount := UInt8.ofNat (min amount 255) } :: new, ?_, ?_, ?_⟩
      · rw [hl]; simp
      · simp only [List.map_cons]
        rw [hm, toNat_ofNat_lt (by omega)]
        by_cases hbig : 255 ≤ amount
        · have e1 : min amount 255 = 255 := by omega
          have e2 : amount / 255 = (amount - 255) / 255 + 1 := by omega
          have e3 : (amount - 255) % 255 = amount % 255 := by omega
          rw [e1, e2, e3, List.replicate_succ]
          rfl
        · have e1 : min amount 255 = amount := by omega
          have e2 : amount / 255 = 0 := by omega
          have e3 : amount % 255 = amount := by omega
          have e4 : amount ≠ 0 := by omega
          rw [e1, e2, e3, Nat.sub_self, if_neg e4]
          rfl
      · intro s hs
        rcases List.mem_cons.mp hs with h1 | h1
        · rw [h1]; exact ⟨rfl, rfl, rfl, rfl, rfl⟩
        · exact hf s h1
    · rw [if_neg hpos]
      have h0 : amount = 0 := by omega
      subst h0
      exact ⟨[], by simp, by simp, by simp⟩

theorem sum_replicate_255 (q : Nat) (tail : List Nat) :
    (List.replicate q 255 ++ tail).sum = 255 * q + tail.sum := by
  induction q with
  | zero => simp
  | succ q ih =>
    rw [List.replicate_succ, List.cons_append, List.sum_cons, ih]
    omega

/-- C39. For every `amount` the size check lets through,
`generate_stats_change_subcommands` ends and returns `ceil(amount / 255)`
subcommands. Their amounts are 255 as often as 255 goes into `amount`,
followed by the remainder if it is not zero: so each lies in `[1, 255]`, all
but possibly the last are 255, and they add up to `amount`; the list is empty
for `amount = 0`. The other fields are those of the initialiser. The size of
the subcommand struct is a parameter. -/
theorem generate_stats_change_subcommands_spec (sizeof_sub client_id stat amount : Nat)
    (h : ¬ amount > (0x7BF8 * 0xFF) / sizeof_sub) :
    ∃ subs, generate_stats_change_subcommands sizeof_sub client_id stat amount = .ok subs ∧
      subs.length = (amount + 254) / 255 ∧
      subs.map (fun s => s.amount.toNat) =
        List.replicate (amount / 255) 255 ++ (if amount % 255 = 0 then [] else [amount % 255]) ∧
      (∀ s ∈ subs, 1 ≤ s.amount.toNat ∧ s.amount.toNat ≤ 255) ∧
      (subs.map (fun s => s.amount.toNat)).sum = amount ∧
      (amount = 0 → subs = []) ∧
      ∀ s ∈ subs, s.subcommand = 0x9A ∧ s.size = 0x02 ∧ s.client_id = client_id ∧
        s.client_id2 = 0 ∧ s.what = UInt8.ofNat stat := by
  have hle : (0x7BF8 * 0xFF) / sizeof_sub ≤ 0x7BF8 * 0xFF := Nat.div_le_self _ _
  have h32 : amount < 2 ^ 32 := by norm_num at h hle ⊢; omega
  obtain ⟨new, hl, hm, hf⟩ := generate_stats_change_loop_spec client_id (UInt8.ofNat stat)
    amount amount [] (Nat.le_refl _) h32
  rw [List.nil_append] at hl
  have hlen : new.length = (amount + 254) / 255 := by
    have := congrArg List.length hm
    rw [List.length_map, List.length_append, List.length_replicate] at this
    rw [this]
    by_cases h0 : amount % 255 = 0
    · rw [if_pos h0]; simp; omega
    · rw [if_neg h0]; simp; omega
  refine ⟨new, ?_, hlen, hm, ?_, ?_, ?_, hf⟩
  · unfold generate_stats_change_subcommands
    rw [if_neg h, hl]
  · intro s hs
    have hmem : s.amount.toNat ∈ new.map (fun s => s.amount.toNat) :=
      List.mem_map_of_mem _ hs
    rw [hm, List.mem_append] at hmem
    rcases hmem with h1 | h1
    · have := (List.mem_replicate.mp h1).2
      omega
    · by_cases h0 : amount % 255 = 0
      · rw [if_pos h0] at h1; simp at h1
      · rw [if_neg h0, List.mem_singleton] at h1
        omega
  · rw [hm, sum_replicate_255]
    by_cases h0 : amount % 255 = 0
    · rw [if_pos h0]; simp; omega
    · rw [if_neg h0]; simp; omega
  · intro h0
    have : new.length = 0 := by rw [hlen, h0]
    exact List.length_eq_zero.mp this

set_option maxRecDepth 100000 in
/-- C39 at `amount = 600` with a struct of 8 bytes: three subcommands, with the
amounts 255, 255 and 90. -/
theorem generate_stats_change_subcommands_spec_witness :
    ¬ 600 > (0x7BF8 * 0xFF) / 8 ∧
    (generate_stats_change_subcommands 8 1 2 600).map
        (fun subs => subs.map (fun s => s.amount.toNat)) = .ok [255, 255, 90] ∧
    ∃ subs, generate_stats_change_subcommands 8 1 2 600 = .ok subs ∧
      subs.length = (600 + 254) / 255 ∧
      subs.map (fun s => s.amount.toNat) =
        List.replicate (600 / 255) 255 ++ (if 600 % 255 = 0 then [] else [600 % 255]) ∧
      (∀ s ∈ subs, 1 ≤ s.amount.toNat ∧ s.amount.toNat ≤ 255) ∧
      (subs.map (fun s => s.amount.toNat)).sum = 600 ∧
      (600 = 0 → subs = []) ∧
      ∀ s ∈ subs, s.subcommand = 0x9A ∧ s.size = 0x02 ∧ s.client_id = 1 ∧
        s.client_id2 = 0 ∧ s.what = UInt8.ofNat 2 :=
  ⟨by decide, by decide, generate_stats_change_subcommands_spec 8 1 2 600 (by decide)⟩

/-! ## `set_mask_for_ep3_game_command` -/

theorem ofNat_toNat_u8 (a : UInt8) : UInt8.ofNat a.toNat = a := by
  cases a with
  | mk v =>
    show UInt8.mk (BitVec.ofNat 8 v.toNat) = UInt8.mk v
    rw [BitVec.ofNat_toNat, BitVec.setWidth_eq]

theorem toNat_lt_u8 (a : UInt8) : a.toNat < 256 := by
  cases a with
  | mk v => exact v.isLt

theorem set_getD_self (l : List UInt8) (i : Nat) : l.set i (l.getD i 0) = l := by
  induction l generalizing i with
  | nil => rfl
  | cons x xs ih =>
    cases i with
    | zero => rfl
    | succ i => simp only [List.set_cons_succ, List.getD_cons_succ, ih]

/-- XOR with the same key byte twice gives the byte back. -/
theorem xor_key_twice (a : UInt8) (k : Nat) (hk : k < 256) :
    UInt8.ofNat ((UInt8.ofNat (a.toNat ^^^ k)).toNat ^^^ k) = a := by
  have h1 : a.toNat ^^^ k < 256 := Nat.xor_lt_two_pow (n := 8) (toNat_lt_u8 a) hk
  rw [toNat_ofNat_lt h1, Nat.xor_assoc, Nat.xor_self, Nat.xor_zero, ofNat_toNat_u8]

theorem set_mask_loop_length : ∀ (n z k : Nat) (data : List UInt8),
    (set_mask_loop n z k data).length = data.length := by
  intro n
  induction n with
  | zero => intro z k data; rfl
  | succ n ih =>
    intro z k data
    rw [set_mask_loop, ih, List.length_set]

/-- The loop from index `z` leaves the bytes below `z` alone. -/
theorem set_mask_loop_getD_below : ∀ (n z k : Nat) (data : List UInt8) (j : Nat), j < z →
    (set_mask_loop n z k data).getD j 0 = data.getD j 0 := by
  intro n
  induction n with
  | zero => intro z k data j _; rfl
  | succ n ih =>
    intro z k data j hj
    rw [set_mask_loop, ih _ _ _ j (by omega)]
    simp only [List.getD_eq_getElem?_getD]
    rw [List.getElem?_set_ne (by omega)]

/-- A byte stored below `z` commutes with the loop from index `z`. -/
theorem set_mask_loop_set_below : ∀ (n z k : Nat) (data : List UInt8) (j : Nat) (v : UInt8),
    j < z → set_mask_loop n z k (data.set j v) = (set_mask_loop n z k data).set j v := by
  intro n
  induction n with
  | zero => intro z k data j v _; rfl
  | succ n ih =>
    intro z k data j v hj
    have hne : j ≠ z := by omega
    have hg : (data.set j v).getD z 0 = data.getD z 0 := by
      simp only [List.getD_eq_getElem?_getD]
      rw [List.getElem?_set_ne hne]
    rw [set_mask_loop, set_mask_loop, hg, List.set_comm _ _ _ hne, ih _ _ _ j v (by omega)]

/-- Running the loop twice with the same start key restores the buffer. -/
theorem set_mask_loop_twice : ∀ (n z k : Nat) (data : List UInt8),
    set_mask_loop n z k (set_mask_loop n z k data) = data := by
  intro n
  induction n with
  | zero => intro z k data; rfl
  | succ n ih =>
    intro z k data
    have hk : (k * 7 + 3) % 256 < 256 := Nat.mod_lt _ (by decide)
    rw [set_mask_loop]
    rw [set_mask_loop]
    rw [set_mask_loop_getD_below n (z + 1) _ _ z (by omega)]
    rw [set_mask_loop_set_below n (z + 1) _ _ z _ (by omega), ih]
    rw [List.set_set]
    by_cases hz : z < data.length
    · have hg : (data.set z (UInt8.ofNat ((data.getD z 0).toNat ^^^ (k * 7 + 3) % 256))).getD z 0 =
          UInt8.ofNat ((data.getD z 0).toNat ^^^ (k * 7 + 3) % 256) := by
        simp only [List.getD_eq_getElem?_getD]
        rw [List.getElem?_set_self hz]
        rfl
      rw [hg, xor_key_twice _ _ hk, set_getD_self]
    · rw [List.set_eq_of_length_le (by omega)]

/-- C38. `set_mask_for_ep3_game_command` is reversible. For a buffer of at
least 8 bytes whose size field times 4 is its length and whose `mask_key`
field is 0, and a key `k` that is not 0: masking with `k` succeeds, masking
the result with 0 succeeds, and the second result is the original buffer,
byte for byte. The two header fields are one byte each, lie in the first 8
bytes (the loop starts at index 8) and at different offsets. -/
theorem set_mask_reversible (size_offset key_offset : Nat) (data : List UInt8) (k : UInt8)
    (hsize : 8 ≤ data.length) (hso : size_offset < 8) (hko : key_offset < 8)
    (hne : size_offset ≠ key_offset)
    (hfield : (data.getD size_offset 0).toNat * 4 = data.length)
    (hkey : data.getD key_offset 0 = 0) (hk : k ≠ 0) :
    ∃ masked, set_mask_for_ep3_game_command size_offset key_offset data k = .ok masked ∧
      masked.length = data.length ∧
      masked.getD key_offset 0 = k ∧
      set_mask_for_ep3_game_command size_offset key_offset masked 0 = .ok data := by
  have hk0 : (0 : UInt8) ≠ k := fun h => hk h.symm
  have hlen : ∀ kk, ((set_mask_loop (data.length - 8) 8 kk data).set key_offset k).length =
      data.length := by
    intro kk
    rw [List.length_set, set_mask_loop_length]
  have hgk : ∀ kk, ((set_mask_loop (data.length - 8) 8 kk data).set key_offset k).getD
      key_offset 0 = k := by
    intro kk
    simp only [List.getD_eq_getElem?_getD]
    rw [List.getElem?_set_self (by rw [set_mask_loop_length]; omega)]
    rfl
  have hgs : ∀ kk, ((set_mask_loop (data.length - 8) 8 kk data).set key_offset k).getD
      size_offset 0 = data.getD size_offset 0 := by
    intro kk
    have := set_mask_loop_getD_below (data.length - 8) 8 kk data size_offset hso
    simp only [List.getD_eq_getElem?_getD] at this ⊢
    rw [List.getElem?_set_ne (fun h => hne h.symm), this]
  have hxor : (0 : UInt8).toNat ^^^ k.toNat = k.toNat ^^^ (0 : UInt8).toNat := Nat.xor_comm _ _
  refine ⟨(set_mask_loop (data.length - 8) 8 ((((0 : UInt8).toNat ^^^ k.toNat) + 0x80) % 256)
    data).set key_offset k, ?_, hlen _, hgk _, ?_⟩
  · unfold set_mask_for_ep3_game_command
    rw [set_mask_calls]
    rw [if_neg (show ¬ data.length < 8 by omega)]
    simp only
    rw [if_neg (show ¬ (data.getD size_offset 0).toNat * 4 ≠ data.length from
      fun h => h hfield)]
    rw [hkey, if_neg hk0]
    rw [if_neg (show ¬ (k ≠ 0 ∧ (0 : UInt8) ≠ 0) from fun h => h.2 rfl)]
    simp only
    rw [hkey, if_neg (show ¬ decide ((0 : UInt8) = 0) = decide (k = 0) by simp [hk])]
    rw [hfield]
  · unfold set_mask_for_ep3_game_command
    rw [set_mask_calls]
    rw [hlen, hgk, hgs]
    rw [if_neg (show ¬ data.length < 8 by omega)]
    simp only
    rw [if_neg (show ¬ (data.getD size_offset 0).toNat * 4 ≠ data.length from
      fun h => h hfield)]
    rw [if_neg hk]
    rw [if_neg (show ¬ ((0 : UInt8) ≠ 0 ∧ k ≠ 0) from fun h => h.1 rfl)]
    simp only
    rw [hgk]
    rw [if_neg (show ¬ decide (k = 0) = decide True by simp [hk])]
    rw [hfield, ← hxor, set_mask_loop_set_below _ _ _ _ _ _ hko, set_mask_loop_twice,
      List.set_set, ← hkey, set_getD_self]

set_option maxRecDepth 100000 in
/-- C38 on a command of 12 bytes with the size field at offset 1 and the
`mask_key` field at offset 6, masked with `0x5A`: the masked buffer has other
bytes from index 8 on, and unmasking restores the original. -/
theorem set_mask_reversible_witness :
    set_mask_for_ep3_game_command 1 6 [0xB3, 3, 0, 0, 1, 0, 0, 0, 0x11, 0x22, 0x33, 0x44] 0x5A =
      .ok [0xB3, 3, 0, 0, 1, 0, 0x5A, 0, 0xE8, 0xF0, 0xF2, 0x0E] ∧
    ∃ masked, set_mask_for_ep3_game_command 1 6
        [0xB3, 3, 0, 0, 1, 0, 0, 0, 0x11, 0x22, 0x33, 0x44] 0x5A = .ok masked ∧
      masked.length = [0xB3, 3, 0, 0, 1, 0, 0, 0, 0x11, 0x22, 0x33, (0x44 : UInt8)].length ∧
      masked.getD 6 0 = 0x5A ∧
      set_mask_for_ep3_game_command 1 6 masked 0 =
        .ok [0xB3, 3, 0, 0, 1, 0, 0, 0, 0x11, 0x22, 0x33, 0x44] :=
  ⟨by decide,
   set_mask_reversible 1 6 [0xB3, 3, 0, 0, 1, 0, 0, 0, 0x11, 0x22, 0x33, 0x44] 0x5A
     (by decide) (by decide) (by decide) (by decide) (by decide) (by decide) (by decide)⟩

/-! ## The size of what `bc0_compress` writes -/

/-- The opcode written for a clamped match size `ms` has at most `ms` data
bytes: one for a literal, two for a match of three bytes or more. -/
theorem bc0_op_of_data_le (in_data : List UInt8) (R mo ms : Nat) (h : ms = 1 ∨ 3 ≤ ms) :
    (bc0_op_of in_data R mo ms).data.length ≤ ms := by
  unfold bc0_op_of
  by_cases h3 : ms ≥ 3
  · rw [if_pos h3]
    simp only [BC0Op.data, List.length_cons, List.length_nil]
    omega
  · rw [if_neg h3]
    simp only [BC0Op.data, List.length_cons, List.length_nil]
    omega

/-- The main loop of `bc0_compress` writes at most one opcode and at most one
data byte for each input byte. -/
theorem bc0_compress_loop_cost (in_data : List UInt8) : ∀ (fuel R : Nat) (idx : List Nat)
    (lw : LZSSInterleavedWriter) (full : List (List BC0Op)) (part : List BC0Op),
    in_data.length - R ≤ fuel → R ≤ in_data.length → lw.holds full part →
    (full.flatten ++ part).length ≤ R →
    ((full.flatten ++ part).flatMap BC0Op.data).length ≤ R →
    ∃ lw1 full1 part1, bc0_compress_loop in_data fuel R idx lw = .ok lw1 ∧
      lw1.holds full1 part1 ∧
      (full1.flatten ++ part1).length ≤ in_data.length ∧
      ((full1.flatten ++ part1).flatMap BC0Op.data).length ≤ in_data.length := by
  intro fuel
  induction fuel with
  | zero =>
    intro R idx lw full part hf hR hh hk hd
    have hRn : R = in_data.length := by omega
    unfold bc0_compress_loop
    rw [if_neg (by omega)]
    exact ⟨lw, full, part, rfl, hh, by omega, by omega⟩
  | succ fuel ih =>
    intro R idx lw full part hf hR hh hk hd
    unfold bc0_compress_loop
    by_cases hlt : R < in_data.length
    · rw [if_pos hlt]
      simp only
      have hfm := bc0_find_match_spec in_data idx R
      generalize bc0_find_match in_data idx R = found at hfm ⊢
      have hms : ((if found.2 < 3 then 1 else found.2) = 1 ∨
          3 ≤ (if found.2 < 3 then 1 else found.2)) ∧
          R + (if found.2 < 3 then 1 else found.2) ≤ in_data.length := by
        by_cases h3 : found.2 < 3
        · rw [if_pos h3]; exact ⟨Or.inl rfl, by omega⟩
        · rw [if_neg h3]
          refine ⟨Or.inr (by omega), ?_⟩
          rcases hfm with h0 | ⟨_, hgml⟩
          · omega
          · have hspec := get_match_length_spec in_data R found.1
            rw [← hgml] at hspec
            have := (hspec.2 (found.2 - 1) (by omega)).1
            omega
      generalize (if found.2 < 3 then 1 else found.2) = ms at hms ⊢
      obtain ⟨lw1, hw, hh1⟩ := holds_write_opcode in_data lw full part R found.1 ms hh
      rw [hw]
      simp only
      have hup : ∀ (n R : Nat) (idx : List Nat), (bc0_update_index in_data n R idx).1 = R + n := by
        intro n
        induction n with
        | zero => intro R idx; rfl
        | succ n ihn =>
          intro R idx
          rw [bc0_update_index, ihn]
          omega
      have hop := bc0_op_of_data_le in_data R found.1 ms hms.1
      have hflat := bc0_push_flatten full part (bc0_op_of in_data R found.1 ms)
      rw [hup]
      refine ih _ _ lw1 _ _ (by omega) hms.2 hh1 ?_ ?_
      · rw [hflat]
        simp only [List.length_append, List.length_cons, List.length_nil] at hk ⊢
        omega
      · rw [hflat]
        simp only [List.flatMap_append, List.flatMap_cons, List.flatMap_nil, List.append_nil,
          List.length_append] at hd ⊢
        omega
    · rw [if_neg hlt]
      have hRn : R = in_data.length := by omega
      exact ⟨lw, full, part, rfl, hh, by omega, by omega⟩

/-- The bytes of full groups: one control byte for each group, and the data. -/
theorem bc0_groups_length : ∀ full : List (List BC0Op), (∀ g ∈ full, g.length = 8) →
    (full.flatMap bc0_group_bytes).length = full.length + (full.flatten.flatMap BC0Op.data).length ∧
    full.flatten.length = 8 * full.length := by
  intro full
  induction full with
  | nil => intro _; exact ⟨rfl, rfl⟩
  | cons g full ih =>
    intro h
    have hg := h g (List.mem_cons_self _ _)
    obtain ⟨h1, h2⟩ := ih (fun g1 hg1 => h g1 (List.mem_cons_of_mem _ hg1))
    constructor
    · simp only [List.flatMap_cons, List.flatten_cons, List.flatMap_append, List.length_append,
        List.length_cons, bc0_group_bytes] at h1 ⊢
      omega
    · simp only [List.flatten_cons, List.length_append, List.length_cons]
      omega

/-- C37. `bc0_compress` never expands its input by more than one control byte
for each eight input bytes: it returns, and for an input of `n` bytes the
result has at most `n + ceil(n / 8)` bytes. The empty input compresses to the
empty output. -/
theorem bc0_compress_size_bound (b : List UInt8) :
    (∃ out, bc0_compress b = .ok out ∧ out.length ≤ b.length + (b.length + 7) / 8) ∧
    bc0_compress [] = .ok [] := by
  refine ⟨?_, by decide⟩
  obtain ⟨lw1, full1, part1, hloop, hh, hk, hd⟩ := bc0_compress_loop_cost b b.length 0 []
    (LZSSInterleavedWriter.new 2) [] [] (by omega) (Nat.zero_le _) holds_new (by simp) (by simp)
  refine ⟨lw1.close, ?_, ?_⟩
  · unfold bc0_compress
    rw [hloop]
  · rw [holds_close lw1 full1 part1 hh]
    obtain ⟨hfull, hlen⟩ : (∀ g ∈ full1, g.length = 8) ∧ part1.length < 8 := ⟨hh.2.1, hh.2.2.1⟩
    obtain ⟨h1, h2⟩ := bc0_groups_length full1 hfull
    simp only [List.length_append, List.flatMap_append] at hk hd ⊢
    rw [h1]
    by_cases hp : part1 = []
    · rw [if_pos hp]
      subst hp
      simp only [List.length_nil, List.flatMap_nil, Nat.add_zero] at hk hd ⊢
      omega
    · rw [if_neg hp]
      have hp1 : 1 ≤ part1.length := by
        cases part1 with
        | nil => exact absurd rfl hp
        | cons _ _ => simp
      simp only [bc0_group_bytes, List.length_cons]
      omega

/-! ## The comparator of the ordered index of `bc0_compress` -/

theorem set_comparator_loop_iff (in_data : List UInt8) : ∀ (n a b : Nat),
    set_comparator_loop in_data n a b = true ↔ lex_before (byte_at in_data) n a b := by
  intro n
  induction n with
  | zero =>
    intro a b
    unfold set_comparator_loop lex_before
    constructor
    · intro h
      exact Or.inr ⟨fun j hj => absurd hj (Nat.not_lt_zero _), of_decide_eq_true h⟩
    · rintro (⟨i, hi, _⟩ | ⟨_, h⟩)
      · exact absurd hi (Nat.not_lt_zero _)
      · exact decide_eq_true h
  | succ n ih =>
    intro a b
    have hlt : ∀ x y : UInt8, x < y ↔ x.toNat < y.toNat := fun _ _ => Iff.rfl
    have ea : ∀ j, a + 1 + j = a + (j + 1) := by intro j; omega
    have eb : ∀ j, b + 1 + j = b + (j + 1) := by intro j; omega
    unfold set_comparator_loop
    simp only
    by_cases h1 : in_data.getD a 0 < in_data.getD b 0
    · rw [if_pos h1]
      simp only [true_iff]
      exact Or.inl ⟨0, by omega, fun j hj => absurd hj (Nat.not_lt_zero _), (hlt _ _).mp h1⟩
    · rw [if_neg h1]
      have h1n : ¬ byte_at in_data (a + 0) < byte_at in_data (b + 0) := fun h => h1 ((hlt _ _).mpr h)
      by_cases h2 : in_data.getD a 0 > in_data.getD b 0
      · rw [if_pos h2]
        have h2n : byte_at in_data (b + 0) < byte_at in_data (a + 0) := (hlt _ _).mp h2
        constructor
        · intro h; exact absurd h (by simp)
        · rintro (⟨i, hi, hp, hd⟩ | ⟨hp, _⟩)
          · cases i with
            | zero => exact absurd hd h1n
            | succ i =>
              have := hp 0 (by omega)
              omega
          · have := hp 0 (by omega)
            omega
      · rw [if_neg h2]
        have h2n : ¬ byte_at in_data (b + 0) < byte_at in_data (a + 0) :=
          fun h => h2 ((hlt _ _).mpr h)
        have heq : byte_at in_data (a + 0) = byte_at in_data (b + 0) := by omega
        rw [ih (a + 1) (b + 1)]
        unfold lex_before
        simp only [ea, eb]
        constructor
        · rintro (⟨i, hi, hp, hd⟩ | ⟨hp, hab⟩)
          · refine Or.inl ⟨i + 1, by omega, ?_, hd⟩
            intro j hj
            cases j with
            | zero => exact heq
            | succ j => exact hp j (by omega)
          · refine Or.inr ⟨?_, by omega⟩
            intro j hj
            cases j with
            | zero => exact heq
            | succ j => exact hp j (by omega)
        · rintro (⟨i, hi, hp, hd⟩ | ⟨hp, hab⟩)
          · cases i with
            | zero => exact absurd hd h1n
            | succ i =>
              exact Or.inl ⟨i, by omega, fun j hj => hp (j + 1) (by omega), hd⟩
          · exact Or.inr ⟨fun j hj => hp (j + 1) (by omega), by omega⟩

/-- The number of bytes `set_comparator` compares, for offsets in the input. -/
theorem set_comparator_max_length (N a b : Nat) (hN : N < SIZE_MOD) (ha : a ≤ N) (hb : b ≤ N) :
    min 0x12 ((N + SIZE_MOD - max a b) % SIZE_MOD) = min 18 (N - max a b) := by
  unfold SIZE_MOD at hN ⊢
  norm_num at hN ⊢
  omega

theorem set_comparator_iff (in_data : List UInt8) (a b : Nat)
    (hN : in_data.length < SIZE_MOD) (ha : a ≤ in_data.length) (hb : b ≤ in_data.length) :
    set_comparator in_data a b = true ↔
      lex_before (byte_at in_data) (min 18 (in_data.length - max a b)) a b := by
  unfold set_comparator
  simp only
  rw [set_comparator_max_length _ a b hN ha hb]
  exact set_comparator_loop_iff in_data _ a b

theorem set_comparator_loop_total (in_data : List UInt8) : ∀ (n a b : Nat), a ≠ b →
    set_comparator_loop in_data n b a = !set_comparator_loop in_data n a b := by
  intro n
  induction n with
  | zero =>
    intro a b hab
    unfold set_comparator_loop
    by_cases h : a < b
    · have h2 : ¬ b < a := by omega
      simp [h, h2]
    · have h2 : b < a := by omega
      simp [h, h2]
  | succ n ih =>
    intro a b hab
    have hlt : ∀ x y : UInt8, x < y ↔ x.toNat < y.toNat := fun _ _ => Iff.rfl
    rw [set_comparator_loop, set_comparator_loop]
    simp only [gt_iff_lt]
    by_cases h1 : in_data.getD a 0 < in_data.getD b 0
    · have h2 : ¬ in_data.getD b 0 < in_data.getD a 0 := by
        rw [hlt] at h1 ⊢
        omega
      rw [if_pos h1, if_neg h2, if_pos h1]
      rfl
    · by_cases h2 : in_data.getD b 0 < in_data.getD a 0
      · rw [if_pos h2, if_neg h1, if_pos h2]
        rfl
      · rw [if_neg h2, if_neg h1, if_neg h1, if_neg h2]
        exact ih (a + 1) (b + 1) (by omega)

/-- Of two distinct offsets exactly one comes before the other. -/
theorem set_comparator_total (in_data : List UInt8) (a b : Nat) (hab : a ≠ b) :
    set_comparator in_data b a = !set_comparator in_data a b := by
  unfold set_comparator
  simp only
  rw [Nat.max_comm b a]
  exact set_comparator_loop_total in_data _ a b hab

theorem set_comparator_asymm (in_data : List UInt8) (a b : Nat)
    (h : set_comparator in_data a b = true) : set_comparator in_data b a = false := by
  by_cases hab : a = b
  · subst hab
    exact set_comparator_irrefl in_data a
  · rw [set_comparator_total in_data a b hab, h]
    rfl

/-- The order `lex_before` with the lengths `set_comparator` uses is transitive
on the offsets of the input. -/
theorem lex_before_trans (f : Nat → Nat) (N a b c : Nat) (ha : a < N) (hb : b < N) (hc : c < N)
    (hab : lex_before f (min 18 (N - max a b)) a b)
    (hbc : lex_before f (min 18 (N - max b c)) b c) :
    lex_before f (min 18 (N - max a c)) a c := by
  unfold lex_before at hab hbc ⊢
  rcases hab with ⟨i, hi, hp1, hd1⟩ | ⟨hp1, hlt1⟩
  · rcases hbc with ⟨j, hj, hp2, hd2⟩ | ⟨hp2, hlt2⟩
    · rcases Nat.lt_trichotomy i j with hij | hij | hij
      · refine Or.inl ⟨i, by omega, ?_, ?_⟩
        · intro k hk
          rw [hp1 k hk, hp2 k (by omega)]
        · rw [← hp2 i hij]
          exact hd1
      · subst hij
        refine Or.inl ⟨i, by omega, ?_, by omega⟩
        intro k hk
        rw [hp1 k hk, hp2 k hk]
      · refine Or.inl ⟨j, by omega, ?_, ?_⟩
        · intro k hk
          rw [hp1 k (by omega), hp2 k hk]
        · rw [hp1 j hij]
          exact hd2
    · by_cases hin : i < min 18 (N - max b c)
      · refine Or.inl ⟨i, by omega, ?_, ?_⟩
        · intro k hk
          rw [hp1 k hk, hp2 k (by omega)]
        · rw [← hp2 i hin]
          exact hd1
      · refine Or.inr ⟨?_, by omega⟩
        intro k hk
        rw [hp1 k (by omega), hp2 k (by omega)]
  · rcases hbc with ⟨j, hj, hp2, hd2⟩ | ⟨hp2, hlt2⟩
    · have hjl : j < min 18 (N - max a b) := by omega
      refine Or.inl ⟨j, by omega, ?_, ?_⟩
      · intro k hk
        rw [hp1 k (by omega), hp2 k hk]
      · rw [hp1 j hjl]
        exact hd2
    · refine Or.inr ⟨?_, by omega⟩
      intro k hk
      rw [hp1 k (by omega), hp2 k (by omega)]

theorem set_comparator_trans (in_data : List UInt8) (hN : in_data.length < SIZE_MOD)
    (a b c : Nat) (ha : a < in_data.length) (hb : b < in_data.length) (hc : c < in_data.length)
    (hab : set_comparator in_data a b = true) (hbc : set_comparator in_data b c = true) :
    set_comparator in_data a c = true := by
  rw [set_comparator_iff in_data _ _ hN (by omega) (by omega)] at hab hbc ⊢
  exact lex_before_trans _ _ a b c ha hb hc hab hbc

/-- C36. For an input of fewer than `2 ^ 64` bytes (`in_size` is a `size_t`),
`set_comparator` restricted to the offsets below `in_size` is a strict total
order: no offset comes before itself, the relation is transitive, and of two
distinct offsets exactly one comes before the other. So no two distinct
offsets are equivalent in the ordered index, although the number of bytes
compared depends on the pair. -/
theorem set_comparator_strict_total_order (in_data : List UInt8)
    (hN : in_data.length < SIZE_MOD) :
    (∀ a, a < in_data.length → set_comparator in_data a a = false) ∧
    (∀ a b c, a < in_data.length → b < in_data.length → c < in_data.length →
      set_comparator in_data a b = true → set_comparator in_data b c = true →
      set_comparator in_data a c = true) ∧
    (∀ a b, a < in_data.length → b < in_data.length → a ≠ b →
      (set_comparator in_data a b = true ∧ set_comparator in_data b a = false) ∨
      (set_comparator in_data a b = false ∧ set_comparator in_data b a = true)) := by
  refine ⟨fun a _ => set_comparator_irrefl in_data a,
    fun a b c ha hb hc => set_comparator_trans in_data hN a b c ha hb hc, ?_⟩
  intro a b _ _ hab
  have h := set_comparator_total in_data a b hab
  cases hc : set_comparator in_data a b with
  | true => rw [hc] at h; exact Or.inl ⟨rfl, h⟩
  | false => rw [hc] at h; exact Or.inr ⟨rfl, h⟩

set_option maxRecDepth 100000 in
/-- C36 on the input `01 02 01 02 01`: the offsets in comparator order are
0, 2, 4, 1, 3. Offsets 0, 2 and 4 agree on the bytes compared (three bytes for
0 and 2, one byte for a pair with 4) and are ordered by offset. -/
theorem set_comparator_strict_total_order_witness :
    [1, 2, 1, 2, (1 : UInt8)].length < SIZE_MOD ∧
    (set_comparator [1, 2, 1, 2, 1] 0 2 = true ∧ set_comparator [1, 2, 1, 2, 1] 2 4 = true ∧
      set_comparator [1, 2, 1, 2, 1] 0 4 = true ∧ set_comparator [1, 2, 1, 2, 1] 4 1 = true ∧
      set_comparator [1, 2, 1, 2, 1] 1 3 = true) ∧
    ((∀ a, a < [1, 2, 1, 2, (1 : UInt8)].length → set_comparator [1, 2, 1, 2, 1] a a = false) ∧
    (∀ a b c, a < [1, 2, 1, 2, (1 : UInt8)].length → b < [1, 2, 1, 2, (1 : UInt8)].length →
      c < [1, 2, 1, 2, (1 : UInt8)].length →
      set_comparator [1, 2, 1, 2, 1] a b = true → set_comparator [1, 2, 1, 2, 1] b c = true →
      set_comparator [1, 2, 1, 2, 1] a c = true) ∧
    (∀ a b, a < [1, 2, 1, 2, (1 : UInt8)].length → b < [1, 2, 1, 2, (1 : UInt8)].length → a ≠ b →
      (set_comparator [1, 2, 1, 2, 1] a b = true ∧ set_comparator [1, 2, 1, 2, 1] b a = false) ∨
      (set_comparator [1, 2, 1, 2, 1] a b = false ∧ set_comparator [1, 2, 1, 2, 1] b a = true))) :=
  ⟨by decide, by decide, set_comparator_strict_total_order [1, 2, 1, 2, 1] (by decide)⟩

/-! ## The ordered index of `bc0_compress` -/

/-- With the comparator of `bc0_compress`, `erase(key)` removes the offset
`key` and no other. -/
theorem window_erase_eq (in_data : List UInt8) (idx : List Nat) (key : Nat) :
    window_erase in_data idx key = idx.filter (fun e => decide (e ≠ key)) := by
  unfold window_erase
  apply List.filter_congr
  intro e _
  by_cases h : e = key
  · subst h
    simp [set_comparator_irrefl]
  · rw [set_comparator_total in_data e key h]
    cases set_comparator in_data e key <;> simp [h]

theorem window_emplace_perm (in_data : List UInt8) (idx : List Nat) (key : Nat) :
    (window_emplace in_data idx key).Perm (key :: idx) := by
  unfold window_emplace
  simp only [List.span_eq_take_drop]
  have h := List.takeWhile_append_dropWhile (fun e => !set_comparator in_data key e) idx
  have hp := @List.perm_middle _ key
    (idx.takeWhile (fun e => !set_comparator in_data key e))
    (idx.dropWhile (fun e => !set_comparator in_data key e))
  rw [h] at hp
  exact hp

/-- `emplace(key)` keeps the index in comparator order, when `key` is an offset
of the input and larger than the offsets of the index. -/
theorem window_emplace_sorted (in_data : List UInt8) (hN : in_data.length < SIZE_MOD)
    (idx : List Nat) (key : Nat) (hk : key < in_data.length) (hlt : ∀ e ∈ idx, e < key)
    (hs : idx.Pairwise (fun x y => set_comparator in_data x y = true)) :
    (window_emplace in_data idx key).Pairwise (fun x y => set_comparator in_data x y = true) := by
  unfold window_emplace
  simp only [List.span_eq_take_drop]
  have h := List.takeWhile_append_dropWhile (fun e => !set_comparator in_data key e) idx
  generalize htw : idx.takeWhile (fun e => !set_comparator in_data key e) = tw at h
  have hmem_tw : ∀ a ∈ tw, set_comparator in_data key a = false := by
    intro a ha
    rw [← htw] at ha
    have := List.mem_takeWhile_imp ha
    simpa using this
  have hhead : ∀ (w : idx.dropWhile (fun e => !set_comparator in_data key e) ≠ []),
      set_comparator in_data key ((idx.dropWhile (fun e => !set_comparator in_data key e)).head w)
        = true := by
    intro w
    have := List.head_dropWhile_not (fun e => !set_comparator in_data key e) idx w
    simpa using this
  generalize idx.dropWhile (fun e => !set_comparator in_data key e) = dw at h hhead
  rw [← h] at hs hlt
  obtain ⟨hs1, hs2, hs3⟩ := List.pairwise_append.mp hs
  refine List.pairwise_append.mpr ⟨hs1, List.pairwise_cons.mpr ⟨?_, hs2⟩, ?_⟩
  · intro b hb
    cases dw with
    | nil => exact absurd hb (List.not_mem_nil _)
    | cons s t =>
      have hks := hhead (List.cons_ne_nil _ _)
      rw [List.head_cons] at hks
      rcases List.mem_cons.mp hb with hbs | hbt
      · rw [hbs]; exact hks
      · have hsb := (List.pairwise_cons.mp hs2).1 b hbt
        have h1 := hlt s (List.mem_append_right _ (List.mem_cons_self _ _))
        have h2 := hlt b (List.mem_append_right _ hb)
        exact set_comparator_trans in_data hN key s b hk (by omega) (by omega) hks hsb
  · intro a ha b hb
    rcases List.mem_cons.mp hb with hbk | hbd
    · rw [hbk]
      have h1 := hlt a (List.mem_append_left _ ha)
      rw [set_comparator_total in_data key a (by omega), hmem_tw a ha]
      rfl
    · exact hs3 a ha b hbd

/-- One position of the index update (lines 613-617) keeps the index
invariant. -/
theorem bc0_index_inv_step (in_data : List UInt8) (R : Nat) (idx : List Nat)
    (hR : R < in_data.length) (h : bc0_index_inv in_data R idx) :
    bc0_index_inv in_data (R + 1)
      (window_emplace in_data
        (if R ≥ 0x1000 then window_erase in_data idx (R - 0x1000) else idx) R) := by
  obtain ⟨_, hn, hm, hs⟩ := h
  have herased : (if R ≥ 0x1000 then window_erase in_data idx (R - 0x1000) else idx).Nodup ∧
      (∀ m, m ∈ (if R ≥ 0x1000 then window_erase in_data idx (R - 0x1000) else idx) ↔
        (R + 1 - 0x1000 ≤ m ∧ m < R)) ∧
      (in_data.length < SIZE_MOD →
        (if R ≥ 0x1000 then window_erase in_data idx (R - 0x1000) else idx).Pairwise
          (fun x y => set_comparator in_data x y = true)) := by
    by_cases hge : R ≥ 0x1000
    · rw [if_pos hge, window_erase_eq]
      refine ⟨hn.filter _, ?_, fun hN => (hs hN).filter _⟩
      intro m
      rw [List.mem_filter, hm m]
      simp only [decide_eq_true_eq]
      omega
    · rw [if_neg hge]
      refine ⟨hn, ?_, hs⟩
      intro m
      rw [hm m]
      omega
  generalize (if R ≥ 0x1000 then window_erase in_data idx (R - 0x1000) else idx) = erased
    at herased ⊢
  obtain ⟨en, em, es⟩ := herased
  have hperm := window_emplace_perm in_data erased R
  have hnot : R ∉ erased := by
    intro hin
    have := (em R).mp hin
    omega
  refine ⟨hR, hperm.nodup_iff.mpr (List.nodup_cons.mpr ⟨hnot, en⟩), ?_, ?_⟩
  · intro m
    rw [hperm.mem_iff, List.mem_cons, em m]
    omega
  · intro hN
    exact window_emplace_sorted in_data hN erased R hR
      (fun e he => ((em e).mp he).2) (es hN)

theorem bc0_update_index_inv (in_data : List UInt8) : ∀ (n R : Nat) (idx : List Nat),
    R + n ≤ in_data.length → bc0_index_inv in_data R idx →
    (bc0_update_index in_data n R idx).1 = R + n ∧
    bc0_index_inv in_data (R + n) (bc0_update_index in_data n R idx).2 := by
  intro n
  induction n with
  | zero => intro R idx _ h; exact ⟨rfl, h⟩
  | succ n ih =>
    intro R idx hle h
    rw [bc0_update_index]
    have hstep := bc0_index_inv_step in_data R idx (by omega) h
    have := ih (R + 1) _ (by omega) hstep
    have e : R + 1 + n = R + (n + 1) := by omega
    rw [e] at this
    exact this

/-- The update of `a + b` positions is the update of `a` positions followed by
the update of `b` more. -/
theorem bc0_update_index_add (in_data : List UInt8) : ∀ (a b R : Nat) (idx : List Nat),
    bc0_update_index in_data (a + b) R idx =
      bc0_update_index in_data b (bc0_update_index in_data a R idx).1
        (bc0_update_index in_data a R idx).2 := by
  intro a
  induction a with
  | zero =>
    intro b R idx
    rw [Nat.zero_add]
    rfl
  | succ a ih =>
    intro b R idx
    have e : a + 1 + b = (a + b) + 1 := by omega
    rw [e, bc0_update_index, bc0_update_index, ih]

/-- The match size of an iteration keeps the next position in the input. -/
theorem bc0_match_size_fits (in_data : List UInt8) (idx : List Nat) (R : Nat)
    (hR : R < in_data.length) :
    1 ≤ (if (bc0_find_match in_data idx R).2 < 3 then 1 else (bc0_find_match in_data idx R).2) ∧
    R + (if (bc0_find_match in_data idx R).2 < 3 then 1 else (bc0_find_match in_data idx R).2) ≤
      in_data.length := by
  have hfm := bc0_find_match_spec in_data idx R
  generalize bc0_find_match in_data idx R = found at hfm ⊢
  by_cases h3 : found.2 < 3
  · rw [if_pos h3]; omega
  · rw [if_neg h3]
    rcases hfm with h0 | ⟨_, hgml⟩
    · omega
    · have hspec := get_match_length_spec in_data R found.1
      rw [← hgml] at hspec
      have := (hspec.2 (found.2 - 1) (by omega)).1
      omega

/-- The index invariant holds at the start of every iteration of the main
loop. -/
theorem bc0_compress_trace_inv (in_data : List UInt8) : ∀ (fuel R : Nat) (idx : List Nat),
    bc0_index_inv in_data R idx →
    ∀ p ∈ bc0_compress_trace in_data fuel R idx,
      p.1 < in_data.length ∧ bc0_index_inv in_data p.1 p.2 := by
  intro fuel
  induction fuel with
  | zero =>
    intro R idx _ p hp
    rw [bc0_compress_trace] at hp
    exact absurd hp (List.not_mem_nil _)
  | succ fuel ih =>
    intro R idx h p hp
    rw [bc0_compress_trace] at hp
    by_cases hlt : R < in_data.length
    · rw [if_pos hlt] at hp
      simp only at hp
      rcases List.mem_cons.mp hp with hp0 | hp1
      · rw [hp0]
        exact ⟨hlt, h⟩
      · have hfit := bc0_match_size_fits in_data idx R hlt
        have hup := bc0_update_index_inv in_data _ R idx hfit.2 h
        refine ih _ _ ?_ p hp1
        rw [hup.1]
        exact hup.2
    · rw [if_neg hlt] at hp
      exact absurd hp (List.not_mem_nil _)

theorem bc0_index_inv_init (in_data : List UInt8) : bc0_index_inv in_data 0 [] := by
  refine ⟨Nat.zero_le _, List.nodup_nil, ?_, fun _ => List.Pairwise.nil⟩
  intro m
  simp

/-- An index that holds each offset of the window once is a rearrangement of
the window, so it has `min(r, 0x1000)` entries. -/
theorem bc0_index_perm (in_data : List UInt8) (R : Nat) (idx : List Nat)
    (h : bc0_index_inv in_data R idx) :
    idx.Perm (List.range' (R - 0x1000) (min R 0x1000)) := by
  obtain ⟨_, hn, hm, _⟩ := h
  refine (List.perm_ext_iff_of_nodup hn (List.nodup_range' _ _)).mpr ?_
  intro m
  rw [hm m, List.mem_range'_1]
  omega

/-- C31. The window invariant of `bc0_compress`. At the start of every
iteration of the main loop, at position `r`, and after each of the `z`
positions of the index update that follows, the index is a rearrangement of
the offsets `max(0, r - 4096), ..., r - 1` (each once, so at most 4096 entries
and never the current position). When an erase runs, at a position
`q = r + z >= 4096`, the offset `q - 4096` is in the index and the erase
removes that one entry and nothing else. -/
theorem bc0_window_invariant (in_data : List UInt8) (r : Nat) (idx : List Nat)
    (h : (r, idx) ∈ bc0_compress_trace in_data in_data.length 0 []) :
    r < in_data.length ∧
    idx.Perm (List.range' (r - 0x1000) (min r 0x1000)) ∧
    idx.length ≤ 0x1000 ∧ r ∉ idx ∧
    ∀ z, r + z ≤ in_data.length →
      (bc0_update_index in_data z r idx).1 = r + z ∧
      (bc0_update_index in_data z r idx).2.Perm
        (List.range' (r + z - 0x1000) (min (r + z) 0x1000)) ∧
      (0x1000 ≤ r + z →
        r + z - 0x1000 ∈ (bc0_update_index in_data z r idx).2 ∧
        window_erase in_data (bc0_update_index in_data z r idx).2 (r + z - 0x1000) =
          (bc0_update_index in_data z r idx).2.erase (r + z - 0x1000)) := by
  obtain ⟨hr, hinv⟩ := bc0_compress_trace_inv in_data in_data.length 0 []
    (bc0_index_inv_init in_data) (r, idx) h
  have hperm := bc0_index_perm in_data r idx hinv
  refine ⟨hr, hperm, ?_, ?_, ?_⟩
  · rw [hperm.length_eq, List.length_range']
    omega
  · intro hin
    have := (hinv.2.2.1 r).mp hin
    omega
  · intro z hz
    obtain ⟨h1, h2⟩ := bc0_update_index_inv in_data z r idx hz hinv
    refine ⟨h1, bc0_index_perm in_data _ _ h2, ?_⟩
    intro hge
    refine ⟨(h2.2.2.1 _).mpr (by omega), ?_⟩
    rw [window_erase_eq, h2.2.1.erase_eq_filter]
    apply List.filter_congr
    intro e _
    by_cases he : e = r + z - 0x1000
    · simp [he]
    · simp [he]

set_option maxRecDepth 100000 in
/-- C31 on the input `01 02 03 01 02 03 01 02 03`: the second iteration of the
main loop is at position 3, after three literals, with the offsets 0, 1, 2 in
the index. -/
theorem bc0_window_invariant_witness :
    ((3, [0, 1, 2]) ∈ bc0_compress_trace [1, 2, 3, 1, 2, 3, 1, 2, 3]
      [1, 2, 3, 1, 2, 3, 1, 2, (3 : UInt8)].length 0 []) ∧
    (3 < [1, 2, 3, 1, 2, 3, 1, 2, (3 : UInt8)].length ∧
    [0, 1, 2].Perm (List.range' (3 - 0x1000) (min 3 0x1000)) ∧
    [0, 1, 2].length ≤ 0x1000 ∧ 3 ∉ [0, 1, 2] ∧
    ∀ z, 3 + z ≤ [1, 2, 3, 1, 2, 3, 1, 2, (3 : UInt8)].length →
      (bc0_update_index [1, 2, 3, 1, 2, 3, 1, 2, 3] z 3 [0, 1, 2]).1 = 3 + z ∧
      (bc0_update_index [1, 2, 3, 1, 2, 3, 1, 2, 3] z 3 [0, 1, 2]).2.Perm
        (List.range' (3 + z - 0x1000) (min (3 + z) 0x1000)) ∧
      (0x1000 ≤ 3 + z →
        3 + z - 0x1000 ∈ (bc0_update_index [1, 2, 3, 1, 2, 3, 1, 2, 3] z 3 [0, 1, 2]).2 ∧
        window_erase [1, 2, 3, 1, 2, 3, 1, 2, 3]
            (bc0_update_index [1, 2, 3, 1, 2, 3, 1, 2, 3] z 3 [0, 1, 2]).2 (3 + z - 0x1000) =
          (bc0_update_index [1, 2, 3, 1, 2, 3, 1, 2, 3] z 3 [0, 1, 2]).2.erase
            (3 + z - 0x1000))) :=
  ⟨by decide, bc0_window_invariant [1, 2, 3, 1, 2, 3, 1, 2, 3] 3 [0, 1, 2] (by decide)⟩

/-! ## The longest match of `bc0_compress` -/

/-- The loop of `get_match_length` stops only at the cap, at the end of the
input or at a pair of bytes that differ. -/
theorem get_match_length_loop_max (in_data : List UInt8) (a b : Nat) : ∀ (fuel ret : Nat),
    0x12 ≤ ret + fuel → ret ≤ 0x12 →
    get_match_length_loop in_data a b fuel ret = 0x12 ∨
    ¬ a + get_match_length_loop in_data a b fuel ret < in_data.length ∨
    ¬ b + get_match_length_loop in_data a b fuel ret < in_data.length ∨
    in_data.getD (a + get_match_length_loop in_data a b fuel ret) 0 ≠
      in_data.getD (b + get_match_length_loop in_data a b fuel ret) 0 := by
  intro fuel
  induction fuel with
  | zero =>
    intro ret h1 h2
    rw [get_match_length_loop]
    exact Or.inl (by omega)
  | succ fuel ih =>
    intro ret h1 h2
    rw [get_match_length_loop]
    by_cases hc : ret < 0x12 ∧ a + ret < in_data.length ∧ b + ret < in_data.length ∧
        in_data.getD (a + ret) 0 = in_data.getD (b + ret) 0
    · rw [if_pos hc]
      exact ih (ret + 1) (by omega) (by omega)
    · rw [if_neg hc]
      by_cases h18 : ret < 0x12
      · by_cases ha : a + ret < in_data.length
        · by_cases hb : b + ret < in_data.length
          · exact Or.inr (Or.inr (Or.inr (fun he => hc ⟨h18, ha, hb, he⟩)))
          · exact Or.inr (Or.inr (Or.inl hb))
        · exact Or.inr (Or.inl ha)
      · exact Or.inl (by omega)

/-- The match length at `r` against an earlier offset `y`, in numbers: the
bytes agree along the match, and if the match is shorter than another that
fits at `r`, the bytes after it differ. -/
theorem get_match_length_facts (in_data : List UInt8) (r y : Nat) (hy : y < r) :
    (∀ z, z < get_match_length in_data r y →
      r + z < in_data.length ∧ byte_at in_data (r + z) = byte_at in_data (y + z)) ∧
    get_match_length in_data r y ≤ 0x12 ∧
    (get_match_length in_data r y < 0x12 →
      r + get_match_length in_data r y < in_data.length →
      byte_at in_data (r + get_match_length in_data r y) ≠
        byte_at in_data (y + get_match_length in_data r y)) := by
  have hspec := get_match_length_spec in_data r y
  have hmax := get_match_length_loop_max in_data r y 0x12 0 (by omega) (by omega)
  refine ⟨?_, hspec.1, ?_⟩
  · intro z hz
    exact ⟨(hspec.2 z hz).1, congrArg UInt8.toNat (hspec.2 z hz).2⟩
  · intro h18 hfit
    have hm : in_data.getD (r + get_match_length in_data r y) 0 ≠
        in_data.getD (y + get_match_length in_data r y) 0 := by
      rcases hmax with h | h | h | h
      · exact absurd h (by unfold get_match_length at h18; omega)
      · exact absurd hfit h
      · exact absurd (show y + get_match_length in_data r y < in_data.length by omega) h
      · exact h
    intro he
    exact hm (UInt8.ext_iff.mpr he)

/-- Of two earlier offsets that come before the current position `r` in
comparator order, `x` before `y`, the nearer one `y` matches at least as
long at `r`. -/
theorem get_match_length_below (in_data : List UInt8) (hN : in_data.length < SIZE_MOD)
    (r x y : Nat) (hr : r < in_data.length) (hx : x < r) (hy : y < r)
    (hxy : set_comparator in_data x y = true) (hyr : set_comparator in_data y r = true) :
    get_match_length in_data r x ≤ get_match_length in_data r y := by
  by_contra hlt
  obtain ⟨gx, g18, _⟩ := get_match_length_facts in_data r x hx
  obtain ⟨gy, _, gm⟩ := get_match_length_facts in_data r y hy
  generalize get_match_length in_data r x = g at hlt gx g18
  generalize get_match_length in_data r y = h at hlt gy gm
  have hgh : h < g := by omega
  have hfit := (gx h hgh).1
  have hne := gm (by omega) hfit
  rw [set_comparator_iff in_data _ _ hN (by omega) (by omega)] at hyr
  have hkey : byte_at in_data (y + h) < byte_at in_data (r + h) := by
    rcases hyr with ⟨i, hi, hp, hd⟩ | ⟨hp, _⟩
    · rcases Nat.lt_trichotomy i h with hih | hih | hih
      · have := (gy i hih).2
        omega
      · rw [← hih]; exact hd
      · have := hp h hih
        omega
    · have := hp h (by omega)
      omega
  have hyx : set_comparator in_data y x = true := by
    rw [set_comparator_iff in_data _ _ hN (by omega) (by omega)]
    refine Or.inl ⟨h, by omega, ?_, ?_⟩
    · intro j hj
      rw [← (gy j hj).2, (gx j (by omega)).2]
    · rw [← (gx h hgh).2]
      exact hkey
  rw [set_comparator_asymm in_data y x hyx] at hxy
  exact Bool.noConfusion hxy

/-- Of two earlier offsets that come after the current position `r` in
comparator order, `y` before `x`, the nearer one `y` matches at least as
long at `r`. -/
theorem get_match_length_above (in_data : List UInt8) (hN : in_data.length < SIZE_MOD)
    (r x y : Nat) (hr : r < in_data.length) (hx : x < r) (hy : y < r)
    (hry : set_comparator in_data r y = true) (hyx : set_comparator in_data y x = true) :
    get_match_length in_data r x ≤ get_match_length in_data r y := by
  by_contra hlt
  obtain ⟨gx, g18, _⟩ := get_match_length_facts in_data r x hx
  obtain ⟨gy, _, gm⟩ := get_match_length_facts in_data r y hy
  generalize get_match_length in_data r x = g at hlt gx g18
  generalize get_match_length in_data r y = h at hlt gy gm
  have hgh : h < g := by omega
  have hfit := (gx h hgh).1
  have hne := gm (by omega) hfit
  rw [set_comparator_iff in_data _ _ hN (by omega) (by omega)] at hry
  have hkey : byte_at in_data (r + h) < byte_at in_data (y + h) := by
    rcases hry with ⟨i, hi, hp, hd⟩ | ⟨hp, _⟩
    · rcases Nat.lt_trichotomy i h with hih | hih | hih
      · have := (gy i hih).2
        omega
      · rw [← hih]; exact hd
      · have := hp h hih
        omega
    · have := hp h (by omega)
      omega
  have hxy : set_comparator in_data x y = true := by
    rw [set_comparator_iff in_data _ _ hN (by omega) (by omega)]
    refine Or.inl ⟨h, by omega, ?_, ?_⟩
    · intro j hj
      rw [← (gx j (by omega)).2, (gy j hj).2]
    · rw [← (gx h hgh).2]
      exact hkey
  rw [set_comparator_asymm in_data x y hxy] at hyx
  exact Bool.noConfusion hyx

/-- The size `bc0_compress` finds is the larger of the match lengths at the
two neighbours of the lower bound. -/
theorem bc0_find_match_size (in_data : List UInt8) (idx : List Nat) (R : Nat) :
    (bc0_find_match in_data idx R).2 =
      max (match (window_lower_bound in_data idx R).1.getLast? with
        | none => 0
        | some p => get_match_length in_data R p)
      (match (window_lower_bound in_data idx R).2 with
        | [] => 0
        | s :: _ => get_match_length in_data R s) := by
  unfold bc0_find_match
  simp only
  generalize window_lower_bound in_data idx R = it
  cases it.2 with
  | nil =>
    cases it.1.getLast? with
    | none => simp
    | some p =>
      simp only
      split
      · simp
      · simp only; omega
  | cons s t =>
    cases it.1.getLast? with
    | none => simp
    | some p =>
      simp only
      split
      · simp only; omega
      · simp only; omega

/-- In a list in order, every element is the last one or comes before it. -/
theorem pairwise_getLast (R : Nat → Nat → Prop) (l : List Nat) (p : Nat)
    (hs : l.Pairwise R) (hl : l.getLast? = some p) : ∀ m ∈ l, m = p ∨ R m p := by
  obtain ⟨ys, hys⟩ := List.getLast?_eq_some_iff.mp hl
  rw [hys] at hs ⊢
  intro m hm
  rcases List.mem_append.mp hm with h | h
  · exact Or.inr ((List.pairwise_append.mp hs).2.2 m h p (List.mem_singleton.mpr rfl))
  · exact Or.inl (List.mem_singleton.mp h)

/-- No offset of the index matches longer at `R` than the size found. -/
theorem bc0_find_match_ge (in_data : List UInt8) (hN : in_data.length < SIZE_MOD)
    (R : Nat) (idx : List Nat) (hR : R < in_data.length) (hinv : bc0_index_inv in_data R idx) :
    ∀ m ∈ idx, get_match_length in_data R m ≤ (bc0_find_match in_data idx R).2 := by
  obtain ⟨_, _, hm, hs⟩ := hinv
  have hsorted := hs hN
  rw [bc0_find_match_size]
  unfold window_lower_bound
  simp only [List.span_eq_take_drop]
  have hsplit := List.takeWhile_append_dropWhile (fun e => set_comparator in_data e R) idx
  have htw : ∀ a ∈ idx.takeWhile (fun e => set_comparator in_data e R),
      set_comparator in_data a R = true := by
    intro a ha
    exact @List.mem_takeWhile_imp _ (fun e => set_comparator in_data e R) idx a ha
  have hhead : ∀ (w : idx.dropWhile (fun e => set_comparator in_data e R) ≠ []),
      set_comparator in_data ((idx.dropWhile (fun e => set_comparator in_data e R)).head w) R
        = false := fun w => List.head_dropWhile_not (fun e => set_comparator in_data e R) idx w
  generalize idx.takeWhile (fun e => set_comparator in_data e R) = tw at hsplit htw
  generalize idx.dropWhile (fun e => set_comparator in_data e R) = dw at hsplit hhead
  rw [← hsplit] at hsorted hm
  obtain ⟨hs1, hs2, _⟩ := List.pairwise_append.mp hsorted
  have hlt : ∀ e, e ∈ tw ++ dw → e < R := fun e he => ((hm e).mp he).2
  intro m hmem
  rw [← hsplit] at hmem
  rcases List.mem_append.mp hmem with h | h
  · cases hl : tw.getLast? with
    | none =>
      rw [List.getLast?_eq_none_iff] at hl
      rw [hl] at h
      exact absurd h (List.not_mem_nil _)
    | some p =>
      simp only
      have hp : p ∈ tw := by
        obtain ⟨ys, hys⟩ := List.getLast?_eq_some_iff.mp hl
        rw [hys]
        simp
      have hle : get_match_length in_data R m ≤ get_match_length in_data R p := by
        rcases pairwise_getLast _ tw p hs1 hl m h with he | hc
        · rw [he]
        · exact get_match_length_below in_data hN R m p hR
            (hlt m (List.mem_append_left _ h)) (hlt p (List.mem_append_left _ hp)) hc (htw p hp)
      omega
  · cases dw with
    | nil => exact absurd h (List.not_mem_nil _)
    | cons s t =>
      simp only
      have hsR := hhead (List.cons_ne_nil _ _)
      rw [List.head_cons] at hsR
      have hs_lt := hlt s (List.mem_append_right _ (List.mem_cons_self _ _))
      have hRs : set_comparator in_data R s = true := by
        rw [set_comparator_total in_data s R (by omega), hsR]
        rfl
      have hle : get_match_length in_data R m ≤ get_match_length in_data R s := by
        rcases List.mem_cons.mp h with he | ht
        · rw [he]
        · exact get_match_length_above in_data hN R m s hR
            (hlt m (List.mem_append_right _ h)) hs_lt hRs
            ((List.pairwise_cons.mp hs2).1 m ht)
      omega

theorem foldr_max_le (l : List Nat) (v : Nat) (h : ∀ x ∈ l, x ≤ v) : l.foldr max 0 ≤ v := by
  induction l with
  | nil => exact Nat.zero_le _
  | cons x l ih =>
    have h1 := h x (List.mem_cons_self _ _)
    have h2 := ih (fun y hy => h y (List.mem_cons_of_mem _ hy))
    simp only [List.foldr_cons]
    omega

theorem le_foldr_max (l : List Nat) (v : Nat) (h : v ∈ l) : v ≤ l.foldr max 0 := by
  induction l with
  | nil => exact absurd h (List.not_mem_nil _)
  | cons x l ih =>
    simp only [List.foldr_cons]
    rcases List.mem_cons.mp h with h1 | h1
    · omega
    · have := ih h1
      omega

/-- C35. At every position `r` of the main loop of `bc0_compress`, on an input
of fewer than `2 ^ 64` bytes: the match size found by looking at the lower
bound of `r` in the ordered index and at its predecessor is the maximum of
`get_match_length(r, m)` over the offsets `m` of the index (0 for an empty
index). No offset of the index matches longer, the size is that of the offset
found unless it is 0, and it is at most 18 and stays within the input. -/
theorem bc0_longest_match (in_data : List UInt8) (hN : in_data.length < SIZE_MOD)
    (r : Nat) (idx : List Nat)
    (h : (r, idx) ∈ bc0_compress_trace in_data in_data.length 0 []) :
    (bc0_find_match in_data idx r).2 = (idx.map (get_match_length in_data r)).foldr max 0 ∧
    (∀ m ∈ idx, get_match_length in_data r m ≤ (bc0_find_match in_data idx r).2) ∧
    ((bc0_find_match in_data idx r).2 = 0 ∨
      ((bc0_find_match in_data idx r).1 ∈ idx ∧
        (bc0_find_match in_data idx r).2 =
          get_match_length in_data r (bc0_find_match in_data idx r).1)) ∧
    (bc0_find_match in_data idx r).2 ≤ 0x12 ∧
    r + (bc0_find_match in_data idx r).2 ≤ in_data.length := by
  obtain ⟨hr, hinv⟩ := bc0_compress_trace_inv in_data in_data.length 0 []
    (bc0_index_inv_init in_data) (r, idx) h
  have hge := bc0_find_match_ge in_data hN r idx hr hinv
  have hspec := bc0_find_match_spec in_data idx r
  have hbound : (bc0_find_match in_data idx r).2 ≤ 0x12 ∧
      r + (bc0_find_match in_data idx r).2 ≤ in_data.length := by
    rcases hspec with h0 | ⟨_, hg⟩
    · rw [h0]
      exact ⟨by omega, by omega⟩
    · have hs := get_match_length_spec in_data r (bc0_find_match in_data idx r).1
      rw [← hg] at hs
      refine ⟨hs.1, ?_⟩
      by_cases hz : (bc0_find_match in_data idx r).2 = 0
      · omega
      · have := (hs.2 ((bc0_find_match in_data idx r).2 - 1) (by omega)).1
        omega
  refine ⟨?_, hge, hspec, hbound.1, hbound.2⟩
  apply Nat.le_antisymm
  · rcases hspec with h0 | ⟨hmem, hg⟩
    · rw [h0]
      exact Nat.zero_le _
    · apply le_foldr_max
      rw [hg]
      exact List.mem_map_of_mem _ hmem
  · apply foldr_max_le
    intro x hx
    obtain ⟨m, hm, hmx⟩ := List.mem_map.mp hx
    rw [← hmx]
    exact hge m hm

set_option maxRecDepth 100000 in
/-- C35 on the input `01 02 03 01 02 03 01 02 03` at position 3, where the
index holds the offsets 0, 1, 2: the lower bound of 3 is offset 1, which
matches 0 bytes, and its predecessor, offset 0, matches the 6 bytes that are
left. -/
theorem bc0_longest_match_witness :
    [1, 2, 3, 1, 2, 3, 1, 2, (3 : UInt8)].length < SIZE_MOD ∧
    ((3, [0, 1, 2]) ∈ bc0_compress_trace [1, 2, 3, 1, 2, 3, 1, 2, 3]
      [1, 2, 3, 1, 2, 3, 1, 2, (3 : UInt8)].length 0 []) ∧
    bc0_find_match [1, 2, 3, 1, 2, 3, 1, 2, 3] [0, 1, 2] 3 = (0, 6) ∧
    window_lower_bound [1, 2, 3, 1, 2, 3, 1, 2, 3] [0, 1, 2] 3 = ([0], [1, 2]) ∧
    ((bc0_find_match [1, 2, 3, 1, 2, 3, 1, 2, 3] [0, 1, 2] 3).2 =
      ([0, 1, 2].map (get_match_length [1, 2, 3, 1, 2, 3, 1, 2, 3] 3)).foldr max 0 ∧
    (∀ m ∈ [0, 1, 2], get_match_length [1, 2, 3, 1, 2, 3, 1, 2, 3] 3 m ≤
      (bc0_find_match [1, 2, 3, 1, 2, 3, 1, 2, 3] [0, 1, 2] 3).2) ∧
    ((bc0_find_match [1, 2, 3, 1, 2, 3, 1, 2, 3] [0, 1, 2] 3).2 = 0 ∨
      ((bc0_find_match [1, 2, 3, 1, 2, 3, 1, 2, 3] [0, 1, 2] 3).1 ∈ [0, 1, 2] ∧
        (bc0_find_match [1, 2, 3, 1, 2, 3, 1, 2, 3] [0, 1, 2] 3).2 =
          get_match_length [1, 2, 3, 1, 2, 3, 1, 2, 3] 3
            (bc0_find_match [1, 2, 3, 1, 2, 3, 1, 2, 3] [0, 1, 2] 3).1)) ∧
    (bc0_find_match [1, 2, 3, 1, 2, 3, 1, 2, 3] [0, 1, 2] 3).2 ≤ 0x12 ∧
    3 + (bc0_find_match [1, 2, 3, 1, 2, 3, 1, 2, 3] [0, 1, 2] 3).2 ≤
      [1, 2, 3, 1, 2, 3, 1, 2, (3 : UInt8)].length) :=
  ⟨by decide, by decide, by decide, by decide,
    bc0_longest_match [1, 2, 3, 1, 2, 3, 1, 2, 3] (by decide) 3 [0, 1, 2] (by decide)⟩

/-! ## Compression level 0 -/

theorem stream_group (g rest : List UInt8) (h : g.length = 8) :
    prs_literal_stream (g ++ rest) = 0xFF :: g ++ prs_literal_stream rest := by
  match g, h with
  | [b0, b1, b2, b3, b4, b5, b6, b7], _ => simp [prs_literal_stream]

theorem stream_short (b : List UInt8) (h : b.length < 8) :
    prs_literal_stream b =
      if b.length = 7 then 0x7F :: b ++ [0x01, 0, 0]
      else UInt8.ofNat (2 ^ b.length - 1 + 2 ^ (b.length + 1)) :: b ++ [0, 0] := by
  unfold prs_literal_stream
  split
  · simp only [List.length_cons] at h; omega
  · rfl

theorem stream_groups : ∀ (full : List (List UInt8)) (rest : List UInt8),
    (∀ g ∈ full, g.length = 8) →
    prs_literal_stream (full.flatten ++ rest) =
      full.flatMap (fun g => 0xFF :: g) ++ prs_literal_stream rest := by
  intro full
  induction full with
  | nil => intro rest _; rfl
  | cons g full ih =>
    intro rest h
    rw [List.flatten_cons, List.append_assoc,
      stream_group g _ (h g (List.mem_cons_self _ _)),
      ih rest (fun g1 hg1 => h g1 (List.mem_cons_of_mem _ hg1)), List.flatMap_cons]
    simp

/-- The stream for `n` bytes has `n + 2` data bytes and one control byte for
each eight of its `n + 2` control bits. -/
theorem prs_literal_stream_length : ∀ (n : Nat) (b : List UInt8), b.length = n →
    (prs_literal_stream b).length = n + 2 + (n + 2 + 7) / 8 := by
  intro n
  induction n using Nat.strong_induction_on with
  | _ n ih =>
    intro b hb
    by_cases h8 : n < 8
    · rw [stream_short b (by omega)]
      by_cases h7 : b.length = 7
      · rw [if_pos h7]
        simp only [List.length_cons, List.length_append, List.length_nil]
        omega
      · rw [if_neg h7]
        simp only [List.length_cons, List.length_append, List.length_nil]
        omega
    · have hsplit : b = b.take 8 ++ b.drop 8 := (List.take_append_drop 8 b).symm
      have ht : (b.take 8).length = 8 := by rw [List.length_take]; omega
      have hd : (b.drop 8).length = n - 8 := by rw [List.length_drop]; omega
      rw [hsplit, stream_group _ _ ht]
      have := ih (n - 8) (by omega) (b.drop 8) hd
      simp only [List.length_cons, List.length_append, ht, this]
      omega

set_option maxRecDepth 100000 in
theorem literal_pending_step : ∀ j < 8,
    prs_literal_pending j &&& 0x0100 = 0 ∧
    (prs_literal_pending j >>> 1) ||| 0x8080 = prs_literal_pending (j + 1) := by
  intro j hj
  interval_cases j <;> decide

set_option maxRecDepth 100000 in
theorem literal_pending_full :
    prs_literal_pending 8 &&& 0x0100 ≠ 0 ∧
    UInt8.ofNat (prs_literal_pending 8 &&& 0xFF) = 0xFF ∧
    (0x8080 : Nat) = prs_literal_pending 1 := by decide

set_option maxRecDepth 100000 in
/-- The control byte that the stop opcode completes after `j` literals, when
both of its bits fit. -/
theorem literal_pending_stop : ∀ j ≤ 6,
    prs_literal_pending j &&& 0x0100 = 0 ∧
    ((prs_literal_pending j >>> 1) ||| 0x8000) &&& 0x0100 = 0 ∧
    UInt8.ofNat (prs_flush_shift 16
      ((((prs_literal_pending j >>> 1) ||| 0x8000) >>> 1) ||| 0x8080) &&& 0xFF) =
      UInt8.ofNat (2 ^ j - 1 + 2 ^ (j + 1)) := by
  intro j hj
  interval_cases j <;> decide

set_option maxRecDepth 100000 in
theorem literal_pending_stop7 :
    prs_literal_pending 7 &&& 0x0100 = 0 ∧
    ((prs_literal_pending 7 >>> 1) ||| 0x8000) &&& 0x0100 ≠ 0 ∧
    UInt8.ofNat (((prs_literal_pending 7 >>> 1) ||| 0x8000) &&& 0xFF) = 0x7F ∧
    (0x8080 : Nat) &&& 0xFF00 ≠ 0 ∧
    UInt8.ofNat (prs_flush_shift 16 0x8080 &&& 0xFF) = 0x01 := by decide

set_option maxRecDepth 100000 in
theorem literal_pending_stop8 :
    (0x8000 : Nat) &&& 0x0100 = 0 ∧
    (((0x8000 : Nat) >>> 1) ||| 0x8080) &&& 0xFF00 ≠ 0 ∧
    UInt8.ofNat (prs_flush_shift 16 (((0x8000 : Nat) >>> 1) ||| 0x8080) &&& 0xFF) = 0x02 := by
  decide

/-- With eight control bits pending, `write_control` writes the control byte
and reserves the next one at the end of the output. -/
theorem write_control_full (c : PRSCompressor) (z : Bool)
    (h : c.pending_control_bits &&& 0x0100 ≠ 0) :
    c.write_control z =
      { c with
        output := c.output.set c.control_byte_offset
          (UInt8.ofNat (c.pending_control_bits &&& 0xFF)) ++ [0]
        control_byte_offset := c.output.length
        pending_control_bits := if z then 0x8080 else 0x8000 } := by
  unfold PRSCompressor.write_control
  rw [if_pos h]

theorem flatMap_group_length : ∀ full : List (List UInt8), (∀ g ∈ full, g.length = 8) →
    (full.flatMap (fun g => 0xFF :: g)).length = 9 * full.length := by
  intro full
  induction full with
  | nil => intro _; rfl
  | cons g full ih =>
    intro h
    have hg := h g (List.mem_cons_self _ _)
    have := ih (fun g1 hg1 => h g1 (List.mem_cons_of_mem _ hg1))
    simp only [List.flatMap_cons, List.length_append, List.length_cons, this, hg]
    omega

theorem set_append_head (l1 l2 : List UInt8) (a b : UInt8) (n : Nat) (h : n = l1.length) :
    (l1 ++ a :: l2).set n b = l1 ++ b :: l2 := by
  subst h
  induction l1 with
  | nil => rfl
  | cons x l1 ih => simp only [List.cons_append, List.length_cons, List.set_cons_succ, ih]

/-- One more literal: the control bit 1 and the byte `v`. -/
theorem literals_written_put (c c1 : PRSCompressor) (d : List UInt8) (v : UInt8)
    (h : c.literals_written d)
    (ho : c1.output = (c.write_control true).output ++ [v])
    (hc : c1.control_byte_offset = (c.write_control true).control_byte_offset)
    (hp : c1.pending_control_bits = (c.write_control true).pending_control_bits) :
    c1.literals_written (d ++ [v]) := by
  obtain ⟨full, cur, hd, hfull, hlen, hout, hoff, hpend⟩ := h
  have hfl := flatMap_group_length full hfull
  by_cases h8 : cur.length = 8
  · have hf := literal_pending_full
    rw [h8] at hpend
    rw [← hpend] at hf
    rw [write_control_full c true hf.1] at ho hc hp
    simp only at ho hc hp
    refine ⟨full ++ [cur], [v], ?_, ?_, by simp, ?_, ?_, ?_⟩
    · rw [hd]; simp
    · intro g hg
      rcases List.mem_append.mp hg with h1 | h1
      · exact hfull g h1
      · rw [List.mem_singleton.mp h1]; exact h8
    · rw [ho, hf.2.1, hout, set_append_head _ _ _ _ _ (by rw [hfl, hoff])]
      simp
    · rw [hc, hout]
      simp only [List.length_append, List.length_cons, hfl, h8, List.length_nil]
      omega
    · rw [hp]
      exact hf.2.2
  · have hs := literal_pending_step cur.length (by omega)
    rw [← hpend] at hs
    rw [write_control_shift c true hs.1] at ho hc hp
    simp only at ho hc hp
    refine ⟨full, cur ++ [v], ?_, hfull, ?_, ?_, ?_, ?_⟩
    · rw [hd, List.append_assoc]
    · rw [List.length_append, List.length_singleton]; omega
    · rw [ho, hout]; simp
    · rw [hc, hoff]
    · rw [hp, List.length_append, List.length_singleton]
      exact hs.2

/-- At level 0 the search loop of `advance` runs no round, and `advance`
writes one literal. -/
theorem advance_level0 (c : PRSCompressor) (h : c.compression_level = 0) :
    c.advance = .ok c.advance_literal := by
  unfold PRSCompressor.advance
  rw [h]
  simp [prs_search, PRSCompressor.advance_literals]

theorem advance_literal_written (c : PRSCompressor) :
    c.advance_literal.output =
      (c.write_control true).output ++ [c.forward_log.at c.reverse_log.end_offset] ∧
    c.advance_literal.control_byte_offset = (c.write_control true).control_byte_offset ∧
    c.advance_literal.pending_control_bits = (c.write_control true).pending_control_bits := by
  unfold PRSCompressor.advance_literal
  simp only
  have hw := write_control_fields c true
  have hm := move_forward_fields 1
    { c.write_control true with
      output := (c.write_control true).output ++
        [(c.write_control true).forward_log.at (c.write_control true).reverse_log.end_offset] }
  simp only at hm
  refine ⟨?_, hm.2.2.2.2.2.2.1, hm.2.2.2.2.2.2.2⟩
  rw [hm.2.2.2.2.2.1, hw.1, hw.2.1]

theorem forward_log_at_put (fl : ForwardLog) (I i : Nat) (v : UInt8)
    (hS : 1 ≤ fl.data.length) :
    (fl.put I v).at i = if i % fl.data.length = I % fl.data.length then v else fl.at i := by
  unfold ForwardLog.at ForwardLog.put
  simp only [List.length_set, List.getD_eq_getElem?_getD]
  by_cases h : i % fl.data.length = I % fl.data.length
  · rw [if_pos h, h, List.getElem?_set_self (Nat.mod_lt _ (by omega))]
    rfl
  · rw [if_neg h, List.getElem?_set_ne (fun e => h e.symm)]

/-- A literal written by `advance` at level 0 commits the next byte received. -/
theorem level0_advance (c : PRSCompressor) (S : Nat) (done : List UInt8)
    (h : c.level0 S done) (hlt : c.reverse_log.end_offset < done.length) :
    c.advance_literal.level0 S done ∧
    c.advance_literal.reverse_log.end_offset = c.reverse_log.end_offset + 1 := by
  obtain ⟨hl, hcl, hfs, hin, _, hle, hat, hw⟩ := h
  obtain ⟨f1, f2, f3, f4, f5⟩ := advance_literal_fields c
  obtain ⟨w1, w2, w3⟩ := advance_literal_written c
  refine ⟨⟨by rw [f5, hl], by rw [f4, hcl], by rw [f3, hfs], by rw [f2, hin],
    by rw [f1]; omega, by rw [f1]; omega, ?_, ?_⟩, f1⟩
  · intro i h1 h2
    rw [f3]
    exact hat i (by rw [f1] at h1; omega) h2
  · rw [f1, take_succ_getD done _ hlt]
    refine literals_written_put c _ _ _ hw ?_ w2 w3
    rw [w1, hat _ (Nat.le_refl _) hlt]

/-- Storing a byte in the forward log, while it has room. -/
theorem level0_store (c : PRSCompressor) (S : Nat) (done : List UInt8) (v : UInt8)
    (hS : 1 ≤ S) (h : c.level0 S done) (hroom : done.length < c.reverse_log.end_offset + S) :
    PRSCompressor.level0
      { c with forward_log := c.forward_log.put c.input_bytes v,
               input_bytes := c.input_bytes + 1 } S (done ++ [v]) := by
  obtain ⟨hl, hcl, hfs, hin, hE, hle, hat, hw⟩ := h
  refine ⟨hl, hcl, ?_, ?_, ?_, ?_, ?_, ?_⟩
  · show (c.forward_log.put c.input_bytes v).data.length = S
    unfold ForwardLog.put
    simp only [List.length_set]
    exact hfs
  · show c.input_bytes + 1 = (done ++ [v]).length
    rw [hin, List.length_append, List.length_singleton]
  · show c.reverse_log.end_offset ≤ (done ++ [v]).length
    rw [List.length_append, List.length_singleton]; omega
  · show (done ++ [v]).length ≤ c.reverse_log.end_offset + S
    rw [List.length_append, List.length_singleton]; omega
  · intro i h1 h2
    show (c.forward_log.put c.input_bytes v).at i = (done ++ [v]).getD i 0
    rw [List.length_append, List.length_singleton] at h2
    rw [forward_log_at_put _ _ _ _ (by omega), hfs, hin]
    by_cases hi : i = done.length
    · rw [hi, if_pos rfl]
      simp [List.getD_eq_getElem?_getD]
    · have h1' : c.reverse_log.end_offset ≤ i := h1
      have hne : ¬ i % S = done.length % S := by
        intro he
        have h3 := Nat.sub_mod_eq_zero_of_mod_eq he.symm
        rw [Nat.mod_eq_of_lt (by omega)] at h3
        omega
      rw [if_neg hne, hat i h1' (by omega)]
      simp only [List.getD_eq_getElem?_getD]
      rw [List.getElem?_append_left (by omega)]
  · show c.literals_written ((done ++ [v]).take c.reverse_log.end_offset)
    rw [List.take_append_of_le_length hE]
    exact hw

theorem level0_add_byte (c : PRSCompressor) (S : Nat) (done : List UInt8) (v : UInt8)
    (hS : 1 ≤ S) (h : c.level0 S done) :
    ∃ c1, c.add_byte v = .ok c1 ∧ c1.level0 S (done ++ [v]) := by
  unfold PRSCompressor.add_byte
  simp only
  have hfs := h.2.2.1
  by_cases hfull : c.reverse_log.end_offset + c.forward_log.data.length ≤ c.input_bytes
  · rw [if_pos hfull, advance_level0 c h.1]
    simp only
    rw [hfs, h.2.2.2.1] at hfull
    have hle := h.2.2.2.2.2.1
    obtain ⟨h1, h2⟩ := level0_advance c S done h (by omega)
    exact ⟨_, rfl, level0_store _ S done v hS h1 (by rw [h2]; omega)⟩
  · rw [if_neg hfull]
    rw [hfs, h.2.2.2.1] at hfull
    exact ⟨_, rfl, level0_store c S done v hS h (by omega)⟩

theorem level0_add_bytes (S : Nat) (hS : 1 ≤ S) : ∀ (rest done : List UInt8)
    (c : PRSCompressor), c.level0 S done →
    ∃ c1, c.add_bytes rest = .ok c1 ∧ c1.level0 S (done ++ rest) := by
  intro rest
  induction rest with
  | nil =>
    intro done c h
    rw [List.append_nil]
    exact ⟨c, rfl, h⟩
  | cons v rest ih =>
    intro done c h
    obtain ⟨c1, h1, h2⟩ := level0_add_byte c S done v hS h
    obtain ⟨c2, h3, h4⟩ := ih (done ++ [v]) c1 h2
    rw [PRSCompressor.add_bytes, h1]
    simp only
    rw [List.append_assoc] at h4
    exact ⟨c2, h3, h4⟩

theorem level0_drain (S : Nat) (done : List UInt8) : ∀ (fuel : Nat) (c : PRSCompressor),
    c.level0 S done → done.length - c.reverse_log.end_offset ≤ fuel →
    ∃ c1, PRSCompressor.drain fuel c = .ok c1 ∧ c1.level0 S done ∧
      c1.reverse_log.end_offset = done.length := by
  intro fuel
  induction fuel with
  | zero =>
    intro c h hf
    have hE := h.2.2.2.2.1
    rw [PRSCompressor.drain, if_neg (by rw [h.2.2.2.1]; omega)]
    exact ⟨c, rfl, h, by omega⟩
  | succ fuel ih =>
    intro c h hf
    have hE := h.2.2.2.2.1
    rw [PRSCompressor.drain]
    by_cases hlt : c.reverse_log.end_offset < c.input_bytes
    · rw [if_pos hlt, advance_level0 c h.1]
      simp only
      rw [h.2.2.2.1] at hlt
      obtain ⟨h1, h2⟩ := level0_advance c S done h hlt
      exact ih _ h1 (by rw [h2]; omega)
    · rw [if_neg hlt]
      rw [h.2.2.2.1] at hlt
      exact ⟨c, rfl, h, by omega⟩

/-- The stop opcode after the literals `d`, and the flush: the output is the
stream of the specification. -/
theorem literals_written_stop (c : PRSCompressor) (d : List UInt8)
    (h : c.literals_written d) :
    ∃ c5,
      PRSCompressor.flush_control
        { ((c.write_control false).write_control true) with
          output := ((c.write_control false).write_control true).output ++ [0] ++ [0] } = .ok c5 ∧
      c5.output = prs_literal_stream d := by
  obtain ⟨full, cur, hd, hfull, hlen, hout, hoff, hpend⟩ := h
  have hfl := flatMap_group_length full hfull
  have hnz := write_control_pending (c.write_control false) true
  have hflush := flush_control_pending
    { ((c.write_control false).write_control true) with
      output := ((c.write_control false).write_control true).output ++ [0] ++ [0] } hnz
  rw [hflush]
  refine ⟨_, rfl, ?_⟩
  simp only
  rw [hd, stream_groups full cur hfull]
  by_cases h6 : cur.length ≤ 6
  · obtain ⟨s1, s2, s3⟩ := literal_pending_stop cur.length h6
    rw [← hpend] at s1 s2 s3
    have e1 := write_control_shift c false s1
    have s2' : (c.write_control false).pending_control_bits &&& 0x0100 = 0 := by
      rw [e1]; exact s2
    have e2 := write_control_shift (c.write_control false) true s2'
    rw [e2, e1]
    simp only [Bool.false_eq_true, if_false, if_true]
    rw [s3, hout, hoff, stream_short cur (by omega), if_neg (by omega)]
    rw [List.append_assoc, List.append_assoc, List.cons_append,
      set_append_head _ _ _ _ _ hfl.symm]
    simp
  · by_cases h7 : cur.length = 7
    · obtain ⟨s1, s2, s3, s4, s5⟩ := literal_pending_stop7
      rw [← h7, ← hpend] at s1 s2 s3
      have e1 := write_control_shift c false s1
      have s2' : (c.write_control false).pending_control_bits &&& 0x0100 ≠ 0 := by
        rw [e1]; exact s2
      have e2 := write_control_full (c.write_control false) true s2'
      rw [e2, e1]
      simp only [Bool.false_eq_true, if_false, if_true]
      rw [s3, s5, hout, hoff, stream_short cur (by omega), if_pos h7]
      rw [set_append_head _ _ _ _ _ hfl.symm]
      have hl : (full.flatMap (fun g => 0xFF :: g) ++ 0 :: cur).length =
          (full.flatMap (fun g => 0xFF :: g) ++ 0x7F :: cur).length := by
        simp only [List.length_append, List.length_cons]
      have e : full.flatMap (fun g => 0xFF :: g) ++ 0x7F :: cur ++ ([0] ++ ([0] ++ [0])) =
          (full.flatMap (fun g => 0xFF :: g) ++ 0x7F :: cur) ++ 0 :: [0, 0] := by simp
      rw [hl, List.append_assoc, List.append_assoc, e,
        set_append_head (full.flatMap (fun g => 0xFF :: g) ++ 0x7F :: cur) _ _ _ _ rfl]
      simp
    · have h8 : cur.length = 8 := by omega
      obtain ⟨f1, f2, _⟩ := literal_pending_full
      obtain ⟨s1, s2, s3⟩ := literal_pending_stop8
      rw [← h8, ← hpend] at f1 f2
      have e1 := write_control_full c false f1
      have s1' : (c.write_control false).pending_control_bits &&& 0x0100 = 0 := by
        rw [e1]; exact s1
      have e2 := write_control_shift (c.write_control false) true s1'
      rw [e2, e1]
      simp only [Bool.false_eq_true, if_false, if_true]
      rw [s3, f2, hout, hoff, set_append_head _ _ _ _ _ hfl.symm]
      have hl : (full.flatMap (fun g => 0xFF :: g) ++ 0 :: cur).length =
          (full.flatMap (fun g => 0xFF :: g) ++ 0xFF :: cur).length := by
        simp only [List.length_append, List.length_cons]
      have e : full.flatMap (fun g => 0xFF :: g) ++ 0xFF :: cur ++ ([0] ++ ([0] ++ [0])) =
          (full.flatMap (fun g => 0xFF :: g) ++ 0xFF :: cur) ++ 0 :: [0, 0] := by simp
      rw [hl, List.append_assoc, List.append_assoc, e,
        set_append_head (full.flatMap (fun g => 0xFF :: g) ++ 0xFF :: cur) _ _ _ _ rfl]
      have hs : prs_literal_stream cur = 0xFF :: cur ++ [0x02, 0, 0] := by
        have := stream_group cur [] h8
        rw [List.append_nil] at this
        rw [this]
        rfl
      rw [hs]
      simp

theorem level0_new (forward_log : ForwardLog) :
    (PRSCompressor.new forward_log 0).level0 forward_log.data.length [] := by
  refine ⟨rfl, rfl, rfl, rfl, Nat.zero_le _, Nat.zero_le _, ?_, ?_⟩
  · intro i _ h
    exact absurd h (Nat.not_lt_zero _)
  · exact ⟨[], [], rfl, by simp, by simp, rfl, rfl, rfl⟩

/-- C34. At compression level 0, with a forward log of at least one byte (its
size is declared in `Compression.hh`, which is not among the sources): the
search loop of `advance` runs no round and every `advance` writes one literal;
`prs_compress(b, 0)` is the stream of the `n` bytes of `b` as literal opcodes
followed by the stop opcode; and it has exactly `n + 2 + ceil((n + 2) / 8)`
bytes. -/
theorem prs_level0_literals (forward_log : ForwardLog) (b : List UInt8)
    (hS : 1 ≤ forward_log.data.length) :
    (∀ c : PRSCompressor, c.compression_level = 0 → c.advance = .ok c.advance_literal) ∧
    prs_compress forward_log b 0 = .ok (prs_literal_stream b) ∧
    (prs_literal_stream b).length = b.length + 2 + (b.length + 2 + 7) / 8 := by
  refine ⟨advance_level0, ?_, prs_literal_stream_length b.length b rfl⟩
  obtain ⟨c1, h1, h2⟩ := level0_add_bytes forward_log.data.length hS b []
    (PRSCompressor.new forward_log 0) (level0_new forward_log)
  rw [List.nil_append] at h2
  obtain ⟨c2, h3, h4, h5⟩ := level0_drain forward_log.data.length b
    (c1.input_bytes - c1.reverse_log.end_offset) c1 h2 (by rw [h2.2.2.2.1])
  have hw := h4.2.2.2.2.2.2.2
  rw [h5, List.take_length] at hw
  obtain ⟨c5, h6, h7⟩ := literals_written_stop c2 b hw
  have hclose : c1.close = .ok { c5 with closed := true } := by
    rw [close_open c1 h2.2.1, h3]
    simp only
    rw [h6]
  have hadd : (PRSCompressor.new forward_log 0).add b = .ok c1 := by
    rw [add_open _ _ rfl]
    exact h1
  rw [prs_compress_of forward_log b 0 c1 _ hadd hclose]
  simp only
  rw [h7]

set_option maxRecDepth 100000 in
/-- C34 on nine bytes with a forward log of four bytes: eight literals behind
the control byte `FF`, then the control byte `05` with the bits 1, 0, 1 of the
ninth literal and of the stop opcode, the literal and two zero bytes; 13 bytes
in all, and the decompressor gives the nine bytes back. -/
theorem prs_level0_literals_witness :
    1 ≤ (ForwardLog.zeroed 4).data.length ∧
    prs_compress (ForwardLog.zeroed 4) [1, 2, 3, 4, 5, 6, 7, 8, 9] 0 =
      .ok [0xFF, 1, 2, 3, 4, 5, 6, 7, 8, 0x05, 9, 0, 0] ∧
    prs_decompress [0xFF, 1, 2, 3, 4, 5, 6, 7, 8, 0x05, 9, 0, 0] 0 =
      .ok [1, 2, 3, 4, 5, 6, 7, 8, 9] ∧
    ((∀ c : PRSCompressor, c.compression_level = 0 → c.advance = .ok c.advance_literal) ∧
    prs_compress (ForwardLog.zeroed 4) [1, 2, 3, 4, 5, 6, 7, 8, 9] 0 =
      .ok (prs_literal_stream [1, 2, 3, 4, 5, 6, 7, 8, 9]) ∧
    (prs_literal_stream [1, 2, 3, 4, 5, 6, 7, 8, 9]).length =
      [1, 2, 3, 4, 5, 6, 7, 8, (9 : UInt8)].length + 2 +
        ([1, 2, 3, 4, 5, 6, 7, 8, (9 : UInt8)].length + 2 + 7) / 8) :=
  ⟨by decide, by decide, by decide,
    prs_level0_literals (ForwardLog.zeroed 4) [1, 2, 3, 4, 5, 6, 7, 8, 9] (by decide)⟩

end Newserv
